import Mathlib

/-!
# Intcode virtual machine

A shallow embedding of the Intcode interpreter of `day9part1/intcode.go`
(`day13part2/intcode.go` has the same `prog`, `get`, `set`, `exec` and
decoder, bound to a different I/O port).

Conventions of the embedding.

* Go `int64` and `int` values are mathematical integers; every addition and
  multiplication of the source is followed by `wrap64`, the reduction to the
  signed 64-bit range.  Conversions between `int` and `int64` are the identity
  (`int` is 64 bits wide on the platforms the program is built for).
* Go `/` and `%` truncate toward zero: they are `Int.tdiv` and `Int.tmod`.
* A slice is a `List Int`.  Every tape of the program is created by
  `make([]int64, n)`, so its capacity equals its length, and `cap(p.mem)` is
  `p.mem.length`.
* A function that can stop with a runtime panic returns `Except Fault _`;
  a function that mutates the program returns the program as it is when the
  call ends, together with the fault, if any.
* The I/O interface of `prog` is a pair of functions over an abstract port
  state `σ`.
* Allocation does not fail: `make` returns its slice for every length; the
  limit of the runtime on the size of a slice is not modelled.
-/

namespace Intcode

/-- Reduction of an integer to the signed 64-bit range, as Go arithmetic on
`int64` and `int` does on overflow. -/
def wrap64 (x : Int) : Int := (x + 2 ^ 63) % 2 ^ 64 - 2 ^ 63

/-- Values of type `error` returned by the decoder and by `exec`. -/
inductive Err where
  /-- Message `wanted pointer but literal at position %d`. -/
  | literalAddr (pos : Int)
  /-- Message `unrecognised flag %d`. -/
  | unrecognisedFlag (f : Int)
  /-- Message `intcode: unrecognised op %d at position %d`. -/
  | unrecognisedOp (op opn : Int)
  /-- Message `intcode: no operation`. -/
  | noOperation
  /-- A decoder error prefixed by the instruction, as in `add(1): %s`. -/
  | inOp (op : Int) (e : Err)
  /-- Message `inp(3): reading input: %w` around the error of the port. -/
  | readingInput (e : String)
  /-- Message `out(4): writing output: %w` around the error of the port. -/
  | writingOutput (e : String)
  /-- Message `wanted %d parameters but got %d at position %d` (day7part1). -/
  | wantedParams (n got opn : Int)
  /-- Message `invalid address %d at position %d` (day7part1). -/
  | invalidAddress (p pos : Int)
  /-- Message `wanted pointer but received literal at position %d (op=%05d, )`
  (day7part1). -/
  | receivedLiteral (pos op : Int)
  deriving DecidableEq, Repr

/-- Ways in which a call does not complete normally. -/
inductive Fault where
  /-- The function returned a non-nil `error`. -/
  | error (e : Err)
  /-- Runtime panic `index out of range [i] with length len`. -/
  | indexOutOfRange (i : Int) (len : Nat)
  /-- Runtime panic `integer divide by zero`. -/
  | divideByZero
  /-- The call never returns. -/
  | hang
  deriving DecidableEq, Repr

/-- The prefix `exec` puts on an error of the decoder; a panic is not caught. -/
def Fault.inOp (op : Int) : Fault → Fault
  | .error e => .error (.inOp op e)
  | f => f

/-- The interface `io` of `prog`: `Input() (int64, error)` and
`Output(int64) error`, acting on a port state. -/
structure Port (σ : Type) where
  Input : σ → Except String Int × σ
  Output : σ → Int → Option String × σ

/-- The struct `prog`: the port state, the tape and the relative base. -/
structure prog (σ : Type) where
  io : σ
  mem : List Int
  base : Int

/-- The struct `param`. -/
structure param where
  f : Int
  p : Int
  r : Int
  v : Int
  deriving DecidableEq, Repr

/-- The slice index expression `mem[i]`, which panics outside `0 ≤ i < len`. -/
def index (mem : List Int) (i : Int) : Except Fault Int :=
  if 0 ≤ i ∧ i < mem.length then .ok (mem.getD i.toNat 0)
  else .error (.indexOutOfRange i mem.length)

/-- The method `prog.get`. -/
def prog.get {σ : Type} (p : prog σ) (r : Int) : Except Fault Int :=
  if r > p.mem.length then .ok 0 else index p.mem r

/-- The loop `for c < r { c *= 2 }` of `prog.set`; `none` when the loop does
not exit within the given number of tests. -/
def growCap : Nat → Int → Int → Option Int
  | 0, _, _ => none
  | fuel + 1, c, r => if c < r then growCap fuel (wrap64 (c * 2)) r else some c

/-- The assignment `p.mem[r] = v`. -/
def prog.store {σ : Type} (p : prog σ) (r v : Int) : prog σ × Option Fault :=
  if 0 ≤ r ∧ r < p.mem.length then ({ p with mem := p.mem.set r.toNat v }, none)
  else (p, some (.indexOutOfRange r p.mem.length))

/-- The method `prog.set`.  The result is the program when the call ends and
the fault that ended it, if any.  After 64 doublings a 64-bit `c` is zero, so a
loop that has not exited after 65 tests never exits. -/
def prog.set {σ : Type} (p : prog σ) (r v : Int) : prog σ × Option Fault :=
  if (p.mem.length : Int) ≤ r then
    match growCap 65 p.mem.length r with
    | none => (p, some .hang)
    | some c =>
      prog.store
        { p with mem := p.mem.take c.toNat ++ List.replicate (c.toNat - p.mem.length) 0 } r v
  else prog.store p r v

/-- The loop `for ; n > 0; n-- { v *= 10 }` of `exp10`. -/
def exp10Loop : Nat → Int → Int
  | 0, v => v
  | k + 1, v => exp10Loop k (wrap64 (v * 10))

/-- The function `exp10`. -/
def exp10 (n : Int) : Int :=
  if n = 0 then 1
  else if n = 1 then 10
  else if n = 2 then 100
  else if n = 3 then 1000
  else if n = 4 then 10000
  else exp10Loop n.toNat 1

def flagPos : Int := 0
def flagLit : Int := 1
def flagRel : Int := 2

/-- The function `readFlag`. -/
def readFlag {σ : Type} (pr : prog σ) (opn n : Int) : Except Fault Int :=
  match pr.get opn with
  | .error e => .error e
  | .ok w =>
    if exp10 (wrap64 (n + 1)) = 0 then .error .divideByZero
    else .ok (Int.tmod (Int.tdiv w (exp10 (wrap64 (n + 1)))) 10)

/-- The function `readParam`; its `error` result is always nil. -/
def readParam {σ : Type} (pr : prog σ) (opn n : Int) : Except Fault param :=
  match readFlag pr opn n with
  | .error e => .error e
  | .ok f =>
    if f = flagLit then
      match pr.get (wrap64 (opn + n)) with
      | .error e => .error e
      | .ok v => .ok { f := f, p := -1, r := 0, v := v }
    else if f = flagPos then
      match pr.get (wrap64 (opn + n)) with
      | .error e => .error e
      | .ok a =>
        match pr.get a with
        | .error e => .error e
        | .ok v => .ok { f := f, p := a, r := 0, v := v }
    else if f = flagRel then
      match pr.get (wrap64 (opn + n)) with
      | .error e => .error e
      | .ok r =>
        match pr.get (wrap64 (pr.base + r)) with
        | .error e => .error e
        | .ok v => .ok { f := f, p := wrap64 (pr.base + r), r := r, v := v }
    else
      match pr.get 0 with
      | .error e => .error e
      | .ok v => .ok { f := f, p := 0, r := 0, v := v }

/-- The function `readAddr`. -/
def readAddr {σ : Type} (pr : prog σ) (opn n : Int) : Except Fault Int :=
  match readFlag pr opn n with
  | .error e => .error e
  | .ok f =>
    if f = flagLit then .error (.error (.literalAddr (wrap64 (opn + n))))
    else if f = flagPos then pr.get (wrap64 (opn + n))
    else if f = flagRel then
      match pr.get (wrap64 (opn + n)) with
      | .error e => .error e
      | .ok r => .ok (wrap64 (pr.base + r))
    else .error (.error (.unrecognisedFlag f))

/-- The function `readParamParam`. -/
def readParamParam {σ : Type} (pr : prog σ) (opn n : Int) : Except Fault (param × param) :=
  match readParam pr opn n with
  | .error e => .error e
  | .ok a =>
    match readParam pr opn (wrap64 (n + 1)) with
    | .error e => .error e
    | .ok b => .ok (a, b)

/-- The function `readParamParamAddr`. -/
def readParamParamAddr {σ : Type} (pr : prog σ) (opn n : Int) :
    Except Fault (param × param × Int) :=
  match readParamParam pr opn n with
  | .error e => .error e
  | .ok (a, b) =>
    match readAddr pr opn (wrap64 (n + 2)) with
    | .error e => .error e
    | .ok addr => .ok (a, b, addr)

/-- What one pass through the body of the loop of `exec` leads to. -/
inductive Step (σ : Type) where
  /-- The loop goes on at program counter `opn`. -/
  | next (opn : Int) (p : prog σ)
  /-- `exec` returns nil. -/
  | ret (p : prog σ)
  /-- `exec` returns an error, panics or hangs; `p` is the program then. -/
  | fail (f : Fault) (p : prog σ)

/-- The arithmetic and comparison cases 1, 2, 7, 8 of `exec` end alike: the
value is stored at the decoded address and the counter moves on by 4. -/
def writeBack {σ : Type} (p : prog σ) (opn ans v : Int) : Step σ :=
  match p.set ans v with
  | (q, some f) => .fail f q
  | (q, none) => .next (wrap64 (opn + 4)) q

/-- The body of the loop of `exec`, for a counter that passed the loop test. -/
def step {σ : Type} (io : Port σ) (opn : Int) (p : prog σ) : Step σ :=
  match index p.mem opn with
  | .error f => .fail f p
  | .ok op =>
    if Int.tmod op 100 = 99 then .ret p
    else if Int.tmod op 100 = 1 then
      match readParamParamAddr p opn 1 with
      | .error f => .fail (f.inOp 1) p
      | .ok (a, b, ans) => writeBack p opn ans (wrap64 (a.v + b.v))
    else if Int.tmod op 100 = 2 then
      match readParamParamAddr p opn 1 with
      | .error f => .fail (f.inOp 2) p
      | .ok (a, b, ans) => writeBack p opn ans (wrap64 (a.v * b.v))
    else if Int.tmod op 100 = 3 then
      match readAddr p opn 1 with
      | .error f => .fail (f.inOp 3) p
      | .ok dst =>
        match io.Input p.io with
        | (.error e, s) => .fail (.error (.readingInput e)) { p with io := s }
        | (.ok v, s) =>
          match ({ p with io := s } : prog σ).set dst v with
          | (q, some f) => .fail f q
          | (q, none) => .next (wrap64 (opn + 2)) q
    else if Int.tmod op 100 = 4 then
      match readParam p opn 1 with
      | .error f => .fail (f.inOp 4) p
      | .ok src =>
        match io.Output p.io src.v with
        | (some e, s) => .fail (.error (.writingOutput e)) { p with io := s }
        | (none, s) => .next (wrap64 (opn + 2)) { p with io := s }
    else if Int.tmod op 100 = 5 then
      match readParamParam p opn 1 with
      | .error f => .fail (f.inOp 5) p
      | .ok (cond, jump) =>
        if cond.v ≠ 0 then .next jump.v p else .next (wrap64 (opn + 3)) p
    else if Int.tmod op 100 = 6 then
      match readParamParam p opn 1 with
      | .error f => .fail (f.inOp 6) p
      | .ok (cond, jump) =>
        if cond.v = 0 then .next jump.v p else .next (wrap64 (opn + 3)) p
    else if Int.tmod op 100 = 7 then
      match readParamParamAddr p opn 1 with
      | .error f => .fail (f.inOp 7) p
      | .ok (a, b, ans) => writeBack p opn ans (if a.v < b.v then 1 else 0)
    else if Int.tmod op 100 = 8 then
      match readParamParamAddr p opn 1 with
      | .error f => .fail (f.inOp 8) p
      | .ok (a, b, ans) => writeBack p opn ans (if a.v = b.v then 1 else 0)
    else if Int.tmod op 100 = 9 then
      match readParam p opn 1 with
      | .error f => .fail (f.inOp 9) p
      | .ok b => .next (wrap64 (opn + 2)) { p with base := wrap64 (p.base + b.v) }
    else .fail (.error (.unrecognisedOp (Int.tmod op 100) opn)) p

/-- The loop of `exec` from counter `opn`, for at most `fuel` instructions;
`none` when the fuel runs out before `exec` ends. -/
def execFrom {σ : Type} (io : Port σ) : Nat → Int → prog σ → Option (Option Fault × prog σ)
  | 0, _, _ => none
  | fuel + 1, opn, p =>
    if opn < p.mem.length then
      match step io opn p with
      | .next opn1 q => execFrom io fuel opn1 q
      | .ret q => some (none, q)
      | .fail f q => some (some f, q)
    else some (some (.error .noOperation), p)

/-- The function `exec`: the loop started at counter 0. -/
def exec {σ : Type} (io : Port σ) (fuel : Nat) (p : prog σ) : Option (Option Fault × prog σ) :=
  execFrom io fuel 0 p

/-- The number of parameters that the case of `exec` for an opcode decodes:
three for 1, 2, 7, 8 (`readParamParamAddr`), two for 5, 6 (`readParamParam`),
one for 3, 4, 9 (`readAddr` or `readParam`), none otherwise. -/
def paramCount (code : Int) : Int :=
  if code = 1 ∨ code = 2 ∨ code = 7 ∨ code = 8 then 3
  else if code = 5 ∨ code = 6 then 2
  else if code = 3 ∨ code = 4 ∨ code = 9 then 1
  else 0

/-- A port that reads from a list of pending values and appends what is
written to a list; reading from the empty list is the end of the stream. -/
def listPort : Port (List Int × List Int) where
  Input := fun s =>
    match s.1 with
    | [] => (.error "EOF", s)
    | v :: rest => (.ok v, (rest, s.2))
  Output := fun s v => (none, (s.1, s.2 ++ [v]))

/-! ## The interpreter of `day7part1/intcode.go`

It has no relative mode and no growing tape: `exec(io, intcode)` works on a
slice of fixed length which the decoder checks addresses against. -/

namespace Day7

/-- The struct `param` of day7part1. -/
structure param where
  p : Int
  v : Int
  deriving DecidableEq, Repr

/-- The function `readLiteralFlag`. -/
def readLiteralFlag (intcode : List Int) (opn n : Int) : Except Fault Bool :=
  match index intcode opn with
  | .error e => .error e
  | .ok w =>
    if exp10 (wrap64 (n + 1)) = 0 then .error .divideByZero
    else .ok (decide (Int.tmod (Int.tdiv w (exp10 (wrap64 (n + 1)))) 10 ≠ 0))

/-- The function `readParam`. -/
def readParam (intcode : List Int) (opn n : Int) : Except Fault param :=
  if wrap64 (opn + n) ≥ intcode.length then
    .error (.error (.wantedParams n (wrap64 (wrap64 (intcode.length - opn) - 1)) opn))
  else
    match readLiteralFlag intcode opn n with
    | .error e => .error e
    | .ok true =>
      match index intcode (wrap64 (opn + n)) with
      | .error e => .error e
      | .ok v => .ok { p := -1, v := v }
    | .ok false =>
      match index intcode (wrap64 (opn + n)) with
      | .error e => .error e
      | .ok p =>
        if p ≥ intcode.length then .error (.error (.invalidAddress p (wrap64 (opn + n))))
        else
          match index intcode p with
          | .error e => .error e
          | .ok v => .ok { p := p, v := v }

/-- The function `readAddr`. -/
def readAddr (intcode : List Int) (opn n : Int) : Except Fault Int :=
  match readLiteralFlag intcode opn n with
  | .error e => .error e
  | .ok true =>
    match index intcode opn with
    | .error e => .error e
    | .ok op => .error (.error (.receivedLiteral (wrap64 (opn + n)) op))
  | .ok false =>
    match index intcode (wrap64 (opn + n)) with
    | .error e => .error e
    | .ok p =>
      if p ≥ intcode.length then .error (.error (.invalidAddress p (wrap64 (opn + n))))
      else .ok p

/-- The function `readParamParam`. -/
def readParamParam (intcode : List Int) (opn n : Int) : Except Fault (param × param) :=
  match readParam intcode opn n with
  | .error e => .error e
  | .ok a =>
    match readParam intcode opn (wrap64 (n + 1)) with
    | .error e => .error e
    | .ok b => .ok (a, b)

/-- The function `readParamParamAddr`. -/
def readParamParamAddr (intcode : List Int) (opn n : Int) :
    Except Fault (param × param × Int) :=
  match readParamParam intcode opn n with
  | .error e => .error e
  | .ok (a, b) =>
    match readAddr intcode opn (wrap64 (n + 2)) with
    | .error e => .error e
    | .ok addr => .ok (a, b, addr)

/-- What one pass through the body of the loop of `exec` leads to; the tape
and the port state are those at that moment. -/
inductive Step (σ : Type) where
  | next (opn : Int) (intcode : List Int) (s : σ)
  | ret (intcode : List Int) (s : σ)
  | fail (f : Fault) (intcode : List Int) (s : σ)

/-- The assignment `intcode[ans] = v` followed by `opn += k`. -/
def assign {σ : Type} (intcode : List Int) (s : σ) (opn k ans v : Int) : Step σ :=
  if 0 ≤ ans ∧ ans < intcode.length then
    .next (wrap64 (opn + k)) (intcode.set ans.toNat v) s
  else .fail (.indexOutOfRange ans intcode.length) intcode s

/-- The body of the loop of `exec`, for a counter that passed the loop test. -/
def step {σ : Type} (io : Port σ) (opn : Int) (intcode : List Int) (s : σ) : Step σ :=
  match index intcode opn with
  | .error f => .fail f intcode s
  | .ok op =>
    if Int.tmod op 100 = 99 then .ret intcode s
    else if Int.tmod op 100 = 1 then
      match readParamParamAddr intcode opn 1 with
      | .error f => .fail (f.inOp 1) intcode s
      | .ok (a, b, ans) => assign intcode s opn 4 ans (wrap64 (a.v + b.v))
    else if Int.tmod op 100 = 2 then
      match readParamParamAddr intcode opn 1 with
      | .error f => .fail (f.inOp 2) intcode s
      | .ok (a, b, ans) => assign intcode s opn 4 ans (wrap64 (a.v * b.v))
    else if Int.tmod op 100 = 3 then
      match readAddr intcode opn 1 with
      | .error f => .fail (f.inOp 3) intcode s
      | .ok dst =>
        match io.Input s with
        | (.error e, s1) => .fail (.error (.readingInput e)) intcode s1
        | (.ok v, s1) => assign intcode s1 opn 2 dst v
    else if Int.tmod op 100 = 4 then
      match readParam intcode opn 1 with
      | .error f => .fail (f.inOp 4) intcode s
      | .ok src =>
        match io.Output s src.v with
        | (some e, s1) => .fail (.error (.writingOutput e)) intcode s1
        | (none, s1) => .next (wrap64 (opn + 2)) intcode s1
    else if Int.tmod op 100 = 5 then
      match readParamParam intcode opn 1 with
      | .error f => .fail (f.inOp 5) intcode s
      | .ok (cond, jump) =>
        if cond.v = 0 then .next (wrap64 (opn + 3)) intcode s else .next jump.v intcode s
    else if Int.tmod op 100 = 6 then
      match readParamParam intcode opn 1 with
      | .error f => .fail (f.inOp 6) intcode s
      | .ok (cond, jump) =>
        if cond.v ≠ 0 then .next (wrap64 (opn + 3)) intcode s else .next jump.v intcode s
    else if Int.tmod op 100 = 7 then
      match readParamParamAddr intcode opn 1 with
      | .error f => .fail (f.inOp 7) intcode s
      | .ok (a, b, ans) => assign intcode s opn 4 ans (if a.v < b.v then 1 else 0)
    else if Int.tmod op 100 = 8 then
      match readParamParamAddr intcode opn 1 with
      | .error f => .fail (f.inOp 8) intcode s
      | .ok (a, b, ans) => assign intcode s opn 4 ans (if a.v = b.v then 1 else 0)
    else .fail (.error (.unrecognisedOp (Int.tmod op 100) opn)) intcode s

/-- The loop of `exec` from counter `opn`, for at most `fuel` instructions;
`none` when the fuel runs out before `exec` ends. -/
def execFrom {σ : Type} (io : Port σ) :
    Nat → Int → List Int → σ → Option (Option Fault × List Int × σ)
  | 0, _, _, _ => none
  | fuel + 1, opn, intcode, s =>
    if opn < intcode.length then
      match step io opn intcode s with
      | .next opn1 m s1 => execFrom io fuel opn1 m s1
      | .ret m s1 => some (none, m, s1)
      | .fail f m s1 => some (some f, m, s1)
    else some (some (.error .noOperation), intcode, s)

/-- The function `exec`: the loop started at counter 0. -/
def exec {σ : Type} (io : Port σ) (fuel : Nat) (intcode : List Int) (s : σ) :
    Option (Option Fault × List Int × σ) :=
  execFrom io fuel 0 intcode s

/-- The struct `chanio` as `amplify` builds it.  `inq` holds the values still
to be received from the input channel, which `amplify` closes before `exec`
starts; `out` holds the values sent to the output channel. -/
structure chanio where
  inq : List Int
  out : List Int
  deriving DecidableEq, Repr

/-- The methods `chanio.Input` and `chanio.Output`.  Receiving from the closed
channel, once it is drained, reports `input closed`.  A send is recorded in
`out`; `amplify` accounts for the capacity of the channel. -/
def chanioPort : Port chanio where
  Input := fun s =>
    match s.inq with
    | [] => (.error "input closed", s)
    | n :: rest => (.ok n, { s with inq := rest })
  Output := fun s n => (none, { s with out := s.out ++ [n] })

/-- The function `amplify`: `exec` runs on a copy of `intcode` with the input
channel holding `phase` and `inp`; the result is the value received from the
output channel after it is closed (0 when nothing was sent) and the error of
`exec`.  The output channel has capacity 1 and nobody receives from it while
`exec` runs, so a second send never returns: the call has a result only when at
most one value was sent (`none` otherwise, and when the fuel runs out). -/
def amplify (fuel : Nat) (intcode : List Int) (phase inp : Int) : Option (Int × Option Fault) :=
  match exec chanioPort fuel intcode ⟨[phase, inp], []⟩ with
  | none => none
  | some (err, _, s) => if s.out.length ≤ 1 then some (s.out.headD 0, err) else none

end Day7

/-! ## The interpreter of `day5part1/intcode.go`

Its decoder (`readLiteralFlag`, `readParam`, `readAddr`) is the one of day7part1,
word for word; `exec` knows the opcodes 1 to 4 and decodes the write target of
Add and Multiply first. -/

namespace Day5

/-- The body of the loop of `exec` of day5part1. -/
def step {σ : Type} (io : Port σ) (opn : Int) (intcode : List Int) (s : σ) : Day7.Step σ :=
  match index intcode opn with
  | .error f => .fail f intcode s
  | .ok op =>
    if Int.tmod op 100 = 99 then .ret intcode s
    else if Int.tmod op 100 = 1 then
      match Day7.readAddr intcode opn 3 with
      | .error f => .fail (f.inOp 1) intcode s
      | .ok ans =>
        match Day7.readParam intcode opn 2 with
        | .error f => .fail (f.inOp 1) intcode s
        | .ok b =>
          match Day7.readParam intcode opn 1 with
          | .error f => .fail (f.inOp 1) intcode s
          | .ok a => Day7.assign intcode s opn 4 ans (wrap64 (a.v + b.v))
    else if Int.tmod op 100 = 2 then
      match Day7.readAddr intcode opn 3 with
      | .error f => .fail (f.inOp 1) intcode s
      | .ok ans =>
        match Day7.readParam intcode opn 2 with
        | .error f => .fail (f.inOp 1) intcode s
        | .ok b =>
          match Day7.readParam intcode opn 1 with
          | .error f => .fail (f.inOp 1) intcode s
          | .ok a => Day7.assign intcode s opn 4 ans (wrap64 (a.v * b.v))
    else if Int.tmod op 100 = 3 then
      match Day7.readAddr intcode opn 1 with
      | .error f => .fail (f.inOp 3) intcode s
      | .ok dst =>
        match io.Input s with
        | (.error e, s1) => .fail (.error (.readingInput e)) intcode s1
        | (.ok v, s1) => Day7.assign intcode s1 opn 2 dst v
    else if Int.tmod op 100 = 4 then
      match Day7.readParam intcode opn 1 with
      | .error f => .fail (f.inOp 4) intcode s
      | .ok src =>
        match io.Output s src.v with
        | (some e, s1) => .fail (.error (.writingOutput e)) intcode s1
        | (none, s1) => .next (wrap64 (opn + 2)) intcode s1
    else .fail (.error (.unrecognisedOp op opn)) intcode s

/-- The loop of `exec` of day5part1 from counter `opn`, for at most `fuel`
instructions. -/
def execFrom {σ : Type} (io : Port σ) :
    Nat → Int → List Int → σ → Option (Option Fault × List Int × σ)
  | 0, _, _, _ => none
  | fuel + 1, opn, intcode, s =>
    if opn < intcode.length then
      match step io opn intcode s with
      | .next opn1 m s1 => execFrom io fuel opn1 m s1
      | .ret m s1 => some (none, m, s1)
      | .fail f m s1 => some (some f, m, s1)
    else some (some (.error .noOperation), intcode, s)

/-- The function `exec` of day5part1. -/
def exec {σ : Type} (io : Port σ) (fuel : Nat) (intcode : List Int) (s : σ) :
    Option (Option Fault × List Int × σ) :=
  execFrom io fuel 0 intcode s

end Day5

/-- The counter and the program that the loop of `exec` (day9part1) holds
after `k` more passes, each of which went on to the next; `none` when one of
them ended `exec`. -/
def runLoop {σ : Type} (io : Port σ) : Nat → Int → prog σ → Option (Int × prog σ)
  | 0, opn, p => some (opn, p)
  | k + 1, opn, p =>
    if opn < p.mem.length then
      match step io opn p with
      | .next opn1 q => runLoop io k opn1 q
      | _ => none
    else none

/-- The mode digit of the instruction word `w` for the parameter `n`: the
expression of `readFlag` (day9part1) and of `readLiteralFlag` (day7part1). -/
def modeDigit (w n : Int) : Int := Int.tmod (Int.tdiv w (exp10 (wrap64 (n + 1)))) 10

/-- The mode digits of the word for the parameters 1, 2 and 3 are 0 or 1. -/
def plainModes (w : Int) : Bool :=
  [1, 2, 3].all (fun n => modeDigit w n == 0 || modeDigit w n == 1)

/-- Every instruction that `exec` of day7part1 executes, in at most `fuel`
passes of its loop from counter `opn`, has only mode digits 0 or 1. -/
def Day7.plainRun {σ : Type} (io : Port σ) : Nat → Int → List Int → σ → Bool
  | 0, _, _, _ => true
  | fuel + 1, opn, intcode, s =>
    if opn < intcode.length then
      match index intcode opn with
      | .error _ => true
      | .ok w =>
        plainModes w &&
          (match Day7.step io opn intcode s with
          | .next opn1 m s1 => Day7.plainRun io fuel opn1 m s1
          | _ => true)
    else true

/-! ## The paddle player of `day13part2/intcode.go` -/

namespace Day13

/-- The struct `coord`. -/
structure coord where
  x : Int
  y : Int
  deriving DecidableEq, Repr

def tileEmpty : Int := 0
def tileWall : Int := 1
def tileBlock : Int := 2
def tilePaddle : Int := 3
def tileBall : Int := 4

/-- The struct `paddleAI`.  The map `world` is a list of entries with pairwise
distinct keys; the order of the list stands for the order in which a `range`
loop visits the entries, which Go leaves unspecified.  The array `display` of
three values is a triple. -/
structure paddleAI where
  score : Int
  world : List (coord × Int)
  display : Int × Int × Int
  displayN : Int
  deriving DecidableEq, Repr

/-- The function `newPaddleAI`. -/
def newPaddleAI : paddleAI := ⟨0, [], (0, 0, 0), 0⟩

/-- The map lookup `world[c]`, `none` when the key is absent. -/
def mapGet : List (coord × Int) → coord → Option Int
  | [], _ => none
  | (k, v) :: rest, c => if k = c then some v else mapGet rest c

/-- The map assignment `world[c] = t`. -/
def mapSet : List (coord × Int) → coord → Int → List (coord × Int)
  | [], c, t => [(c, t)]
  | (k, v) :: rest, c, t => if k = c then (c, t) :: rest else (k, v) :: mapSet rest c t

/-- The array assignment `display[i] = n`, for `0 ≤ i < 3`. -/
def setDisplay (d : Int × Int × Int) (i n : Int) : Int × Int × Int :=
  if i = 0 then (n, d.2.1, d.2.2) else if i = 1 then (d.1, n, d.2.2) else (d.1, d.2.1, n)

/-- The method `paddleAI.Output`.  Its `error` result is always nil: `.ok q` is
a return with the player in state `q`; the index expression
`p.display[p.displayN]` panics outside the array. -/
def paddleAI.Output (p : paddleAI) (n : Int) : Except Fault paddleAI :=
  if 0 ≤ p.displayN ∧ p.displayN < 3 then
    if wrap64 (p.displayN + 1) < 3 then
      .ok { p with display := setDisplay p.display p.displayN n,
                   displayN := wrap64 (p.displayN + 1) }
    else if (setDisplay p.display p.displayN n).1 = -1
        ∧ (setDisplay p.display p.displayN n).2.1 = 0 then
      .ok { p with display := setDisplay p.display p.displayN n, displayN := 0,
                   score := (setDisplay p.display p.displayN n).2.2 }
    else
      .ok { p with display := setDisplay p.display p.displayN n, displayN := 0,
                   world := mapSet p.world
                     ⟨(setDisplay p.display p.displayN n).1,
                      (setDisplay p.display p.displayN n).2.1⟩
                     (setDisplay p.display p.displayN n).2.2 }
  else .error (.indexOutOfRange p.displayN 3)

/-- A sequence of calls of `Output`, one for each value of the list. -/
def paddleAI.outputs : paddleAI → List Int → Except Fault paddleAI
  | p, [] => .ok p
  | p, n :: rest =>
    match p.Output n with
    | .error f => .error f
    | .ok q => q.outputs rest

/-- The loop `for pos, t := range p.world` of `paddleAI.Input`: the variables
`bl`, `br`, `pl`, `pr` after the entries of the list were visited in order. -/
def scan : List (coord × Int) → Int × Int × Int × Int → Int × Int × Int × Int
  | [], acc => acc
  | (pos, t) :: rest, (bl, br, pl, pr) =>
    if t = tileBall then
      scan rest (if bl = -1 ∨ bl > pos.x then pos.x else bl,
        if br = -1 ∨ br < pos.x then pos.x else br, pl, pr)
    else if t = tilePaddle then
      scan rest (bl, br, if pl = -1 ∨ pl > pos.x then pos.x else pl,
        if pr = -1 ∨ pr < pos.x then pos.x else pr)
    else scan rest (bl, br, pl, pr)

/-- The joystick position that `paddleAI.Input` computes from the extents. -/
def joystick (e : Int × Int × Int × Int) : Int :=
  if Int.tdiv (wrap64 (e.1 + e.2.1)) 2 < Int.tdiv (wrap64 (e.2.2.1 + e.2.2.2)) 2 then -1
  else if Int.tdiv (wrap64 (e.1 + e.2.1)) 2 > Int.tdiv (wrap64 (e.2.2.1 + e.2.2.2)) 2 then 1
  else 0

/-- The method `paddleAI.Input`: the value and the error it returns, and the
player afterwards. -/
def paddleAI.Input (p : paddleAI) : Except String Int × paddleAI :=
  (.ok (joystick (scan p.world (-1, -1, -1, -1))), p)

/-- The record of a display, as the specification words it: a score and a
sparse map from coordinates to tiles, updated by one triple `(x, y, t)`. -/
def specRecord (sw : Int × (coord → Option Int)) (t : Int × Int × Int) :
    Int × (coord → Option Int) :=
  if t.1 = -1 ∧ t.2.1 = 0 then (t.2.2, sw.2)
  else (sw.1, fun c => if c = ⟨t.1, t.2.1⟩ then some t.2.2 else sw.2 c)

end Day13

/-! ## The feedback network of `day7part2/intcode.go`

Every call of the function literal of `solve` starts five goroutines, each
running `exec` on one of the slices `ampA` to `ampE`, and a sixth that forwards
the values of the last amplifier to the first.  The functions `exec`,
`readParam`, `readAddr` and `readLiteralFlag` of day7part2 are those of
day7part1, word for word (`Day7.step`).  The network of one call is a
transition system: a state holds the goroutines and the channels, and one
transition is one pass of the loop of `exec` in one amplifier, or one statement
of the forwarding goroutine, picked by a scheduler that is left arbitrary.  An
amplifier carries the slice it works on as it last saw it; `Network.next` is
the transition of a goroutine when nothing else has written that slice in
between.  The slices are shared with the goroutines of the other calls of
`solve`: `Solve.next` further down lets every goroutine of the program move on
the slices as they are. -/

namespace Network

/-- A Go channel of `int`: the values in its buffer, oldest first, its capacity
and whether it was closed. -/
structure chan where
  buf : List Int
  cap : Nat
  closed : Bool
  deriving DecidableEq, Repr

/-- The expression `make(chan int, n)`. -/
def chan.make (n : Nat) : chan := ⟨[], n, false⟩

/-- What a send statement `c <- v` does when no receiver is parked on `c`. -/
inductive Sent where
  /-- The value went into the buffer. -/
  | sent (c : chan)
  /-- The buffer is full: the goroutine blocks. -/
  | blocks
  /-- Runtime panic `send on closed channel`. -/
  | panics
  deriving DecidableEq, Repr

/-- The send statement `c <- v`. -/
def chan.send (c : chan) (v : Int) : Sent :=
  if c.closed then .panics
  else if c.buf.length < c.cap then .sent { c with buf := c.buf ++ [v] }
  else .blocks

/-- The receive `n, open := <-c`: `none` when the goroutine blocks, a missing
value when the channel is closed and drained (`open` is false). -/
def chan.recv (c : chan) : Option (Option Int × chan) :=
  match c.buf with
  | v :: rest => some (some v, { c with buf := rest })
  | [] => if c.closed then some (none, c) else none

/-- The call `close(c)`; `none` is the runtime panic `close of closed channel`. -/
def chan.close (c : chan) : Option chan :=
  if c.closed then none else some { c with closed := true }

/-- The statement at which the forwarding goroutine of `solve` stands, with the
value of its variable `n`. -/
inductive forwarder where
  /-- In `for n = range outE`, parked on the receive. -/
  | ranging (n : Int)
  /-- At `inA <- n`. -/
  | sending (n : Int)
  /-- At `rE <- n`. -/
  | tee (n : Int)
  /-- At `close(inA)`. -/
  | closeA (n : Int)
  /-- At `close(rE)`. -/
  | closeR (n : Int)
  /-- The goroutine has ended. -/
  | done (n : Int)
  /-- The goroutine has panicked. -/
  | crashed
  deriving DecidableEq, Repr

/-- The struct `chanio` during one pass of the loop of `exec`: its channels
`in` and `out`, the goroutine parked on a receive from `out` when `out` has
no buffer (the forwarding goroutine, for the last amplifier; nobody for the
others), whether a call of the pass blocks, and whether it panics. -/
structure chanio where
  inp : chan
  out : chan
  fwd : Option forwarder
  blocked : Bool
  panicked : Bool
  deriving DecidableEq, Repr

/-- The methods `chanio.Input` and `chanio.Output`.  A call that blocks does not
return; the pass of the loop it belongs to is then not a transition, which the
flag `blocked` records.  A send on a channel without room is taken by the
goroutine parked on the receive, if there is one. -/
def chanioPort : Port chanio where
  Input := fun s =>
    match s.inp.recv with
    | none => (.error "blocked", { s with blocked := true })
    | some (none, c) => (.error "input closed", { s with inp := c })
    | some (some v, c) => (.ok v, { s with inp := c })
  Output := fun s n =>
    match s.out.send n with
    | .sent c => (none, { s with out := c })
    | .panics => (some "send on closed channel", { s with panicked := true })
    | .blocks =>
      match s.fwd with
      | some (.ranging _) => (none, { s with fwd := some (.sending n) })
      | _ => (some "blocked", { s with blocked := true })

/-- How the call of `exec` in an amplifier goroutine ended. -/
inductive Outcome where
  /-- It returned nil, at opcode 99. -/
  | halted
  /-- It returned an error, or panicked inside the interpreter. -/
  | failed (f : Fault)
  /-- It panicked in a channel operation. -/
  | panicked
  deriving DecidableEq, Repr

/-- An amplifier goroutine of `solve`, started by `goErr`. -/
inductive amp where
  /-- In the loop of `exec`, before the loop test, with counter `opn`. -/
  | running (opn : Int) (intcode : List Int)
  /-- The call of `exec` has ended; the deferred `close` has not run yet. -/
  | returned (r : Outcome) (intcode : List Int)
  /-- The deferred `close` has run; the goroutine is parked on `errs <- err`,
  which nobody receives. -/
  | finished (r : Outcome) (intcode : List Int)
  deriving DecidableEq, Repr

/-- One transition of an amplifier goroutine with input channel `cin` and
output channel `cout`: a pass of the loop of `exec`, the end of the loop, or
the deferred `close(cout)`; `none` when the goroutine is blocked.  A panic is
recovered by `goErr` after the deferred `close`. -/
def ampMove (a : amp) (cin cout : chan) (fwd : Option forwarder) :
    Option (amp × chan × chan × Option forwarder) :=
  match a with
  | .running opn intcode =>
    if opn < intcode.length then
      match Day7.step chanioPort opn intcode ⟨cin, cout, fwd, false, false⟩ with
      | .next opn1 m s => some (.running opn1 m, s.inp, s.out, s.fwd)
      | .ret m s => some (.returned .halted m, s.inp, s.out, s.fwd)
      | .fail f m s =>
        if s.blocked then none
        else some (.returned (if s.panicked then .panicked else .failed f) m,
          s.inp, s.out, s.fwd)
    else some (.returned (.failed (.error .noOperation)) intcode, cin, cout, fwd)
  | .returned r intcode =>
    match cout.close with
    | some c => some (.finished r intcode, cin, c, fwd)
    | none => some (.finished .panicked intcode, cin, cout, fwd)
  | .finished _ _ => none

/-- One transition of the forwarding goroutine.  The channel `outE` has no
buffer: a value of the last amplifier reaches the goroutine in the transition
of the amplifier (`chanioPort`), and the `range` loop ends when `outE` is
closed.  The send `rE <- n` is taken by `solve`, which waits in `<-rE` until it
has its result. -/
def fwdMove (f : forwarder) (outE inA rE : chan) (result : Option Int) :
    Option (forwarder × chan × chan × Option Int) :=
  match f with
  | .ranging n => if outE.closed then some (.tee n, inA, rE, result) else none
  | .sending n =>
    match inA.send n with
    | .sent c => some (.ranging n, c, rE, result)
    | .blocks => none
    | .panics => some (.crashed, inA, rE, result)
  | .tee n =>
    if rE.closed then some (.crashed, inA, rE, result)
    else
      match result with
      | none => some (.closeA n, inA, rE, some n)
      | some _ => none
  | .closeA n =>
    match inA.close with
    | some c => some (.closeR n, c, rE, result)
    | none => some (.crashed, inA, rE, result)
  | .closeR n =>
    match rE.close with
    | some c => some (.done n, inA, c, result)
    | none => some (.crashed, inA, rE, result)
  | .done _ => none
  | .crashed => none

/-- The state of the network that `solve` builds for one phase order: the
five amplifier goroutines, the channels, the forwarding goroutine, and the
value that `solve` has received from `rE`, if any. -/
structure net where
  ampA : amp
  ampB : amp
  ampC : amp
  ampD : amp
  ampE : amp
  inA : chan
  inB : chan
  inC : chan
  inD : chan
  inE : chan
  outE : chan
  rE : chan
  fwd : forwarder
  result : Option Int
  deriving DecidableEq, Repr

/-- The goroutines of the network. -/
inductive proc where
  | A | B | C | D | E | F
  deriving DecidableEq, Repr

/-- The network of a call when its goroutines start: every input channel
holds its phase, `inA` also the first input 0, and every amplifier finds in its
slice the program that `solve` has just copied there. -/
def start (intcode : List Int) (sa sb sc sd se : Int) : net where
  ampA := .running 0 intcode
  ampB := .running 0 intcode
  ampC := .running 0 intcode
  ampD := .running 0 intcode
  ampE := .running 0 intcode
  inA := ⟨[sa, 0], 2, false⟩
  inB := ⟨[sb], 1, false⟩
  inC := ⟨[sc], 1, false⟩
  inD := ⟨[sd], 1, false⟩
  inE := ⟨[se], 1, false⟩
  outE := chan.make 0
  rE := chan.make 0
  fwd := .ranging 0
  result := none

/-- The transition of the goroutine `p`, `none` when it is blocked or has
ended.  A panic of the forwarding goroutine would end the Go program; here the
other goroutines may still move after it. -/
def next (s : net) : proc → Option net
  | .A =>
    match ampMove s.ampA s.inA s.inB none with
    | some (a, i, o, _) => some { s with ampA := a, inA := i, inB := o }
    | none => none
  | .B =>
    match ampMove s.ampB s.inB s.inC none with
    | some (a, i, o, _) => some { s with ampB := a, inB := i, inC := o }
    | none => none
  | .C =>
    match ampMove s.ampC s.inC s.inD none with
    | some (a, i, o, _) => some { s with ampC := a, inC := i, inD := o }
    | none => none
  | .D =>
    match ampMove s.ampD s.inD s.inE none with
    | some (a, i, o, _) => some { s with ampD := a, inD := i, inE := o }
    | none => none
  | .E =>
    match ampMove s.ampE s.inE s.outE (some s.fwd) with
    | some (a, i, o, some f) => some { s with ampE := a, inE := i, outE := o, fwd := f }
    | _ => none
  | .F =>
    match fwdMove s.fwd s.outE s.inA s.rE s.result with
    | some (f, i, r, res) => some { s with fwd := f, inA := i, rE := r, result := res }
    | none => none

/-- The network after the goroutines of the schedule moved, one after the
other; `none` when one of them could not move at its turn. -/
def run : net → List proc → Option net
  | s, [] => some s
  | s, p :: rest =>
    match next s p with
    | some t => run t rest
    | none => none

/-- No goroutine of the network can move. -/
def stuck (s : net) : Bool :=
  (next s .A).isNone && (next s .B).isNone && (next s .C).isNone && (next s .D).isNone
    && (next s .E).isNone && (next s .F).isNone

/-- The call of `exec` of the amplifier returned nil and its deferred `close`
has run. -/
def amp.halted : amp → Bool
  | .finished .halted _ => true
  | _ => false

/-- The program of the feedback example. -/
def feedbackProgram : List Int :=
  [3, 26, 1001, 26, -4, 26, 3, 27, 1002, 27, 2, 27, 1, 27, 26, 27, 4, 27, 1001, 28, -1, 28,
    1005, 28, 6, 99, 0, 0, 5]

/-- The tape of an amplifier of the feedback example: the program with `x`,
`y` and `k` in its three data words. -/
def feedbackTape (x y k : Int) : List Int := feedbackProgram.take 26 ++ [x, y, k]

/-- The network of the feedback example between two rounds: every amplifier
is about to read its next input (counter 6), with `k` rounds to go; `a` to
`e` are the last outputs of the amplifiers and `e` waits in `inA`. -/
def feedbackAt (a b c d e k : Int) : net where
  ampA := .running 6 (feedbackTape 5 a k)
  ampB := .running 6 (feedbackTape 4 b k)
  ampC := .running 6 (feedbackTape 3 c k)
  ampD := .running 6 (feedbackTape 2 d k)
  ampE := .running 6 (feedbackTape 1 e k)
  inA := ⟨[e], 2, false⟩
  inB := ⟨[], 1, false⟩
  inC := ⟨[], 1, false⟩
  inD := ⟨[], 1, false⟩
  inE := ⟨[], 1, false⟩
  outE := ⟨[], 0, false⟩
  rE := ⟨[], 0, false⟩
  fwd := .ranging e
  result := none

/-- The network of the feedback example when no goroutine can move any more. -/
def feedbackEnd : net where
  ampA := .finished .halted (feedbackTape 5 8726855 0)
  ampB := .finished .halted (feedbackTape 4 17453714 0)
  ampC := .finished .halted (feedbackTape 3 34907431 0)
  ampD := .finished .halted (feedbackTape 2 69814864 0)
  ampE := .finished .halted (feedbackTape 1 139629729 0)
  inA := ⟨[139629729], 2, true⟩
  inB := ⟨[], 1, true⟩
  inC := ⟨[], 1, true⟩
  inD := ⟨[], 1, true⟩
  inE := ⟨[], 1, true⟩
  outE := ⟨[], 0, true⟩
  rE := ⟨[], 0, true⟩
  fwd := .done 139629729
  result := some 139629729

/-- The goroutine `p` moves `n` times. -/
def turns (p : proc) (n : Nat) : List proc := List.replicate n p

/-- A schedule in which the amplifiers move `a` times each, one after the
other, and then the forwarding goroutine `f` times. -/
def round (a f : Nat) : List proc :=
  turns .A a ++ turns .B a ++ turns .C a ++ turns .D a ++ turns .E a ++ turns .F f

/-- A schedule for the first round of the feedback example: the amplifiers B
to E read their phases, then every amplifier computes and sends its output. -/
def opening : List proc :=
  turns .B 2 ++ turns .C 2 ++ turns .D 2 ++ turns .E 2
    ++ turns .A 8 ++ turns .B 6 ++ turns .C 6 ++ turns .D 6 ++ turns .E 6 ++ turns .F 1

/-- A schedule of 179 transitions for the feedback example. -/
def feedbackSchedule : List proc :=
  opening ++ (round 6 1 ++ (round 6 1 ++ (round 6 1 ++ round 8 5)))

/-- What the pass of `Day7.step` at an Input instruction with target `dst` does
with the result of `io.Input`. -/
def afterInput {σ : Type} (intcode : List Int) (opn dst : Int) (r : Except String Int × σ) :
    Day7.Step σ :=
  match r with
  | (.error e, s1) => .fail (.error (.readingInput e)) intcode s1
  | (.ok v, s1) => Day7.assign intcode s1 opn 2 dst v

/-- What the pass of `Day7.step` at an Output instruction does with the result
of `io.Output`. -/
def afterOutput {σ : Type} (intcode : List Int) (opn : Int) (r : Option String × σ) :
    Day7.Step σ :=
  match r with
  | (some e, s1) => .fail (.error (.writingOutput e)) intcode s1
  | (none, s1) => .next (wrap64 (opn + 2)) intcode s1

/-- What a transition of an amplifier sees of its input channel: nothing, the
oldest value, or the end of the stream. -/
inductive rview where
  | noread
  | value (v : Int)
  | eos
  deriving DecidableEq, Repr

/-- What a transition of an amplifier does on the side of its output channel:
nothing, a send into the buffer, a send taken by the parked receiver, a send on
the closed channel, the deferred `close`, or a `close` of the closed channel. -/
inductive sview where
  | nowrite
  | push (v : Int)
  | handoff (v : Int)
  | pushPanic
  | close
  | closePanic
  deriving DecidableEq, Repr

/-- The channel shows the view to its receiver. -/
def rview.holds : rview → chan → Prop
  | .noread, _ => True
  | .value v, c => ∃ rest, c.buf = v :: rest
  | .eos, c => c.buf = [] ∧ c.closed = true

/-- The channel after the receiver took what it saw. -/
def rview.apply : rview → chan → chan
  | .value _, c => { c with buf := c.buf.tail }
  | _, c => c

/-- The channel, and the goroutine parked on it, allow the sender to act. -/
def sview.holds : sview → chan → Option forwarder → Prop
  | .nowrite, _, _ => True
  | .push _, c, _ => c.closed = false ∧ c.buf.length < c.cap
  | .handoff _, c, f => c.closed = false ∧ ¬ c.buf.length < c.cap ∧ ∃ n, f = some (.ranging n)
  | .pushPanic, c, _ => c.closed = true
  | .close, c, _ => c.closed = false
  | .closePanic, c, _ => c.closed = true

/-- The channel after the sender acted. -/
def sview.apply : sview → chan → chan
  | .push v, c => { c with buf := c.buf ++ [v] }
  | .close, c => { c with closed := true }
  | _, c => c

/-- The goroutine parked on the channel after the sender acted. -/
def sview.taker : sview → Option forwarder → Option forwarder
  | .handoff v, _ => some (.sending v)
  | _, f => f

/-- Some schedule of `n` transitions leads from `s` to `t`, where no goroutine
can move. -/
def endsIn (s : net) (n : Nat) (t : net) : Prop :=
  ∃ sched : List proc, sched.length = n ∧ run s sched = some t ∧ stuck t = true

end Network

namespace Network

/-- The deferred `close` of the amplifier goroutine has run. -/
def amp.isFinished : amp → Bool
  | .finished _ _ => true
  | _ => false

/-- The amplifier goroutine has panicked in a channel operation. -/
def amp.panicked : amp → Bool
  | .returned .panicked _ => true
  | .finished .panicked _ => true
  | _ => false

/-- The forwarding goroutine has left the loop `for n = range outE`: it has
seen the end of the stream of the last amplifier. -/
def forwarder.pastRange : forwarder → Bool
  | .tee _ => true
  | .closeA _ => true
  | .closeR _ => true
  | .done _ => true
  | _ => false

/-- The forwarding goroutine has sent its last value on `rE`. -/
def forwarder.delivered : forwarder → Bool
  | .closeA _ => true
  | .closeR _ => true
  | .done _ => true
  | _ => false

/-- The forwarding goroutine has run `close(inA)`. -/
def forwarder.closedA : forwarder → Bool
  | .closeR _ => true
  | .done _ => true
  | _ => false

/-- The forwarding goroutine has run `close(rE)`. -/
def forwarder.closedR : forwarder → Bool
  | .done _ => true
  | _ => false

/-- The closing discipline of the network: the queue that feeds the successor
of an amplifier is closed exactly when the deferred `close` of that amplifier
has run, which is after its call of `exec` ended; `inA` and `rE` are closed
exactly when the forwarding goroutine has passed its `close(inA)` and
`close(rE)`, which is after it saw the end of the stream on `outE` and sent its
last value to `solve`; and no goroutine has panicked: no channel was closed
twice and no value was sent on a closed channel. -/
def closingDiscipline (s : net) : Prop :=
  s.inB.closed = s.ampA.isFinished ∧ s.inC.closed = s.ampB.isFinished
    ∧ s.inD.closed = s.ampC.isFinished ∧ s.inE.closed = s.ampD.isFinished
    ∧ s.outE.closed = s.ampE.isFinished
    ∧ s.inA.closed = s.fwd.closedA ∧ s.rE.closed = s.fwd.closedR
    ∧ (s.fwd.pastRange = true → s.outE.closed = true)
    ∧ s.result.isSome = s.fwd.delivered
    ∧ s.fwd ≠ .crashed
    ∧ s.ampA.panicked = false ∧ s.ampB.panicked = false ∧ s.ampC.panicked = false
    ∧ s.ampD.panicked = false ∧ s.ampE.panicked = false

end Network

/-! ## The interpreter of `day2part1/intcode.go`

The tape is a slice of `int` of fixed length, an instruction is the whole word
at the counter (no modes), and Add and Multiply take their three addresses
through `read3refs`. -/

namespace Day2

/-- Values of type `error` that `read3refs` and `exec` of day2part1 return. -/
inductive Err where
  /-- Message `expected 3 arguments but received %d`. -/
  | expected3 (got : Int)
  /-- Message `register %d does not exist`. -/
  | noRegister (m : Int)
  /-- Message `intcode: unrecognised op %d at position %d`. -/
  | unrecognisedOp (op opn : Int)
  /-- Message `intcode: no operation`. -/
  | noOperation
  /-- An error of `read3refs` wrapped by `exec`, as in `add(1): %w`. -/
  | inOp (op : Int) (e : Err)
  deriving DecidableEq, Repr

/-- Ways in which a call does not complete normally. -/
inductive Fault where
  /-- The function returned a non-nil `error`. -/
  | error (e : Err)
  /-- Runtime panic `index out of range [i] with length len`. -/
  | indexOutOfRange (i : Int) (len : Nat)
  deriving DecidableEq, Repr

/-- The prefix `exec` puts on an error of `read3refs`; a panic is not caught. -/
def Fault.inOp (op : Int) : Fault → Fault
  | .error e => .error (.inOp op e)
  | f => f

/-- The slice index expression `intcode[i]`, which panics outside
`0 ≤ i < len`. -/
def index (intcode : List Int) (i : Int) : Except Fault Int :=
  if 0 ≤ i ∧ i < intcode.length then .ok (intcode.getD i.toNat 0)
  else .error (.indexOutOfRange i intcode.length)

/-- The function `read3refs`. -/
def read3refs (intcode : List Int) (opn : Int) : Except Fault (Int × Int × Int) :=
  if wrap64 (opn + 3) > intcode.length then
    .error (.error (.expected3 (wrap64 (wrap64 (intcode.length - opn) - 1))))
  else
    match index intcode opn with
    | .error f => .error f
    | .ok a =>
      match index intcode (wrap64 (opn + 1)) with
      | .error f => .error f
      | .ok b =>
        match index intcode (wrap64 (opn + 2)) with
        | .error f => .error f
        | .ok c =>
          if (if a ≥ b ∧ a ≥ c then a else if b ≥ a ∧ b ≥ c then b else c) ≥ intcode.length then
            .error (.error (.noRegister
              (if a ≥ b ∧ a ≥ c then a else if b ≥ a ∧ b ≥ c then b else c)))
          else .ok (a, b, c)

/-- What one pass through the body of the loop of `exec` leads to. -/
inductive Step where
  /-- The loop goes on at counter `opn`. -/
  | next (opn : Int) (intcode : List Int)
  /-- `exec` returns the value `v` and nil. -/
  | ret (v : Int) (intcode : List Int)
  /-- `exec` returns an error or panics. -/
  | fail (f : Fault) (intcode : List Int)
  deriving DecidableEq, Repr

/-- The statements `va, vb := intcode[a], intcode[b]`, `intcode[c] = vc` and
`opn += 4` of the cases Add and Multiply, `vc` being `op va vb`. -/
def apply3 (intcode : List Int) (opn a b c : Int) (op : Int → Int → Int) : Step :=
  match index intcode a with
  | .error f => .fail f intcode
  | .ok va =>
    match index intcode b with
    | .error f => .fail f intcode
    | .ok vb =>
      if 0 ≤ c ∧ c < intcode.length then
        .next (wrap64 (opn + 4)) (intcode.set c.toNat (op va vb))
      else .fail (.indexOutOfRange c intcode.length) intcode

/-- The body of the loop of `exec`, for a counter that passed the loop test. -/
def step (opn : Int) (intcode : List Int) : Step :=
  match index intcode opn with
  | .error f => .fail f intcode
  | .ok op =>
    if op = 99 then
      match index intcode 0 with
      | .error f => .fail f intcode
      | .ok v => .ret v intcode
    else if op = 1 then
      match read3refs intcode (wrap64 (opn + 1)) with
      | .error f => .fail (f.inOp 1) intcode
      | .ok (a, b, c) => apply3 intcode opn a b c (fun va vb => wrap64 (va + vb))
    else if op = 2 then
      match read3refs intcode (wrap64 (opn + 1)) with
      | .error f => .fail (f.inOp 2) intcode
      | .ok (a, b, c) => apply3 intcode opn a b c (fun va vb => wrap64 (va * vb))
    else .fail (.error (.unrecognisedOp op opn)) intcode

/-- The loop of `exec` from counter `opn`, for at most `fuel` instructions:
the value and the fault that `exec` returns and the tape then; `none` when the
fuel runs out before `exec` ends. -/
def execFrom : Nat → Int → List Int → Option (Except Fault Int × List Int)
  | 0, _, _ => none
  | fuel + 1, opn, intcode =>
    if opn < intcode.length then
      match step opn intcode with
      | .next opn1 m => execFrom fuel opn1 m
      | .ret v m => some (.ok v, m)
      | .fail f m => some (.error f, m)
    else some (.error (.error .noOperation), intcode)

/-- The function `exec`: the loop started at counter 0. -/
def exec (fuel : Nat) (intcode : List Int) : Option (Except Fault Int × List Int) :=
  execFrom fuel 0 intcode

end Day2

/-! ## The phase orders of `day7part2/intcode.go`: `permute5`

`permute5(min, max, f)` is five nested counting loops around a call of `f`.
It is modelled by the calls of `f` it makes, in order, `f` being assumed to
return.  Every loop is run for a bounded number of tests of its condition; a
loop that has not ended by then is cut off, with the calls made so far. -/

namespace Permute

/-- The arguments of one call of `f`. -/
@[reducible] def args : Type := Int × Int × Int × Int × Int

/-- The loop `for x := min; x <= max; x++ { body }` from its test with the
variable at `x`, for at most `n` tests: the calls of `f` made, in order, and
whether the loop has ended.  A body is given by the calls it makes and whether
it has ended. -/
def loop (max : Int) (body : Int → List args × Bool) : Nat → Int → List args × Bool
  | 0, _ => ([], false)
  | n + 1, x =>
    if x ≤ max then
      if (body x).2 then
        ((body x).1 ++ (loop max body n (wrap64 (x + 1))).1,
          (loop max body n (wrap64 (x + 1))).2)
      else ((body x).1, false)
    else ([], true)

/-- The body of the loop over `e`: `continue` or the call `f(a, b, c, d, e)`. -/
def bodyE (a b c d : Int) (e : Int) : List args × Bool :=
  if e = a ∨ e = b ∨ e = c ∨ e = d then ([], true) else ([(a, b, c, d, e)], true)

/-- The body of the loop over `d`: `continue` or the loop over `e`. -/
def bodyD (n : Nat) (min max a b c : Int) (d : Int) : List args × Bool :=
  if d = a ∨ d = b ∨ d = c then ([], true) else loop max (bodyE a b c d) n min

/-- The body of the loop over `c`: `continue` or the loop over `d`. -/
def bodyC (n : Nat) (min max a b : Int) (c : Int) : List args × Bool :=
  if c = a ∨ c = b then ([], true) else loop max (bodyD n min max a b c) n min

/-- The body of the loop over `b`: `continue` or the loop over `c`. -/
def bodyB (n : Nat) (min max a : Int) (b : Int) : List args × Bool :=
  if b = a then ([], true) else loop max (bodyC n min max a b) n min

/-- The body of the loop over `a`: the loop over `b`. -/
def bodyA (n : Nat) (min max : Int) (a : Int) : List args × Bool :=
  loop max (bodyB n min max a) n min

/-- The function `permute5`, every loop being run for at most `n` tests: the
calls of `f`, in order, and whether `permute5` has returned. -/
def permute5 (n : Nat) (min max : Int) : List args × Bool :=
  loop max (bodyA n min max) n min

/-- The integers from `lo` to `hi`, in ascending order. -/
def span (lo hi : Int) : List Int :=
  (List.range (hi + 1 - lo).toNat).map (fun (i : Nat) => lo + (i : Int))

/-- The lexicographic order of the 5-tuples. -/
def lexLt (s t : args) : Prop :=
  s.1 < t.1 ∨ (s.1 = t.1 ∧ (s.2.1 < t.2.1 ∨ (s.2.1 = t.2.1 ∧ (s.2.2.1 < t.2.2.1
    ∨ (s.2.2.1 = t.2.2.1 ∧ (s.2.2.2.1 < t.2.2.2.1
      ∨ (s.2.2.2.1 = t.2.2.2.1 ∧ s.2.2.2.2 < t.2.2.2.2)))))))

/-- The five numbers are in `[min, max]` and pairwise distinct. -/
def distinctIn (min max : Int) (t : args) : Prop :=
  (min ≤ t.1 ∧ t.1 ≤ max) ∧ (min ≤ t.2.1 ∧ t.2.1 ≤ max) ∧ (min ≤ t.2.2.1 ∧ t.2.2.1 ≤ max)
    ∧ (min ≤ t.2.2.2.1 ∧ t.2.2.2.1 ≤ max) ∧ (min ≤ t.2.2.2.2 ∧ t.2.2.2.2 ≤ max)
    ∧ t.2.1 ≠ t.1
    ∧ t.2.2.1 ≠ t.1 ∧ t.2.2.1 ≠ t.2.1
    ∧ t.2.2.2.1 ≠ t.1 ∧ t.2.2.2.1 ≠ t.2.1 ∧ t.2.2.2.1 ≠ t.2.2.1
    ∧ t.2.2.2.2 ≠ t.1 ∧ t.2.2.2.2 ≠ t.2.1 ∧ t.2.2.2.2 ≠ t.2.2.1 ∧ t.2.2.2.2 ≠ t.2.2.2.1

/-- The calls of the loop over `e` when it ends. -/
def callsE (min max a b c d : Int) : List args :=
  (span min max).flatMap (fun e => (bodyE a b c d e).1)

/-- The calls of the loop over `d` when all loops end. -/
def callsD (min max a b c : Int) : List args :=
  (span min max).flatMap (fun d => if d = a ∨ d = b ∨ d = c then [] else callsE min max a b c d)

/-- The calls of the loop over `c` when all loops end. -/
def callsC (min max a b : Int) : List args :=
  (span min max).flatMap (fun c => if c = a ∨ c = b then [] else callsD min max a b c)

/-- The calls of the loop over `b` when all loops end. -/
def callsB (min max a : Int) : List args :=
  (span min max).flatMap (fun b => if b = a then [] else callsC min max a b)

/-- The calls of `permute5` when all loops end. -/
def calls (min max : Int) : List args :=
  (span min max).flatMap (fun a => callsB min max a)

end Permute

/-! ## The function `solve` of `day7part2/intcode.go`

`solve` allocates the five slices `ampA` to `ampE` once and calls the same
function literal for every phase order of `permute5(5, 9, ...)`.  A call makes
new channels, starts a new forwarding goroutine, copies the program into the
five slices again and starts five new amplifier goroutines on them; it returns
as soon as it has received from `rE`, without waiting for the goroutines it
started (`errs` is never read).  The goroutines of all the calls made so far
therefore work on the same five slices. -/

namespace Solve

open Network

/-- The built-in `copy(dst, src)`: the first `min(len(dst), len(src))` words
of `dst` are overwritten. -/
def copy (dst src : List Int) : List Int :=
  src.take dst.length ++ dst.drop src.length

/-- The slices `ampA` to `ampE` of `solve`. -/
structure slices where
  ampA : List Int
  ampB : List Int
  ampC : List Int
  ampD : List Int
  ampE : List Int
  deriving DecidableEq, Repr

/-- The slice as the amplifier goroutine saw it at its last transition. -/
def tape : amp → List Int
  | .running _ intcode => intcode
  | .returned _ intcode => intcode
  | .finished _ intcode => intcode

/-- The amplifier goroutine looking at the slice `m`. -/
def withTape (m : List Int) : amp → amp
  | .running opn _ => .running opn m
  | .returned r _ => .returned r m
  | .finished r _ => .finished r m

/-- The network of one call with its amplifiers looking at the slices as they
are now. -/
def load (t : slices) (s : net) : net :=
  { s with
    ampA := withTape t.ampA s.ampA, ampB := withTape t.ampB s.ampB,
    ampC := withTape t.ampC s.ampC, ampD := withTape t.ampD s.ampD,
    ampE := withTape t.ampE s.ampE }

/-- The slices as the amplifiers of the network leave them. -/
def stored (s : net) : slices :=
  ⟨tape s.ampA, tape s.ampB, tape s.ampC, tape s.ampD, tape s.ampE⟩

/-- Every slice has `n` words. -/
def sized (n : Nat) (t : slices) : Prop :=
  t.ampA.length = n ∧ t.ampB.length = n ∧ t.ampC.length = n ∧ t.ampD.length = n
    ∧ t.ampE.length = n

/-- The statement at which the goroutine of `solve` stands. -/
inductive point where
  /-- In `permute5`, before the call of the function literal with the next
  phase order, or before the return of `permute5` when no order is left. -/
  | calling
  /-- In the function literal: the channels are made and seeded, the
  forwarding goroutine is started, and `k` of the five `copy` statements have
  run. -/
  | reset (k : Nat)
  /-- The five calls of `goErr` have started the amplifiers; parked in
  `<-rE`. -/
  | receiving
  /-- After `fmt.Println(max)`: `solve` has returned and the program ends. -/
  | returned
  deriving DecidableEq, Repr

/-- The state of a run of `solve`: its argument, the five slices, the networks
of the calls made so far with their phase orders (the latest first), the phase
orders `permute5` has still to call, the statement `solve` stands at, the
variable `max`, the lines printed by the calls, and the last line. -/
structure state where
  intcode : List Int
  slices : slices
  calls : List (Permute.args × net)
  todo : List Permute.args
  pt : point
  max : Int
  printed : List (Permute.args × Int)
  total : Option Int
  deriving DecidableEq, Repr

/-- The goroutines of the program: the one of `solve`, and the goroutine `p`
of the network of the call made `i` calls before the latest. -/
inductive task where
  | main
  | go (i : Nat) (p : proc)
  deriving DecidableEq, Repr

/-- The state when `solve` is called: `make([]int, len(intcode))` gives
slices of zeros, and `permute5(5, 9, ...)` is about to make its calls. -/
def start (intcode : List Int) : state where
  intcode := intcode
  slices := ⟨List.replicate intcode.length 0, List.replicate intcode.length 0,
    List.replicate intcode.length 0, List.replicate intcode.length 0,
    List.replicate intcode.length 0⟩
  calls := []
  todo := (Permute.permute5 6 5 9).1
  pt := .calling
  max := 0
  printed := []
  total := none

/-- The transition of the goroutine of `solve`.  The statements from the start
of the function literal to `go func()` touch only the new channels and are one
transition, as are the five calls of `goErr`; every `copy` is a transition of
its own.  In `<-rE` the goroutine is parked until the forwarding goroutine of
the latest call has sent its value. -/
def main (w : state) : Option state :=
  match w.pt with
  | .calling =>
    match w.todo with
    | [] => some { w with pt := .returned, total := some w.max }
    | (sa, sb, sc, sd, se) :: _ =>
      some { w with
        calls := ((sa, sb, sc, sd, se), Network.start w.intcode sa sb sc sd se) :: w.calls,
        pt := .reset 0 }
  | .reset 0 =>
    some { w with slices := { w.slices with ampA := copy w.slices.ampA w.intcode }, pt := .reset 1 }
  | .reset 1 =>
    some { w with slices := { w.slices with ampB := copy w.slices.ampB w.intcode }, pt := .reset 2 }
  | .reset 2 =>
    some { w with slices := { w.slices with ampC := copy w.slices.ampC w.intcode }, pt := .reset 3 }
  | .reset 3 =>
    some { w with slices := { w.slices with ampD := copy w.slices.ampD w.intcode }, pt := .reset 4 }
  | .reset 4 =>
    some { w with slices := { w.slices with ampE := copy w.slices.ampE w.intcode }, pt := .reset 5 }
  | .reset _ => some { w with pt := .receiving }
  | .receiving =>
    match w.calls with
    | [] => none
    | (o, g) :: _ =>
      match g.result with
      | none => none
      | some n =>
        some { w with
          max := if n ≥ w.max then n else w.max,
          printed := if n ≥ w.max then w.printed ++ [(o, n)] else w.printed,
          todo := w.todo.tail,
          pt := .calling }
  | .returned => none

/-- The amplifier goroutines of the latest call exist only once `solve` has
passed its calls of `goErr`. -/
def started (w : state) (i : Nat) (p : proc) : Bool :=
  match w.pt, i, p with
  | .reset _, 0, .F => true
  | .reset _, 0, _ => false
  | _, _, _ => true

/-- The transition of a goroutine of the program, `none` when it is
blocked, has ended or does not exist.  An amplifier goroutine makes its
transition on the slice as it is now, whoever wrote it last, and leaves its
writes in the slice; the reads and the write of one pass of the loop of `exec`
are taken together. -/
def next (w : state) : task → Option state
  | .main => main w
  | .go i p =>
    if w.pt = .returned then none
    else
      match w.calls.get? i with
      | none => none
      | some (o, g) =>
        if started w i p then
          match Network.next (load w.slices g) p with
          | none => none
          | some g1 => some { w with calls := w.calls.set i (o, g1), slices := stored g1 }
        else none

/-- The program after the goroutines of the schedule moved, one after the
other; `none` when one of them could not move at its turn. -/
def run : state → List task → Option state
  | w, [] => some w
  | w, t :: rest =>
    match next w t with
    | some w1 => run w1 rest
    | none => none

end Solve

/-! ## Runs of single goroutines and the states of the examples -/

namespace Network

/-- The amplifier goroutine with input channel `i` and output channel `o`
after `n` transitions, when no goroutine is parked on `o`. -/
def ampRun : Nat → amp → chan → chan → Option (amp × chan × chan)
  | 0, a, i, o => some (a, i, o)
  | n + 1, a, i, o =>
    match ampMove a i o none with
    | some (a1, i1, o1, _) => ampRun n a1 i1 o1
    | none => none

/-- The last amplifier goroutine after `n` transitions, with the forwarding
goroutine `f` on the other side of its output channel. -/
def lastRun : Nat → amp → chan → chan → forwarder → Option (amp × chan × chan × forwarder)
  | 0, a, i, o, f => some (a, i, o, f)
  | n + 1, a, i, o, f =>
    match ampMove a i o (some f) with
    | some (a1, i1, o1, some f1) => lastRun n a1 i1 o1 f1
    | _ => none

/-- The forwarding goroutine after `n` transitions. -/
def fwdRun (outE : chan) : Nat → forwarder → chan → chan → Option Int →
    Option (forwarder × chan × chan × Option Int)
  | 0, f, i, r, res => some (f, i, r, res)
  | n + 1, f, i, r, res =>
    match fwdMove f outE i r res with
    | some (f1, i1, r1, res1) => fwdRun outE n f1 i1 r1 res1
    | none => none

/-- What an amplifier of the feedback example sends for the input `v`, with
`p` in its first data word. -/
def amplified (p v : Int) : Int := wrap64 (wrap64 (v * 2) + p)

/-- A schedule for the feedback example in which the first amplifier is held
up after its last output, before the instruction `1001,28,-1,28` that counts
its rounds down, while all the other goroutines come to their end. -/
def stalledSchedule : List proc :=
  opening ++ (round 6 1 ++ (round 6 1 ++ (round 6 1
    ++ (turns .A 4 ++ turns .B 8 ++ turns .C 8 ++ turns .D 8 ++ turns .E 8 ++ turns .F 5))))

/-- The network of the feedback example with the phases 9, 8, 7, 5, 6 after
`stalledSchedule`: the first amplifier stands before `1001,28,-1,28` (counter
18), the others have halted, and `solve` has its value. -/
def feedbackStalled : net where
  ampA := .running 18 (feedbackTape 5 8659205 1)
  ampB := .finished .halted (feedbackTape 4 17318414 0)
  ampC := .finished .halted (feedbackTape 3 34636831 0)
  ampD := .finished .halted (feedbackTape 1 69273663 0)
  ampE := .finished .halted (feedbackTape 2 138547328 0)
  inA := ⟨[138547328], 2, true⟩
  inB := ⟨[], 1, false⟩
  inC := ⟨[], 1, true⟩
  inD := ⟨[], 1, true⟩
  inE := ⟨[], 1, true⟩
  outE := ⟨[], 0, true⟩
  rE := ⟨[], 0, true⟩
  fwd := .done 138547328
  result := some 138547328

/-- The network `feedbackStalled` after its first amplifier has run
`1001,28,-1,28` on the slice `ampA` that `solve` has reset for the next call:
the instruction has taken the fresh round counter 5 down to 4. -/
def feedbackStale : net where
  ampA := .running 22 (feedbackTape 0 0 4)
  ampB := .finished .halted feedbackProgram
  ampC := .finished .halted feedbackProgram
  ampD := .finished .halted feedbackProgram
  ampE := .finished .halted feedbackProgram
  inA := ⟨[138547328], 2, true⟩
  inB := ⟨[], 1, false⟩
  inC := ⟨[], 1, true⟩
  inD := ⟨[], 1, true⟩
  inE := ⟨[], 1, true⟩
  outE := ⟨[], 0, true⟩
  rE := ⟨[], 0, true⟩
  fwd := .done 138547328
  result := some 138547328

/-- A schedule for the feedback example when the round counter of the first
amplifier starts at 4: after four rounds the first amplifier halts, and the
others find their input closed in the fifth. -/
def racedSchedule : List proc :=
  opening ++ (round 6 1 ++ (round 6 1
    ++ (turns .A 8 ++ turns .B 6 ++ turns .C 6 ++ turns .D 6 ++ turns .E 6 ++ turns .F 1
      ++ turns .B 2 ++ turns .C 2 ++ turns .D 2 ++ turns .E 2 ++ turns .F 4)))

/-- The network of the feedback example with the phases 9, 8, 7, 6, 5 after
`racedSchedule`, the round counter of the first amplifier having started at
4: no goroutine can move, the first amplifier has halted, the others have
returned `input closed`, and `solve` has received 4363425. -/
def feedbackRaced : net where
  ampA := .finished .halted (feedbackTape 5 272711 0)
  ampB := .finished (.failed (.error (.readingInput "input closed"))) (feedbackTape 4 545426 1)
  ampC := .finished (.failed (.error (.readingInput "input closed"))) (feedbackTape 3 1090855 1)
  ampD := .finished (.failed (.error (.readingInput "input closed"))) (feedbackTape 2 2181712 1)
  ampE := .finished (.failed (.error (.readingInput "input closed"))) (feedbackTape 1 4363425 1)
  inA := ⟨[4363425], 2, true⟩
  inB := ⟨[], 1, true⟩
  inC := ⟨[], 1, true⟩
  inD := ⟨[], 1, true⟩
  inE := ⟨[], 1, true⟩
  outE := ⟨[], 0, true⟩
  rE := ⟨[], 0, true⟩
  fwd := .done 4363425
  result := some 4363425

/-- The capacities with which `solve` makes the channels of a call. -/
def capacities (s : net) : Prop :=
  s.inA.cap = 2 ∧ s.inB.cap = 1 ∧ s.inC.cap = 1 ∧ s.inD.cap = 1 ∧ s.inE.cap = 1
    ∧ s.outE.cap = 0 ∧ s.rE.cap = 0

/-- The amplifier goroutine with input channel `cin` and output channel `cout`
is not parked in `Input`: it has ended, or a receive from `cin` would not
block (`cin` holds a value or is closed) while `cout` is open and has no room,
so that the goroutine, if it cannot move, is parked in `Output`. -/
def notAwaitingInput (a : amp) (cin cout : chan) : Prop :=
  a.isFinished = true
    ∨ (cin.recv ≠ none ∧ cout.closed = false ∧ cout.cap ≤ cout.buf.length)

/-- The forwarding goroutine has ended after closing `inA`, or it is parked in
`inA <- n`, the buffer of `inA` being full. -/
def forwarderSettled (s : net) : Prop :=
  ((∃ n, s.fwd = .done n) ∧ s.inA.closed = true ∧ s.rE.closed = true ∧ s.result.isSome = true)
    ∨ ((∃ n, s.fwd = .sending n) ∧ s.inA.closed = false ∧ s.inA.cap ≤ s.inA.buf.length
      ∧ s.result = none)

/-- A program whose amplifier with phase 9 sends two values and halts, while
every other amplifier halts without reading more than its phase. -/
def twoOutputs : List Int := [3, 15, 1001, 15, -9, 15, 1006, 15, 10, 99, 104, 1, 104, 2, 99, 0]

/-- The tape of `twoOutputs` with `x` in its data word. -/
def twoOutputsTape (x : Int) : List Int := twoOutputs.take 15 ++ [x]

/-- The network of the first call of `solve` on `twoOutputs` (phases 5, 6, 7,
8, 9) when no goroutine can move: all five amplifiers have halted, the
forwarding goroutine is parked in `inA <- 2` because `inA` still holds the 0
that the first amplifier did not read and the first value of the last, and
`solve` is parked in `<-rE`. -/
def outputDeadlock : net where
  ampA := .finished .halted (twoOutputsTape (-4))
  ampB := .finished .halted (twoOutputsTape (-3))
  ampC := .finished .halted (twoOutputsTape (-2))
  ampD := .finished .halted (twoOutputsTape (-1))
  ampE := .finished .halted (twoOutputsTape 0)
  inA := ⟨[0, 1], 2, false⟩
  inB := ⟨[], 1, true⟩
  inC := ⟨[], 1, true⟩
  inD := ⟨[], 1, true⟩
  inE := ⟨[], 1, true⟩
  outE := ⟨[], 0, true⟩
  rE := ⟨[], 0, false⟩
  fwd := .sending 2
  result := none

/-- A program whose amplifier with phase 9 halts at once, whose amplifier with
phase 5 runs the jump `1105,1,16` at address 16 for ever, and whose other
amplifiers ask for a second input. -/
def spinFirst : List Int :=
  [3, 22, 1001, 22, -9, 22, 1006, 22, 21, 1001, 22, 4, 22, 1005, 22, 19, 1105, 1, 16, 3, 22,
    99, 0]

/-- The tape of `spinFirst` with `x` in its data word. -/
def spinFirstTape (x : Int) : List Int := spinFirst.take 22 ++ [x]

/-- The network of the first call of `solve` on `spinFirst` (phases 5, 6, 7, 8,
9) after the last amplifier has halted and the forwarding goroutine has ended:
the first amplifier stands at its jump to itself, and the amplifiers B, C and D
stand at the Input instruction at address 19 with an empty, open input
channel. -/
def spinning : net where
  ampA := .running 16 (spinFirstTape 0)
  ampB := .running 19 (spinFirstTape 1)
  ampC := .running 19 (spinFirstTape 2)
  ampD := .running 19 (spinFirstTape 3)
  ampE := .finished .halted (spinFirstTape 0)
  inA := ⟨[0], 2, true⟩
  inB := ⟨[], 1, false⟩
  inC := ⟨[], 1, false⟩
  inD := ⟨[], 1, false⟩
  inE := ⟨[], 1, false⟩
  outE := ⟨[], 0, true⟩
  rE := ⟨[], 0, true⟩
  fwd := .done 0
  result := some 0

/-- A schedule of the goroutines of the first call on `twoOutputs`, after which
no goroutine of the program can move. -/
def deadlockSchedule : List proc :=
  turns .A 5 ++ turns .B 5 ++ turns .C 5 ++ turns .D 5 ++ turns .E 4 ++ turns .F 1 ++ turns .E 3

/-- A schedule of the goroutines of the first call on `spinFirst`, up to the
end of the forwarding goroutine. -/
def spinSchedule : List proc :=
  turns .A 5 ++ turns .B 5 ++ turns .C 5 ++ turns .D 5 ++ turns .E 5 ++ turns .F 4

end Network

end Intcode

/-! ## Wire crossings (`day3part2/wires.go`)

The coordinates are Go `int64` values; additions and subtractions are followed
by `wrap64`. -/

namespace Wires

open Intcode (wrap64)

/-- The struct `rect`: the rectangle with corners `(x1, y1)` and `(x2, y2)`.
The fields are in the order of the Go declaration: `x1, x2, y1, y2`. -/
structure rect where
  x1 : Int
  x2 : Int
  y1 : Int
  y2 : Int
  deriving DecidableEq, Repr

/-- The function `point`. -/
def point (x y : Int) : rect := ⟨x, x, y, y⟩

/-- The function `vectorBounds`. -/
def vectorBounds (dir : String) (l : Int) : rect :=
  if dir = "U" ∨ dir = "u" then ⟨0, 0, wrap64 (-l), 0⟩
  else if dir = "D" ∨ dir = "d" then ⟨0, 0, 0, l⟩
  else if dir = "L" ∨ dir = "l" then ⟨wrap64 (-l), 0, 0, 0⟩
  else if dir = "R" ∨ dir = "r" then ⟨0, l, 0, 0⟩
  else ⟨0, 0, 0, 0⟩

/-- The method `rect.steps`: `r.x2 - r.x1 + r.y2 - r.y1`. -/
def rect.steps (r : rect) : Int :=
  wrap64 (wrap64 (wrap64 (r.x2 - r.x1) + r.y2) - r.y1)

/-- The method `rect.add`. -/
def rect.add (r : rect) (x y : Int) : rect :=
  ⟨wrap64 (r.x1 + x), wrap64 (r.x2 + x), wrap64 (r.y1 + y), wrap64 (r.y2 + y)⟩

/-- The method `rect.intersects`. -/
def rect.intersects (r s : rect) : Bool :=
  decide (r.x1 ≤ s.x2) && decide (s.x1 ≤ r.x2) && decide (r.y1 ≤ s.y2) && decide (s.y1 ≤ r.y2)

/-- The function `min`. -/
def min (a b : Int) : Int := if a > b then b else a

/-- The function `max`. -/
def max (a b : Int) : Int := if a > b then a else b

/-- The method `rect.intersection`. -/
def rect.intersection (r s : rect) : rect :=
  ⟨max r.x1 s.x1, min r.x2 s.x2, max r.y1 s.y1, min r.y2 s.y2⟩

/-- The method `rect.dist`. -/
def rect.dist (r s : rect) : Int :=
  wrap64
    ((if r.x1 > s.x2 then wrap64 (r.x1 - s.x2)
      else if s.x1 > r.x2 then wrap64 (s.x1 - r.x2) else 0)
    + (if r.y1 > s.y2 then wrap64 (r.y1 - s.y2)
      else if s.y1 > r.y2 then wrap64 (s.y1 - r.y2) else 0))

/-- The inner loop of `closestSteps`, over the segments of `b` that remain,
for the segment `ar` of `a`; the arguments after the list are `bPrev`,
`bPrevSteps` and `dist`, and the result is `dist` after the loop. -/
def closestInner (ar aPrev : rect) (aPrevSteps : Int) : List rect → rect → Int → Int → Int
  | [], _, _, dist => dist
  | br :: rest, bPrev, bPrevSteps, dist =>
    closestInner ar aPrev aPrevSteps rest br (wrap64 (bPrevSteps + br.steps))
      (if ar.intersects br then
        (if wrap64 (wrap64 (wrap64 (aPrevSteps + (ar.intersection br).dist aPrev) + bPrevSteps)
              + (ar.intersection br).dist bPrev) > 0
            ∧ (dist < 0
              ∨ wrap64 (wrap64 (wrap64 (aPrevSteps + (ar.intersection br).dist aPrev)
                  + bPrevSteps) + (ar.intersection br).dist bPrev) < dist) then
          wrap64 (wrap64 (wrap64 (aPrevSteps + (ar.intersection br).dist aPrev) + bPrevSteps)
            + (ar.intersection br).dist bPrev)
        else dist)
      else dist)

/-- The outer loop of `closestSteps`, over the segments of `a` that remain; the
arguments after the list are `aPrev`, `aPrevSteps` and `dist`. -/
def closestOuter (orig : rect) (b : List rect) : List rect → rect → Int → Int → Int
  | [], _, _, dist => dist
  | ar :: rest, aPrev, aPrevSteps, dist =>
    closestOuter orig b rest ar (wrap64 (aPrevSteps + ar.steps))
      (closestInner ar aPrev aPrevSteps b orig 0 dist)

/-- The function `closestSteps`. -/
def closestSteps (orig : rect) (a b : List rect) : Int :=
  closestOuter orig b a orig 0 (-1)

/-- The loop of `dirs2rects` over the moves that remain.  A move is the first
byte of a direction (`dir[:1]`) and the number that `strconv.ParseInt` reads
after it (`dir[1:]`); splitting the string at the commas and parsing the numbers
is left to the Go library. -/
def dirs2rectsFrom : Int → Int → List (String × Int) → List rect
  | _, _, [] => []
  | x, y, (dir, dist) :: rest =>
    (vectorBounds dir dist).add x y
      :: dirs2rectsFrom (wrap64 (x + wrap64 ((vectorBounds dir dist).x1 + (vectorBounds dir dist).x2)))
          (wrap64 (y + wrap64 ((vectorBounds dir dist).y1 + (vectorBounds dir dist).y2))) rest

/-- The function `dirs2rects`, on the moves of the direction string. -/
def dirs2rects (x y : Int) (moves : List (String × Int)) : List rect :=
  dirs2rectsFrom x y moves

/-- A rectangle is well formed when `x1 ≤ x2` and `y1 ≤ y2`. -/
def rect.wellFormed (r : rect) : Prop := r.x1 ≤ r.x2 ∧ r.y1 ≤ r.y2

/-- The point `(x, y)` lies in the rectangle. -/
def rect.contains (r : rect) (x y : Int) : Prop :=
  r.x1 ≤ x ∧ x ≤ r.x2 ∧ r.y1 ≤ y ∧ y ≤ r.y2

/-- The values `(ar, aPrev, aPrevSteps)` that a loop of `closestSteps` goes
through, one for each segment of the wire, from `prev` and `n` at loop entry. -/
def trail : List rect → rect → Int → List (rect × rect × Int)
  | [], _, _ => []
  | r :: rest, prev, n => (r, prev, n) :: trail rest r (wrap64 (n + r.steps))

/-- The value `d` that `closestSteps` computes for a pair of segments. -/
def crossing (ta tb : rect × rect × Int) : Int :=
  wrap64 (wrap64 (wrap64 (ta.2.2 + (ta.1.intersection tb.1).dist ta.2.1) + tb.2.2)
    + (ta.1.intersection tb.1).dist tb.2.1)

/-- The value `v` is the least positive member of `S`, or `-1` when `S` has no
positive member. -/
def leastPositive (S : Int → Prop) (v : Int) : Prop :=
  (v = -1 ∧ ∀ d, S d → d ≤ 0) ∨ (0 < v ∧ S v ∧ ∀ d, S d → 0 < d → v ≤ d)

/-- A move to the left or to the right. -/
def horizontal (dir : String) : Bool :=
  decide (dir = "L") || decide (dir = "l") || decide (dir = "R") || decide (dir = "r")

/-- A move up or down. -/
def vertical (dir : String) : Bool :=
  decide (dir = "U") || decide (dir = "u") || decide (dir = "D") || decide (dir = "d")

/-- One step of a move, with the orientation of `vectorBounds`: `U` decreases
`y`, `D` increases it, `L` decreases `x`, `R` increases it. -/
def unitStep (dir : String) : Int × Int :=
  if dir = "U" ∨ dir = "u" then (0, -1)
  else if dir = "D" ∨ dir = "d" then (0, 1)
  else if dir = "L" ∨ dir = "l" then (-1, 0)
  else if dir = "R" ∨ dir = "r" then (1, 0)
  else (0, 0)

/-- The sum of the lengths of the moves. -/
def totalLen : List (String × Int) → Int
  | [] => 0
  | (_, l) :: rest => l + totalLen rest

/-- The direction strings of the claim: every move is one of `U`, `D`, `L`,
`R` (either case) with a length that is not negative, and consecutive moves are
perpendicular. -/
def perpendicularMoves : List (String × Int) → Bool
  | [] => true
  | [(d, l)] => (horizontal d || vertical d) && decide (0 ≤ l)
  | (d, l) :: (e, m) :: rest =>
    ((horizontal d && vertical e) || (vertical d && horizontal e)) && decide (0 ≤ l)
      && perpendicularMoves ((e, m) :: rest)

/-- The specification's walk along a wire: starting at `(x, y)` and following
the moves, the point `(px, py)` is reached after exactly `n` steps (as the
`k`-th point of some move, `0 ≤ k ≤` its length, after the moves before it). -/
def reaches : Int → Int → List (String × Int) → Int → Int → Int → Bool
  | _, _, [], _, _, _ => false
  | x, y, (dir, l) :: rest, px, py, n =>
    (decide (0 ≤ n) && decide (n ≤ l) && decide (px = x + n * (unitStep dir).1)
        && decide (py = y + n * (unitStep dir).2))
      || reaches (x + l * (unitStep dir).1) (y + l * (unitStep dir).2) rest px py (n - l)

/-- The point `(px, py)` is the `k`-th point of the move of length `l` in the
direction `(ux, uy)` from `(sx, sy)`. -/
def onMove (sx sy ux uy l px py k : Int) : Prop :=
  0 ≤ k ∧ k ≤ l ∧ px = sx + k * ux ∧ py = sy + k * uy

/-- The loop values `t = (ar, aPrev, aPrevSteps)` are those of a move of length
`l` in the direction `(ux, uy)` from `(sx, sy)`, made `k0` steps after the start
of the wire: `ar` is the box of the move, and `aPrev` holds `(sx, sy)` and is
flat in the direction of the move. -/
def isMove (t : rect × rect × Int) (ux uy l sx sy k0 : Int) : Prop :=
  0 ≤ l ∧ 0 ≤ k0 ∧ t.2.2 = k0
    ∧ t.2.1.x1 ≤ sx ∧ sx ≤ t.2.1.x2 ∧ t.2.1.y1 ≤ sy ∧ sy ≤ t.2.1.y2
    ∧ ((ux = 1 ∧ uy = 0 ∧ t.1 = ⟨sx, sx + l, sy, sy⟩ ∧ t.2.1.x1 = t.2.1.x2)
      ∨ (ux = -1 ∧ uy = 0 ∧ t.1 = ⟨sx - l, sx, sy, sy⟩ ∧ t.2.1.x1 = t.2.1.x2)
      ∨ (ux = 0 ∧ uy = 1 ∧ t.1 = ⟨sx, sx, sy, sy + l⟩ ∧ t.2.1.y1 = t.2.1.y2)
      ∨ (ux = 0 ∧ uy = -1 ∧ t.1 = ⟨sx, sx, sy - l, sy⟩ ∧ t.2.1.y1 = t.2.1.y2))

end Wires

/-! ## The fuel counter (`day1part2/fuelcounter.go`)

The masses are Go `int64` values. -/

namespace Fuel

open Intcode (wrap64)

/-- The function `fuelForMass`, the same in day1part1 and day1part2:
`mass/3 - 2` with the truncating division of Go. -/
def fuelForMass (mass : Int) : Int := wrap64 (Int.tdiv mass 3 - 2)

/-- The loop `for f := ...; f >= 0; f = fuelForMass(f) { fuel += f }` of
`fuelForModule`, from its test with the variables `f` and `fuel`, for at most
`n` tests; `none` when the loop has not ended by then. -/
def fuelLoop : Nat → Int → Int → Option Int
  | 0, _, _ => none
  | n + 1, f, fuel =>
    if f ≥ 0 then fuelLoop n (fuelForMass f) (wrap64 (fuel + f)) else some fuel

/-- The function `fuelForModule`, for at most `n` tests of its loop. -/
def fuelForModule (n : Nat) (mass : Int) : Option Int :=
  fuelLoop n (fuelForMass mass) 0

/-- The fuel for a mass as the specification words it: `m/3 - 2` with
truncating division, in exact integers. -/
def specFuelForMass (m : Int) : Int := Int.tdiv m 3 - 2

end Fuel

namespace Intcode

/-! ## Arithmetic of `wrap64` -/

theorem wrap64_eq {x : Int} (h1 : -2 ^ 63 ≤ x) (h2 : x < 2 ^ 63) : wrap64 x = x := by
  unfold wrap64
  rw [Int.emod_eq_of_lt (by omega) (by omega)]
  omega

theorem wrap64_range (x : Int) : -2 ^ 63 ≤ wrap64 x ∧ wrap64 x < 2 ^ 63 := by
  unfold wrap64
  have h1 := Int.emod_nonneg (x + 2 ^ 63) (show (2 : Int) ^ 64 ≠ 0 by norm_num)
  have h2 := Int.emod_lt_of_pos (x + 2 ^ 63) (show (0 : Int) < 2 ^ 64 by norm_num)
  constructor <;> omega

theorem wrap64_modEq (x : Int) : wrap64 x ≡ x [ZMOD 2 ^ 64] := by
  unfold wrap64
  have h : (x + 2 ^ 63) % 2 ^ 64 ≡ x + 2 ^ 63 [ZMOD 2 ^ 64] := Int.mod_modEq _ _
  have h2 := h.sub_right (2 ^ 63)
  rwa [add_sub_cancel_right] at h2

@[simp] theorem wrap64_two : wrap64 2 = 2 := by decide

@[simp] theorem wrap64_three : wrap64 3 = 3 := by decide

/-! ## The tape: `get` and `set` -/

theorem index_inside {mem : List Int} {i : Int} (h0 : 0 ≤ i) (h1 : i < mem.length) :
    index mem i = .ok (mem.getD i.toNat 0) := by
  simp [index, h0, h1]

theorem get_inside {σ : Type} (p : prog σ) {r : Int} (h0 : 0 ≤ r) (h1 : r < p.mem.length) :
    p.get r = .ok (p.mem.getD r.toNat 0) := by
  have h : ¬ r > p.mem.length := by omega
  simp [prog.get, h, index, h0, h1]

theorem get_beyond {σ : Type} (p : prog σ) {r : Int} (h : (p.mem.length : Int) < r) :
    p.get r = .ok 0 := by
  simp [prog.get, h]

theorem get_at_length {σ : Type} (p : prog σ) :
    p.get p.mem.length = .error (.indexOutOfRange p.mem.length p.mem.length) := by
  simp [prog.get, index]

theorem get_negative {σ : Type} (p : prog σ) {r : Int} (h : r < 0) :
    p.get r = .error (.indexOutOfRange r p.mem.length) := by
  have h1 : ¬ r > p.mem.length := by omega
  have h2 : ¬ 0 ≤ r := by omega
  simp [prog.get, index, h1, h2]

theorem set_inside {σ : Type} (p : prog σ) {r : Int} (v : Int) (h0 : 0 ≤ r)
    (h1 : r < p.mem.length) :
    p.set r v = ({ p with mem := p.mem.set r.toNat v }, none) := by
  have h : ¬ (p.mem.length : Int) ≤ r := by omega
  simp [prog.set, prog.store, h, h0, h1]

theorem set_negative {σ : Type} (p : prog σ) {r : Int} (v : Int) (h : r < 0) :
    p.set r v = (p, some (.indexOutOfRange r p.mem.length)) := by
  have h1 : ¬ (p.mem.length : Int) ≤ r := by omega
  have h2 : ¬ 0 ≤ r := by omega
  simp [prog.set, prog.store, h1, h2]

theorem set_at_length {σ : Type} (p : prog σ) (v : Int) (h : p.mem ≠ []) :
    p.set p.mem.length v = (p, some (.indexOutOfRange p.mem.length p.mem.length)) := by
  have hpos : 0 < p.mem.length := List.length_pos.mpr h
  simp [prog.set, growCap, prog.store]

/-- C1 (defect): on the two-word program `4,2` the read at address 2, the
length of the tape, does not return 0: `get` indexes the tape out of range and
panics, and so does `exec` at its first instruction. -/
theorem get_at_length_panics :
    (⟨([], []), [4, 2], 0⟩ : prog (List Int × List Int)).get 2
        = .error (.indexOutOfRange 2 2)
      ∧ exec listPort 1 ⟨([], []), [4, 2], 0⟩
        = some (some (.indexOutOfRange 2 2), ⟨([], []), [4, 2], 0⟩) := by
  constructor <;> rfl

/-- C2 (defect): on the one-word tape `99`, `set(1, 5)` does not grow the tape
and store 5: the capacity loop exits at once with `c = 1`, the new tape has one
slot, and the store at index 1 panics.  The same happens at address 6 of a
three-word tape, after the tape was reallocated with six slots. -/
theorem set_at_length_panics :
    (⟨(), [99], 0⟩ : prog Unit).set 1 5 = (⟨(), [99], 0⟩, some (.indexOutOfRange 1 1))
      ∧ (⟨(), [99, 1, 2], 0⟩ : prog Unit).set 6 5
        = (⟨(), [99, 1, 2, 0, 0, 0], 0⟩, some (.indexOutOfRange 6 6)) := by
  constructor <;> rfl

/-! ### The capacity loop of `set`

The loop is modelled with 65 tests.  The lemmas below show that nothing is lost:
a loop that has not exited after 65 tests never exits, whatever the fuel. -/

theorem growCap_none_iff (r : Int) (fuel : Nat) (c : Int) :
    growCap fuel c r = none ↔ ∀ k < fuel, (fun x => wrap64 (x * 2))^[k] c < r := by
  induction fuel generalizing c with
  | zero => simp [growCap]
  | succ fuel ih =>
    unfold growCap
    by_cases hc : c < r
    · simp only [hc, if_true, ih]
      constructor
      · intro h k hk
        cases k with
        | zero => simpa using hc
        | succ k => simpa [Function.iterate_succ_apply] using h k (by omega)
      · intro h k hk
        simpa [Function.iterate_succ_apply] using h (k + 1) (by omega)
    · simp only [hc, if_false]
      constructor
      · intro h
        simp at h
      · intro h
        exact absurd (by simpa using h 0 (by omega)) hc

theorem iterate_double_modEq (k : Nat) (c : Int) :
    (fun x => wrap64 (x * 2))^[k] c ≡ c * 2 ^ k [ZMOD 2 ^ 64] := by
  induction k generalizing c with
  | zero => simp [Int.ModEq.refl]
  | succ k ih =>
    rw [Function.iterate_succ_apply]
    have h1 := ih (wrap64 (c * 2))
    have h2 : wrap64 (c * 2) * 2 ^ k ≡ c * 2 * 2 ^ k [ZMOD 2 ^ 64] :=
      (wrap64_modEq (c * 2)).mul_right _
    have h3 : c * 2 * 2 ^ k = c * 2 ^ (k + 1) := by ring
    rw [h3] at h2
    exact h1.trans h2

theorem iterate_double_zero (k : Nat) (hk : 64 ≤ k) (c : Int) :
    (fun x => wrap64 (x * 2))^[k] c = 0 := by
  obtain ⟨j, rfl⟩ : ∃ j, k = j + 1 := ⟨k - 1, by omega⟩
  rw [Function.iterate_succ_apply']
  have h1 := (iterate_double_modEq j c).mul_right 2
  have h2 : c * 2 ^ j * 2 = (2 : Int) ^ 64 * (c * 2 ^ (j + 1 - 64)) := by
    have : (2 : Int) ^ (j + 1) = 2 ^ 64 * 2 ^ (j + 1 - 64) := by
      rw [← pow_add]
      congr 1
      omega
    calc c * 2 ^ j * 2 = c * 2 ^ (j + 1) := by ring
      _ = 2 ^ 64 * (c * 2 ^ (j + 1 - 64)) := by rw [this]; ring
  have h3 : (fun x => wrap64 (x * 2))^[j] c * 2 ≡ 0 [ZMOD 2 ^ 64] := by
    rw [h2] at h1
    exact h1.trans (Int.modEq_zero_iff_dvd.mpr (Dvd.intro _ rfl))
  have h4 : ((fun x => wrap64 (x * 2))^[j] c * 2) % 2 ^ 64 = 0 := h3
  show wrap64 ((fun x => wrap64 (x * 2))^[j] c * 2) = 0
  generalize (fun x => wrap64 (x * 2))^[j] c * 2 = y at h4
  unfold wrap64
  omega

theorem growCap_hangs (c r : Int) (h : growCap 65 c r = none) (fuel : Nat) :
    growCap fuel c r = none := by
  rw [growCap_none_iff] at h ⊢
  intro k _
  by_cases hk : k < 65
  · exact h k hk
  · rw [iterate_double_zero k (by omega) c]
    have := h 64 (by omega)
    rwa [iterate_double_zero 64 (le_refl _) c] at this

/-! ## The decoder -/

theorem exp10_pow (k : Nat) (hk : k ≤ 18) : exp10 (k : Int) = 10 ^ k := by
  interval_cases k <;> norm_num [exp10, exp10Loop, wrap64]

theorem readFlag_inside {σ : Type} (p : prog σ) {opn n : Int} (h0 : 0 ≤ opn)
    (h1 : opn < p.mem.length) (hn : 1 ≤ n ∧ n ≤ 3) :
    readFlag p opn n
      = .ok (Int.tmod (Int.tdiv (p.mem.getD opn.toNat 0) (10 ^ (n + 1).toNat)) 10) := by
  obtain ⟨hn1, hn3⟩ := hn
  have hcases : n = 1 ∨ n = 2 ∨ n = 3 := by omega
  rcases hcases with rfl | rfl | rfl <;>
    simp [readFlag, get_inside p h0 h1, exp10, wrap64]

/-- C4: for a non-negative instruction word `w` at the program counter and a
parameter index `1 ≤ n ≤ 3`, `readFlag` returns `⌊w / 10^(n+1)⌋ mod 10`; and
`exp10 k = 10^k` for every `0 ≤ k ≤ 18`. -/
theorem readFlag_mode_digit {σ : Type} (p : prog σ) (opn n w : Int)
    (hpc : 0 ≤ opn ∧ opn < p.mem.length) (hw : p.mem.getD opn.toNat 0 = w) (hw0 : 0 ≤ w)
    (hn : 1 ≤ n ∧ n ≤ 3) :
    readFlag p opn n = .ok (w / 10 ^ (n + 1).toNat % 10)
      ∧ ∀ k : Nat, k ≤ 18 → exp10 (k : Int) = 10 ^ k := by
  refine ⟨?_, exp10_pow⟩
  rw [readFlag_inside p hpc.1 hpc.2 hn, hw]
  have hp : (0 : Int) ≤ 10 ^ (n + 1).toNat := by positivity
  rw [Int.tdiv_eq_ediv hw0 hp, Int.tmod_eq_emod (Int.ediv_nonneg hw0 hp) (by norm_num)]

theorem readFlag_mode_digit_witness :
    readFlag (⟨(), [21002, 4, 3, 4, 33], 0⟩ : prog Unit) 0 3 = .ok (21002 / 10 ^ (3 + 1 : Int).toNat % 10)
      ∧ ∀ k : Nat, k ≤ 18 → exp10 (k : Int) = 10 ^ k :=
  readFlag_mode_digit ⟨(), [21002, 4, 3, 4, 33], 0⟩ 0 3 21002 (by decide) (by decide) (by decide)
    (by decide)

/-- C5: with `pc + n` inside the tape and `raw = tape[pc+n]`, `readParam`
returns, without error, the value stored at `raw` when the mode digit is 0 and
`raw` is inside the tape, `raw` itself when the digit is 1, and the value stored
at `rb + raw` when the digit is 2 and `rb + raw` is inside the tape.  The mode
digit is what `readFlag` returns; the length of a Go slice is below `2^63`. -/
theorem readParam_modes {σ : Type} (p : prog σ) (opn n raw f : Int)
    (hlen : (p.mem.length : Int) < 2 ^ 63) (hpc : 0 ≤ opn) (hn : 1 ≤ n ∧ n ≤ 3)
    (hin : opn + n < p.mem.length) (hraw : p.mem.getD (opn + n).toNat 0 = raw)
    (hf : readFlag p opn n = .ok f) :
    (f = 0 → 0 ≤ raw → raw < p.mem.length →
        readParam p opn n = .ok ⟨0, raw, 0, p.mem.getD raw.toNat 0⟩)
      ∧ (f = 1 → readParam p opn n = .ok ⟨1, -1, 0, raw⟩)
      ∧ (f = 2 → 0 ≤ p.base + raw → p.base + raw < p.mem.length →
        readParam p opn n
          = .ok ⟨2, p.base + raw, raw, p.mem.getD (p.base + raw).toNat 0⟩) := by
  have hw : wrap64 (opn + n) = opn + n := wrap64_eq (by omega) (by omega)
  have hg : p.get (opn + n) = .ok raw := by
    rw [get_inside p (by omega) hin, hraw]
  refine ⟨?_, ?_, ?_⟩
  · intro h0 hr0 hr1
    subst h0
    simp [readParam, hf, hw, hg, flagLit, flagPos, get_inside p hr0 hr1]
  · intro h1
    subst h1
    simp [readParam, hf, hw, hg, flagLit]
  · intro h2 hr0 hr1
    subst h2
    have hb : wrap64 (p.base + raw) = p.base + raw := wrap64_eq (by omega) (by omega)
    simp [readParam, hf, hw, hg, hb, flagLit, flagPos, flagRel, get_inside p hr0 hr1]

theorem readParam_modes_witness :
    readParam (⟨(), [1002, 4, 3, 4, 33], 0⟩ : prog Unit) 0 1 = .ok ⟨0, 4, 0, 33⟩
      ∧ readParam (⟨(), [1102, 4, 3, 4, 33], 0⟩ : prog Unit) 0 1 = .ok ⟨1, -1, 0, 4⟩
      ∧ readParam (⟨(), [202, 4, 3, 4, 33, 7], 1⟩ : prog Unit) 0 1 = .ok ⟨2, 5, 4, 7⟩ :=
  ⟨(readParam_modes ⟨(), [1002, 4, 3, 4, 33], 0⟩ 0 1 4 0 (by decide) (by decide) (by decide)
      (by decide) rfl rfl).1 rfl (by decide) (by decide),
    (readParam_modes ⟨(), [1102, 4, 3, 4, 33], 0⟩ 0 1 4 1 (by decide) (by decide) (by decide)
      (by decide) rfl rfl).2.1 rfl,
    (readParam_modes ⟨(), [202, 4, 3, 4, 33, 7], 1⟩ 0 1 4 2 (by decide) (by decide) (by decide)
      (by decide) rfl rfl).2.2 rfl (by decide) (by decide)⟩

theorem readParam_negative {σ : Type} (p : prog σ) {opn n addr : Int}
    (h : readAddr p opn n = .ok addr) (hneg : addr < 0) :
    readParam p opn n = .error (.indexOutOfRange addr p.mem.length) := by
  unfold readAddr at h
  unfold readParam
  cases hf : readFlag p opn n with
  | error e => simp [hf] at h
  | ok f =>
    simp only [hf] at h ⊢
    by_cases h1 : f = flagLit
    · simp [h1] at h
    · by_cases h0 : f = flagPos
      · simp only [h1, h0, if_true, if_false] at h ⊢
        rw [if_neg (by decide)] at h ⊢
        simp [h, get_negative p hneg]
      · by_cases h2 : f = flagRel
        · simp only [h1, h0, h2, if_true, if_false] at h ⊢
          rw [if_neg (by decide), if_neg (by decide)] at h ⊢
          cases hr : p.get (wrap64 (opn + n)) with
          | error e => simp [hr] at h
          | ok r =>
            simp only [hr] at h ⊢
            have ha : wrap64 (p.base + r) = addr := by simpa using h
            simp [ha, get_negative p hneg]
        · simp [h1, h0, h2] at h

theorem writeBack_negative {σ : Type} (p : prog σ) (opn v : Int) {addr : Int} (hneg : addr < 0) :
    writeBack p opn addr v = .fail (.indexOutOfRange addr p.mem.length) p := by
  simp [writeBack, set_negative p v hneg]

theorem readParamParamAddr_negative {σ : Type} (p : prog σ) {opn n addr : Int}
    (hn : n = 1 ∨ n = 2 ∨ n = 3) (h : readAddr p opn n = .ok addr) (hneg : addr < 0) :
    (∃ e, readParamParamAddr p opn 1 = .error e)
      ∨ ∃ a b, readParamParamAddr p opn 1 = .ok (a, b, addr) := by
  unfold readParamParamAddr readParamParam
  rcases hn with rfl | rfl | rfl
  · simp [readParam_negative p h hneg]
  · cases h1 : readParam p opn 1 with
    | error e => simp
    | ok a => simp [readParam_negative p h hneg]
  · cases h1 : readParam p opn 1 with
    | error e => simp
    | ok a =>
      cases h2 : readParam p opn 2 with
      | error e => simp [h2]
      | ok b => simp [h2, h]

theorem readParamParam_negative {σ : Type} (p : prog σ) {opn n addr : Int}
    (hn : n = 1 ∨ n = 2) (h : readAddr p opn n = .ok addr) (hneg : addr < 0) :
    ∃ e, readParamParam p opn 1 = .error e := by
  unfold readParamParam
  rcases hn with rfl | rfl
  · simp [readParam_negative p h hneg]
  · cases h1 : readParam p opn 1 with
    | error e => simp
    | ok a => simp [readParam_negative p h hneg]

theorem arith_negative {σ : Type} (p : prog σ) {opn n addr : Int} (code : Int)
    (val : param → param → Int)
    (hn : n = 1 ∨ n = 2 ∨ n = 3) (h : readAddr p opn n = .ok addr) (hneg : addr < 0) :
    ∃ flt, (match readParamParamAddr p opn 1 with
      | .error f => Step.fail (f.inOp code) p
      | .ok (a, b, ans) => writeBack p opn ans (val a b)) = .fail flt p := by
  rcases readParamParamAddr_negative p hn h hneg with ⟨e, he⟩ | ⟨a, b, hab⟩
  · exact ⟨e.inOp code, by simp [he]⟩
  · exact ⟨.indexOutOfRange addr p.mem.length, by simp [hab, writeBack_negative p opn _ hneg]⟩

theorem step_negative {σ : Type} (io : Port σ) (p : prog σ) (opn op n addr : Int)
    (hfetch : index p.mem opn = .ok op) (hn1 : 1 ≤ n) (hn : n ≤ paramCount (Int.tmod op 100))
    (h : readAddr p opn n = .ok addr) (hneg : addr < 0) :
    ∃ flt q, step io opn p = .fail flt q ∧ q.mem = p.mem ∧ q.base = p.base := by
  unfold paramCount at hn
  unfold step
  simp only [hfetch]
  split_ifs at hn with hc1 hc2 hc3
  · have hn3 : n = 1 ∨ n = 2 ∨ n = 3 := by omega
    rcases hc1 with hc | hc | hc | hc <;> simp only [hc] <;> norm_num <;>
      obtain ⟨flt, hflt⟩ := arith_negative p _ _ hn3 h hneg <;>
      exact ⟨flt, p, hflt, rfl, rfl⟩
  · have hn2 : n = 1 ∨ n = 2 := by omega
    obtain ⟨e, he⟩ := readParamParam_negative p hn2 h hneg
    rcases hc2 with hc | hc <;> simp only [hc, he] <;> norm_num <;>
      exact ⟨_, p, ⟨rfl, rfl⟩, rfl, rfl⟩
  · have hn0 : n = 1 := by omega
    subst hn0
    rcases hc3 with hc | hc | hc <;> simp only [hc] <;> norm_num
    · simp only [h]
      rcases hin : io.Input p.io with ⟨r, s⟩
      cases r with
      | error e => exact ⟨_, _, rfl, rfl, rfl⟩
      | ok v =>
        simp only [set_negative _ v hneg]
        exact ⟨_, _, rfl, rfl, rfl⟩
    · simp only [readParam_negative p h hneg]
      exact ⟨_, p, rfl, rfl, rfl⟩
    · simp only [readParam_negative p h hneg]
      exact ⟨_, p, rfl, rfl, rfl⟩
  · omega

/-- C3: for every tape and every address `addr < 0`, `get(addr)` fails (the
index expression panics) instead of returning a value, and `set(addr, v)` fails
the same way and leaves the tape unchanged; consequently an instruction one of
whose parameters resolves, in positional or relative mode (that is, `readAddr`
decodes it to an address), to a negative address makes `exec` fail at that
instruction with the tape and the relative base unchanged. -/
theorem negative_address_fails {σ : Type} :
    (∀ (p : prog σ) (addr : Int), addr < 0 →
        p.get addr = .error (.indexOutOfRange addr p.mem.length))
      ∧ (∀ (p : prog σ) (addr v : Int), addr < 0 →
        p.set addr v = (p, some (.indexOutOfRange addr p.mem.length)))
      ∧ (∀ (io : Port σ) (p : prog σ) (opn op n addr : Int),
        index p.mem opn = .ok op → 1 ≤ n → n ≤ paramCount (Int.tmod op 100) →
        readAddr p opn n = .ok addr → addr < 0 →
        ∃ flt q, step io opn p = .fail flt q ∧ q.mem = p.mem ∧ q.base = p.base
          ∧ ∀ fuel, execFrom io (fuel + 1) opn p = some (some flt, q)) := by
  refine ⟨fun p addr h => get_negative p h, fun p addr v h => set_negative p v h, ?_⟩
  intro io p opn op n addr hfetch hn1 hn h hneg
  obtain ⟨flt, q, hs, hm, hb⟩ := step_negative io p opn op n addr hfetch hn1 hn h hneg
  refine ⟨flt, q, hs, hm, hb, fun fuel => ?_⟩
  have hlt : opn < p.mem.length := by
    unfold index at hfetch
    split_ifs at hfetch with hc
    exact hc.2
  simp [execFrom, hlt, hs]

theorem negative_address_fails_witness :
    (⟨(), [1001, -1, 5, 0], 0⟩ : prog Unit).get (-1) = .error (.indexOutOfRange (-1) 4)
      ∧ (⟨(), [1001, -1, 5, 0], 0⟩ : prog Unit).set (-1) 7
        = (⟨(), [1001, -1, 5, 0], 0⟩, some (.indexOutOfRange (-1) 4))
      ∧ ∃ flt q, step ⟨fun s => (.ok 0, s), fun s _ => (none, s)⟩ 0
            (⟨(), [1001, -1, 5, 0], 0⟩ : prog Unit) = .fail flt q
          ∧ q.mem = [1001, -1, 5, 0] ∧ q.base = 0
          ∧ ∀ fuel, execFrom ⟨fun s => (.ok 0, s), fun s _ => (none, s)⟩ (fuel + 1) 0
            (⟨(), [1001, -1, 5, 0], 0⟩ : prog Unit) = some (some flt, q) :=
  ⟨negative_address_fails.1 ⟨(), [1001, -1, 5, 0], 0⟩ (-1) (by decide),
    negative_address_fails.2.1 ⟨(), [1001, -1, 5, 0], 0⟩ (-1) 7 (by decide),
    negative_address_fails.2.2 ⟨fun s => (.ok 0, s), fun s _ => (none, s)⟩
      ⟨(), [1001, -1, 5, 0], 0⟩ 0 1001 1 (-1) rfl (by decide) (by decide) rfl (by decide)⟩

/-! ## One step of `exec` -/

theorem index_ok {mem : List Int} {i v : Int} (h : index mem i = .ok v) :
    0 ≤ i ∧ i < mem.length ∧ v = mem.getD i.toNat 0 := by
  unfold index at h
  split_ifs at h with hc
  exact ⟨hc.1, hc.2, by simpa using h.symm⟩

theorem execFrom_fail {σ : Type} (io : Port σ) (p q : prog σ) {opn op : Int} {flt : Fault}
    (hfetch : index p.mem opn = .ok op) (hs : step io opn p = .fail flt q) (fuel : Nat) :
    execFrom io (fuel + 1) opn p = some (some flt, q) := by
  simp [execFrom, (index_ok hfetch).2.1, hs]

theorem readParamParamAddr_literal {σ : Type} (p : prog σ) {opn : Int}
    (hflag : readFlag p opn 3 = .ok flagLit) :
    (∃ flt, readParamParamAddr p opn 1 = .error flt)
      ∧ ∀ a b, readParamParam p opn 1 = .ok (a, b) →
        readParamParamAddr p opn 1 = .error (.error (.literalAddr (wrap64 (opn + 3)))) := by
  have hA : readAddr p opn 3 = .error (.error (.literalAddr (wrap64 (opn + 3)))) := by
    simp [readAddr, hflag]
  constructor
  · unfold readParamParamAddr
    cases hab : readParamParam p opn 1 with
    | error e => exact ⟨e, rfl⟩
    | ok ab => exact ⟨.error (.literalAddr (wrap64 (opn + 3))), by simp [hA]⟩
  · intro a b hab
    simp [readParamParamAddr, hab, hA]

/-- C6 (as stated, refuted): the tape `10001,-1,0,0` has an Add instruction
(opcode 1) at counter 0 whose third parameter has mode digit 1, yet `exec` does
not return an error there: decoding the first operand, at address -1, panics. -/
theorem immediate_target_counterexample :
    index [10001, -1, 0, 0] 0 = .ok 10001
      ∧ Int.tmod 10001 100 = 1
      ∧ readFlag (⟨([], []), [10001, -1, 0, 0], 0⟩ : prog (List Int × List Int)) 0 3
        = .ok flagLit
      ∧ exec listPort 1 ⟨([], []), [10001, -1, 0, 0], 0⟩
        = some (some (.indexOutOfRange (-1) 4), ⟨([], []), [10001, -1, 0, 0], 0⟩)
      ∧ ¬ ∃ e q, exec listPort 1 ⟨([], []), [10001, -1, 0, 0], 0⟩
        = some (some (.error e), q) := by
  refine ⟨rfl, rfl, rfl, rfl, ?_⟩
  rintro ⟨e, q, h⟩
  have h2 : exec listPort 1 ⟨([], []), [10001, -1, 0, 0], 0⟩
      = some (some (.indexOutOfRange (-1) 4), ⟨([], []), [10001, -1, 0, 0], 0⟩) := rfl
  rw [h2] at h
  simp at h

/-- C6 (amended): when the instruction at the counter has opcode 1, 2, 3, 7 or
8 and its write-target parameter has mode digit 1, `exec` stops at that
instruction with the tape, the relative base and the port exactly as they
were (nothing is written, no input is consumed).  For opcode 3 it returns the
error `wanted pointer but literal`; for opcodes 1, 2, 7, 8 it returns that error
whenever the first two operands can be read, and otherwise stops with the fault
raised while reading them. -/
theorem immediate_target_rejected {σ : Type} (io : Port σ) (p : prog σ) (opn op : Int)
    (hfetch : index p.mem opn = .ok op) :
    (Int.tmod op 100 = 3 → readFlag p opn 1 = .ok flagLit →
        ∀ fuel, execFrom io (fuel + 1) opn p
          = some (some (.error (.inOp 3 (.literalAddr (wrap64 (opn + 1))))), p))
      ∧ (∀ c : Int, c = 1 ∨ c = 2 ∨ c = 7 ∨ c = 8 → Int.tmod op 100 = c →
        readFlag p opn 3 = .ok flagLit →
        (∃ flt, ∀ fuel, execFrom io (fuel + 1) opn p = some (some flt, p))
          ∧ ∀ a b, readParamParam p opn 1 = .ok (a, b) →
            ∀ fuel, execFrom io (fuel + 1) opn p
              = some (some (.error (.inOp c (.literalAddr (wrap64 (opn + 3))))), p)) := by
  constructor
  · intro hc hflag fuel
    apply execFrom_fail io p p hfetch
    simp [step, hfetch, hc, readAddr, hflag, Fault.inOp]
  · intro c hcs hc hflag
    obtain ⟨⟨flt, h1⟩, h2⟩ := readParamParamAddr_literal p hflag
    constructor
    · refine ⟨flt.inOp c, fun fuel => execFrom_fail io p p hfetch ?_ fuel⟩
      rcases hcs with rfl | rfl | rfl | rfl <;> simp [step, hfetch, hc, h1]
    · intro a b hab fuel
      apply execFrom_fail io p p hfetch
      rcases hcs with rfl | rfl | rfl | rfl <;> simp [step, hfetch, hc, h2 a b hab, Fault.inOp]

theorem immediate_target_rejected_witness :
    (∀ fuel, execFrom listPort (fuel + 1) 0 ⟨([5], []), [103, 0, 99], 0⟩
        = some (some (.error (.inOp 3 (.literalAddr (wrap64 (0 + 1))))),
            ⟨([5], []), [103, 0, 99], 0⟩))
      ∧ ∀ fuel, execFrom listPort (fuel + 1) 0 ⟨([5], []), [11102, 2, 3, 0, 99], 0⟩
        = some (some (.error (.inOp 2 (.literalAddr (wrap64 (0 + 3))))),
            ⟨([5], []), [11102, 2, 3, 0, 99], 0⟩) :=
  ⟨(immediate_target_rejected listPort ⟨([5], []), [103, 0, 99], 0⟩ 0 103 rfl).1 rfl rfl,
    ((immediate_target_rejected listPort ⟨([5], []), [11102, 2, 3, 0, 99], 0⟩ 0 11102 rfl).2
      2 (by decide) rfl rfl).2 ⟨1, -1, 0, 2⟩ ⟨1, -1, 0, 3⟩ rfl⟩

/-- C7 (defect): on the program `1101,1,1,4` the Add instruction at counter 0
has operands 1 and 1 and write address 4, the length of the tape; `exec` does
not store 2 at address 4 and go on at counter 4: `set` reallocates four slots
and the store at index 4 panics.  This is the defect of `set` shown for C2. -/
theorem add_at_length_panics :
    readParamParamAddr (⟨([], []), [1101, 1, 1, 4], 0⟩ : prog (List Int × List Int)) 0 1
        = .ok (⟨1, -1, 0, 1⟩, ⟨1, -1, 0, 1⟩, 4)
      ∧ step listPort 0 ⟨([], []), [1101, 1, 1, 4], 0⟩
        = .fail (.indexOutOfRange 4 4) ⟨([], []), [1101, 1, 1, 4], 0⟩
      ∧ exec listPort 1 ⟨([], []), [1101, 1, 1, 4], 0⟩
        = some (some (.indexOutOfRange 4 4), ⟨([], []), [1101, 1, 1, 4], 0⟩) := by
  refine ⟨rfl, rfl, rfl⟩

theorem getD_set_self (l : List Int) {i : Nat} (v : Int) (h : i < l.length) :
    (l.set i v).getD i 0 = v := by
  simp [List.getD_eq_getElem?_getD, h]

theorem getD_set_other (l : List Int) {i j : Nat} (v : Int) (h : j ≠ i) :
    (l.set i v).getD j 0 = l.getD j 0 := by
  simp [List.getD_eq_getElem?_getD, List.getElem?_set_ne (Ne.symm h)]

theorem writeBack_inside {σ : Type} (p : prog σ) {opn d : Int} (v : Int)
    (hpc : 0 ≤ opn) (hpc1 : opn < p.mem.length) (hlen : (p.mem.length : Int) < 2 ^ 62)
    (hd0 : 0 ≤ d) (hd1 : d < p.mem.length) :
    writeBack p opn d v = .next (opn + 4) { p with mem := p.mem.set d.toNat v } := by
  have hw : wrap64 (opn + 4) = opn + 4 := wrap64_eq (by omega) (by omega)
  simp [writeBack, set_inside p v hd0 hd1, hw]

theorem arith_inside {σ : Type} (p : prog σ) {opn d : Int} {a b : param} (code : Int)
    (val : param → param → Int)
    (hpc : 0 ≤ opn) (hpc1 : opn < p.mem.length) (hlen : (p.mem.length : Int) < 2 ^ 62)
    (hab : readParamParam p opn 1 = .ok (a, b)) (hd : readAddr p opn 3 = .ok d)
    (hd0 : 0 ≤ d) (hd1 : d < p.mem.length) :
    (match readParamParamAddr p opn 1 with
      | .error f => Step.fail (f.inOp code) p
      | .ok (a, b, ans) => writeBack p opn ans (val a b))
      = .next (opn + 4) { p with mem := p.mem.set d.toNat (val a b) } := by
  have h : readParamParamAddr p opn 1 = .ok (a, b, d) := by
    simp [readParamParamAddr, hab, hd]
  simp only [h]
  exact writeBack_inside p _ hpc hpc1 hlen hd0 hd1

/-- C8: for a Multiply instruction (opcode 2) at the counter whose operands
resolve to `a` and `b` and whose write address `d` lies inside the tape, one
step of `exec` stores at `d` the product reduced to a signed 64-bit integer
(in `[-2^63, 2^63)` and congruent to `a * b` modulo `2^64`), changes no other
address, the length, the relative base or the port, and goes on at `pc + 4`.
The tape is shorter than `2^62` words, so that `pc + 4` does not overflow. -/
theorem mul_step {σ : Type} (io : Port σ) (p : prog σ) (opn op d : Int) (a b : param)
    (hlen : (p.mem.length : Int) < 2 ^ 62)
    (hfetch : index p.mem opn = .ok op) (hop : Int.tmod op 100 = 2)
    (hab : readParamParam p opn 1 = .ok (a, b)) (hd : readAddr p opn 3 = .ok d)
    (hd0 : 0 ≤ d) (hd1 : d < p.mem.length) :
    ∃ q, step io opn p = .next (opn + 4) q
      ∧ q = { p with mem := p.mem.set d.toNat (wrap64 (a.v * b.v)) }
      ∧ q.mem.getD d.toNat 0 = wrap64 (a.v * b.v)
      ∧ (-2 ^ 63 ≤ wrap64 (a.v * b.v) ∧ wrap64 (a.v * b.v) < 2 ^ 63
        ∧ wrap64 (a.v * b.v) ≡ a.v * b.v [ZMOD 2 ^ 64])
      ∧ (∀ i : Nat, i ≠ d.toNat → q.mem.getD i 0 = p.mem.getD i 0)
      ∧ q.mem.length = p.mem.length := by
  obtain ⟨h0, h1, _⟩ := index_ok hfetch
  refine ⟨_, ?_, rfl, ?_, ⟨(wrap64_range _).1, (wrap64_range _).2, wrap64_modEq _⟩, ?_, ?_⟩
  · simp only [step, hfetch, hop]
    norm_num
    exact arith_inside p 2 (fun a b => wrap64 (a.v * b.v)) h0 h1 hlen hab hd hd0 hd1
  · exact getD_set_self _ _ (by omega)
  · intro i hi
    exact getD_set_other _ _ hi
  · simp

theorem mul_step_witness :
    ∃ q, step listPort 0 ⟨([], []), [1002, 4, 3, 4, 33], 0⟩ = .next 4 q
      ∧ q.mem = [1002, 4, 3, 4, 99] := by
  obtain ⟨q, h1, h2, _⟩ :=
    mul_step listPort ⟨([], []), [1002, 4, 3, 4, 33], 0⟩ 0 1002 4 ⟨0, 4, 0, 33⟩ ⟨1, -1, 0, 3⟩
      (by decide) rfl rfl rfl rfl (by decide) (by decide)
  exact ⟨q, h1, by rw [h2]; rfl⟩

theorem day9_les_equ {σ : Type} (io : Port σ) (p : prog σ) (opn op d : Int) (a b : param)
    (hlen : (p.mem.length : Int) < 2 ^ 62)
    (hfetch : index p.mem opn = .ok op)
    (hab : readParamParam p opn 1 = .ok (a, b)) (hd : readAddr p opn 3 = .ok d)
    (hd0 : 0 ≤ d) (hd1 : d < p.mem.length) :
    (Int.tmod op 100 = 7 → step io opn p
        = .next (opn + 4) { p with mem := p.mem.set d.toNat (if a.v < b.v then 1 else 0) })
      ∧ (Int.tmod op 100 = 8 → step io opn p
        = .next (opn + 4) { p with mem := p.mem.set d.toNat (if a.v = b.v then 1 else 0) }) := by
  obtain ⟨h0, h1, _⟩ := index_ok hfetch
  constructor
  · intro hop
    simp only [step, hfetch, hop]
    norm_num
    exact arith_inside p 7 (fun a b => if a.v < b.v then 1 else 0) h0 h1 hlen hab hd hd0 hd1
  · intro hop
    simp only [step, hfetch, hop]
    norm_num
    exact arith_inside p 8 (fun a b => if a.v = b.v then 1 else 0) h0 h1 hlen hab hd hd0 hd1

/-- C10: for an Input instruction (opcode 3) at the counter whose parameter
resolves, in positional or relative mode, to an address `d` inside the tape,
when `Input` of the port yields `v` without error (leaving the port in state
`s`): one step of `exec` calls `Input` once and `Output` not at all (the port
is left in state `s`), stores `v` at `d`, leaves every other address, the
length and the relative base unchanged, and goes on at `pc + 2`.  The tape is
shorter than `2^62` words, so that `pc + 2` does not overflow. -/
theorem input_step {σ : Type} (io : Port σ) (p : prog σ) (opn op d v : Int) (s : σ)
    (hlen : (p.mem.length : Int) < 2 ^ 62)
    (hfetch : index p.mem opn = .ok op) (hop : Int.tmod op 100 = 3)
    (hd : readAddr p opn 1 = .ok d) (hd0 : 0 ≤ d) (hd1 : d < p.mem.length)
    (hin : io.Input p.io = (.ok v, s)) :
    ∃ q, step io opn p = .next (opn + 2) q
      ∧ q = { io := s, mem := p.mem.set d.toNat v, base := p.base }
      ∧ q.mem.getD d.toNat 0 = v
      ∧ (∀ i : Nat, i ≠ d.toNat → q.mem.getD i 0 = p.mem.getD i 0)
      ∧ q.mem.length = p.mem.length := by
  obtain ⟨h0, h1, _⟩ := index_ok hfetch
  have hw : wrap64 (opn + 2) = opn + 2 := wrap64_eq (by omega) (by omega)
  refine ⟨_, ?_, rfl, ?_, ?_, ?_⟩
  · have hset := set_inside ({ p with io := s } : prog σ) v hd0 hd1
    simp only [step, hfetch, hop, hd, hin]
    norm_num
    simp only [hset, hw]
  · exact getD_set_self _ _ (by omega)
  · intro i hi
    exact getD_set_other _ _ hi
  · simp

theorem input_step_witness :
    step listPort 0 ⟨([42, 7], [1]), [3, 0, 4, 0, 99], 0⟩
      = .next 2 ⟨([7], [1]), [42, 0, 4, 0, 99], 0⟩ := by
  obtain ⟨q, h1, h2, _⟩ :=
    input_step listPort ⟨([42, 7], [1]), [3, 0, 4, 0, 99], 0⟩ 0 3 0 42 ([7], [1])
      (by decide) rfl rfl rfl (by decide) (by decide) rfl
  rw [h1, h2]
  rfl

theorem day7_les_equ {σ : Type} (io : Port σ) (intcode : List Int) (s : σ)
    (opn op d : Int) (a b : Day7.param)
    (hlen : (intcode.length : Int) < 2 ^ 62)
    (hfetch : index intcode opn = .ok op)
    (hab : Day7.readParamParam intcode opn 1 = .ok (a, b))
    (hd : Day7.readAddr intcode opn 3 = .ok d)
    (hd0 : 0 ≤ d) (hd1 : d < intcode.length) :
    (Int.tmod op 100 = 7 → Day7.step io opn intcode s
        = .next (opn + 4) (intcode.set d.toNat (if a.v < b.v then 1 else 0)) s)
      ∧ (Int.tmod op 100 = 8 → Day7.step io opn intcode s
        = .next (opn + 4) (intcode.set d.toNat (if a.v = b.v then 1 else 0)) s) := by
  obtain ⟨h0, h1, _⟩ := index_ok hfetch
  have hw : wrap64 (opn + 4) = opn + 4 := wrap64_eq (by omega) (by omega)
  have h : Day7.readParamParamAddr intcode opn 1 = .ok (a, b, d) := by
    simp [Day7.readParamParamAddr, hab, hd]
  constructor <;> intro hop <;>
    simp only [Day7.step, hfetch, hop, h, Day7.assign, hw] <;> norm_num <;>
    exact fun hc => absurd hd1 (not_lt.mpr (hc hd0))

/-- C9: for a Less-than (opcode 7) or Equals (opcode 8) instruction at the
counter whose operands resolve to `a` and `b` and whose write address `d` lies
inside the tape, one step of `exec` stores at `d` exactly 1 when `a < b`
(opcode 7) or `a = b` (opcode 8) and exactly 0 otherwise, changes no other
address (nor the length, the relative base or the port) and goes on at
`pc + 4`; in day9part1 (first part) and in day7part1 (second part).  The tape
is shorter than `2^62` words, so that `pc + 4` does not overflow. -/
theorem les_equ_step {σ : Type} (io : Port σ) :
    (∀ (p : prog σ) (opn op d : Int) (a b : param),
        (p.mem.length : Int) < 2 ^ 62 → index p.mem opn = .ok op →
        (Int.tmod op 100 = 7 ∨ Int.tmod op 100 = 8) →
        readParamParam p opn 1 = .ok (a, b) → readAddr p opn 3 = .ok d →
        0 ≤ d → d < p.mem.length →
        ∃ q, step io opn p = .next (opn + 4) q
          ∧ q.io = p.io ∧ q.base = p.base ∧ q.mem.length = p.mem.length
          ∧ q.mem.getD d.toNat 0
            = (if Int.tmod op 100 = 7 then (if a.v < b.v then 1 else 0)
                else (if a.v = b.v then 1 else 0))
          ∧ ∀ i : Nat, i ≠ d.toNat → q.mem.getD i 0 = p.mem.getD i 0)
      ∧ (∀ (intcode : List Int) (s : σ) (opn op d : Int) (a b : Day7.param),
        (intcode.length : Int) < 2 ^ 62 → index intcode opn = .ok op →
        (Int.tmod op 100 = 7 ∨ Int.tmod op 100 = 8) →
        Day7.readParamParam intcode opn 1 = .ok (a, b) → Day7.readAddr intcode opn 3 = .ok d →
        0 ≤ d → d < intcode.length →
        ∃ m, Day7.step io opn intcode s = .next (opn + 4) m s
          ∧ m.length = intcode.length
          ∧ m.getD d.toNat 0
            = (if Int.tmod op 100 = 7 then (if a.v < b.v then 1 else 0)
                else (if a.v = b.v then 1 else 0))
          ∧ ∀ i : Nat, i ≠ d.toNat → m.getD i 0 = intcode.getD i 0) := by
  constructor
  · intro p opn op d a b hlen hfetch hop hab hd hd0 hd1
    obtain ⟨h7, h8⟩ := day9_les_equ io p opn op d a b hlen hfetch hab hd hd0 hd1
    rcases hop with hop | hop
    · refine ⟨_, h7 hop, rfl, rfl, by simp, ?_, fun i hi => getD_set_other _ _ hi⟩
      rw [if_pos hop]
      exact getD_set_self _ _ (by omega)
    · refine ⟨_, h8 hop, rfl, rfl, by simp, ?_, fun i hi => getD_set_other _ _ hi⟩
      have hne : ¬ Int.tmod op 100 = 7 := by rw [hop]; decide
      rw [if_neg hne]
      exact getD_set_self _ _ (by omega)
  · intro intcode s opn op d a b hlen hfetch hop hab hd hd0 hd1
    obtain ⟨h7, h8⟩ := day7_les_equ io intcode s opn op d a b hlen hfetch hab hd hd0 hd1
    rcases hop with hop | hop
    · refine ⟨_, h7 hop, by simp, ?_, fun i hi => getD_set_other _ _ hi⟩
      rw [if_pos hop]
      exact getD_set_self _ _ (by omega)
    · refine ⟨_, h8 hop, by simp, ?_, fun i hi => getD_set_other _ _ hi⟩
      have hne : ¬ Int.tmod op 100 = 7 := by rw [hop]; decide
      rw [if_neg hne]
      exact getD_set_self _ _ (by omega)

theorem les_equ_step_witness :
    (∃ q, step listPort 0 ⟨([], []), [1107, 3, 8, 5, 99, 7], 0⟩ = .next 4 q
        ∧ q.mem.getD 5 0 = 1)
      ∧ (∃ q, step listPort 0 ⟨([], []), [8, 5, 6, 5, 99, 7, 8], 0⟩ = .next 4 q
        ∧ q.mem.getD 5 0 = 0)
      ∧ (∃ m, Day7.step listPort 0 [1107, 3, 8, 5, 99, 7] ([], []) = .next 4 m ([], [])
        ∧ m.getD 5 0 = 1)
      ∧ ∃ m, Day7.step listPort 0 [8, 5, 6, 5, 99, 7, 8] ([], []) = .next 4 m ([], [])
        ∧ m.getD 5 0 = 0 := by
  obtain ⟨q1, h1, _, _, _, g1, _⟩ :=
    (les_equ_step listPort).1 ⟨([], []), [1107, 3, 8, 5, 99, 7], 0⟩ 0 1107 5
      ⟨1, -1, 0, 3⟩ ⟨1, -1, 0, 8⟩ (by decide) rfl (Or.inl rfl) rfl rfl (by decide) (by decide)
  obtain ⟨q2, h2, _, _, _, g2, _⟩ :=
    (les_equ_step listPort).1 ⟨([], []), [8, 5, 6, 5, 99, 7, 8], 0⟩ 0 8 5
      ⟨0, 5, 0, 7⟩ ⟨0, 6, 0, 8⟩ (by decide) rfl (Or.inr rfl) rfl rfl (by decide) (by decide)
  obtain ⟨m3, h3, _, g3, _⟩ :=
    (les_equ_step listPort).2 [1107, 3, 8, 5, 99, 7] ([], []) 0 1107 5
      ⟨-1, 3⟩ ⟨-1, 8⟩ (by decide) rfl (Or.inl rfl) rfl rfl (by decide) (by decide)
  obtain ⟨m4, h4, _, g4, _⟩ :=
    (les_equ_step listPort).2 [8, 5, 6, 5, 99, 7, 8] ([], []) 0 8 5
      ⟨5, 7⟩ ⟨6, 8⟩ (by decide) rfl (Or.inr rfl) rfl rfl (by decide) (by decide)
  exact ⟨⟨q1, h1, g1⟩, ⟨q2, h2, g2⟩, ⟨m3, h3, g3⟩, ⟨m4, h4, g4⟩⟩

/-! ## Output, jumps and the relative base -/

/-- C11: for an Output instruction (opcode 4) at the counter whose parameter
resolves to the value `a = src.v`, when `Output` of the port succeeds (leaving
the port in state `s`): one step of `exec` calls `Output` once, with `a`, and
`Input` not at all (the port is left in state `s`), leaves the tape and the
relative base unchanged, and goes on at `pc + 2`.  The tape is shorter than
`2^62` words, so that `pc + 2` does not overflow. -/
theorem output_step {σ : Type} (io : Port σ) (p : prog σ) (opn op : Int) (src : param) (s : σ)
    (hlen : (p.mem.length : Int) < 2 ^ 62)
    (hfetch : index p.mem opn = .ok op) (hop : Int.tmod op 100 = 4)
    (hsrc : readParam p opn 1 = .ok src) (hout : io.Output p.io src.v = (none, s)) :
    step io opn p = .next (opn + 2) { io := s, mem := p.mem, base := p.base } := by
  obtain ⟨h0, h1, _⟩ := index_ok hfetch
  have hw : wrap64 (opn + 2) = opn + 2 := wrap64_eq (by omega) (by omega)
  simp only [step, hfetch, hop, hsrc, hout]
  norm_num
  exact hw

theorem output_step_witness :
    step listPort 0 ⟨([9], [1]), [4, 2, 99], 0⟩ = .next 2 ⟨([9], [1, 99]), [4, 2, 99], 0⟩ :=
  output_step listPort ⟨([9], [1]), [4, 2, 99], 0⟩ 0 4 ⟨0, 2, 0, 99⟩ ([9], [1, 99])
    (by decide) rfl rfl rfl rfl

theorem day9_jump {σ : Type} (io : Port σ) (p : prog σ) (opn op : Int) (c t : param)
    (hlen : (p.mem.length : Int) < 2 ^ 62) (hfetch : index p.mem opn = .ok op)
    (hct : readParamParam p opn 1 = .ok (c, t)) :
    (Int.tmod op 100 = 5 → step io opn p = .next (if c.v ≠ 0 then t.v else opn + 3) p)
      ∧ (Int.tmod op 100 = 6 → step io opn p = .next (if c.v = 0 then t.v else opn + 3) p) := by
  obtain ⟨h0, h1, _⟩ := index_ok hfetch
  have hw : wrap64 (opn + 3) = opn + 3 := wrap64_eq (by omega) (by omega)
  constructor <;> intro hop <;> simp only [step, hfetch, hop, hct, hw] <;> norm_num <;>
    split_ifs <;> rfl

theorem day7_jump {σ : Type} (io : Port σ) (intcode : List Int) (s : σ) (opn op : Int)
    (c t : Day7.param)
    (hlen : (intcode.length : Int) < 2 ^ 62) (hfetch : index intcode opn = .ok op)
    (hct : Day7.readParamParam intcode opn 1 = .ok (c, t)) :
    (Int.tmod op 100 = 5 →
        Day7.step io opn intcode s = .next (if c.v ≠ 0 then t.v else opn + 3) intcode s)
      ∧ (Int.tmod op 100 = 6 →
        Day7.step io opn intcode s = .next (if c.v = 0 then t.v else opn + 3) intcode s) := by
  obtain ⟨h0, h1, _⟩ := index_ok hfetch
  have hw : wrap64 (opn + 3) = opn + 3 := wrap64_eq (by omega) (by omega)
  constructor <;> intro hop <;> simp only [Day7.step, hfetch, hop, hct, hw] <;> norm_num <;>
    split_ifs <;> rfl

/-- C12: for a Jump-if-true instruction (opcode 5) whose operands resolve to
`c` and `t`, one step of `exec` goes on at `t` when `c ≠ 0` and at `pc + 3` when
`c = 0`; for a Jump-if-false instruction (opcode 6) it goes on at `t` when
`c = 0` and at `pc + 3` when `c ≠ 0`.  In both cases the program (tape,
relative base and port state: no input, no output) is unchanged.  First part:
day9part1; second part: day7part1.  The tape is shorter than `2^62` words. -/
theorem jump_step {σ : Type} (io : Port σ) :
    (∀ (p : prog σ) (opn op : Int) (c t : param),
        (p.mem.length : Int) < 2 ^ 62 → index p.mem opn = .ok op →
        readParamParam p opn 1 = .ok (c, t) →
        (Int.tmod op 100 = 5 → step io opn p = .next (if c.v ≠ 0 then t.v else opn + 3) p)
          ∧ (Int.tmod op 100 = 6 →
            step io opn p = .next (if c.v = 0 then t.v else opn + 3) p))
      ∧ (∀ (intcode : List Int) (s : σ) (opn op : Int) (c t : Day7.param),
        (intcode.length : Int) < 2 ^ 62 → index intcode opn = .ok op →
        Day7.readParamParam intcode opn 1 = .ok (c, t) →
        (Int.tmod op 100 = 5 →
            Day7.step io opn intcode s = .next (if c.v ≠ 0 then t.v else opn + 3) intcode s)
          ∧ (Int.tmod op 100 = 6 →
            Day7.step io opn intcode s
              = .next (if c.v = 0 then t.v else opn + 3) intcode s)) :=
  ⟨fun p opn op c t hlen hfetch hct => day9_jump io p opn op c t hlen hfetch hct,
    fun intcode s opn op c t hlen hfetch hct => day7_jump io intcode s opn op c t hlen hfetch hct⟩

theorem jump_step_witness :
    step listPort 0 ⟨([], []), [1105, 7, 4, 99, 99], 0⟩
        = .next 4 ⟨([], []), [1105, 7, 4, 99, 99], 0⟩
      ∧ step listPort 0 ⟨([], []), [1106, 7, 4, 99, 99], 0⟩
        = .next 3 ⟨([], []), [1106, 7, 4, 99, 99], 0⟩
      ∧ Day7.step listPort 0 [1105, 0, 4, 99, 99] ([], [])
        = .next 3 [1105, 0, 4, 99, 99] ([], [])
      ∧ Day7.step listPort 0 [1106, 0, 4, 99, 99] ([], [])
        = .next 4 [1106, 0, 4, 99, 99] ([], []) :=
  ⟨((jump_step listPort).1 ⟨([], []), [1105, 7, 4, 99, 99], 0⟩ 0 1105 ⟨1, -1, 0, 7⟩
      ⟨1, -1, 0, 4⟩ (by decide) rfl rfl).1 rfl,
    ((jump_step listPort).1 ⟨([], []), [1106, 7, 4, 99, 99], 0⟩ 0 1106 ⟨1, -1, 0, 7⟩
      ⟨1, -1, 0, 4⟩ (by decide) rfl rfl).2 rfl,
    ((jump_step listPort).2 [1105, 0, 4, 99, 99] ([], []) 0 1105 ⟨-1, 0⟩ ⟨-1, 4⟩
      (by decide) rfl rfl).1 rfl,
    ((jump_step listPort).2 [1106, 0, 4, 99, 99] ([], []) 0 1106 ⟨-1, 0⟩ ⟨-1, 4⟩
      (by decide) rfl rfl).2 rfl⟩

theorem wrap64_add_wrap64 (x y : Int) : wrap64 (wrap64 x + y) = wrap64 (x + y) := by
  unfold wrap64
  omega

theorem readAddr_relative {σ : Type} (q : prog σ) {opn n o : Int}
    (hf : readFlag q opn n = .ok flagRel) (ho : q.get (wrap64 (opn + n)) = .ok o) :
    readAddr q opn n = .ok (wrap64 (q.base + o)) := by
  simp [readAddr, hf, ho, flagRel, flagLit, flagPos]

theorem readParam_relative {σ : Type} (q : prog σ) {opn n o : Int}
    (hf : readFlag q opn n = .ok flagRel) (ho : q.get (wrap64 (opn + n)) = .ok o) :
    readParam q opn n
      = (match q.get (wrap64 (q.base + o)) with
        | .error e => .error e
        | .ok v => .ok ⟨flagRel, wrap64 (q.base + o), o, v⟩) := by
  simp [readParam, hf, ho, flagRel, flagLit, flagPos]

/-- C13: from a state with relative base `r0`, an Adjust-base instruction
(opcode 9) whose operand value is `k` leaves the tape (and the port) unchanged,
sets the relative base to the 64-bit sum `r0 + k` (exactly `r0 + k` when that is
a signed 64-bit number) and goes on at `pc + 2`.  Afterwards every relative-mode
parameter with raw offset `o` resolves to the address `r0 + k + o` (as a 64-bit
sum; exactly `r0 + k + o` when that is a signed 64-bit number): `readAddr`
returns it and `readParam` reads the tape at it.  The tape is shorter than
`2^62` words. -/
theorem adjust_base_step {σ : Type} (io : Port σ) (p : prog σ) (opn op : Int) (b : param)
    (hlen : (p.mem.length : Int) < 2 ^ 62)
    (hfetch : index p.mem opn = .ok op) (hop : Int.tmod op 100 = 9)
    (hb : readParam p opn 1 = .ok b) :
    ∃ q, step io opn p = .next (opn + 2) q
      ∧ q.mem = p.mem ∧ q.io = p.io ∧ q.base = wrap64 (p.base + b.v)
      ∧ (-2 ^ 63 ≤ p.base + b.v → p.base + b.v < 2 ^ 63 → q.base = p.base + b.v)
      ∧ ∀ opn1 n o : Int, readFlag q opn1 n = .ok flagRel →
          q.get (wrap64 (opn1 + n)) = .ok o →
          readAddr q opn1 n = .ok (wrap64 (p.base + b.v + o))
            ∧ readParam q opn1 n
              = (match q.get (wrap64 (p.base + b.v + o)) with
                | .error e => .error e
                | .ok v => .ok ⟨flagRel, wrap64 (p.base + b.v + o), o, v⟩)
            ∧ (-2 ^ 63 ≤ p.base + b.v + o → p.base + b.v + o < 2 ^ 63 →
              wrap64 (p.base + b.v + o) = p.base + b.v + o) := by
  obtain ⟨h0, h1, _⟩ := index_ok hfetch
  have hw : wrap64 (opn + 2) = opn + 2 := wrap64_eq (by omega) (by omega)
  refine ⟨{ p with base := wrap64 (p.base + b.v) }, ?_, rfl, rfl, rfl,
    fun hlo hhi => wrap64_eq hlo hhi, ?_⟩
  · simp only [step, hfetch, hop, hb, hw]
    norm_num
  · intro opn1 n o hf ho
    refine ⟨?_, ?_, fun hlo hhi => wrap64_eq hlo hhi⟩
    · rw [readAddr_relative _ hf ho]
      exact congrArg Except.ok (wrap64_add_wrap64 _ _)
    · rw [readParam_relative _ hf ho]
      dsimp only
      rw [wrap64_add_wrap64]

theorem adjust_base_step_witness :
    ∃ q, step listPort 0 ⟨([], []), [109, 19, 204, -3, 99], 2000⟩ = .next 2 q
      ∧ q.mem = [109, 19, 204, -3, 99] ∧ q.base = 2019
      ∧ readAddr q 2 1 = .ok 2016 ∧ readParam q 2 1 = .ok ⟨2, 2016, -3, 0⟩ := by
  obtain ⟨q, h1, h2, _, h4, _, h6⟩ :=
    adjust_base_step listPort ⟨([], []), [109, 19, 204, -3, 99], 2000⟩ 0 109 ⟨1, -1, 0, 19⟩
      (by decide) rfl rfl rfl
  have hq : q = ⟨([], []), [109, 19, 204, -3, 99], 2019⟩ := by
    have := h1.symm.trans (show step listPort 0 ⟨([], []), [109, 19, 204, -3, 99], 2000⟩
      = .next 2 ⟨([], []), [109, 19, 204, -3, 99], 2019⟩ from rfl)
    simpa using this
  subst hq
  obtain ⟨ha, hp, _⟩ := h6 2 1 (-3) rfl rfl
  exact ⟨_, h1, rfl, rfl, ha, hp⟩

/-! ## How `exec` ends -/

@[simp] theorem writeBack_ne_ret {σ : Type} (p q : prog σ) (opn ans v : Int) :
    (writeBack p opn ans v = .ret q) = False := by
  unfold writeBack
  split <;> simp

theorem step_ret {σ : Type} (io : Port σ) {p q : prog σ} {opn : Int}
    (h : step io opn p = .ret q) :
    q = p ∧ ∃ op, index p.mem opn = .ok op ∧ Int.tmod op 100 = 99 := by
  unfold step at h
  cases hi : index p.mem opn with
  | error f => simp [hi] at h
  | ok op =>
    simp only [hi] at h
    by_cases h99 : Int.tmod op 100 = 99
    · simp only [h99, if_true] at h
      exact ⟨by simpa using h.symm, op, rfl, h99⟩
    · exfalso
      rw [if_neg h99] at h
      by_cases h1 : Int.tmod op 100 = 1
      · rw [if_pos h1] at h
        cases hx : readParamParamAddr p opn 1 with
        | error f => simp [hx] at h
        | ok r =>
          obtain ⟨a, b, ans⟩ := r
          simp [hx] at h
      rw [if_neg h1] at h
      by_cases h2 : Int.tmod op 100 = 2
      · rw [if_pos h2] at h
        cases hx : readParamParamAddr p opn 1 with
        | error f => simp [hx] at h
        | ok r =>
          obtain ⟨a, b, ans⟩ := r
          simp [hx] at h
      rw [if_neg h2] at h
      by_cases h3 : Int.tmod op 100 = 3
      · rw [if_pos h3] at h
        cases hx : readAddr p opn 1 with
        | error f => simp [hx] at h
        | ok dst =>
          simp only [hx] at h
          rcases hin : io.Input p.io with ⟨r, s⟩
          simp only [hin] at h
          cases r with
          | error e => simp at h
          | ok v =>
            simp only at h
            rcases hset : prog.set ({ p with io := s } : prog σ) dst v with ⟨q1, o⟩
            simp only [hset] at h
            cases o <;> simp at h
      rw [if_neg h3] at h
      by_cases h4 : Int.tmod op 100 = 4
      · rw [if_pos h4] at h
        cases hx : readParam p opn 1 with
        | error f => simp [hx] at h
        | ok src =>
          simp only [hx] at h
          rcases hout : io.Output p.io src.v with ⟨r, s⟩
          simp only [hout] at h
          cases r <;> simp at h
      rw [if_neg h4] at h
      by_cases h5 : Int.tmod op 100 = 5
      · rw [if_pos h5] at h
        cases hx : readParamParam p opn 1 with
        | error f => simp [hx] at h
        | ok r =>
          obtain ⟨c, t⟩ := r
          simp only [hx] at h
          split_ifs at h
      rw [if_neg h5] at h
      by_cases h6 : Int.tmod op 100 = 6
      · rw [if_pos h6] at h
        cases hx : readParamParam p opn 1 with
        | error f => simp [hx] at h
        | ok r =>
          obtain ⟨c, t⟩ := r
          simp only [hx] at h
          split_ifs at h
      rw [if_neg h6] at h
      by_cases h7 : Int.tmod op 100 = 7
      · rw [if_pos h7] at h
        cases hx : readParamParamAddr p opn 1 with
        | error f => simp [hx] at h
        | ok r =>
          obtain ⟨a, b, ans⟩ := r
          simp [hx] at h
      rw [if_neg h7] at h
      by_cases h8 : Int.tmod op 100 = 8
      · rw [if_pos h8] at h
        cases hx : readParamParamAddr p opn 1 with
        | error f => simp [hx] at h
        | ok r =>
          obtain ⟨a, b, ans⟩ := r
          simp [hx] at h
      rw [if_neg h8] at h
      by_cases h9 : Int.tmod op 100 = 9
      · rw [if_pos h9] at h
        cases hx : readParam p opn 1 with
        | error f => simp [hx] at h
        | ok b => simp [hx] at h
      rw [if_neg h9] at h
      simp at h

theorem execFrom_runLoop {σ : Type} (io : Port σ) (k : Nat) :
    ∀ (opn : Int) (p : prog σ) (opn1 : Int) (q : prog σ),
      runLoop io k opn p = some (opn1, q) →
      ∀ fuel, execFrom io (k + fuel) opn p = execFrom io fuel opn1 q := by
  induction k with
  | zero =>
    intro opn p opn1 q h fuel
    simp only [runLoop, Option.some.injEq, Prod.mk.injEq] at h
    obtain ⟨rfl, rfl⟩ := h
    simp
  | succ k ih =>
    intro opn p opn1 q h fuel
    unfold runLoop at h
    have e : k + 1 + fuel = (k + fuel) + 1 := by omega
    rw [e]
    conv_lhs => unfold execFrom
    by_cases hlt : opn < p.mem.length
    · rw [if_pos hlt] at h ⊢
      cases hs : step io opn p with
      | next opn2 p2 =>
        simp only [hs] at h ⊢
        exact ih opn2 p2 opn1 q h fuel
      | ret p2 => simp [hs] at h
      | fail f p2 => simp [hs] at h
    · rw [if_neg hlt] at h
      simp at h

theorem execFrom_ok {σ : Type} (io : Port σ) (fuel : Nat) :
    ∀ (opn : Int) (p q : prog σ), execFrom io fuel opn p = some (none, q) →
      ∃ (k : Nat) (opn1 op : Int), k < fuel ∧ runLoop io k opn p = some (opn1, q)
        ∧ index q.mem opn1 = .ok op ∧ Int.tmod op 100 = 99 ∧ step io opn1 q = .ret q := by
  induction fuel with
  | zero =>
    intro opn p q h
    simp [execFrom] at h
  | succ fuel ih =>
    intro opn p q h
    unfold execFrom at h
    by_cases hlt : opn < p.mem.length
    · rw [if_pos hlt] at h
      cases hs : step io opn p with
      | next opn2 p2 =>
        simp only [hs] at h
        obtain ⟨k, opn1, op, hk, hr, hi, h99, hret⟩ := ih opn2 p2 q h
        refine ⟨k + 1, opn1, op, by omega, ?_, hi, h99, hret⟩
        simp [runLoop, hlt, hs, hr]
      | ret p2 =>
        simp only [hs, Option.some.injEq, Prod.mk.injEq, true_and] at h
        subst h
        obtain ⟨hq, op, hi, h99⟩ := step_ret io hs
        subst hq
        exact ⟨0, opn, op, by omega, rfl, hi, h99, hs⟩
      | fail f p2 => simp [hs] at h
    · rw [if_neg hlt] at h
      simp at h

/-- C14: `exec` returns without error only by executing an instruction whose
word is 99 modulo 100, and that instruction changes nothing: if `exec` returns
nil with the program `q`, then some number of passes of the loop leads from
counter 0 to a counter `opn1` with the program `q` already, the word of `q` at
`opn1` is 99 modulo 100 and the step there returns with `q` itself.  Whenever
the loop reaches a counter at or beyond the end of the tape, `exec` returns the
error `intcode: no operation` (with any fuel that lets the loop get there). -/
theorem halt_only_by_99 {σ : Type} (io : Port σ) (p : prog σ) :
    (∀ (fuel : Nat) (q : prog σ), exec io fuel p = some (none, q) →
        ∃ (k : Nat) (opn1 op : Int), k < fuel ∧ runLoop io k 0 p = some (opn1, q)
          ∧ index q.mem opn1 = .ok op ∧ Int.tmod op 100 = 99 ∧ step io opn1 q = .ret q)
      ∧ (∀ (k : Nat) (opn1 : Int) (q : prog σ), runLoop io k 0 p = some (opn1, q) →
        (q.mem.length : Int) ≤ opn1 →
        ∀ fuel, exec io (k + (fuel + 1)) p = some (some (.error .noOperation), q)) := by
  constructor
  · intro fuel q h
    exact execFrom_ok io fuel 0 p q h
  · intro k opn1 q hr hge fuel
    unfold exec
    rw [execFrom_runLoop io k 0 p opn1 q hr (fuel + 1)]
    have hlt : ¬ opn1 < q.mem.length := by omega
    simp [execFrom, hlt]

theorem halt_only_by_99_witness :
    (∃ (k : Nat) (opn1 op : Int), k < 5
        ∧ runLoop listPort k 0 ⟨([], []), [1101, 2, 3, 0, 99], 0⟩
          = some (opn1, ⟨([], []), [5, 2, 3, 0, 99], 0⟩)
        ∧ index ([5, 2, 3, 0, 99] : List Int) opn1 = .ok op ∧ Int.tmod op 100 = 99
        ∧ step listPort opn1 ⟨([], []), [5, 2, 3, 0, 99], 0⟩
          = .ret ⟨([], []), [5, 2, 3, 0, 99], 0⟩)
      ∧ ∀ fuel, exec listPort (1 + (fuel + 1)) ⟨([], []), [1101, 2, 3, 0], 0⟩
        = some (some (.error .noOperation), ⟨([], []), [5, 2, 3, 0], 0⟩) :=
  ⟨(halt_only_by_99 listPort ⟨([], []), [1101, 2, 3, 0, 99], 0⟩).1 5
      ⟨([], []), [5, 2, 3, 0, 99], 0⟩ rfl,
    (halt_only_by_99 listPort ⟨([], []), [1101, 2, 3, 0], 0⟩).2 1 4
      ⟨([], []), [5, 2, 3, 0], 0⟩ rfl (by decide)⟩

theorem tmod_nonpos_of_neg (a : Int) (h : a < 0) : Int.tmod a 100 ≤ 0 := by
  cases a with
  | ofNat n => exact absurd h (by simp)
  | negSucc n =>
    show -((((n + 1) % 100 : Nat)) : Int) ≤ 0
    omega

/-- C15: in a state whose word at the counter is, modulo 100 (the Go
remainder), none of 1, 2, 3, 4, 5, 6, 7, 8, 9, 99, which is the case of every
negative word, `exec` stops at that instruction with the error
`intcode: unrecognised op`, the program (tape, relative base, port state: no
input, no output) being unchanged. -/
theorem unrecognised_op {σ : Type} (io : Port σ) (p : prog σ) (opn op : Int)
    (hfetch : index p.mem opn = .ok op)
    (hbad : op < 0 ∨ ∀ c ∈ ([1, 2, 3, 4, 5, 6, 7, 8, 9, 99] : List Int), Int.tmod op 100 ≠ c) :
    step io opn p = .fail (.error (.unrecognisedOp (Int.tmod op 100) opn)) p
      ∧ ∀ fuel, execFrom io (fuel + 1) opn p
        = some (some (.error (.unrecognisedOp (Int.tmod op 100) opn)), p) := by
  have hall : ∀ c ∈ ([1, 2, 3, 4, 5, 6, 7, 8, 9, 99] : List Int), Int.tmod op 100 ≠ c := by
    rcases hbad with hneg | h
    · intro c hc
      have hle := tmod_nonpos_of_neg op hneg
      simp only [List.mem_cons, List.mem_singleton, List.not_mem_nil, or_false] at hc
      omega
    · exact h
  have hs : step io opn p = .fail (.error (.unrecognisedOp (Int.tmod op 100) opn)) p := by
    simp only [step, hfetch]
    rw [if_neg (hall 99 (by simp)), if_neg (hall 1 (by simp)), if_neg (hall 2 (by simp)),
      if_neg (hall 3 (by simp)), if_neg (hall 4 (by simp)), if_neg (hall 5 (by simp)),
      if_neg (hall 6 (by simp)), if_neg (hall 7 (by simp)), if_neg (hall 8 (by simp)),
      if_neg (hall 9 (by simp))]
  exact ⟨hs, fun fuel => execFrom_fail io p p hfetch hs fuel⟩

theorem unrecognised_op_witness :
    (∀ fuel, execFrom listPort (fuel + 1) 0 ⟨([7], [1]), [-99, 0, 0], 5⟩
        = some (some (.error (.unrecognisedOp (Int.tmod (-99) 100) 0)),
            ⟨([7], [1]), [-99, 0, 0], 5⟩))
      ∧ ∀ fuel, execFrom listPort (fuel + 1) 0 ⟨([7], [1]), [1110, 0, 0], 5⟩
        = some (some (.error (.unrecognisedOp (Int.tmod 1110 100) 0)),
            ⟨([7], [1]), [1110, 0, 0], 5⟩) :=
  ⟨(unrecognised_op listPort ⟨([7], [1]), [-99, 0, 0], 5⟩ 0 (-99) rfl
      (Or.inl (by decide))).2,
    (unrecognised_op listPort ⟨([7], [1]), [1110, 0, 0], 5⟩ 0 1110 rfl
      (Or.inr (by decide))).2⟩

/-! ## Errors of the port -/

/-- C16: at an Input instruction (opcode 3) with a valid write target, if
`Input` of the port reports an error `e` (end of stream), `exec` returns the
error `inp(3): reading input: e` and the tape and the relative base are
unchanged: nothing, in particular no 0, is stored at the target.  At an Output
instruction (opcode 4) whose parameter resolves, if `Output` of the port reports
an error `e`, `exec` returns the error `out(4): writing output: e`.  The same
holds for the Input instruction of day7part1, whose `chanio.Input` reports the
error `input closed`, not a value, once the closed channel is drained. -/
theorem port_error_stops {σ : Type} (io : Port σ) :
    (∀ (p : prog σ) (opn op dst : Int) (e : String) (s : σ),
        index p.mem opn = .ok op → Int.tmod op 100 = 3 → readAddr p opn 1 = .ok dst →
        io.Input p.io = (.error e, s) →
        ∀ fuel, execFrom io (fuel + 1) opn p
          = some (some (.error (.readingInput e)), { io := s, mem := p.mem, base := p.base }))
      ∧ (∀ (p : prog σ) (opn op : Int) (src : param) (e : String) (s : σ),
        index p.mem opn = .ok op → Int.tmod op 100 = 4 → readParam p opn 1 = .ok src →
        io.Output p.io src.v = (some e, s) →
        ∀ fuel, execFrom io (fuel + 1) opn p
          = some (some (.error (.writingOutput e)), { io := s, mem := p.mem, base := p.base }))
      ∧ (∀ (intcode : List Int) (st : σ) (opn op dst : Int) (e : String) (s : σ),
        index intcode opn = .ok op → Int.tmod op 100 = 3 →
        Day7.readAddr intcode opn 1 = .ok dst → io.Input st = (.error e, s) →
        ∀ fuel, Day7.execFrom io (fuel + 1) opn intcode st
          = some (some (.error (.readingInput e)), intcode, s))
      ∧ ∀ out : List Int,
        Day7.chanioPort.Input ⟨[], out⟩ = (.error "input closed", ⟨[], out⟩) := by
  refine ⟨?_, ?_, ?_, fun out => rfl⟩
  · intro p opn op dst e s hfetch hop hd hin fuel
    apply execFrom_fail io p _ hfetch
    simp only [step, hfetch, hop, hd, hin]
    norm_num
  · intro p opn op src e s hfetch hop hsrc hout fuel
    apply execFrom_fail io p _ hfetch
    simp only [step, hfetch, hop, hsrc, hout]
    norm_num
  · intro intcode st opn op dst e s hfetch hop hd hin fuel
    have hs : Day7.step io opn intcode st = .fail (.error (.readingInput e)) intcode s := by
      simp only [Day7.step, hfetch, hop, hd, hin]
      norm_num
    simp [Day7.execFrom, (index_ok hfetch).2.1, hs]

theorem port_error_stops_witness :
    (∀ fuel, execFrom listPort (fuel + 1) 0 ⟨([], [1]), [3, 1, 99], 0⟩
        = some (some (.error (.readingInput "EOF")), ⟨([], [1]), [3, 1, 99], 0⟩))
      ∧ (∀ fuel, execFrom ⟨fun s => (.ok 0, s), fun s _ => (some "closed", s)⟩ (fuel + 1) 0
          (⟨(), [104, 7, 99], 0⟩ : prog Unit)
        = some (some (.error (.writingOutput "closed")), ⟨(), [104, 7, 99], 0⟩))
      ∧ ∀ fuel, Day7.execFrom Day7.chanioPort (fuel + 1) 0 [3, 1, 99] ⟨[], [5]⟩
        = some (some (.error (.readingInput "input closed")), [3, 1, 99], ⟨[], [5]⟩) :=
  ⟨(port_error_stops listPort).1 ⟨([], [1]), [3, 1, 99], 0⟩ 0 3 1 "EOF" ([], [1])
      rfl rfl rfl rfl,
    (port_error_stops ⟨fun s => (.ok 0, s), fun s _ => (some "closed", s)⟩).2.1
      (⟨(), [104, 7, 99], 0⟩ : prog Unit) 0 104 ⟨1, -1, 0, 7⟩ "closed" () rfl rfl rfl rfl,
    (port_error_stops Day7.chanioPort).2.2.1 [3, 1, 99] ⟨[], [5]⟩ 0 3 1 "input closed"
      ⟨[], [5]⟩ rfl rfl rfl rfl⟩

/-! ## Parameters missing at the end of the tape -/

/-- C17 (as stated, refuted): an instruction with a recognised opcode and too
few parameter words before the end of the tape makes `exec` panic with an index
out of range instead of returning a decode error: the Input instruction `3`
alone and the Add instruction `1,0,0` in day7part1, `1,0,0` in day5part1, and
the Output instruction `104` alone in day9part1. -/
theorem missing_parameter_counterexample :
    Day7.exec listPort 1 [3] ([5], []) = some (some (.indexOutOfRange 1 1), [3], ([5], []))
      ∧ Day7.exec listPort 1 [1, 0, 0] ([], [])
        = some (some (.indexOutOfRange 3 3), [1, 0, 0], ([], []))
      ∧ Day5.exec listPort 1 [1, 0, 0] ([], [])
        = some (some (.indexOutOfRange 3 3), [1, 0, 0], ([], []))
      ∧ exec listPort 1 ⟨([], []), [104], 0⟩
        = some (some (.indexOutOfRange 1 1), ⟨([], []), [104], 0⟩) := by
  refine ⟨rfl, rfl, rfl, rfl⟩

theorem day7_readParam_missing (intcode : List Int) (opn n : Int)
    (hlen : (intcode.length : Int) < 2 ^ 62) (h0 : 0 ≤ opn) (h1 : opn < intcode.length)
    (hn : 1 ≤ n ∧ n ≤ 3) (hmiss : (intcode.length : Int) ≤ opn + n) :
    Day7.readParam intcode opn n
      = .error (.error (.wantedParams n (intcode.length - opn - 1) opn)) := by
  have hw : wrap64 (opn + n) = opn + n := wrap64_eq (by omega) (by omega)
  have hw2 : wrap64 ((intcode.length : Int) - opn) = intcode.length - opn :=
    wrap64_eq (by omega) (by omega)
  have hw3 : wrap64 ((intcode.length : Int) - opn - 1) = intcode.length - opn - 1 :=
    wrap64_eq (by omega) (by omega)
  have hge : opn + n ≥ (intcode.length : Int) := hmiss
  simp only [Day7.readParam, hw, hw2, hw3, hge, if_true]

theorem get_error_ne {σ : Type} (p : prog σ) {r : Int} {f : Fault} (e : Err)
    (hg : p.get r = .error f) (h : f = .error e) : False := by
  subst h
  unfold prog.get index at hg
  split_ifs at hg
  simp at hg

theorem readFlag_error_ne {σ : Type} (p : prog σ) {opn n : Int} {f : Fault} (e : Err)
    (hf : readFlag p opn n = .error f) (h : f = .error e) : False := by
  subst h
  unfold readFlag at hf
  cases hg : p.get opn with
  | error f1 =>
    simp only [hg, Except.error.injEq] at hf
    exact get_error_ne p e hg hf
  | ok w =>
    simp only [hg] at hf
    split_ifs at hf
    simp at hf

theorem readParam_not_error {σ : Type} (p : prog σ) (opn n : Int) (e : Err) :
    readParam p opn n ≠ .error (.error e) := by
  intro h
  unfold readParam at h
  cases hf : readFlag p opn n with
  | error f =>
    simp only [hf, Except.error.injEq] at h
    exact readFlag_error_ne p e hf h
  | ok f =>
    simp only [hf] at h
    split_ifs at h
    · cases hg : p.get (wrap64 (opn + n)) with
      | error f1 =>
        simp only [hg, Except.error.injEq] at h
        exact get_error_ne p e hg h
      | ok v => simp [hg] at h
    · cases hg : p.get (wrap64 (opn + n)) with
      | error f1 =>
        simp only [hg, Except.error.injEq] at h
        exact get_error_ne p e hg h
      | ok a =>
        simp only [hg] at h
        cases hg2 : p.get a with
        | error f2 =>
          simp only [hg2, Except.error.injEq] at h
          exact get_error_ne p e hg2 h
        | ok v => simp [hg2] at h
    · cases hg : p.get (wrap64 (opn + n)) with
      | error f1 =>
        simp only [hg, Except.error.injEq] at h
        exact get_error_ne p e hg h
      | ok r =>
        simp only [hg] at h
        cases hg2 : p.get (wrap64 (p.base + r)) with
        | error f2 =>
          simp only [hg2, Except.error.injEq] at h
          exact get_error_ne p e hg2 h
        | ok v => simp [hg2] at h
    · cases hg : p.get 0 with
      | error f1 =>
        simp only [hg, Except.error.injEq] at h
        exact get_error_ne p e hg h
      | ok v => simp [hg] at h

theorem day7_exec_fail {σ : Type} (io : Port σ) {intcode m : List Int} {s s1 : σ}
    {opn op : Int} {flt : Fault} (hfetch : index intcode opn = .ok op)
    (hs : Day7.step io opn intcode s = .fail flt m s1) (fuel : Nat) :
    Day7.execFrom io (fuel + 1) opn intcode s = some (some flt, m, s1) := by
  simp [Day7.execFrom, (index_ok hfetch).2.1, hs]

theorem day7_first_missing {σ : Type} (io : Port σ) (intcode : List Int) (s : σ)
    (opn op : Int) (hlen : (intcode.length : Int) < 2 ^ 62)
    (hfetch : index intcode opn = .ok op)
    (hop : Int.tmod op 100 ∈ ([1, 2, 4, 5, 6, 7, 8] : List Int))
    (hmiss : (intcode.length : Int) ≤ opn + 1) :
    Day7.step io opn intcode s
      = .fail (.error (.inOp (Int.tmod op 100) (.wantedParams 1 0 opn))) intcode s := by
  obtain ⟨h0, h1, _⟩ := index_ok hfetch
  have hr := day7_readParam_missing intcode opn 1 hlen h0 h1 (by decide) hmiss
  have hz : (intcode.length : Int) - opn - 1 = 0 := by omega
  rw [hz] at hr
  simp only [List.mem_cons, List.mem_singleton, List.not_mem_nil, or_false] at hop
  rcases hop with h | h | h | h | h | h | h <;>
    simp [Day7.step, hfetch, h, Day7.readParamParamAddr, Day7.readParamParam, hr, Fault.inOp]

theorem day7_second_missing {σ : Type} (io : Port σ) (intcode : List Int) (s : σ)
    (opn op : Int) (a : Day7.param) (hlen : (intcode.length : Int) < 2 ^ 62)
    (hfetch : index intcode opn = .ok op)
    (hop : Int.tmod op 100 ∈ ([1, 2, 5, 6, 7, 8] : List Int))
    (hmiss : (intcode.length : Int) = opn + 2)
    (ha : Day7.readParam intcode opn 1 = .ok a) :
    Day7.step io opn intcode s
      = .fail (.error (.inOp (Int.tmod op 100) (.wantedParams 2 1 opn))) intcode s := by
  obtain ⟨h0, h1, _⟩ := index_ok hfetch
  have hr := day7_readParam_missing intcode opn 2 hlen h0 h1 (by decide) (by omega)
  have hz : (intcode.length : Int) - opn - 1 = 1 := by omega
  rw [hz] at hr
  simp only [List.mem_cons, List.mem_singleton, List.not_mem_nil, or_false] at hop
  rcases hop with h | h | h | h | h | h <;>
    simp [Day7.step, hfetch, h, Day7.readParamParamAddr, Day7.readParamParam, ha, hr,
      Fault.inOp]

/-- C17 (amended): in day7part1, when the instruction at the counter has an
opcode whose first parameter is read as a value (1, 2, 4, 5, 6, 7, 8) and no
parameter word remains before the end of the tape, `exec` returns the decode
error `wanted 1 parameters but got 0`; when its second parameter is read as a
value too (1, 2, 5, 6, 7, 8), one parameter word remains and the first operand
can be read, `exec` returns `wanted 2 parameters but got 1`.  The Output
instruction of day5part1, which has the same decoder, does the same.  In each
case the tape and the port are unchanged.  The decoder of day9part1 makes no
such check: its `readParam` never returns an error. -/
theorem missing_value_parameter {σ : Type} (io : Port σ) :
    (∀ (intcode : List Int) (s : σ) (opn op : Int),
        (intcode.length : Int) < 2 ^ 62 → index intcode opn = .ok op →
        Int.tmod op 100 ∈ ([1, 2, 4, 5, 6, 7, 8] : List Int) →
        (intcode.length : Int) ≤ opn + 1 →
        ∀ fuel, Day7.execFrom io (fuel + 1) opn intcode s
          = some (some (.error (.inOp (Int.tmod op 100) (.wantedParams 1 0 opn))), intcode, s))
      ∧ (∀ (intcode : List Int) (s : σ) (opn op : Int) (a : Day7.param),
        (intcode.length : Int) < 2 ^ 62 → index intcode opn = .ok op →
        Int.tmod op 100 ∈ ([1, 2, 5, 6, 7, 8] : List Int) →
        (intcode.length : Int) = opn + 2 → Day7.readParam intcode opn 1 = .ok a →
        ∀ fuel, Day7.execFrom io (fuel + 1) opn intcode s
          = some (some (.error (.inOp (Int.tmod op 100) (.wantedParams 2 1 opn))), intcode, s))
      ∧ (∀ (intcode : List Int) (s : σ) (opn op : Int),
        (intcode.length : Int) < 2 ^ 62 → index intcode opn = .ok op →
        Int.tmod op 100 = 4 → (intcode.length : Int) ≤ opn + 1 →
        ∀ fuel, Day5.execFrom io (fuel + 1) opn intcode s
          = some (some (.error (.inOp 4 (.wantedParams 1 0 opn))), intcode, s))
      ∧ ∀ (p : prog σ) (opn n : Int) (e : Err), readParam p opn n ≠ .error (.error e) := by
  refine ⟨?_, ?_, ?_, readParam_not_error⟩
  · intro intcode s opn op hlen hfetch hop hmiss fuel
    exact day7_exec_fail io hfetch (day7_first_missing io intcode s opn op hlen hfetch hop hmiss)
      fuel
  · intro intcode s opn op a hlen hfetch hop hmiss ha fuel
    exact day7_exec_fail io hfetch
      (day7_second_missing io intcode s opn op a hlen hfetch hop hmiss ha) fuel
  · intro intcode s opn op hlen hfetch hop hmiss fuel
    obtain ⟨h0, h1, _⟩ := index_ok hfetch
    have hr := day7_readParam_missing intcode opn 1 hlen h0 h1 (by decide) hmiss
    have hz : (intcode.length : Int) - opn - 1 = 0 := by omega
    rw [hz] at hr
    simp [Day5.execFrom, h1, Day5.step, hfetch, hop, hr, Fault.inOp]

theorem missing_value_parameter_witness :
    (∀ fuel, Day7.execFrom listPort (fuel + 1) 2 [1101, 1, 4] ([], [])
        = some (some (.error (.inOp (Int.tmod 4 100) (.wantedParams 1 0 2))),
            [1101, 1, 4], ([], [])))
      ∧ (∀ fuel, Day7.execFrom listPort (fuel + 1) 0 [1105, 1] ([], [])
        = some (some (.error (.inOp (Int.tmod 1105 100) (.wantedParams 2 1 0))),
            [1105, 1], ([], [])))
      ∧ ∀ fuel, Day5.execFrom listPort (fuel + 1) 0 [104] ([], [])
        = some (some (.error (.inOp 4 (.wantedParams 1 0 0))), [104], ([], [])) :=
  ⟨(missing_value_parameter listPort).1 [1101, 1, 4] ([], []) 2 4 (by decide) rfl
      (by decide) (by decide),
    (missing_value_parameter listPort).2.1 [1105, 1] ([], []) 0 1105 ⟨-1, 1⟩ (by decide) rfl
      (by decide) (by decide) rfl,
    (missing_value_parameter listPort).2.2.1 [104] ([], []) 0 104 (by decide) rfl rfl
      (by decide)⟩

/-! ## The program counter -/

/-- C18 (as stated, refuted): on the programs `1105,1,-1` (Jump-if-true) and
`1106,0,-1` (Jump-if-false) one pass of the loop of `exec` from counter 0 leads
to a state whose program counter is -1. -/
theorem negative_counter_counterexample :
    runLoop listPort 1 0 ⟨([], []), [1105, 1, -1], 0⟩
        = some (-1, ⟨([], []), [1105, 1, -1], 0⟩)
      ∧ runLoop listPort 1 0 ⟨([], []), [1106, 0, -1], 0⟩
        = some (-1, ⟨([], []), [1106, 0, -1], 0⟩) := by
  constructor <;> rfl

theorem execFrom_negative {σ : Type} (io : Port σ) (q : prog σ) {opn : Int} (hneg : opn < 0)
    (fuel : Nat) :
    execFrom io (fuel + 1) opn q = some (some (.indexOutOfRange opn q.mem.length), q) := by
  have hlt : opn < q.mem.length := by omega
  have h0 : ¬ 0 ≤ opn := by omega
  simp [execFrom, hlt, step, index, h0]

/-- C18 (amended): a taken jump (opcode 5 with a non-zero condition, opcode 6
with a zero condition) whose target operand `t` is negative sets the program
counter to `t`; whenever the loop of `exec` reaches a negative program counter,
`exec` fails at the fetch with an index out of range, the program unchanged.  So
no instruction is fetched or executed at a negative program counter: a fetch
that succeeds has `0 ≤ pc < len`. -/
theorem negative_counter_stops {σ : Type} (io : Port σ) (p : prog σ) :
    (∀ (k : Nat) (opn : Int) (q : prog σ), runLoop io k 0 p = some (opn, q) → opn < 0 →
        ∀ fuel, exec io (k + (fuel + 1)) p
          = some (some (.indexOutOfRange opn q.mem.length), q))
      ∧ (∀ (q : prog σ) (opn op : Int), index q.mem opn = .ok op →
        0 ≤ opn ∧ opn < q.mem.length)
      ∧ (∀ (q : prog σ) (opn op : Int) (c t : param), index q.mem opn = .ok op →
        readParamParam q opn 1 = .ok (c, t) → t.v < 0 →
        (Int.tmod op 100 = 5 ∧ c.v ≠ 0) ∨ (Int.tmod op 100 = 6 ∧ c.v = 0) →
        step io opn q = .next t.v q
          ∧ ∀ fuel, execFrom io (fuel + 2) opn q
            = some (some (.indexOutOfRange t.v q.mem.length), q)) := by
  refine ⟨?_, ?_, ?_⟩
  · intro k opn q hr hneg fuel
    unfold exec
    rw [execFrom_runLoop io k 0 p opn q hr (fuel + 1)]
    exact execFrom_negative io q hneg fuel
  · intro q opn op hfetch
    exact ⟨(index_ok hfetch).1, (index_ok hfetch).2.1⟩
  · intro q opn op c t hfetch hct ht hop
    have hs : step io opn q = .next t.v q := by
      rcases hop with ⟨hop, hc⟩ | ⟨hop, hc⟩ <;> simp [step, hfetch, hop, hct, hc]
    refine ⟨hs, fun fuel => ?_⟩
    have hlt := (index_ok hfetch).2.1
    have e : fuel + 2 = (fuel + 1) + 1 := by omega
    rw [e]
    conv_lhs => unfold execFrom
    simp only [hlt, if_true, hs]
    exact execFrom_negative io q ht fuel

theorem negative_counter_stops_witness :
    (∀ fuel, exec listPort (1 + (fuel + 1)) ⟨([], []), [1105, 1, -1], 0⟩
        = some (some (.indexOutOfRange (-1) 3), ⟨([], []), [1105, 1, -1], 0⟩))
      ∧ step listPort 0 ⟨([], []), [1106, 0, -1], 0⟩
        = .next (-1) ⟨([], []), [1106, 0, -1], 0⟩ :=
  ⟨(negative_counter_stops listPort ⟨([], []), [1105, 1, -1], 0⟩).1 1 (-1)
      ⟨([], []), [1105, 1, -1], 0⟩ rfl (by decide),
    ((negative_counter_stops listPort ⟨([], []), [1106, 0, -1], 0⟩).2.2
      ⟨([], []), [1106, 0, -1], 0⟩ 0 1106 ⟨1, -1, 0, 0⟩ ⟨1, -1, 0, -1⟩ rfl rfl (by decide)
      (Or.inr ⟨rfl, rfl⟩)).1⟩

/-! ## Whole programs -/

set_option maxRecDepth 1000000

theorem execFrom_more_fuel {σ : Type} (io : Port σ) (fuel : Nat) :
    ∀ (opn : Int) (p : prog σ) (r : Option Fault × prog σ),
      execFrom io fuel opn p = some r → ∀ j, execFrom io (fuel + j) opn p = some r := by
  induction fuel with
  | zero =>
    intro opn p r h
    simp [execFrom] at h
  | succ fuel ih =>
    intro opn p r h j
    have e : fuel + 1 + j = (fuel + j) + 1 := by omega
    rw [e]
    unfold execFrom at h ⊢
    by_cases hlt : opn < p.mem.length
    · rw [if_pos hlt] at h ⊢
      cases hs : step io opn p with
      | next opn2 p2 =>
        simp only [hs] at h ⊢
        exact ih opn2 p2 r h j
      | ret p2 => simpa [hs] using h
      | fail f p2 => simpa [hs] using h
    · rw [if_neg hlt] at h ⊢
      exact h

/-- C19: `exec` of day9part1 on the self-copying program
`109,1,204,-1,1001,100,1,100,1008,100,16,101,1006,101,0,99`, with a port that
has no input to give, halts without error (for every fuel from 100 on) and the
values it has written, in order, are exactly the 16 values of the program. -/
theorem quine_copies_itself :
    ∀ j, ∃ q, exec listPort (100 + j)
        ⟨([], []), [109, 1, 204, -1, 1001, 100, 1, 100, 1008, 100, 16, 101, 1006, 101, 0, 99], 0⟩
        = some (none, q)
      ∧ q.io = ([], [109, 1, 204, -1, 1001, 100, 1, 100, 1008, 100, 16, 101, 1006, 101, 0, 99])
      := by
  intro j
  have h : exec listPort 100
      ⟨([], []), [109, 1, 204, -1, 1001, 100, 1, 100, 1008, 100, 16, 101, 1006, 101, 0, 99], 0⟩
      = some (none, ⟨([], [109, 1, 204, -1, 1001, 100, 1, 100, 1008, 100, 16, 101, 1006, 101,
          0, 99]),
        [109, 1, 204, -1, 1001, 100, 1, 100, 1008, 100, 16, 101, 1006, 101, 0, 99]
          ++ List.replicate 84 0 ++ [16, 1] ++ List.replicate 26 0, 16⟩) := by
    rfl
  exact ⟨_, execFrom_more_fuel listPort 100 0 _ _ h j, rfl⟩

theorem day7_execFrom_more_fuel {σ : Type} (io : Port σ) (fuel : Nat) :
    ∀ (opn : Int) (intcode : List Int) (s : σ) (r : Option Fault × List Int × σ),
      Day7.execFrom io fuel opn intcode s = some r →
      ∀ j, Day7.execFrom io (fuel + j) opn intcode s = some r := by
  induction fuel with
  | zero =>
    intro opn intcode s r h
    simp [Day7.execFrom] at h
  | succ fuel ih =>
    intro opn intcode s r h j
    have e : fuel + 1 + j = (fuel + j) + 1 := by omega
    rw [e]
    unfold Day7.execFrom at h ⊢
    by_cases hlt : opn < intcode.length
    · rw [if_pos hlt] at h ⊢
      cases hs : Day7.step io opn intcode s with
      | next opn2 m s2 =>
        simp only [hs] at h ⊢
        exact ih opn2 m s2 r h j
      | ret m s2 => simpa [hs] using h
      | fail f m s2 => simpa [hs] using h
    · rw [if_neg hlt] at h ⊢
      exact h

theorem amplify_more_fuel (fuel : Nat) (intcode : List Int) (phase inp : Int)
    (r : Int × Option Fault) (h : Day7.amplify fuel intcode phase inp = some r) (j : Nat) :
    Day7.amplify (fuel + j) intcode phase inp = some r := by
  unfold Day7.amplify at h ⊢
  unfold Day7.exec at h ⊢
  cases he : Day7.execFrom Day7.chanioPort fuel 0 intcode ⟨[phase, inp], []⟩ with
  | none =>
    rw [he] at h
    simp at h
  | some x =>
    rw [day7_execFrom_more_fuel Day7.chanioPort fuel 0 intcode ⟨[phase, inp], []⟩ x he j]
    rw [he] at h
    exact h

/-- C20: five calls of `amplify` of day7part1 on the program
`3,15,3,16,1002,16,10,16,1,16,15,15,4,15,99,0,0`, with the phases 4, 3, 2, 1, 0
in that order, the first given the input 0 and each later one the result of the
call before, return 4, 43, 432, 4321 and 43210, each with no error (that is
10 times the input plus the phase), for every fuel from 10 on. -/
theorem amplify_chain :
    ∀ j,
      Day7.amplify (10 + j) [3, 15, 3, 16, 1002, 16, 10, 16, 1, 16, 15, 15, 4, 15, 99, 0, 0] 4 0
          = some (4, none)
        ∧ Day7.amplify (10 + j)
            [3, 15, 3, 16, 1002, 16, 10, 16, 1, 16, 15, 15, 4, 15, 99, 0, 0] 3 4
          = some (43, none)
        ∧ Day7.amplify (10 + j)
            [3, 15, 3, 16, 1002, 16, 10, 16, 1, 16, 15, 15, 4, 15, 99, 0, 0] 2 43
          = some (432, none)
        ∧ Day7.amplify (10 + j)
            [3, 15, 3, 16, 1002, 16, 10, 16, 1, 16, 15, 15, 4, 15, 99, 0, 0] 1 432
          = some (4321, none)
        ∧ Day7.amplify (10 + j)
            [3, 15, 3, 16, 1002, 16, 10, 16, 1, 16, 15, 15, 4, 15, 99, 0, 0] 0 4321
          = some (43210, none) := by
  intro j
  have h1 : Day7.amplify 10 [3, 15, 3, 16, 1002, 16, 10, 16, 1, 16, 15, 15, 4, 15, 99, 0, 0] 4 0
      = some (4, none) := rfl
  have h2 : Day7.amplify 10 [3, 15, 3, 16, 1002, 16, 10, 16, 1, 16, 15, 15, 4, 15, 99, 0, 0] 3 4
      = some (43, none) := rfl
  have h3 : Day7.amplify 10 [3, 15, 3, 16, 1002, 16, 10, 16, 1, 16, 15, 15, 4, 15, 99, 0, 0] 2 43
      = some (432, none) := rfl
  have h4 : Day7.amplify 10 [3, 15, 3, 16, 1002, 16, 10, 16, 1, 16, 15, 15, 4, 15, 99, 0, 0] 1 432
      = some (4321, none) := rfl
  have h5 : Day7.amplify 10 [3, 15, 3, 16, 1002, 16, 10, 16, 1, 16, 15, 15, 4, 15, 99, 0, 0] 0 4321
      = some (43210, none) := rfl
  exact ⟨amplify_more_fuel 10 _ 4 0 _ h1 j, amplify_more_fuel 10 _ 3 4 _ h2 j,
    amplify_more_fuel 10 _ 2 43 _ h3 j, amplify_more_fuel 10 _ 1 432 _ h4 j,
    amplify_more_fuel 10 _ 0 4321 _ h5 j⟩

/-! ## Adjust-base with an immediate parameter -/

/-- C28 (as stated, refuted): in the state with tape `109,19,99` and relative
base 2000, the Adjust-base instruction at counter 0 has its parameter in
immediate mode; `exec` does not reject it: the step goes on at counter 2 with
the relative base 2019, and `exec` then halts without error. -/
theorem adjust_base_immediate_counterexample :
    readFlag (⟨([], []), [109, 19, 99], 2000⟩ : prog (List Int × List Int)) 0 1 = .ok flagLit
      ∧ step listPort 0 ⟨([], []), [109, 19, 99], 2000⟩
        = .next 2 ⟨([], []), [109, 19, 99], 2019⟩
      ∧ execFrom listPort 2 0 ⟨([], []), [109, 19, 99], 2000⟩
        = some (none, ⟨([], []), [109, 19, 99], 2019⟩) := by
  refine ⟨rfl, rfl, rfl⟩

/-- C28 (amended): for an Adjust-base instruction (opcode 9) at the counter
whose parameter has mode digit 1 and whose parameter word `k` lies inside the
tape, `exec` accepts the instruction: one step adds `k` itself to the relative
base (as a 64-bit sum), leaves the tape and the port unchanged and goes on at
`pc + 2`.  The tape is shorter than `2^62` words. -/
theorem adjust_base_immediate {σ : Type} (io : Port σ) (p : prog σ) (opn op k : Int)
    (hlen : (p.mem.length : Int) < 2 ^ 62)
    (hfetch : index p.mem opn = .ok op) (hop : Int.tmod op 100 = 9)
    (hflag : readFlag p opn 1 = .ok flagLit)
    (hin : opn + 1 < p.mem.length) (hk : p.mem.getD (opn + 1).toNat 0 = k) :
    step io opn p
      = .next (opn + 2) { io := p.io, mem := p.mem, base := wrap64 (p.base + k) } := by
  obtain ⟨h0, h1, _⟩ := index_ok hfetch
  have hw : wrap64 (opn + 2) = opn + 2 := wrap64_eq (by omega) (by omega)
  have hw1 : wrap64 (opn + 1) = opn + 1 := wrap64_eq (by omega) (by omega)
  have hg : p.get (opn + 1) = .ok k := by
    rw [get_inside p (by omega) hin, hk]
  have hb : readParam p opn 1 = .ok ⟨flagLit, -1, 0, k⟩ := by
    simp [readParam, hflag, hw1, hg]
  simp only [step, hfetch, hop, hb, hw]
  norm_num

theorem adjust_base_immediate_witness :
    step listPort 0 ⟨([], []), [109, 19, 99], 2000⟩
      = .next (0 + 2) { io := ([], []), mem := [109, 19, 99], base := wrap64 (2000 + 19) } :=
  adjust_base_immediate listPort ⟨([], []), [109, 19, 99], 2000⟩ 0 109 19 (by decide) rfl rfl
    rfl (by decide) rfl

/-! ## day9part1 refines day7part1 on programs without relative mode -/

theorem get_of_index {σ : Type} (p : prog σ) {i v : Int} (h : index p.mem i = .ok v) :
    p.get i = .ok v := by
  obtain ⟨h0, h1, hv⟩ := index_ok h
  rw [get_inside p h0 h1, hv]

theorem plainModes_digit {w : Int} (h : plainModes w = true) {n : Int}
    (hn : n = 1 ∨ n = 2 ∨ n = 3) : modeDigit w n = 0 ∨ modeDigit w n = 1 := by
  simp only [plainModes, List.all_cons, List.all_nil, Bool.and_true, Bool.and_eq_true,
    Bool.or_eq_true, beq_iff_eq] at h
  rcases hn with rfl | rfl | rfl
  · exact h.1
  · exact h.2.1
  · exact h.2.2

theorem sim_readFlag {σ : Type} (p : prog σ) {opn w : Int} (n : Int)
    (hw : index p.mem opn = .ok w) (hn : n = 1 ∨ n = 2 ∨ n = 3) :
    readFlag p opn n = .ok (modeDigit w n)
      ∧ Day7.readLiteralFlag p.mem opn n = .ok (decide (modeDigit w n ≠ 0)) := by
  have hne : exp10 (wrap64 (n + 1)) ≠ 0 := by
    rcases hn with rfl | rfl | rfl <;> norm_num [exp10, wrap64]
  simp [readFlag, Day7.readLiteralFlag, get_of_index p hw, hw, hne, modeDigit]

theorem sim_readParam {σ : Type} (p : prog σ) {opn w : Int} (n : Int) {a : Day7.param}
    (hw : index p.mem opn = .ok w) (hn : n = 1 ∨ n = 2 ∨ n = 3)
    (hm : plainModes w = true) (h : Day7.readParam p.mem opn n = .ok a) :
    readParam p opn n = .ok ⟨modeDigit w n, a.p, 0, a.v⟩ := by
  obtain ⟨hf9, hf7⟩ := sim_readFlag p n hw hn
  unfold Day7.readParam at h
  split_ifs at h with hge
  rw [hf7] at h
  rcases plainModes_digit hm hn with hd | hd
  · -- positional
    have hb : decide (modeDigit w n ≠ 0) = false := by simp [hd]
    rw [hb] at h
    simp only at h
    cases hi : index p.mem (wrap64 (opn + n)) with
    | error e => simp [hi] at h
    | ok raw =>
      simp only [hi] at h
      split_ifs at h with hge2
      cases hi2 : index p.mem raw with
      | error e => simp [hi2] at h
      | ok v =>
        simp only [hi2, Except.ok.injEq] at h
        subst h
        simp [readParam, hf9, hd, flagLit, flagPos, get_of_index p hi, get_of_index p hi2]
  · -- immediate
    have hb : decide (modeDigit w n ≠ 0) = true := by simp [hd]
    rw [hb] at h
    simp only at h
    cases hi : index p.mem (wrap64 (opn + n)) with
    | error e => simp [hi] at h
    | ok v =>
      simp only [hi, Except.ok.injEq] at h
      subst h
      simp [readParam, hf9, hd, flagLit, get_of_index p hi]

theorem sim_readAddr {σ : Type} (p : prog σ) {opn w : Int} (n : Int) {d : Int}
    (hw : index p.mem opn = .ok w) (hn : n = 1 ∨ n = 2 ∨ n = 3)
    (hm : plainModes w = true) (h : Day7.readAddr p.mem opn n = .ok d) :
    readAddr p opn n = .ok d := by
  obtain ⟨hf9, hf7⟩ := sim_readFlag p n hw hn
  unfold Day7.readAddr at h
  rw [hf7] at h
  rcases plainModes_digit hm hn with hd | hd
  · have hb : decide (modeDigit w n ≠ 0) = false := by simp [hd]
    rw [hb] at h
    simp only at h
    cases hi : index p.mem (wrap64 (opn + n)) with
    | error e => simp [hi] at h
    | ok raw =>
      simp only [hi] at h
      split_ifs at h with hge2
      simp only [Except.ok.injEq] at h
      subst h
      simp [readAddr, hf9, hd, flagLit, flagPos, get_of_index p hi]
  · have hb : decide (modeDigit w n ≠ 0) = true := by simp [hd]
    rw [hb] at h
    simp only [hw] at h
    simp at h

theorem sim_readParamParam {σ : Type} (p : prog σ) {opn w : Int} {a b : Day7.param}
    (hw : index p.mem opn = .ok w) (hm : plainModes w = true)
    (h : Day7.readParamParam p.mem opn 1 = .ok (a, b)) :
    readParamParam p opn 1
      = .ok (⟨modeDigit w 1, a.p, 0, a.v⟩, ⟨modeDigit w 2, b.p, 0, b.v⟩) := by
  unfold Day7.readParamParam at h
  cases h1 : Day7.readParam p.mem opn 1 with
  | error e => simp [h1] at h
  | ok a1 =>
    simp only [h1] at h
    norm_num at h
    cases h2 : Day7.readParam p.mem opn 2 with
    | error e => simp [h2] at h
    | ok b1 =>
      simp only [h2, Except.ok.injEq, Prod.mk.injEq] at h
      obtain ⟨rfl, rfl⟩ := h
      simp [readParamParam, sim_readParam p 1 hw (Or.inl rfl) hm h1,
        sim_readParam p 2 hw (Or.inr (Or.inl rfl)) hm h2]

theorem sim_readParamParamAddr {σ : Type} (p : prog σ) {opn w : Int} {a b : Day7.param}
    {d : Int} (hw : index p.mem opn = .ok w) (hm : plainModes w = true)
    (h : Day7.readParamParamAddr p.mem opn 1 = .ok (a, b, d)) :
    readParamParamAddr p opn 1
      = .ok (⟨modeDigit w 1, a.p, 0, a.v⟩, ⟨modeDigit w 2, b.p, 0, b.v⟩, d) := by
  unfold Day7.readParamParamAddr at h
  cases h1 : Day7.readParamParam p.mem opn 1 with
  | error e => simp [h1] at h
  | ok ab =>
    obtain ⟨a1, b1⟩ := ab
    simp only [h1] at h
    norm_num at h
    cases h2 : Day7.readAddr p.mem opn 3 with
    | error e => simp [h2] at h
    | ok d1 =>
      simp only [h2, Except.ok.injEq, Prod.mk.injEq] at h
      obtain ⟨rfl, rfl, rfl⟩ := h
      simp [readParamParamAddr, sim_readParamParam p hw hm h1,
        sim_readAddr p 3 hw (Or.inr (Or.inr rfl)) hm h2]

theorem assign_next {σ : Type} {m m1 : List Int} {s s1 : σ} {opn k ans v opn1 : Int}
    (h : Day7.assign m s opn k ans v = .next opn1 m1 s1) :
    (0 ≤ ans ∧ ans < m.length) ∧ opn1 = wrap64 (opn + k) ∧ m1 = m.set ans.toNat v
      ∧ s1 = s := by
  unfold Day7.assign at h
  by_cases hr : 0 ≤ ans ∧ ans < m.length
  · rw [if_pos hr] at h
    simp only [Day7.Step.next.injEq] at h
    exact ⟨hr, h.1.symm, h.2.1.symm, h.2.2.symm⟩
  · rw [if_neg hr] at h
    simp at h

theorem sim_step_next {σ : Type} (io : Port σ) (p : prog σ) {opn w opn1 : Int}
    {m : List Int} {s1 : σ}
    (hw : index p.mem opn = .ok w) (hm : plainModes w = true)
    (h : Day7.step io opn p.mem p.io = .next opn1 m s1) :
    step io opn p = .next opn1 ⟨s1, m, p.base⟩ ∧ m.length = p.mem.length := by
  unfold Day7.step at h
  simp only [hw] at h
  by_cases h99 : Int.tmod w 100 = 99
  · simp [h99] at h
  · rw [if_neg h99] at h
    by_cases h1 : Int.tmod w 100 = 1
    · rw [if_pos h1] at h
      cases hx : Day7.readParamParamAddr p.mem opn 1 with
      | error f => simp [hx] at h
      | ok r =>
        obtain ⟨a, b, ans⟩ := r
        simp only [hx] at h
        obtain ⟨hr, rfl, rfl, rfl⟩ := assign_next h
        have h9 := sim_readParamParamAddr p hw hm hx
        constructor
        · simp only [step, hw, h1, h9, writeBack, set_inside p _ hr.1 hr.2]
          norm_num
        · simp
    rw [if_neg h1] at h
    by_cases h2 : Int.tmod w 100 = 2
    · rw [if_pos h2] at h
      cases hx : Day7.readParamParamAddr p.mem opn 1 with
      | error f => simp [hx] at h
      | ok r =>
        obtain ⟨a, b, ans⟩ := r
        simp only [hx] at h
        obtain ⟨hr, rfl, rfl, rfl⟩ := assign_next h
        have h9 := sim_readParamParamAddr p hw hm hx
        constructor
        · simp only [step, hw, h2, h9, writeBack, set_inside p _ hr.1 hr.2]
          norm_num
        · simp
    rw [if_neg h2] at h
    by_cases h3 : Int.tmod w 100 = 3
    · rw [if_pos h3] at h
      cases hx : Day7.readAddr p.mem opn 1 with
      | error f => simp [hx] at h
      | ok dst =>
        simp only [hx] at h
        have h9 := sim_readAddr p 1 hw (Or.inl rfl) hm hx
        rcases hin : io.Input p.io with ⟨r, s⟩
        simp only [hin] at h
        cases r with
        | error e => simp at h
        | ok v =>
          simp only at h
          obtain ⟨hr, rfl, rfl, rfl⟩ := assign_next h
          have hset := set_inside ({ p with io := s1 } : prog σ) v hr.1 hr.2
          constructor
          · simp only [step, hw, h3, h9, hin, hset]
            norm_num
          · simp
    rw [if_neg h3] at h
    by_cases h4 : Int.tmod w 100 = 4
    · rw [if_pos h4] at h
      cases hx : Day7.readParam p.mem opn 1 with
      | error f => simp [hx] at h
      | ok src =>
        simp only [hx] at h
        have h9 := sim_readParam p 1 hw (Or.inl rfl) hm hx
        rcases hout : io.Output p.io src.v with ⟨r, s⟩
        simp only [hout] at h
        cases r with
        | some e => simp at h
        | none =>
          simp only [Day7.Step.next.injEq] at h
          obtain ⟨rfl, rfl, rfl⟩ := h
          refine ⟨?_, rfl⟩
          simp only [step, hw, h4, h9, hout]
          norm_num
    rw [if_neg h4] at h
    by_cases h5 : Int.tmod w 100 = 5
    · rw [if_pos h5] at h
      cases hx : Day7.readParamParam p.mem opn 1 with
      | error f => simp [hx] at h
      | ok r =>
        obtain ⟨c, t⟩ := r
        simp only [hx] at h
        have h9 := sim_readParamParam p hw hm hx
        split_ifs at h with hc <;>
          (simp only [Day7.Step.next.injEq] at h
           obtain ⟨rfl, rfl, rfl⟩ := h
           refine ⟨?_, rfl⟩
           simp only [step, hw, h5, h9]
           norm_num [hc])
    rw [if_neg h5] at h
    by_cases h6 : Int.tmod w 100 = 6
    · rw [if_pos h6] at h
      cases hx : Day7.readParamParam p.mem opn 1 with
      | error f => simp [hx] at h
      | ok r =>
        obtain ⟨c, t⟩ := r
        simp only [hx] at h
        have h9 := sim_readParamParam p hw hm hx
        split_ifs at h with hc <;>
          (simp only [Day7.Step.next.injEq] at h
           obtain ⟨rfl, rfl, rfl⟩ := h
           refine ⟨?_, rfl⟩
           simp only [step, hw, h6, h9]
           norm_num [hc])
    rw [if_neg h6] at h
    by_cases h7 : Int.tmod w 100 = 7
    · rw [if_pos h7] at h
      cases hx : Day7.readParamParamAddr p.mem opn 1 with
      | error f => simp [hx] at h
      | ok r =>
        obtain ⟨a, b, ans⟩ := r
        simp only [hx] at h
        obtain ⟨hr, rfl, rfl, rfl⟩ := assign_next h
        have h9 := sim_readParamParamAddr p hw hm hx
        constructor
        · simp only [step, hw, h7, h9, writeBack, set_inside p _ hr.1 hr.2]
          norm_num
        · simp
    rw [if_neg h7] at h
    by_cases h8 : Int.tmod w 100 = 8
    · rw [if_pos h8] at h
      cases hx : Day7.readParamParamAddr p.mem opn 1 with
      | error f => simp [hx] at h
      | ok r =>
        obtain ⟨a, b, ans⟩ := r
        simp only [hx] at h
        obtain ⟨hr, rfl, rfl, rfl⟩ := assign_next h
        have h9 := sim_readParamParamAddr p hw hm hx
        constructor
        · simp only [step, hw, h8, h9, writeBack, set_inside p _ hr.1 hr.2]
          norm_num
        · simp
    rw [if_neg h8] at h
    simp at h

theorem day7_step_ret {σ : Type} (io : Port σ) {intcode m : List Int} {s s1 : σ}
    {opn : Int} (h : Day7.step io opn intcode s = .ret m s1) :
    m = intcode ∧ s1 = s ∧ ∃ w, index intcode opn = .ok w ∧ Int.tmod w 100 = 99 := by
  unfold Day7.step at h
  cases hi : index intcode opn with
  | error f => simp [hi] at h
  | ok w =>
    simp only [hi] at h
    by_cases h99 : Int.tmod w 100 = 99
    · simp only [h99, if_true, Day7.Step.ret.injEq] at h
      exact ⟨h.1.symm, h.2.symm, w, rfl, h99⟩
    · exfalso
      rw [if_neg h99] at h
      have hassign : ∀ (k ans v : Int) (st : σ),
          Day7.assign intcode st opn k ans v ≠ .ret m s1 := by
        intro k ans v st
        unfold Day7.assign
        split_ifs <;> simp
      by_cases h1 : Int.tmod w 100 = 1
      · rw [if_pos h1] at h
        cases hx : Day7.readParamParamAddr intcode opn 1 with
        | error f => simp [hx] at h
        | ok r =>
          obtain ⟨a, b, ans⟩ := r
          simp only [hx] at h
          exact hassign _ _ _ _ h
      rw [if_neg h1] at h
      by_cases h2 : Int.tmod w 100 = 2
      · rw [if_pos h2] at h
        cases hx : Day7.readParamParamAddr intcode opn 1 with
        | error f => simp [hx] at h
        | ok r =>
          obtain ⟨a, b, ans⟩ := r
          simp only [hx] at h
          exact hassign _ _ _ _ h
      rw [if_neg h2] at h
      by_cases h3 : Int.tmod w 100 = 3
      · rw [if_pos h3] at h
        cases hx : Day7.readAddr intcode opn 1 with
        | error f => simp [hx] at h
        | ok dst =>
          simp only [hx] at h
          rcases hin : io.Input s with ⟨r, s2⟩
          simp only [hin] at h
          cases r with
          | error e => simp at h
          | ok v =>
            simp only at h
            exact hassign _ _ _ _ h
      rw [if_neg h3] at h
      by_cases h4 : Int.tmod w 100 = 4
      · rw [if_pos h4] at h
        cases hx : Day7.readParam intcode opn 1 with
        | error f => simp [hx] at h
        | ok src =>
          simp only [hx] at h
          rcases hout : io.Output s src.v with ⟨r, s2⟩
          simp only [hout] at h
          cases r <;> simp at h
      rw [if_neg h4] at h
      by_cases h5 : Int.tmod w 100 = 5
      · rw [if_pos h5] at h
        cases hx : Day7.readParamParam intcode opn 1 with
        | error f => simp [hx] at h
        | ok r =>
          obtain ⟨c, t⟩ := r
          simp only [hx] at h
          split_ifs at h
      rw [if_neg h5] at h
      by_cases h6 : Int.tmod w 100 = 6
      · rw [if_pos h6] at h
        cases hx : Day7.readParamParam intcode opn 1 with
        | error f => simp [hx] at h
        | ok r =>
          obtain ⟨c, t⟩ := r
          simp only [hx] at h
          split_ifs at h
      rw [if_neg h6] at h
      by_cases h7 : Int.tmod w 100 = 7
      · rw [if_pos h7] at h
        cases hx : Day7.readParamParamAddr intcode opn 1 with
        | error f => simp [hx] at h
        | ok r =>
          obtain ⟨a, b, ans⟩ := r
          simp only [hx] at h
          exact hassign _ _ _ _ h
      rw [if_neg h7] at h
      by_cases h8 : Int.tmod w 100 = 8
      · rw [if_pos h8] at h
        cases hx : Day7.readParamParamAddr intcode opn 1 with
        | error f => simp [hx] at h
        | ok r =>
          obtain ⟨a, b, ans⟩ := r
          simp only [hx] at h
          exact hassign _ _ _ _ h
      rw [if_neg h8] at h
      simp at h

theorem sim_execFrom {σ : Type} (io : Port σ) (fuel : Nat) :
    ∀ (opn : Int) (p : prog σ) (m : List Int) (s1 : σ),
      Day7.execFrom io fuel opn p.mem p.io = some (none, m, s1) →
      Day7.plainRun io fuel opn p.mem p.io = true →
      execFrom io fuel opn p = some (none, ⟨s1, m, p.base⟩) ∧ m.length = p.mem.length := by
  induction fuel with
  | zero =>
    intro opn p m s1 h
    simp [Day7.execFrom] at h
  | succ fuel ih =>
    intro opn p m s1 h hplain
    unfold Day7.execFrom at h
    unfold Day7.plainRun at hplain
    unfold execFrom
    by_cases hlt : opn < p.mem.length
    · rw [if_pos hlt] at h hplain ⊢
      cases hs : Day7.step io opn p.mem p.io with
      | next opn2 m2 s2 =>
        simp only [hs] at h hplain
        cases hw : index p.mem opn with
        | error f => simp [Day7.step, hw] at hs
        | ok w =>
          simp only [hw, Bool.and_eq_true] at hplain
          obtain ⟨h9, hlen⟩ := sim_step_next io p hw hplain.1 hs
          simp only [h9]
          have := ih opn2 ⟨s2, m2, p.base⟩ m s1 h hplain.2
          exact ⟨this.1, this.2.trans hlen⟩
      | ret m2 s2 =>
        simp only [hs, Option.some.injEq, Prod.mk.injEq, true_and] at h
        obtain ⟨hm2, hs2, w, hw, h99⟩ := day7_step_ret io hs
        obtain ⟨rfl, rfl⟩ := h
        subst hm2
        subst hs2
        have h9 : step io opn p = .ret p := by
          simp only [step, hw, h99]
          norm_num
        simp only [h9]
        exact ⟨trivial, trivial⟩
      | fail f m2 s2 => simp [hs] at h
    · rw [if_neg hlt] at h
      simp at h

/-- C30: if `exec` of day7part1 halts without error on a tape and a port
(the port state holds the inputs still to come and records what is written),
and every instruction it executes has only mode digits 0 or 1, then `exec` of
day9part1 started on the same tape and port state, with any relative base, also
halts without error, with the same fuel, leaves the port in the same state (the
same inputs were read and the same values written, in the same order) and the
same tape, whose length is unchanged. -/
theorem day9_refines_day7 {σ : Type} (io : Port σ) (fuel : Nat) (intcode m : List Int)
    (s s1 : σ) (base : Int)
    (hrun : Day7.exec io fuel intcode s = some (none, m, s1))
    (hplain : Day7.plainRun io fuel 0 intcode s = true) :
    exec io fuel ⟨s, intcode, base⟩ = some (none, ⟨s1, m, base⟩)
      ∧ m.length = intcode.length :=
  sim_execFrom io fuel 0 ⟨s, intcode, base⟩ m s1 hrun hplain

theorem day9_refines_day7_witness :
    exec listPort 10 ⟨([4, 0], []), [3, 15, 3, 16, 1002, 16, 10, 16, 1, 16, 15, 15, 4, 15, 99, 0, 0], 0⟩
        = some (none, ⟨([], [4]),
            [3, 15, 3, 16, 1002, 16, 10, 16, 1, 16, 15, 15, 4, 15, 99, 4, 0], 0⟩)
      ∧ ([3, 15, 3, 16, 1002, 16, 10, 16, 1, 16, 15, 15, 4, 15, 99, 4, 0] : List Int).length
        = ([3, 15, 3, 16, 1002, 16, 10, 16, 1, 16, 15, 15, 4, 15, 99, 0, 0] : List Int).length :=
  day9_refines_day7 listPort 10 [3, 15, 3, 16, 1002, 16, 10, 16, 1, 16, 15, 15, 4, 15, 99, 0, 0]
    [3, 15, 3, 16, 1002, 16, 10, 16, 1, 16, 15, 15, 4, 15, 99, 4, 0] ([4, 0], []) ([], [4]) 0
    rfl rfl

/-! ## The paddle player -/

namespace Day13

theorem mapGet_mapSet (w : List (coord × Int)) (c : coord) (t : Int) (c1 : coord) :
    mapGet (mapSet w c t) c1 = if c1 = c then some t else mapGet w c1 := by
  induction w with
  | nil =>
    by_cases h : c1 = c
    · simp [mapSet, mapGet, h]
    · have h2 : ¬ c = c1 := fun e => h e.symm
      simp [mapSet, mapGet, h, h2]
  | cons e rest ih =>
    obtain ⟨k, v⟩ := e
    by_cases hk : k = c
    · by_cases h : c1 = c
      · simp [mapSet, mapGet, hk, h]
      · have h2 : ¬ c = c1 := fun e => h e.symm
        simp [mapSet, mapGet, hk, h, h2]
    · by_cases h : c1 = c
      · subst h
        simp [mapSet, mapGet, hk, ih]
      · simp only [mapSet, hk, if_false, mapGet, ih, h]

theorem output_incomplete (p : paddleAI) (n : Int) (h : p.displayN = 0 ∨ p.displayN = 1) :
    p.Output n = .ok { p with display := setDisplay p.display p.displayN n,
                              displayN := p.displayN + 1 } := by
  rcases h with h | h <;> simp [paddleAI.Output, h, wrap64]

theorem output_complete (p : paddleAI) (n : Int) (h : p.displayN = 2) :
    p.Output n
      = (if p.display.1 = -1 ∧ p.display.2.1 = 0 then
          .ok { p with display := (p.display.1, p.display.2.1, n), displayN := 0, score := n }
        else
          .ok { p with display := (p.display.1, p.display.2.1, n), displayN := 0,
                       world := mapSet p.world ⟨p.display.1, p.display.2.1⟩ n }) := by
  simp [paddleAI.Output, h, wrap64, setDisplay]

theorem outputs_triple (p : paddleAI) (x y t : Int) (rest : List Int) (h : p.displayN = 0) :
    p.outputs (x :: y :: t :: rest)
      = (if x = -1 ∧ y = 0 then
          paddleAI.outputs { p with display := (x, y, t), displayN := 0, score := t } rest
        else
          paddleAI.outputs { p with display := (x, y, t), displayN := 0,
                                    world := mapSet p.world ⟨x, y⟩ t } rest) := by
  have h1 := output_incomplete p x (Or.inl h)
  have h2 := output_incomplete
    { p with display := setDisplay p.display p.displayN x, displayN := p.displayN + 1 } y
    (Or.inr (by simp [h]))
  have h3 := output_complete
    { p with display := setDisplay (setDisplay p.display p.displayN x) (p.displayN + 1) y,
             displayN := p.displayN + 1 + 1 } t (by simp [h])
  simp only [paddleAI.outputs, h1, h2, h3]
  simp only [h, setDisplay]
  norm_num
  split_ifs <;> rfl

theorem outputs_triples (ts : List (Int × Int × Int)) :
    ∀ p : paddleAI, p.displayN = 0 →
      ∃ q, p.outputs (ts.foldr (fun t acc => t.1 :: t.2.1 :: t.2.2 :: acc) []) = .ok q
        ∧ q.displayN = 0
        ∧ q.score = (ts.foldl specRecord (p.score, mapGet p.world)).1
        ∧ ∀ c, mapGet q.world c = (ts.foldl specRecord (p.score, mapGet p.world)).2 c := by
  induction ts with
  | nil =>
    intro p h
    exact ⟨p, rfl, h, rfl, fun c => rfl⟩
  | cons t ts ih =>
    intro p h
    obtain ⟨x, y, v⟩ := t
    simp only [List.foldr_cons, List.foldl_cons]
    rw [outputs_triple p x y v _ h]
    by_cases hxy : x = -1 ∧ y = 0
    · rw [if_pos hxy]
      obtain ⟨q, hq, hn, hs, hw⟩ :=
        ih { p with display := (x, y, v), displayN := 0, score := v } rfl
      refine ⟨q, hq, hn, ?_, ?_⟩
      · rw [hs]
        simp only [specRecord, hxy, and_self, if_true]
      · intro c
        rw [hw c]
        simp only [specRecord, hxy, and_self, if_true]
    · rw [if_neg hxy]
      obtain ⟨q, hq, hn, hs, hw⟩ :=
        ih { p with display := (x, y, v), displayN := 0, world := mapSet p.world ⟨x, y⟩ v } rfl
      have e : (fun c => mapGet (mapSet p.world ⟨x, y⟩ v) c)
          = fun c => if c = ⟨x, y⟩ then some v else mapGet p.world c := by
        funext c
        exact mapGet_mapSet _ _ _ _
      refine ⟨q, hq, hn, ?_, ?_⟩
      · rw [hs]
        simp only [specRecord, hxy, if_false]
        exact congrArg (fun f => (List.foldl specRecord (p.score, f) ts).1) e
      · intro c
        rw [hw c]
        simp only [specRecord, hxy, if_false]
        exact congrArg (fun f => (List.foldl specRecord (p.score, f) ts).2 c) e

theorem outputs_ok (ns : List Int) :
    ∀ p : paddleAI, 0 ≤ p.displayN ∧ p.displayN < 3 →
      ∃ q, p.outputs ns = .ok q ∧ 0 ≤ q.displayN ∧ q.displayN < 3 := by
  induction ns with
  | nil =>
    intro p h
    exact ⟨p, rfl, h⟩
  | cons n ns ih =>
    intro p h
    have h3 : p.displayN = 0 ∨ p.displayN = 1 ∨ p.displayN = 2 := by omega
    rcases h3 with h0 | h1 | h2
    · obtain ⟨q, hq, hd⟩ := ih { p with display := setDisplay p.display p.displayN n,
                                        displayN := p.displayN + 1 } (by simp [h0])
      refine ⟨q, ?_, hd⟩
      simp only [paddleAI.outputs, output_incomplete p n (Or.inl h0)]
      exact hq
    · obtain ⟨q, hq, hd⟩ := ih { p with display := setDisplay p.display p.displayN n,
                                        displayN := p.displayN + 1 } (by simp [h1])
      refine ⟨q, ?_, hd⟩
      simp only [paddleAI.outputs, output_incomplete p n (Or.inr h1)]
      exact hq
    · simp only [paddleAI.outputs, output_complete p n h2]
      split_ifs
      · exact ih _ (by simp)
      · exact ih _ (by simp)

/-- C22: the values given to `paddleAI.Output` are consumed in groups of three
`(x, y, t)`.  A call that does not complete a group (`displayN` is 0 or 1)
changes neither the score nor the world; a call that completes a group with
`x = -1` and `y = 0` sets the score to `t` and leaves the world unchanged; a
call that completes any other group sets `world[(x, y)] = t` and leaves every
other entry and the score unchanged; every call returns without error.  For a
whole sequence of calls from a state between groups, the score and the world
are those that the triples, taken in order, record; and every sequence of
calls, of any length, returns without error at each call. -/
theorem output_groups :
    (∀ (p : paddleAI) (n : Int), p.displayN = 0 ∨ p.displayN = 1 →
        ∃ q, p.Output n = .ok q ∧ q.score = p.score ∧ q.world = p.world
          ∧ q.displayN = p.displayN + 1)
      ∧ (∀ (p : paddleAI) (n : Int), p.displayN = 2 →
        p.display.1 = -1 ∧ p.display.2.1 = 0 →
        ∃ q, p.Output n = .ok q ∧ q.score = n ∧ q.world = p.world ∧ q.displayN = 0)
      ∧ (∀ (p : paddleAI) (n : Int), p.displayN = 2 →
        ¬ (p.display.1 = -1 ∧ p.display.2.1 = 0) →
        ∃ q, p.Output n = .ok q ∧ q.score = p.score ∧ q.displayN = 0
          ∧ mapGet q.world ⟨p.display.1, p.display.2.1⟩ = some n
          ∧ ∀ c, c ≠ ⟨p.display.1, p.display.2.1⟩ → mapGet q.world c = mapGet p.world c)
      ∧ (∀ (ts : List (Int × Int × Int)) (p : paddleAI), p.displayN = 0 →
        ∃ q, p.outputs (ts.foldr (fun t acc => t.1 :: t.2.1 :: t.2.2 :: acc) []) = .ok q
          ∧ q.displayN = 0
          ∧ q.score = (ts.foldl specRecord (p.score, mapGet p.world)).1
          ∧ ∀ c, mapGet q.world c = (ts.foldl specRecord (p.score, mapGet p.world)).2 c)
      ∧ (∀ (ns : List Int) (p : paddleAI), 0 ≤ p.displayN ∧ p.displayN < 3 →
        ∃ q, p.outputs ns = .ok q ∧ 0 ≤ q.displayN ∧ q.displayN < 3) := by
  refine ⟨?_, ?_, ?_, outputs_triples, outputs_ok⟩
  · intro p n h
    exact ⟨_, output_incomplete p n h, rfl, rfl, rfl⟩
  · intro p n h hxy
    rw [output_complete p n h, if_pos hxy]
    exact ⟨_, rfl, rfl, rfl, rfl⟩
  · intro p n h hxy
    rw [output_complete p n h, if_neg hxy]
    refine ⟨_, rfl, rfl, rfl, ?_, ?_⟩
    · simp [mapGet_mapSet]
    · intro c hc
      simp [mapGet_mapSet, hc]

theorem output_groups_witness :
    (∃ q, paddleAI.Output ⟨7, [(⟨1, 2⟩, 3)], (5, 6, 0), 1⟩ 9 = .ok q ∧ q.score = 7
        ∧ q.world = [(⟨1, 2⟩, 3)] ∧ q.displayN = 1 + 1)
      ∧ (∃ q, paddleAI.Output ⟨7, [(⟨1, 2⟩, 3)], (-1, 0, 0), 2⟩ 9 = .ok q ∧ q.score = 9
        ∧ q.world = [(⟨1, 2⟩, 3)] ∧ q.displayN = 0)
      ∧ (∃ q, paddleAI.Output ⟨7, [(⟨1, 2⟩, 3)], (1, 2, 0), 2⟩ 4 = .ok q ∧ q.score = 7
        ∧ q.displayN = 0 ∧ mapGet q.world ⟨1, 2⟩ = some 4
        ∧ ∀ c, c ≠ ⟨1, 2⟩ → mapGet q.world c = mapGet [(⟨1, 2⟩, 3)] c)
      ∧ ∃ q, newPaddleAI.outputs [0, 0, 1, -1, 0, 50] = .ok q ∧ q.score = 50
        ∧ mapGet q.world ⟨0, 0⟩ = some 1 := by
  refine ⟨output_groups.1 ⟨7, [(⟨1, 2⟩, 3)], (5, 6, 0), 1⟩ 9 (Or.inr rfl),
    output_groups.2.1 ⟨7, [(⟨1, 2⟩, 3)], (-1, 0, 0), 2⟩ 9 rfl ⟨rfl, rfl⟩,
    output_groups.2.2.1 ⟨7, [(⟨1, 2⟩, 3)], (1, 2, 0), 2⟩ 4 rfl (by decide), ?_⟩
  obtain ⟨q, h1, _, h3, h4⟩ := output_groups.2.2.2.1 [(0, 0, 1), (-1, 0, 50)] newPaddleAI rfl
  exact ⟨q, h1, h3, h4 ⟨0, 0⟩⟩

/-! ### The joystick -/

theorem sentinel_min (xs : List Int) :
    ∀ l : Int, 0 ≤ l → (∀ x ∈ xs, 0 ≤ x) →
      (xs.foldl (fun l x => if l = -1 ∨ l > x then x else l) l = l
          ∨ xs.foldl (fun l x => if l = -1 ∨ l > x then x else l) l ∈ xs)
        ∧ xs.foldl (fun l x => if l = -1 ∨ l > x then x else l) l ≤ l
        ∧ ∀ x ∈ xs, xs.foldl (fun l x => if l = -1 ∨ l > x then x else l) l ≤ x := by
  induction xs with
  | nil =>
    intro l _ _
    simp
  | cons x xs ih =>
    intro l hl hx
    have hx0 : 0 ≤ x := hx x (List.mem_cons_self _ _)
    have hxs : ∀ y ∈ xs, 0 ≤ y := fun y hy => hx y (List.mem_cons_of_mem _ hy)
    simp only [List.foldl_cons]
    have hne : ¬ l = -1 := by omega
    by_cases hgt : l > x
    · have e : (if l = -1 ∨ l > x then x else l) = x := by simp [hgt]
      rw [e]
      obtain ⟨h1, h2, h3⟩ := ih x hx0 hxs
      refine ⟨Or.inr ?_, by omega, ?_⟩
      · rcases h1 with h1 | h1
        · rw [h1]
          exact List.mem_cons_self _ _
        · exact List.mem_cons_of_mem _ h1
      · intro y hy
        rcases List.mem_cons.mp hy with rfl | hy
        · exact h2
        · exact h3 y hy
    · have e : (if l = -1 ∨ l > x then x else l) = l := by simp [hgt, hne]
      rw [e]
      obtain ⟨h1, h2, h3⟩ := ih l hl hxs
      refine ⟨?_, h2, ?_⟩
      · rcases h1 with h1 | h1
        · exact Or.inl h1
        · exact Or.inr (List.mem_cons_of_mem _ h1)
      · intro y hy
        rcases List.mem_cons.mp hy with rfl | hy
        · omega
        · exact h3 y hy

theorem sentinel_max (xs : List Int) :
    ∀ l : Int, 0 ≤ l → (∀ x ∈ xs, 0 ≤ x) →
      (xs.foldl (fun l x => if l = -1 ∨ l < x then x else l) l = l
          ∨ xs.foldl (fun l x => if l = -1 ∨ l < x then x else l) l ∈ xs)
        ∧ l ≤ xs.foldl (fun l x => if l = -1 ∨ l < x then x else l) l
        ∧ ∀ x ∈ xs, x ≤ xs.foldl (fun l x => if l = -1 ∨ l < x then x else l) l := by
  induction xs with
  | nil =>
    intro l _ _
    simp
  | cons x xs ih =>
    intro l hl hx
    have hx0 : 0 ≤ x := hx x (List.mem_cons_self _ _)
    have hxs : ∀ y ∈ xs, 0 ≤ y := fun y hy => hx y (List.mem_cons_of_mem _ hy)
    simp only [List.foldl_cons]
    have hne : ¬ l = -1 := by omega
    by_cases hgt : l < x
    · have e : (if l = -1 ∨ l < x then x else l) = x := by simp [hgt]
      rw [e]
      obtain ⟨h1, h2, h3⟩ := ih x hx0 hxs
      refine ⟨Or.inr ?_, by omega, ?_⟩
      · rcases h1 with h1 | h1
        · rw [h1]
          exact List.mem_cons_self _ _
        · exact List.mem_cons_of_mem _ h1
      · intro y hy
        rcases List.mem_cons.mp hy with rfl | hy
        · exact h2
        · exact h3 y hy
    · have e : (if l = -1 ∨ l < x then x else l) = l := by simp [hgt, hne]
      rw [e]
      obtain ⟨h1, h2, h3⟩ := ih l hl hxs
      refine ⟨?_, h2, ?_⟩
      · rcases h1 with h1 | h1
        · exact Or.inl h1
        · exact Or.inr (List.mem_cons_of_mem _ h1)
      · intro y hy
        rcases List.mem_cons.mp hy with rfl | hy
        · omega
        · exact h3 y hy

theorem scan_folds (w : List (coord × Int)) :
    ∀ bl br pl pr : Int,
      scan w (bl, br, pl, pr)
        = (((w.filter (fun e => e.2 = tileBall)).map (fun e => e.1.x)).foldl
              (fun l x => if l = -1 ∨ l > x then x else l) bl,
            ((w.filter (fun e => e.2 = tileBall)).map (fun e => e.1.x)).foldl
              (fun l x => if l = -1 ∨ l < x then x else l) br,
            ((w.filter (fun e => e.2 = tilePaddle)).map (fun e => e.1.x)).foldl
              (fun l x => if l = -1 ∨ l > x then x else l) pl,
            ((w.filter (fun e => e.2 = tilePaddle)).map (fun e => e.1.x)).foldl
              (fun l x => if l = -1 ∨ l < x then x else l) pr) := by
  induction w with
  | nil =>
    intro bl br pl pr
    simp [scan]
  | cons e w ih =>
    intro bl br pl pr
    obtain ⟨pos, t⟩ := e
    by_cases hb : t = tileBall
    · have hp : ¬ t = tilePaddle := by
        rw [hb]
        decide
      simp [scan, hb, ih, List.filter_cons, tileBall, tilePaddle]
    · by_cases hp : t = tilePaddle
      · simp [scan, hp, ih, List.filter_cons, tileBall, tilePaddle]
      · simp [scan, hb, hp, ih, List.filter_cons]

theorem sentinel_first_min (xs : List Int) (hne : xs ≠ []) (hx : ∀ x ∈ xs, 0 ≤ x) :
    xs.foldl (fun l x => if l = -1 ∨ l > x then x else l) (-1) ∈ xs
      ∧ ∀ x ∈ xs, xs.foldl (fun l x => if l = -1 ∨ l > x then x else l) (-1) ≤ x := by
  cases xs with
  | nil => exact absurd rfl hne
  | cons x xs =>
    have hx0 : 0 ≤ x := hx x (List.mem_cons_self _ _)
    have hxs : ∀ y ∈ xs, 0 ≤ y := fun y hy => hx y (List.mem_cons_of_mem _ hy)
    simp only [List.foldl_cons, true_or, if_true]
    obtain ⟨h1, h2, h3⟩ := sentinel_min xs x hx0 hxs
    constructor
    · rcases h1 with h1 | h1
      · rw [h1]
        exact List.mem_cons_self _ _
      · exact List.mem_cons_of_mem _ h1
    · intro y hy
      rcases List.mem_cons.mp hy with rfl | hy
      · exact h2
      · exact h3 y hy

theorem sentinel_first_max (xs : List Int) (hne : xs ≠ []) (hx : ∀ x ∈ xs, 0 ≤ x) :
    xs.foldl (fun l x => if l = -1 ∨ l < x then x else l) (-1) ∈ xs
      ∧ ∀ x ∈ xs, x ≤ xs.foldl (fun l x => if l = -1 ∨ l < x then x else l) (-1) := by
  cases xs with
  | nil => exact absurd rfl hne
  | cons x xs =>
    have hx0 : 0 ≤ x := hx x (List.mem_cons_self _ _)
    have hxs : ∀ y ∈ xs, 0 ≤ y := fun y hy => hx y (List.mem_cons_of_mem _ hy)
    simp only [List.foldl_cons, true_or, if_true]
    obtain ⟨h1, h2, h3⟩ := sentinel_max xs x hx0 hxs
    constructor
    · rcases h1 with h1 | h1
      · rw [h1]
        exact List.mem_cons_self _ _
      · exact List.mem_cons_of_mem _ h1
    · intro y hy
      rcases List.mem_cons.mp hy with rfl | hy
      · exact h2
      · exact h3 y hy

theorem mem_tileXs (w : List (coord × Int)) (k x : Int) :
    x ∈ (w.filter (fun e => e.2 = k)).map (fun e => e.1.x)
      ↔ ∃ e ∈ w, e.2 = k ∧ e.1.x = x := by
  simp only [List.mem_map, List.mem_filter, decide_eq_true_eq]
  constructor
  · rintro ⟨e, ⟨he, hk⟩, hx⟩
    exact ⟨e, he, hk, hx⟩
  · rintro ⟨e, he, hk, hx⟩
    exact ⟨e, ⟨he, hk⟩, hx⟩

theorem extent_min (w : List (coord × Int)) (k m : Int)
    (hx : ∀ e ∈ w, e.2 = k → 0 ≤ e.1.x)
    (hm : (∃ e ∈ w, e.2 = k ∧ e.1.x = m) ∧ ∀ e ∈ w, e.2 = k → m ≤ e.1.x) :
    ((w.filter (fun e => e.2 = k)).map (fun e => e.1.x)).foldl
      (fun l x => if l = -1 ∨ l > x then x else l) (-1) = m := by
  have hmem : m ∈ (w.filter (fun e => e.2 = k)).map (fun e => e.1.x) :=
    (mem_tileXs w k m).mpr hm.1
  have hne : (w.filter (fun e => e.2 = k)).map (fun e => e.1.x) ≠ [] :=
    List.ne_nil_of_mem hmem
  have hpos : ∀ x ∈ (w.filter (fun e => e.2 = k)).map (fun e => e.1.x), 0 ≤ x := by
    intro x hxm
    obtain ⟨e, he, hk, rfl⟩ := (mem_tileXs w k x).mp hxm
    exact hx e he hk
  obtain ⟨h1, h2⟩ := sentinel_first_min _ hne hpos
  obtain ⟨e, he, hk, hxe⟩ := (mem_tileXs w k _).mp h1
  have := hm.2 e he hk
  have := h2 m hmem
  omega

theorem extent_max (w : List (coord × Int)) (k m : Int)
    (hx : ∀ e ∈ w, e.2 = k → 0 ≤ e.1.x)
    (hm : (∃ e ∈ w, e.2 = k ∧ e.1.x = m) ∧ ∀ e ∈ w, e.2 = k → e.1.x ≤ m) :
    ((w.filter (fun e => e.2 = k)).map (fun e => e.1.x)).foldl
      (fun l x => if l = -1 ∨ l < x then x else l) (-1) = m := by
  have hmem : m ∈ (w.filter (fun e => e.2 = k)).map (fun e => e.1.x) :=
    (mem_tileXs w k m).mpr hm.1
  have hne : (w.filter (fun e => e.2 = k)).map (fun e => e.1.x) ≠ [] :=
    List.ne_nil_of_mem hmem
  have hpos : ∀ x ∈ (w.filter (fun e => e.2 = k)).map (fun e => e.1.x), 0 ≤ x := by
    intro x hxm
    obtain ⟨e, he, hk, rfl⟩ := (mem_tileXs w k x).mp hxm
    exact hx e he hk
  obtain ⟨h1, h2⟩ := sentinel_first_max _ hne hpos
  obtain ⟨e, he, hk, hxe⟩ := (mem_tileXs w k _).mp h1
  have := hm.2 e he hk
  have := h2 m hmem
  omega

/-- C23 (as stated, refuted): with one ball tile at `x = 2^62` and one paddle
tile at `x = 0` (all `x ≥ 0`), the ball centre `⌊(2^62 + 2^62) / 2⌋ = 2^62` is
greater than the paddle centre 0, yet `Input` returns -1, not +1: the sum of
the ball extents overflows. -/
theorem joystick_counterexample :
    (⟨0, [(⟨2 ^ 62, 0⟩, tileBall), (⟨0, 0⟩, tilePaddle)], (0, 0, 0), 0⟩ : paddleAI).Input
        = (.ok (-1), ⟨0, [(⟨2 ^ 62, 0⟩, tileBall), (⟨0, 0⟩, tilePaddle)], (0, 0, 0), 0⟩)
      ∧ ((0 : Int) + 0) / 2 < (2 ^ 62 + 2 ^ 62) / 2 := by
  constructor
  · simp only [paddleAI.Input, scan, tileBall, tilePaddle]
    norm_num [joystick, wrap64]
    decide
  · norm_num

/-- C23 (amended): for every state, `Input` returns -1, 0 or +1 with no error
and leaves the state as it is.  When every ball tile (4) and paddle tile (3) of
the world has `x ≥ 0`, at least one of each exists, and the sums
`min ball x + max ball x` and `min paddle x + max paddle x` are below `2^63`,
it returns -1 if the ball centre `⌊(min ball x + max ball x) / 2⌋` is less than
the paddle centre `⌊(min paddle x + max paddle x) / 2⌋`, +1 if it is greater and
0 if they are equal, whatever the order in which the map is visited. -/
theorem joystick_tracks_ball :
    (∀ p : paddleAI, ∃ v, p.Input = (.ok v, p) ∧ (v = -1 ∨ v = 0 ∨ v = 1))
      ∧ ∀ (p : paddleAI) (bmin bmax pmin pmax : Int),
        (∀ e ∈ p.world, e.2 = tileBall ∨ e.2 = tilePaddle → 0 ≤ e.1.x) →
        ((∃ e ∈ p.world, e.2 = tileBall ∧ e.1.x = bmin)
          ∧ ∀ e ∈ p.world, e.2 = tileBall → bmin ≤ e.1.x) →
        ((∃ e ∈ p.world, e.2 = tileBall ∧ e.1.x = bmax)
          ∧ ∀ e ∈ p.world, e.2 = tileBall → e.1.x ≤ bmax) →
        ((∃ e ∈ p.world, e.2 = tilePaddle ∧ e.1.x = pmin)
          ∧ ∀ e ∈ p.world, e.2 = tilePaddle → pmin ≤ e.1.x) →
        ((∃ e ∈ p.world, e.2 = tilePaddle ∧ e.1.x = pmax)
          ∧ ∀ e ∈ p.world, e.2 = tilePaddle → e.1.x ≤ pmax) →
        bmin + bmax < 2 ^ 63 → pmin + pmax < 2 ^ 63 →
        p.Input
          = (.ok (if (bmin + bmax) / 2 < (pmin + pmax) / 2 then -1
              else if (bmin + bmax) / 2 > (pmin + pmax) / 2 then 1 else 0), p) := by
  constructor
  · intro p
    refine ⟨_, rfl, ?_⟩
    unfold joystick
    split_ifs <;> simp
  · intro p bmin bmax pmin pmax hx hbmin hbmax hpmin hpmax hb hp
    have hxb : ∀ e ∈ p.world, e.2 = tileBall → 0 ≤ e.1.x := fun e he h => hx e he (Or.inl h)
    have hxp : ∀ e ∈ p.world, e.2 = tilePaddle → 0 ≤ e.1.x := fun e he h => hx e he (Or.inr h)
    have e1 := extent_min p.world tileBall bmin hxb hbmin
    have e2 := extent_max p.world tileBall bmax hxb hbmax
    have e3 := extent_min p.world tilePaddle pmin hxp hpmin
    have e4 := extent_max p.world tilePaddle pmax hxp hpmax
    have b0 : 0 ≤ bmin := by
      obtain ⟨e, he, hk, hxe⟩ := hbmin.1
      rw [← hxe]
      exact hxb e he hk
    have b1 : 0 ≤ bmax := by
      obtain ⟨e, he, hk, hxe⟩ := hbmax.1
      rw [← hxe]
      exact hxb e he hk
    have p0 : 0 ≤ pmin := by
      obtain ⟨e, he, hk, hxe⟩ := hpmin.1
      rw [← hxe]
      exact hxp e he hk
    have p1 : 0 ≤ pmax := by
      obtain ⟨e, he, hk, hxe⟩ := hpmax.1
      rw [← hxe]
      exact hxp e he hk
    have wb : wrap64 (bmin + bmax) = bmin + bmax := wrap64_eq (by omega) hb
    have wp : wrap64 (pmin + pmax) = pmin + pmax := wrap64_eq (by omega) hp
    have db : Int.tdiv (bmin + bmax) 2 = (bmin + bmax) / 2 :=
      Int.tdiv_eq_ediv (by omega) (by norm_num)
    have dp : Int.tdiv (pmin + pmax) 2 = (pmin + pmax) / 2 :=
      Int.tdiv_eq_ediv (by omega) (by norm_num)
    simp only [paddleAI.Input, scan_folds, e1, e2, e3, e4, joystick, wb, wp, db, dp]

theorem joystick_tracks_ball_witness :
    (⟨0, [(⟨7, 3⟩, tileBall), (⟨2, 9⟩, tilePaddle), (⟨3, 9⟩, tilePaddle)], (0, 0, 0), 0⟩ :
        paddleAI).Input
      = (.ok (if ((7 : Int) + 7) / 2 < (2 + 3) / 2 then -1
            else if ((7 : Int) + 7) / 2 > (2 + 3) / 2 then 1 else 0),
          ⟨0, [(⟨7, 3⟩, tileBall), (⟨2, 9⟩, tilePaddle), (⟨3, 9⟩, tilePaddle)], (0, 0, 0), 0⟩) :=
  joystick_tracks_ball.2
    ⟨0, [(⟨7, 3⟩, tileBall), (⟨2, 9⟩, tilePaddle), (⟨3, 9⟩, tilePaddle)], (0, 0, 0), 0⟩
    7 7 2 3 (by decide) ⟨⟨_, List.mem_cons_self _ _, rfl, rfl⟩, by decide⟩
    ⟨⟨_, List.mem_cons_self _ _, rfl, rfl⟩, by decide⟩
    ⟨⟨(⟨2, 9⟩, tilePaddle), by decide, rfl, rfl⟩, by decide⟩
    ⟨⟨(⟨3, 9⟩, tilePaddle), by decide, rfl, rfl⟩, by decide⟩ (by decide) (by decide)

end Day13

namespace Network

/-! ## The network of one call, left to itself: every schedule gives the same result -/

theorem assign_shape (intcode : List Int) (opn k ans v : Int) :
    (∃ opn1 m, ∀ (σ : Type) (s : σ), Day7.assign intcode s opn k ans v = .next opn1 m s)
      ∨ (∃ f m, ∀ (σ : Type) (s : σ), Day7.assign intcode s opn k ans v = .fail f m s) := by
  by_cases hin : 0 ≤ ans ∧ ans < intcode.length
  · left
    refine ⟨wrap64 (opn + k), intcode.set ans.toNat v, ?_⟩
    intro σ s
    simp only [Day7.assign, if_pos hin]
  · right
    refine ⟨.indexOutOfRange ans intcode.length, intcode, ?_⟩
    intro σ s
    simp only [Day7.assign, if_neg hin]

theorem shape_of_assign {opn : Int} {intcode : List Int} {k ans v : Int}
    (h : ∀ (σ : Type) (io : Port σ) (s : σ),
      Day7.step io opn intcode s = Day7.assign intcode s opn k ans v) :
    (∃ opn1 m, ∀ (σ : Type) (io : Port σ) (s : σ), Day7.step io opn intcode s = .next opn1 m s)
      ∨ (∃ m, ∀ (σ : Type) (io : Port σ) (s : σ), Day7.step io opn intcode s = .ret m s)
      ∨ (∃ f m, ∀ (σ : Type) (io : Port σ) (s : σ), Day7.step io opn intcode s = .fail f m s)
      ∨ (∃ dst, ∀ (σ : Type) (io : Port σ) (s : σ),
          Day7.step io opn intcode s = afterInput intcode opn dst (io.Input s))
      ∨ (∃ v, ∀ (σ : Type) (io : Port σ) (s : σ),
          Day7.step io opn intcode s = afterOutput intcode opn (io.Output s v)) := by
  rcases assign_shape intcode opn k ans v with ⟨opn1, m, ha⟩ | ⟨f, m, ha⟩
  · exact Or.inl ⟨opn1, m, fun σ io s => (h σ io s).trans (ha σ s)⟩
  · exact Or.inr (Or.inr (Or.inl ⟨f, m, fun σ io s => (h σ io s).trans (ha σ s)⟩))

/-- A pass of the loop of `exec` either does not touch the port, or is one
call of `Input`, or one call of `Output`. -/
theorem step_shape (opn : Int) (intcode : List Int) :
    (∃ opn1 m, ∀ (σ : Type) (io : Port σ) (s : σ), Day7.step io opn intcode s = .next opn1 m s)
      ∨ (∃ m, ∀ (σ : Type) (io : Port σ) (s : σ), Day7.step io opn intcode s = .ret m s)
      ∨ (∃ f m, ∀ (σ : Type) (io : Port σ) (s : σ), Day7.step io opn intcode s = .fail f m s)
      ∨ (∃ dst, ∀ (σ : Type) (io : Port σ) (s : σ),
          Day7.step io opn intcode s = afterInput intcode opn dst (io.Input s))
      ∨ (∃ v, ∀ (σ : Type) (io : Port σ) (s : σ),
          Day7.step io opn intcode s = afterOutput intcode opn (io.Output s v)) := by
  cases hidx : index intcode opn with
  | error f =>
    refine Or.inr (Or.inr (Or.inl ⟨f, intcode, ?_⟩))
    intro σ io s
    simp [Day7.step, hidx]
  | ok op =>
    by_cases h99 : Int.tmod op 100 = 99
    · refine Or.inr (Or.inl ⟨intcode, ?_⟩)
      intro σ io s
      simp [Day7.step, hidx, h99]
    by_cases h1 : Int.tmod op 100 = 1
    · cases hr : Day7.readParamParamAddr intcode opn 1 with
      | error f =>
        refine Or.inr (Or.inr (Or.inl ⟨f.inOp 1, intcode, ?_⟩))
        intro σ io s
        simp [Day7.step, hidx, h1, hr]
      | ok r =>
        obtain ⟨a, b, ans⟩ := r
        refine @shape_of_assign opn intcode 4 ans (wrap64 (a.v + b.v)) ?_
        intro σ io s
        simp [Day7.step, hidx, h1, hr]
    by_cases h2 : Int.tmod op 100 = 2
    · cases hr : Day7.readParamParamAddr intcode opn 1 with
      | error f =>
        refine Or.inr (Or.inr (Or.inl ⟨f.inOp 2, intcode, ?_⟩))
        intro σ io s
        simp [Day7.step, hidx, h2, hr]
      | ok r =>
        obtain ⟨a, b, ans⟩ := r
        refine @shape_of_assign opn intcode 4 ans (wrap64 (a.v * b.v)) ?_
        intro σ io s
        simp [Day7.step, hidx, h2, hr]
    by_cases h3 : Int.tmod op 100 = 3
    · cases hr : Day7.readAddr intcode opn 1 with
      | error f =>
        refine Or.inr (Or.inr (Or.inl ⟨f.inOp 3, intcode, ?_⟩))
        intro σ io s
        simp [Day7.step, hidx, h3, hr]
      | ok dst =>
        refine Or.inr (Or.inr (Or.inr (Or.inl ⟨dst, ?_⟩)))
        intro σ io s
        simp only [Day7.step, hidx, h3, hr, afterInput]
        simp
    by_cases h4 : Int.tmod op 100 = 4
    · cases hr : Day7.readParam intcode opn 1 with
      | error f =>
        refine Or.inr (Or.inr (Or.inl ⟨f.inOp 4, intcode, ?_⟩))
        intro σ io s
        simp [Day7.step, hidx, h4, hr]
      | ok src =>
        refine Or.inr (Or.inr (Or.inr (Or.inr ⟨src.v, ?_⟩)))
        intro σ io s
        simp only [Day7.step, hidx, h4, hr, afterOutput]
        simp
    by_cases h5 : Int.tmod op 100 = 5
    · cases hr : Day7.readParamParam intcode opn 1 with
      | error f =>
        refine Or.inr (Or.inr (Or.inl ⟨f.inOp 5, intcode, ?_⟩))
        intro σ io s
        simp [Day7.step, hidx, h5, hr]
      | ok r =>
        obtain ⟨cond, jump⟩ := r
        by_cases hc : cond.v = 0
        · refine Or.inl ⟨wrap64 (opn + 3), intcode, ?_⟩
          intro σ io s
          simp [Day7.step, hidx, h5, hr, hc]
        · refine Or.inl ⟨jump.v, intcode, ?_⟩
          intro σ io s
          simp [Day7.step, hidx, h5, hr, hc]
    by_cases h6 : Int.tmod op 100 = 6
    · cases hr : Day7.readParamParam intcode opn 1 with
      | error f =>
        refine Or.inr (Or.inr (Or.inl ⟨f.inOp 6, intcode, ?_⟩))
        intro σ io s
        simp [Day7.step, hidx, h6, hr]
      | ok r =>
        obtain ⟨cond, jump⟩ := r
        by_cases hc : cond.v = 0
        · refine Or.inl ⟨jump.v, intcode, ?_⟩
          intro σ io s
          simp [Day7.step, hidx, h6, hr, hc]
        · refine Or.inl ⟨wrap64 (opn + 3), intcode, ?_⟩
          intro σ io s
          simp [Day7.step, hidx, h6, hr, hc]
    by_cases h7 : Int.tmod op 100 = 7
    · cases hr : Day7.readParamParamAddr intcode opn 1 with
      | error f =>
        refine Or.inr (Or.inr (Or.inl ⟨f.inOp 7, intcode, ?_⟩))
        intro σ io s
        simp [Day7.step, hidx, h7, hr]
      | ok r =>
        obtain ⟨a, b, ans⟩ := r
        refine @shape_of_assign opn intcode 4 ans (if a.v < b.v then 1 else 0) ?_
        intro σ io s
        simp [Day7.step, hidx, h7, hr]
    by_cases h8 : Int.tmod op 100 = 8
    · cases hr : Day7.readParamParamAddr intcode opn 1 with
      | error f =>
        refine Or.inr (Or.inr (Or.inl ⟨f.inOp 8, intcode, ?_⟩))
        intro σ io s
        simp [Day7.step, hidx, h8, hr]
      | ok r =>
        obtain ⟨a, b, ans⟩ := r
        refine @shape_of_assign opn intcode 4 ans (if a.v = b.v then 1 else 0) ?_
        intro σ io s
        simp [Day7.step, hidx, h8, hr]
    refine Or.inr (Or.inr (Or.inl ⟨.error (.unrecognisedOp (Int.tmod op 100) opn), intcode, ?_⟩))
    intro σ io s
    simp [Day7.step, hidx, h99, h1, h2, h3, h4, h5, h6, h7, h8]

theorem ampMove_views {a : amp} {cin cout : chan} {fwd : Option forwarder}
    {r : amp × chan × chan × Option forwarder} (h : ampMove a cin cout fwd = some r) :
    ∃ a1 R S, rview.holds R cin ∧ sview.holds S cout fwd
      ∧ ∀ cin1 cout1 fwd1, rview.holds R cin1 → sview.holds S cout1 fwd1 →
        ampMove a cin1 cout1 fwd1
          = some (a1, rview.apply R cin1, sview.apply S cout1, sview.taker S fwd1) := by
  cases a with
  | finished r0 m =>
    simp [ampMove] at h
  | returned r0 m =>
    by_cases hc : cout.closed = true
    · refine ⟨.finished .panicked m, .noread, .closePanic, trivial, hc, ?_⟩
      intro cin1 cout1 fwd1 _ h1
      simp only [sview.holds] at h1
      simp [ampMove, chan.close, h1, rview.apply, sview.apply, sview.taker]
    · have hc0 : cout.closed = false := by simpa using hc
      refine ⟨.finished r0 m, .noread, .close, trivial, hc0, ?_⟩
      intro cin1 cout1 fwd1 _ h1
      simp only [sview.holds] at h1
      simp [ampMove, chan.close, h1, rview.apply, sview.apply, sview.taker]
  | running opn m =>
    by_cases hlt : opn < m.length
    · rcases step_shape opn m with ⟨opn1, m1, hs⟩ | ⟨m1, hs⟩ | ⟨f, m1, hs⟩ | ⟨dst, hs⟩ | ⟨v, hs⟩
      · refine ⟨.running opn1 m1, .noread, .nowrite, trivial, trivial, ?_⟩
        intro cin1 cout1 fwd1 _ _
        simp [ampMove, hlt, hs, rview.apply, sview.apply, sview.taker]
      · refine ⟨.returned .halted m1, .noread, .nowrite, trivial, trivial, ?_⟩
        intro cin1 cout1 fwd1 _ _
        simp [ampMove, hlt, hs, rview.apply, sview.apply, sview.taker]
      · refine ⟨.returned (.failed f) m1, .noread, .nowrite, trivial, trivial, ?_⟩
        intro cin1 cout1 fwd1 _ _
        simp [ampMove, hlt, hs, rview.apply, sview.apply, sview.taker]
      · cases hb : cin.buf with
        | nil =>
          by_cases hc : cin.closed = true
          · refine ⟨.returned (.failed (.error (.readingInput "input closed"))) m, .eos,
              .nowrite, ⟨hb, hc⟩, trivial, ?_⟩
            intro cin1 cout1 fwd1 h1 _
            simp only [rview.holds] at h1
            simp [ampMove, hlt, hs, chanioPort, chan.recv, h1.1, h1.2, afterInput,
              rview.apply, sview.apply, sview.taker]
          · simp [ampMove, hlt, hs, chanioPort, chan.recv, hb, hc, afterInput] at h
        | cons v rest =>
          rcases assign_shape m opn 2 dst v with ⟨opn1, m1, ha⟩ | ⟨f, m1, ha⟩
          · refine ⟨.running opn1 m1, .value v, .nowrite, ⟨rest, hb⟩, trivial, ?_⟩
            intro cin1 cout1 fwd1 h1 _
            obtain ⟨rest1, h1⟩ := h1
            simp [ampMove, hlt, hs, chanioPort, chan.recv, h1, afterInput, ha,
              rview.apply, sview.apply, sview.taker]
          · refine ⟨.returned (.failed f) m1, .value v, .nowrite, ⟨rest, hb⟩, trivial, ?_⟩
            intro cin1 cout1 fwd1 h1 _
            obtain ⟨rest1, h1⟩ := h1
            simp [ampMove, hlt, hs, chanioPort, chan.recv, h1, afterInput, ha,
              rview.apply, sview.apply, sview.taker]
      · by_cases hc : cout.closed = true
        · refine ⟨.returned .panicked m, .noread, .pushPanic, trivial, hc, ?_⟩
          intro cin1 cout1 fwd1 _ h1
          simp only [sview.holds] at h1
          simp [ampMove, hlt, hs, chanioPort, chan.send, h1, afterOutput,
            rview.apply, sview.apply, sview.taker]
        · have hc0 : cout.closed = false := by simpa using hc
          by_cases hroom : cout.buf.length < cout.cap
          · refine ⟨.running (wrap64 (opn + 2)) m, .noread, .push v, trivial, ⟨hc0, hroom⟩, ?_⟩
            intro cin1 cout1 fwd1 _ h1
            simp only [sview.holds] at h1
            simp [ampMove, hlt, hs, chanioPort, chan.send, h1.1, h1.2, afterOutput,
              rview.apply, sview.apply, sview.taker]
          · cases fwd with
            | none =>
              simp [ampMove, hlt, hs, chanioPort, chan.send, hc0, hroom, afterOutput] at h
            | some f =>
              cases f with
              | ranging n =>
                refine ⟨.running (wrap64 (opn + 2)) m, .noread, .handoff v, trivial,
                  ⟨hc0, hroom, n, rfl⟩, ?_⟩
                intro cin1 cout1 fwd1 _ h1
                obtain ⟨h1, h2, n1, rfl⟩ := h1
                simp [ampMove, hlt, hs, chanioPort, chan.send, h1, h2, afterOutput,
                  rview.apply, sview.apply, sview.taker]
              | sending n =>
                simp [ampMove, hlt, hs, chanioPort, chan.send, hc0, hroom, afterOutput] at h
              | tee n =>
                simp [ampMove, hlt, hs, chanioPort, chan.send, hc0, hroom, afterOutput] at h
              | closeA n =>
                simp [ampMove, hlt, hs, chanioPort, chan.send, hc0, hroom, afterOutput] at h
              | closeR n =>
                simp [ampMove, hlt, hs, chanioPort, chan.send, hc0, hroom, afterOutput] at h
              | done n =>
                simp [ampMove, hlt, hs, chanioPort, chan.send, hc0, hroom, afterOutput] at h
              | crashed =>
                simp [ampMove, hlt, hs, chanioPort, chan.send, hc0, hroom, afterOutput] at h
    · refine ⟨.returned (.failed (.error .noOperation)) m, .noread, .nowrite, trivial, trivial, ?_⟩
      intro cin1 cout1 fwd1 _ _
      simp [ampMove, hlt, rview.apply, sview.apply, sview.taker]

theorem views_commute {R : rview} {S : sview} {c : chan} (hR : rview.holds R c)
    (hS : sview.holds S c none) :
    rview.holds R (sview.apply S c) ∧ sview.holds S (rview.apply R c) none
      ∧ sview.apply S (rview.apply R c) = rview.apply R (sview.apply S c) := by
  cases R with
  | noread =>
    cases S <;> simp_all [rview.holds, sview.holds, rview.apply, sview.apply]
  | eos =>
    cases S <;> simp_all [rview.holds, sview.holds, rview.apply, sview.apply]
  | value v =>
    obtain ⟨rest, hb⟩ := hR
    cases S with
    | nowrite => simp [rview.holds, sview.holds, rview.apply, sview.apply, hb]
    | push w =>
      simp only [sview.holds] at hS
      have hl : rest.length < c.cap := by
        have := hS.2
        rw [hb] at this
        simp only [List.length_cons] at this
        omega
      simp [rview.holds, sview.holds, rview.apply, sview.apply, hb, hS.1, hl]
    | handoff w =>
      simp [sview.holds] at hS
    | pushPanic =>
      simp only [sview.holds] at hS
      simp [rview.holds, sview.holds, rview.apply, sview.apply, hb, hS]
    | close =>
      simp only [sview.holds] at hS
      simp [rview.holds, sview.holds, rview.apply, sview.apply, hb, hS]
    | closePanic =>
      simp only [sview.holds] at hS
      simp [rview.holds, sview.holds, rview.apply, sview.apply, hb, hS]

theorem taker_none {S : sview} {c : chan} (hS : sview.holds S c none) (f : Option forwarder) :
    sview.taker S f = f := by
  cases S <;> simp_all [sview.holds, sview.taker]

theorem holds_none {S : sview} {c : chan} (hS : sview.holds S c none) (f : Option forwarder) :
    sview.holds S c f := by
  cases S <;> simp_all [sview.holds]

/-- Two amplifiers that share a channel, the one sending on it and the other
receiving from it: when both can move, they can move in either order, with the
same result. -/
theorem adjacent_commute {x y : amp} {cin mid cout : chan} {fy : Option forwarder}
    {rx ry : amp × chan × chan × Option forwarder}
    (hx : ampMove x cin mid none = some rx) (hy : ampMove y mid cout fy = some ry) :
    ∃ mid3, ampMove y rx.2.2.1 cout fy = some (ry.1, mid3, ry.2.2.1, ry.2.2.2)
      ∧ ampMove x cin ry.2.1 none = some (rx.1, rx.2.1, mid3, none) := by
  obtain ⟨x1, Rx, Sx, hRx, hSx, stx⟩ := ampMove_views hx
  obtain ⟨y1, Ry, Sy, hRy, hSy, sty⟩ := ampMove_views hy
  have ex := stx cin mid none hRx hSx
  have ey := sty mid cout fy hRy hSy
  rw [hx] at ex
  rw [hy] at ey
  cases ex
  cases ey
  obtain ⟨c1, c2, c3⟩ := views_commute hRy hSx
  refine ⟨rview.apply Ry (sview.apply Sx mid), ?_, ?_⟩
  · exact sty _ _ _ c1 hSy
  · have := stx cin (rview.apply Ry mid) none hRx c2
    rw [this, c3, taker_none hSx]

theorem fwdMove_views {f : forwarder} {outE inA rE : chan} {res : Option Int}
    {r : forwarder × chan × chan × Option Int} (h : fwdMove f outE inA rE res = some r) :
    ∃ S, sview.holds S inA none
      ∧ (∀ inA1, sview.holds S inA1 none → ∀ outE1, (outE1 = outE ∨ ∀ n, f ≠ .ranging n) →
          fwdMove f outE1 inA1 rE res = some (r.1, sview.apply S inA1, r.2.2.1, r.2.2.2))
      ∧ ((∃ n, f = .ranging n) → outE.closed = true) := by
  cases f with
  | ranging n =>
    by_cases hc : outE.closed = true
    · simp only [fwdMove, hc, if_true, Option.some.injEq] at h
      subst h
      refine ⟨.nowrite, trivial, ?_, fun _ => hc⟩
      intro inA1 _ outE1 ho
      rcases ho with rfl | ho
      · simp [fwdMove, hc, sview.apply]
      · exact absurd rfl (ho n)
    · simp [fwdMove, hc] at h
  | sending n =>
    by_cases hc : inA.closed = true
    · simp only [fwdMove, chan.send, hc, if_true, Option.some.injEq] at h
      subst h
      refine ⟨.pushPanic, hc, ?_, ?_⟩
      · intro inA1 h1 outE1 _
        simp only [sview.holds] at h1
        simp [fwdMove, chan.send, h1, sview.apply]
      · rintro ⟨m, hm⟩
        cases hm
    · have hc0 : inA.closed = false := by simpa using hc
      by_cases hroom : inA.buf.length < inA.cap
      · simp only [fwdMove, chan.send, hc0, hroom, if_true, Option.some.injEq] at h
        simp at h
        subst h
        refine ⟨.push n, ⟨hc0, hroom⟩, ?_, ?_⟩
        · intro inA1 h1 outE1 _
          simp only [sview.holds] at h1
          simp [fwdMove, chan.send, h1.1, h1.2, sview.apply]
        · rintro ⟨m, hm⟩
          cases hm
      · simp [fwdMove, chan.send, hc0, hroom] at h
  | tee n =>
    by_cases hc : rE.closed = true
    · simp only [fwdMove, hc, if_true, Option.some.injEq] at h
      subst h
      refine ⟨.nowrite, trivial, ?_, ?_⟩
      · intro inA1 _ outE1 _
        simp [fwdMove, hc, sview.apply]
      · rintro ⟨m, hm⟩
        cases hm
    · cases res with
      | some v => simp [fwdMove, hc] at h
      | none =>
        simp only [fwdMove, hc] at h
        simp at h
        subst h
        refine ⟨.nowrite, trivial, ?_, ?_⟩
        · intro inA1 _ outE1 _
          simp [fwdMove, hc, sview.apply]
        · rintro ⟨m, hm⟩
          cases hm
  | closeA n =>
    by_cases hc : inA.closed = true
    · simp only [fwdMove, chan.close, hc, if_true, Option.some.injEq] at h
      subst h
      refine ⟨.closePanic, hc, ?_, ?_⟩
      · intro inA1 h1 outE1 _
        simp only [sview.holds] at h1
        simp [fwdMove, chan.close, h1, sview.apply]
      · rintro ⟨m, hm⟩
        cases hm
    · have hc0 : inA.closed = false := by simpa using hc
      simp only [fwdMove, chan.close, hc0] at h
      simp at h
      subst h
      refine ⟨.close, hc0, ?_, ?_⟩
      · intro inA1 h1 outE1 _
        simp only [sview.holds] at h1
        simp [fwdMove, chan.close, h1, sview.apply]
      · rintro ⟨m, hm⟩
        cases hm
  | closeR n =>
    refine ⟨.nowrite, trivial, ?_, ?_⟩
    · intro inA1 _ outE1 _
      simp only [fwdMove] at h ⊢
      cases hr : rE.close with
      | none =>
        rw [hr] at h
        simp at h
        subst h
        simp [sview.apply]
      | some c =>
        rw [hr] at h
        simp at h
        subst h
        simp [sview.apply]
    · rintro ⟨m, hm⟩
      cases hm
  | done n => simp [fwdMove] at h
  | crashed => simp [fwdMove] at h

/-- The forwarding goroutine sends on `inA` or closes it, the first amplifier
receives from it: when both can move, they can move in either order, with the
same result. -/
theorem forward_commute {f : forwarder} {outE inA rE cout : chan} {res : Option Int} {a : amp}
    {rF : forwarder × chan × chan × Option Int} {rA : amp × chan × chan × Option forwarder}
    (hF : fwdMove f outE inA rE res = some rF) (hA : ampMove a inA cout none = some rA) :
    ∃ mid3, ampMove a rF.2.1 cout none = some (rA.1, mid3, rA.2.2.1, none)
      ∧ fwdMove f outE rA.2.1 rE res = some (rF.1, mid3, rF.2.2.1, rF.2.2.2) := by
  obtain ⟨S, hS, stF, _⟩ := fwdMove_views hF
  obtain ⟨a1, RA, SA, hRA, hSA, stA⟩ := ampMove_views hA
  have eF := stF inA hS outE (Or.inl rfl)
  have eA := stA inA cout none hRA hSA
  rw [hF] at eF
  rw [hA] at eA
  cases eA
  have eF1 : rF.2.1 = sview.apply S inA := by
    have := congrArg (fun o => o.map (fun r => r.2.1)) eF
    simpa using this
  obtain ⟨c1, c2, c3⟩ := views_commute hRA hS
  refine ⟨rview.apply RA (sview.apply S inA), ?_, ?_⟩
  · rw [eF1, stA _ _ _ c1 hSA, taker_none hSA]
  · rw [stF _ c2 outE (Or.inl rfl), c3]

/-- The last amplifier and the forwarding goroutine: when both can move, the
amplifier is not handing a value over, and they can move in either order,
with the same result. -/
theorem last_commute {f : forwarder} {outE inA rE inE : chan} {res : Option Int} {e : amp}
    {rF : forwarder × chan × chan × Option Int} {r : amp × chan × chan × Option forwarder}
    (hE : ampMove e inE outE (some f) = some r) (hF : fwdMove f outE inA rE res = some rF) :
    r.2.2.2 = some f ∧ fwdMove f r.2.2.1 inA rE res = some rF
      ∧ ampMove e inE outE (some rF.1) = some (r.1, r.2.1, r.2.2.1, some rF.1) := by
  obtain ⟨S, hS, stF, hrang⟩ := fwdMove_views hF
  obtain ⟨e1, RE, SE, hRE, hSE, stE⟩ := ampMove_views hE
  have eF := stF inA hS outE (Or.inl rfl)
  have eE := stE inE outE (some f) hRE hSE
  rw [hF] at eF
  rw [hE] at eE
  cases eE
  have notr : ∀ c : chan, outE.closed = false → (c = outE ∨ ∀ n, f ≠ .ranging n) := by
    intro c hc
    right
    intro n hn
    have := hrang ⟨n, hn⟩
    rw [hc] at this
    cases this
  cases SE with
  | handoff v =>
    obtain ⟨h1, _, n, hn⟩ := hSE
    have := hrang ⟨n, by simpa using hn⟩
    rw [h1] at this
    cases this
  | nowrite =>
    refine ⟨rfl, hF, ?_⟩
    exact stE inE outE (some rF.1) hRE trivial
  | pushPanic =>
    refine ⟨rfl, hF, ?_⟩
    exact stE inE outE (some rF.1) hRE hSE
  | closePanic =>
    refine ⟨rfl, hF, ?_⟩
    exact stE inE outE (some rF.1) hRE hSE
  | push v =>
    refine ⟨rfl, ?_, ?_⟩
    · rw [eF]
      exact stF inA hS _ (notr _ hSE.1)
    · exact stE inE outE (some rF.1) hRE hSE
  | close =>
    refine ⟨rfl, ?_, ?_⟩
    · rw [eF]
      exact stF inA hS _ (notr _ hSE)
    · exact stE inE outE (some rF.1) hRE hSE

theorem next_A {s t : net} :
    next s .A = some t ↔ ∃ r, ampMove s.ampA s.inA s.inB none = some r
      ∧ t = { s with ampA := r.1, inA := r.2.1, inB := r.2.2.1 } := by
  simp only [next]
  cases ampMove s.ampA s.inA s.inB none with
  | none => simp
  | some r =>
    obtain ⟨a, i, o, f⟩ := r
    simp [eq_comm]

theorem next_B {s t : net} :
    next s .B = some t ↔ ∃ r, ampMove s.ampB s.inB s.inC none = some r
      ∧ t = { s with ampB := r.1, inB := r.2.1, inC := r.2.2.1 } := by
  simp only [next]
  cases ampMove s.ampB s.inB s.inC none with
  | none => simp
  | some r =>
    obtain ⟨a, i, o, f⟩ := r
    simp [eq_comm]

theorem next_C {s t : net} :
    next s .C = some t ↔ ∃ r, ampMove s.ampC s.inC s.inD none = some r
      ∧ t = { s with ampC := r.1, inC := r.2.1, inD := r.2.2.1 } := by
  simp only [next]
  cases ampMove s.ampC s.inC s.inD none with
  | none => simp
  | some r =>
    obtain ⟨a, i, o, f⟩ := r
    simp [eq_comm]

theorem next_D {s t : net} :
    next s .D = some t ↔ ∃ r, ampMove s.ampD s.inD s.inE none = some r
      ∧ t = { s with ampD := r.1, inD := r.2.1, inE := r.2.2.1 } := by
  simp only [next]
  cases ampMove s.ampD s.inD s.inE none with
  | none => simp
  | some r =>
    obtain ⟨a, i, o, f⟩ := r
    simp [eq_comm]

theorem next_E {s t : net} :
    next s .E = some t ↔ ∃ r f, ampMove s.ampE s.inE s.outE (some s.fwd) = some r
      ∧ r.2.2.2 = some f
      ∧ t = { s with ampE := r.1, inE := r.2.1, outE := r.2.2.1, fwd := f } := by
  simp only [next]
  cases ampMove s.ampE s.inE s.outE (some s.fwd) with
  | none => simp
  | some r =>
    obtain ⟨a, i, o, f⟩ := r
    cases f with
    | none => simp
    | some f => simp [eq_comm]

theorem next_F {s t : net} :
    next s .F = some t ↔ ∃ r, fwdMove s.fwd s.outE s.inA s.rE s.result = some r
      ∧ t = { s with fwd := r.1, inA := r.2.1, rE := r.2.2.1, result := r.2.2.2 } := by
  simp only [next]
  cases fwdMove s.fwd s.outE s.inA s.rE s.result with
  | none => simp
  | some r =>
    obtain ⟨a, i, o, f⟩ := r
    simp [eq_comm]

theorem diamond_AB {s s1 s2 : net} (h1 : next s .A = some s1)
    (h2 : next s .B = some s2) : ∃ s3, next s1 .B = some s3 ∧ next s2 .A = some s3 := by
  obtain ⟨rx, hx, rfl⟩ := next_A.mp h1
  obtain ⟨ry, hy, rfl⟩ := next_B.mp h2
  obtain ⟨mid3, e1, e2⟩ := adjacent_commute hx hy
  exact ⟨_, next_B.mpr ⟨_, e1, rfl⟩, next_A.mpr ⟨_, e2, rfl⟩⟩

theorem diamond_BC {s s1 s2 : net} (h1 : next s .B = some s1)
    (h2 : next s .C = some s2) : ∃ s3, next s1 .C = some s3 ∧ next s2 .B = some s3 := by
  obtain ⟨rx, hx, rfl⟩ := next_B.mp h1
  obtain ⟨ry, hy, rfl⟩ := next_C.mp h2
  obtain ⟨mid3, e1, e2⟩ := adjacent_commute hx hy
  exact ⟨_, next_C.mpr ⟨_, e1, rfl⟩, next_B.mpr ⟨_, e2, rfl⟩⟩

theorem diamond_CD {s s1 s2 : net} (h1 : next s .C = some s1)
    (h2 : next s .D = some s2) : ∃ s3, next s1 .D = some s3 ∧ next s2 .C = some s3 := by
  obtain ⟨rx, hx, rfl⟩ := next_C.mp h1
  obtain ⟨ry, hy, rfl⟩ := next_D.mp h2
  obtain ⟨mid3, e1, e2⟩ := adjacent_commute hx hy
  exact ⟨_, next_D.mpr ⟨_, e1, rfl⟩, next_C.mpr ⟨_, e2, rfl⟩⟩

theorem diamond_DE {s s1 s2 : net} (h1 : next s .D = some s1)
    (h2 : next s .E = some s2) : ∃ s3, next s1 .E = some s3 ∧ next s2 .D = some s3 := by
  obtain ⟨rx, hx, rfl⟩ := next_D.mp h1
  obtain ⟨ry, f, hy, hf, rfl⟩ := next_E.mp h2
  obtain ⟨mid3, e1, e2⟩ := adjacent_commute hx hy
  exact ⟨_, next_E.mpr ⟨_, f, e1, hf, rfl⟩, next_D.mpr ⟨_, e2, rfl⟩⟩

theorem diamond_AC {s s1 s2 : net} (h1 : next s .A = some s1)
    (h2 : next s .C = some s2) : ∃ s3, next s1 .C = some s3 ∧ next s2 .A = some s3 := by
  obtain ⟨rx, hx, rfl⟩ := next_A.mp h1
  obtain ⟨ry, hy, rfl⟩ := next_C.mp h2
  exact ⟨_, next_C.mpr ⟨_, hy, rfl⟩, next_A.mpr ⟨_, hx, rfl⟩⟩

theorem diamond_AD {s s1 s2 : net} (h1 : next s .A = some s1)
    (h2 : next s .D = some s2) : ∃ s3, next s1 .D = some s3 ∧ next s2 .A = some s3 := by
  obtain ⟨rx, hx, rfl⟩ := next_A.mp h1
  obtain ⟨ry, hy, rfl⟩ := next_D.mp h2
  exact ⟨_, next_D.mpr ⟨_, hy, rfl⟩, next_A.mpr ⟨_, hx, rfl⟩⟩

theorem diamond_BD {s s1 s2 : net} (h1 : next s .B = some s1)
    (h2 : next s .D = some s2) : ∃ s3, next s1 .D = some s3 ∧ next s2 .B = some s3 := by
  obtain ⟨rx, hx, rfl⟩ := next_B.mp h1
  obtain ⟨ry, hy, rfl⟩ := next_D.mp h2
  exact ⟨_, next_D.mpr ⟨_, hy, rfl⟩, next_B.mpr ⟨_, hx, rfl⟩⟩

theorem diamond_AE {s s1 s2 : net} (h1 : next s .A = some s1)
    (h2 : next s .E = some s2) : ∃ s3, next s1 .E = some s3 ∧ next s2 .A = some s3 := by
  obtain ⟨rx, hx, rfl⟩ := next_A.mp h1
  obtain ⟨ry, f, hy, hf, rfl⟩ := next_E.mp h2
  exact ⟨_, next_E.mpr ⟨_, f, hy, hf, rfl⟩, next_A.mpr ⟨_, hx, rfl⟩⟩

theorem diamond_BE {s s1 s2 : net} (h1 : next s .B = some s1)
    (h2 : next s .E = some s2) : ∃ s3, next s1 .E = some s3 ∧ next s2 .B = some s3 := by
  obtain ⟨rx, hx, rfl⟩ := next_B.mp h1
  obtain ⟨ry, f, hy, hf, rfl⟩ := next_E.mp h2
  exact ⟨_, next_E.mpr ⟨_, f, hy, hf, rfl⟩, next_B.mpr ⟨_, hx, rfl⟩⟩

theorem diamond_CE {s s1 s2 : net} (h1 : next s .C = some s1)
    (h2 : next s .E = some s2) : ∃ s3, next s1 .E = some s3 ∧ next s2 .C = some s3 := by
  obtain ⟨rx, hx, rfl⟩ := next_C.mp h1
  obtain ⟨ry, f, hy, hf, rfl⟩ := next_E.mp h2
  exact ⟨_, next_E.mpr ⟨_, f, hy, hf, rfl⟩, next_C.mpr ⟨_, hx, rfl⟩⟩

theorem diamond_BF {s s1 s2 : net} (h1 : next s .B = some s1)
    (h2 : next s .F = some s2) : ∃ s3, next s1 .F = some s3 ∧ next s2 .B = some s3 := by
  obtain ⟨rx, hx, rfl⟩ := next_B.mp h1
  obtain ⟨ry, hy, rfl⟩ := next_F.mp h2
  exact ⟨_, next_F.mpr ⟨_, hy, rfl⟩, next_B.mpr ⟨_, hx, rfl⟩⟩

theorem diamond_CF {s s1 s2 : net} (h1 : next s .C = some s1)
    (h2 : next s .F = some s2) : ∃ s3, next s1 .F = some s3 ∧ next s2 .C = some s3 := by
  obtain ⟨rx, hx, rfl⟩ := next_C.mp h1
  obtain ⟨ry, hy, rfl⟩ := next_F.mp h2
  exact ⟨_, next_F.mpr ⟨_, hy, rfl⟩, next_C.mpr ⟨_, hx, rfl⟩⟩

theorem diamond_DF {s s1 s2 : net} (h1 : next s .D = some s1)
    (h2 : next s .F = some s2) : ∃ s3, next s1 .F = some s3 ∧ next s2 .D = some s3 := by
  obtain ⟨rx, hx, rfl⟩ := next_D.mp h1
  obtain ⟨ry, hy, rfl⟩ := next_F.mp h2
  exact ⟨_, next_F.mpr ⟨_, hy, rfl⟩, next_D.mpr ⟨_, hx, rfl⟩⟩

theorem diamond_AF {s s1 s2 : net} (h1 : next s .A = some s1)
    (h2 : next s .F = some s2) : ∃ s3, next s1 .F = some s3 ∧ next s2 .A = some s3 := by
  obtain ⟨rx, hx, rfl⟩ := next_A.mp h1
  obtain ⟨ry, hy, rfl⟩ := next_F.mp h2
  obtain ⟨mid3, e1, e2⟩ := forward_commute hy hx
  exact ⟨_, next_F.mpr ⟨_, e2, rfl⟩, next_A.mpr ⟨_, e1, rfl⟩⟩

theorem diamond_EF {s s1 s2 : net} (h1 : next s .E = some s1)
    (h2 : next s .F = some s2) : ∃ s3, next s1 .F = some s3 ∧ next s2 .E = some s3 := by
  obtain ⟨rx, f, hx, hf, rfl⟩ := next_E.mp h1
  obtain ⟨ry, hy, rfl⟩ := next_F.mp h2
  obtain ⟨e0, e1, e2⟩ := last_commute hx hy
  rw [e0] at hf
  cases hf
  exact ⟨_, next_F.mpr ⟨_, e1, rfl⟩, next_E.mpr ⟨_, _, e2, rfl, rfl⟩⟩

/-- Two different goroutines that can both move can move in either order,
and the network is the same after both moved. -/
theorem diamond {s s1 s2 : net} {p q : proc} (hpq : p ≠ q) (h1 : next s p = some s1)
    (h2 : next s q = some s2) : ∃ s3, next s1 q = some s3 ∧ next s2 p = some s3 := by
  cases p <;> cases q
  · exact absurd rfl hpq
  · exact diamond_AB h1 h2
  · exact diamond_AC h1 h2
  · exact diamond_AD h1 h2
  · exact diamond_AE h1 h2
  · exact diamond_AF h1 h2
  · obtain ⟨s3, e1, e2⟩ := diamond_AB h2 h1
    exact ⟨s3, e2, e1⟩
  · exact absurd rfl hpq
  · exact diamond_BC h1 h2
  · exact diamond_BD h1 h2
  · exact diamond_BE h1 h2
  · exact diamond_BF h1 h2
  · obtain ⟨s3, e1, e2⟩ := diamond_AC h2 h1
    exact ⟨s3, e2, e1⟩
  · obtain ⟨s3, e1, e2⟩ := diamond_BC h2 h1
    exact ⟨s3, e2, e1⟩
  · exact absurd rfl hpq
  · exact diamond_CD h1 h2
  · exact diamond_CE h1 h2
  · exact diamond_CF h1 h2
  · obtain ⟨s3, e1, e2⟩ := diamond_AD h2 h1
    exact ⟨s3, e2, e1⟩
  · obtain ⟨s3, e1, e2⟩ := diamond_BD h2 h1
    exact ⟨s3, e2, e1⟩
  · obtain ⟨s3, e1, e2⟩ := diamond_CD h2 h1
    exact ⟨s3, e2, e1⟩
  · exact absurd rfl hpq
  · exact diamond_DE h1 h2
  · exact diamond_DF h1 h2
  · obtain ⟨s3, e1, e2⟩ := diamond_AE h2 h1
    exact ⟨s3, e2, e1⟩
  · obtain ⟨s3, e1, e2⟩ := diamond_BE h2 h1
    exact ⟨s3, e2, e1⟩
  · obtain ⟨s3, e1, e2⟩ := diamond_CE h2 h1
    exact ⟨s3, e2, e1⟩
  · obtain ⟨s3, e1, e2⟩ := diamond_DE h2 h1
    exact ⟨s3, e2, e1⟩
  · exact absurd rfl hpq
  · exact diamond_EF h1 h2
  · obtain ⟨s3, e1, e2⟩ := diamond_AF h2 h1
    exact ⟨s3, e2, e1⟩
  · obtain ⟨s3, e1, e2⟩ := diamond_BF h2 h1
    exact ⟨s3, e2, e1⟩
  · obtain ⟨s3, e1, e2⟩ := diamond_CF h2 h1
    exact ⟨s3, e2, e1⟩
  · obtain ⟨s3, e1, e2⟩ := diamond_DF h2 h1
    exact ⟨s3, e2, e1⟩
  · obtain ⟨s3, e1, e2⟩ := diamond_EF h2 h1
    exact ⟨s3, e2, e1⟩
  · exact absurd rfl hpq

theorem stuck_iff (s : net) : stuck s = true ↔ ∀ p, next s p = none := by
  simp only [stuck, Bool.and_eq_true, Option.isNone_iff_eq_none]
  constructor
  · rintro ⟨⟨⟨⟨⟨hA, hB⟩, hC⟩, hD⟩, hE⟩, hF⟩ p
    cases p <;> assumption
  · intro h
    exact ⟨⟨⟨⟨⟨h .A, h .B⟩, h .C⟩, h .D⟩, h .E⟩, h .F⟩

/-- When some schedule of `n` transitions ends in `t`, the network after any
one transition is `n - 1` transitions away from `t`. -/
theorem endsIn_step : ∀ (n : Nat) (s s2 t : net) (q : proc),
    endsIn s n t → next s q = some s2 → ∃ m, n = m + 1 ∧ endsIn s2 m t := by
  intro n
  induction n with
  | zero =>
    intro s s2 t q h hq
    obtain ⟨sched, hl, hr, hs⟩ := h
    have : sched = [] := List.length_eq_zero.mp hl
    subst this
    simp only [run, Option.some.injEq] at hr
    subst hr
    rw [(stuck_iff s).mp hs q] at hq
    cases hq
  | succ n ih =>
    intro s s2 t q h hq
    obtain ⟨sched, hl, hr, hs⟩ := h
    cases sched with
    | nil => cases hl
    | cons p rest =>
      simp only [List.length_cons, Nat.add_right_cancel_iff] at hl
      simp only [run] at hr
      cases hp : next s p with
      | none =>
        rw [hp] at hr
        cases hr
      | some s1 =>
        rw [hp] at hr
        by_cases hpq : p = q
        · subst hpq
          rw [hp] at hq
          cases hq
          exact ⟨n, rfl, rest, hl, hr, hs⟩
        · obtain ⟨s3, e1, e2⟩ := diamond hpq hp hq
          obtain ⟨m, hm, sched3, hl3, hr3, hs3⟩ := ih s1 s3 t q ⟨rest, hl, hr, hs⟩ e1
          refine ⟨n, rfl, p :: sched3, ?_, ?_, hs3⟩
          · simp only [List.length_cons, hl3]
            omega
          · simp only [run, e2]
            exact hr3

/-- When some schedule of `n` transitions ends in `t`, every schedule has at
most `n` transitions, can be completed to one that ends in `t`, and ends in `t`
itself when no goroutine can move after it. -/
theorem all_schedules : ∀ (sched : List proc) (n : Nat) (s u t : net),
    endsIn s n t → run s sched = some u →
      sched.length ≤ n ∧ endsIn u (n - sched.length) t
        ∧ (stuck u = true → sched.length = n ∧ u = t) := by
  intro sched
  induction sched with
  | nil =>
    intro n s u t h hr
    simp only [run, Option.some.injEq] at hr
    subst hr
    refine ⟨Nat.zero_le _, h, ?_⟩
    intro hs
    obtain ⟨sched, hl, hr, _⟩ := h
    cases sched with
    | nil =>
      simp only [run, Option.some.injEq] at hr
      exact ⟨by simpa using hl, hr⟩
    | cons p rest =>
      simp only [run, (stuck_iff s).mp hs p] at hr
      cases hr
  | cons q rest ih =>
    intro n s u t h hr
    simp only [run] at hr
    cases hq : next s q with
    | none =>
      rw [hq] at hr
      cases hr
    | some s2 =>
      rw [hq] at hr
      obtain ⟨m, rfl, hm⟩ := endsIn_step n s s2 t q h hq
      obtain ⟨h1, h2, h3⟩ := ih m s2 u t hm hr
      refine ⟨by simp only [List.length_cons]; omega, ?_, ?_⟩
      · simpa only [List.length_cons, Nat.add_sub_add_right] using h2
      · intro hs
        obtain ⟨e1, e2⟩ := h3 hs
        exact ⟨by simp only [List.length_cons, e1], e2⟩

theorem run_append (a b : List proc) : ∀ s : net,
    run s (a ++ b) = (run s a).bind (fun t => run t b) := by
  induction a with
  | nil =>
    intro s
    rfl
  | cons p rest ih =>
    intro s
    simp only [List.cons_append, run]
    cases next s p with
    | none => rfl
    | some t => exact ih t

theorem feedback_opening :
    run (start feedbackProgram 9 8 7 6 5) opening = some (feedbackAt 5 14 31 64 129 4) := by
  rfl

theorem feedback_round2 :
    run (feedbackAt 5 14 31 64 129 4) (round 6 1) = some (feedbackAt 263 530 1063 2128 4257 3) := by
  rfl

theorem feedback_round3 :
    run (feedbackAt 263 530 1063 2128 4257 3) (round 6 1)
      = some (feedbackAt 8519 17042 34087 68176 136353 2) := by
  rfl

theorem feedback_round4 :
    run (feedbackAt 8519 17042 34087 68176 136353 2) (round 6 1)
      = some (feedbackAt 272711 545426 1090855 2181712 4363425 1) := by
  rfl

theorem feedback_round5 :
    run (feedbackAt 272711 545426 1090855 2181712 4363425 1) (round 8 5) = some feedbackEnd := by
  rfl

theorem feedback_run :
    run (start feedbackProgram 9 8 7 6 5) feedbackSchedule = some feedbackEnd := by
  unfold feedbackSchedule
  rw [run_append, feedback_opening, Option.some_bind, run_append, feedback_round2,
    Option.some_bind, run_append, feedback_round3, Option.some_bind, run_append,
    feedback_round4, Option.some_bind, feedback_round5]

theorem feedbackEnd_stuck : stuck feedbackEnd = true := by
  rfl

/-- The network of one call on the program of the feedback example with the
phases 9, 8, 7, 6, 5, as long as no goroutine of another call writes its
slices, under every schedule of its own goroutines: a run has at most 179
transitions, it can always be continued until no goroutine can move, and then
`exec` has returned nil in all five amplifiers and `solve` has received
139629729 from `rE`. -/
theorem feedback_network_result (sched : List proc) (u : net)
    (h : run (start feedbackProgram 9 8 7 6 5) sched = some u) :
    sched.length ≤ 179
      ∧ (∃ rest t, run u rest = some t ∧ stuck t = true)
      ∧ (stuck u = true →
        u.ampA.halted = true ∧ u.ampB.halted = true ∧ u.ampC.halted = true
          ∧ u.ampD.halted = true ∧ u.ampE.halted = true
          ∧ u.fwd = .done 139629729 ∧ u.result = some 139629729) := by
  have hends : endsIn (start feedbackProgram 9 8 7 6 5) 179 feedbackEnd :=
    ⟨feedbackSchedule, rfl, feedback_run, feedbackEnd_stuck⟩
  obtain ⟨h1, h2, h3⟩ := all_schedules sched 179 _ u feedbackEnd hends h
  refine ⟨h1, ?_, ?_⟩
  · obtain ⟨rest, _, hr, hs⟩ := h2
    exact ⟨rest, feedbackEnd, hr, hs⟩
  · intro hs
    obtain ⟨_, rfl⟩ := h3 hs
    exact ⟨rfl, rfl, rfl, rfl, rfl, rfl, rfl⟩

theorem feedback_network_result_witness :
    run (start feedbackProgram 9 8 7 6 5) feedbackSchedule = some feedbackEnd
      ∧ stuck feedbackEnd = true ∧ feedbackEnd.result = some 139629729 :=
  ⟨feedback_run, feedbackEnd_stuck,
    ((feedback_network_result feedbackSchedule feedbackEnd feedback_run).2.2
      feedbackEnd_stuck).2.2.2.2.2.2⟩

end Network

namespace Network

/-! ## The feedback network: the closing discipline -/

theorem ampMove_flags {a : amp} {cin cout : chan} {fwd : Option forwarder}
    {r : amp × chan × chan × Option forwarder} (h : ampMove a cin cout fwd = some r)
    (hp : a.panicked = false) (hc : cout.closed = a.isFinished) :
    r.2.1.closed = cin.closed ∧ r.2.2.1.closed = r.1.isFinished ∧ r.1.panicked = false
      ∧ (r.2.2.2 = fwd ∨ ∃ n v, fwd = some (.ranging n) ∧ r.2.2.2 = some (.sending v)) := by
  cases a with
  | finished r0 m =>
    simp [ampMove] at h
  | returned r0 m =>
    have hc0 : cout.closed = false := by simpa [amp.isFinished] using hc
    simp only [ampMove, chan.close, hc0] at h
    simp at h
    subst h
    refine ⟨rfl, rfl, ?_, Or.inl rfl⟩
    cases r0 <;> simp_all [amp.panicked]
  | running opn m =>
    have hc0 : cout.closed = false := by simpa [amp.isFinished] using hc
    by_cases hlt : opn < m.length
    · rcases step_shape opn m with ⟨opn1, m1, hs⟩ | ⟨m1, hs⟩ | ⟨f, m1, hs⟩ | ⟨dst, hs⟩ | ⟨v, hs⟩
      · simp only [ampMove, hlt, hs, if_true, Option.some.injEq] at h
        subst h
        exact ⟨rfl, hc0, rfl, Or.inl rfl⟩
      · simp only [ampMove, hlt, hs, if_true, Option.some.injEq] at h
        subst h
        exact ⟨rfl, hc0, rfl, Or.inl rfl⟩
      · simp only [ampMove, hlt, hs, if_true] at h
        simp at h
        subst h
        exact ⟨rfl, hc0, rfl, Or.inl rfl⟩
      · cases hb : cin.buf with
        | nil =>
          by_cases hcl : cin.closed = true
          · simp [ampMove, hlt, hs, chanioPort, chan.recv, hb, hcl, afterInput] at h
            subst h
            exact ⟨rfl, hc0, rfl, Or.inl rfl⟩
          · simp [ampMove, hlt, hs, chanioPort, chan.recv, hb, hcl, afterInput] at h
        | cons v rest =>
          rcases assign_shape m opn 2 dst v with ⟨opn1, m1, ha⟩ | ⟨f, m1, ha⟩
          · simp [ampMove, hlt, hs, chanioPort, chan.recv, hb, afterInput, ha] at h
            subst h
            exact ⟨rfl, hc0, rfl, Or.inl rfl⟩
          · simp [ampMove, hlt, hs, chanioPort, chan.recv, hb, afterInput, ha] at h
            subst h
            exact ⟨rfl, hc0, rfl, Or.inl rfl⟩
      · by_cases hroom : cout.buf.length < cout.cap
        · simp [ampMove, hlt, hs, chanioPort, chan.send, hc0, hroom, afterOutput] at h
          subst h
          exact ⟨rfl, rfl, rfl, Or.inl rfl⟩
        · cases fwd with
          | none =>
            simp [ampMove, hlt, hs, chanioPort, chan.send, hc0, hroom, afterOutput] at h
          | some f =>
            cases f with
            | ranging n =>
              simp [ampMove, hlt, hs, chanioPort, chan.send, hc0, hroom, afterOutput] at h
              subst h
              exact ⟨rfl, hc0, rfl, Or.inr ⟨n, v, rfl, rfl⟩⟩
            | sending n =>
              simp [ampMove, hlt, hs, chanioPort, chan.send, hc0, hroom, afterOutput] at h
            | tee n =>
              simp [ampMove, hlt, hs, chanioPort, chan.send, hc0, hroom, afterOutput] at h
            | closeA n =>
              simp [ampMove, hlt, hs, chanioPort, chan.send, hc0, hroom, afterOutput] at h
            | closeR n =>
              simp [ampMove, hlt, hs, chanioPort, chan.send, hc0, hroom, afterOutput] at h
            | done n =>
              simp [ampMove, hlt, hs, chanioPort, chan.send, hc0, hroom, afterOutput] at h
            | crashed =>
              simp [ampMove, hlt, hs, chanioPort, chan.send, hc0, hroom, afterOutput] at h
    · simp only [ampMove, hlt, if_false, Option.some.injEq] at h
      subst h
      exact ⟨rfl, hc0, rfl, Or.inl rfl⟩

theorem ampMove_not_finished {a : amp} {cin cout : chan} {fwd : Option forwarder}
    {r : amp × chan × chan × Option forwarder} (h : ampMove a cin cout fwd = some r) :
    a.isFinished = false := by
  cases a with
  | finished r0 m => simp [ampMove] at h
  | returned r0 m => rfl
  | running opn m => rfl

theorem fwdMove_flags {f : forwarder} {outE inA rE : chan} {res : Option Int}
    {r : forwarder × chan × chan × Option Int} (h : fwdMove f outE inA rE res = some r)
    (hA : inA.closed = f.closedA) (hR : rE.closed = f.closedR)
    (hO : f.pastRange = true → outE.closed = true) (hres : res.isSome = f.delivered) :
    r.2.1.closed = r.1.closedA ∧ r.2.2.1.closed = r.1.closedR
      ∧ (r.1.pastRange = true → outE.closed = true) ∧ r.2.2.2.isSome = r.1.delivered
      ∧ r.1 ≠ .crashed := by
  cases f with
  | ranging n =>
    by_cases hc : outE.closed = true
    · simp only [fwdMove, hc, if_true, Option.some.injEq] at h
      subst h
      exact ⟨hA, hR, fun _ => hc, hres, by simp⟩
    · simp [fwdMove, hc] at h
  | sending n =>
    have hc0 : inA.closed = false := by simpa [forwarder.closedA] using hA
    by_cases hroom : inA.buf.length < inA.cap
    · simp [fwdMove, chan.send, hc0, hroom] at h
      subst h
      exact ⟨rfl, hR, by simp [forwarder.pastRange], hres, by simp⟩
    · simp [fwdMove, chan.send, hc0, hroom] at h
  | tee n =>
    have hc0 : rE.closed = false := by simpa [forwarder.closedR] using hR
    cases res with
    | some v => simp [fwdMove, hc0] at h
    | none =>
      simp [fwdMove, hc0] at h
      subst h
      exact ⟨hA, hR, hO, rfl, by simp⟩
  | closeA n =>
    have hc0 : inA.closed = false := by simpa [forwarder.closedA] using hA
    simp [fwdMove, chan.close, hc0] at h
    subst h
    exact ⟨rfl, hR, hO, hres, by simp⟩
  | closeR n =>
    have hc0 : rE.closed = false := by simpa [forwarder.closedR] using hR
    simp [fwdMove, chan.close, hc0] at h
    subst h
    exact ⟨hA, rfl, hO, hres, by simp⟩
  | done n => simp [fwdMove] at h
  | crashed => simp [fwdMove] at h

/-- Every transition keeps the closing discipline. -/
theorem discipline_step {s t : net} {p : proc} (hs : closingDiscipline s)
    (h : next s p = some t) : closingDiscipline t := by
  obtain ⟨h1, h2, h3, h4, h5, h6, h7, h8, h9, h10, h11, h12, h13, h14, h15⟩ := hs
  cases p with
  | A =>
    obtain ⟨r, hr, rfl⟩ := next_A.mp h
    obtain ⟨f1, f2, f3, _⟩ := ampMove_flags hr h11 h1
    exact ⟨f2, h2, h3, h4, h5, f1.trans h6, h7, h8, h9, h10, f3, h12, h13, h14, h15⟩
  | B =>
    obtain ⟨r, hr, rfl⟩ := next_B.mp h
    obtain ⟨f1, f2, f3, _⟩ := ampMove_flags hr h12 h2
    exact ⟨f1.trans h1, f2, h3, h4, h5, h6, h7, h8, h9, h10, h11, f3, h13, h14, h15⟩
  | C =>
    obtain ⟨r, hr, rfl⟩ := next_C.mp h
    obtain ⟨f1, f2, f3, _⟩ := ampMove_flags hr h13 h3
    exact ⟨h1, f1.trans h2, f2, h4, h5, h6, h7, h8, h9, h10, h11, h12, f3, h14, h15⟩
  | D =>
    obtain ⟨r, hr, rfl⟩ := next_D.mp h
    obtain ⟨f1, f2, f3, _⟩ := ampMove_flags hr h14 h4
    exact ⟨h1, h2, f1.trans h3, f2, h5, h6, h7, h8, h9, h10, h11, h12, h13, f3, h15⟩
  | E =>
    obtain ⟨r, f, hr, hf, rfl⟩ := next_E.mp h
    obtain ⟨f1, f2, f3, f4⟩ := ampMove_flags hr h15 h5
    have hnf := ampMove_not_finished hr
    have hopen : s.outE.closed = false := h5.trans hnf
    have hpast : s.fwd.pastRange = false := by
      cases hp : s.fwd.pastRange with
      | false => rfl
      | true =>
        rw [h8 hp] at hopen
        cases hopen
    rcases f4 with f4 | ⟨n, v, f4, f5⟩
    · rw [hf] at f4
      cases f4
      refine ⟨h1, h2, h3, f1.trans h4, f2, h6, h7, ?_, h9, h10, h11, h12, h13, h14, f3⟩
      intro hp
      rw [hpast] at hp
      cases hp
    · rw [hf] at f5
      cases f5
      simp only [Option.some.injEq] at f4
      rw [f4] at h6 h7 h9
      refine ⟨h1, h2, h3, f1.trans h4, f2, h6, h7, ?_, h9, by simp, h11, h12, h13, h14, f3⟩
      intro hp
      cases hp
  | F =>
    obtain ⟨r, hr, rfl⟩ := next_F.mp h
    obtain ⟨f1, f2, f3, f4, f5⟩ := fwdMove_flags hr h6 h7 h8 h9
    exact ⟨h1, h2, h3, h4, h5, f1, f2, f3, f4, f5, h11, h12, h13, h14, h15⟩

theorem discipline_start (intcode : List Int) (sa sb sc sd se : Int) :
    closingDiscipline (start intcode sa sb sc sd se) := by
  simp [closingDiscipline, start, amp.isFinished, amp.panicked, forwarder.closedA,
    forwarder.closedR, forwarder.pastRange, forwarder.delivered, chan.make]

theorem discipline_run : ∀ (sched : List proc) (s u : net),
    closingDiscipline s → run s sched = some u → closingDiscipline u := by
  intro sched
  induction sched with
  | nil =>
    intro s u hs hr
    simp only [run, Option.some.injEq] at hr
    subst hr
    exact hs
  | cons p rest ih =>
    intro s u hs hr
    simp only [run] at hr
    cases hp : next s p with
    | none =>
      rw [hp] at hr
      cases hr
    | some t =>
      rw [hp] at hr
      exact ih t u (discipline_step hs hp) hr

theorem close_after_return {a : amp} {cin cout : chan} {fwd : Option forwarder}
    {r : amp × chan × chan × Option forwarder} (h : ampMove a cin cout fwd = some r)
    (hc : cout.closed = false) (hr : r.2.2.1.closed = true) : ∃ ro m, a = .returned ro m := by
  cases a with
  | finished r0 m => simp [ampMove] at h
  | returned r0 m => exact ⟨r0, m, rfl⟩
  | running opn m =>
    obtain ⟨_, f2, _, _⟩ := ampMove_flags h rfl hc
    rw [hr] at f2
    by_cases hlt : opn < m.length
    · simp only [ampMove, hlt, if_true] at h
      cases hstep : Day7.step chanioPort opn m ⟨cin, cout, fwd, false, false⟩ with
      | next opn1 m1 s1 =>
        rw [hstep] at h
        simp at h
        subst h
        cases f2
      | ret m1 s1 =>
        rw [hstep] at h
        simp at h
        subst h
        cases f2
      | fail f m1 s1 =>
        rw [hstep] at h
        by_cases hb : s1.blocked = true
        · simp [hb] at h
        · simp [hb] at h
          subst h
          cases f2
    · simp only [ampMove, hlt, if_false, Option.some.injEq] at h
      subst h
      cases f2

end Network

/-! ## Unknown addressing modes -/

theorem get_nonzero_inside {σ : Type} (p : prog σ) {r w : Int} (hg : p.get r = .ok w)
    (hw : w ≠ 0) : 0 ≤ r ∧ r < p.mem.length := by
  unfold prog.get at hg
  split_ifs at hg with h
  · simp only [Except.ok.injEq] at hg
    exact absurd hg.symm hw
  · unfold index at hg
    split_ifs at hg with h2
    exact h2

theorem readFlag_nonzero {σ : Type} (p : prog σ) {opn n f : Int}
    (hf : readFlag p opn n = .ok f) (h0 : f ≠ 0) : 0 < p.mem.length := by
  unfold readFlag at hf
  cases hg : p.get opn with
  | error e => simp [hg] at hf
  | ok w =>
    simp only [hg] at hf
    split_ifs at hf
    simp only [Except.ok.injEq] at hf
    have hw : w ≠ 0 := by
      rintro rfl
      simp at hf
      exact h0 hf.symm
    have := get_nonzero_inside p hg hw
    omega

/-- C31: in day9part1, and in day13part2 whose decoder is the same word for
word, when the mode digit `f` of a parameter is one of 3 to 9, `readParam`
reports no error and returns the value stored at address 0 (the tape is not
empty then), whereas `readAddr` returns the error `unrecognised flag f`.
`readParam` returns no error in any state, whatever the digit; so an Output
instruction whose parameter has such a digit is not rejected by `exec`: it
writes the value stored at address 0 and goes on. -/
theorem unknown_mode_value_operand {σ : Type} :
    (∀ (p : prog σ) (opn n f : Int), readFlag p opn n = .ok f → 3 ≤ f → f ≤ 9 →
        p.get 0 = .ok (p.mem.getD 0 0) ∧ p.mem ≠ []
          ∧ readParam p opn n = .ok { f := f, p := 0, r := 0, v := p.mem.getD 0 0 }
          ∧ readAddr p opn n = .error (.error (.unrecognisedFlag f)))
      ∧ (∀ (p : prog σ) (opn n : Int) (e : Err), readParam p opn n ≠ .error (.error e))
      ∧ (∀ (io : Port σ) (p : prog σ) (opn op f : Int) (s : σ),
        index p.mem opn = .ok op → Int.tmod op 100 = 4 →
        readFlag p opn 1 = .ok f → 3 ≤ f → f ≤ 9 →
        io.Output p.io (p.mem.getD 0 0) = (none, s) →
        step io opn p = .next (wrap64 (opn + 2)) { p with io := s }) := by
  have key : ∀ (p : prog σ) (opn n f : Int), readFlag p opn n = .ok f → 3 ≤ f → f ≤ 9 →
      p.get 0 = .ok (p.mem.getD 0 0) ∧ p.mem ≠ []
        ∧ readParam p opn n = .ok { f := f, p := 0, r := 0, v := p.mem.getD 0 0 }
        ∧ readAddr p opn n = .error (.error (.unrecognisedFlag f)) := by
    intro p opn n f hf h3 h9
    have hlen := readFlag_nonzero p hf (by omega)
    have hg : p.get 0 = .ok (p.mem.getD 0 0) := by
      have := get_inside p (le_refl 0) (by exact_mod_cast hlen)
      simpa using this
    have hne : p.mem ≠ [] := List.length_pos.mp hlen
    have f1 : ¬ f = flagLit := by
      unfold flagLit
      omega
    have f0 : ¬ f = flagPos := by
      unfold flagPos
      omega
    have f2 : ¬ f = flagRel := by
      unfold flagRel
      omega
    refine ⟨hg, hne, ?_, ?_⟩
    · simp only [readParam, hf, if_neg f1, if_neg f0, if_neg f2, hg]
    · simp only [readAddr, hf, if_neg f1, if_neg f0, if_neg f2]
  refine ⟨key, fun p opn n e => readParam_not_error p opn n e, ?_⟩
  intro io p opn op f s hfetch hop hf h3 h9 hout
  obtain ⟨_, _, hrp, _⟩ := key p opn 1 f hf h3 h9
  simp only [step, hfetch, hop, hrp, hout]
  norm_num

theorem unknown_mode_value_operand_witness :
    readParam (⟨([], []), [304, 7, 99], 0⟩ : prog (List Int × List Int)) 0 1
        = .ok { f := 3, p := 0, r := 0, v := 304 }
      ∧ readAddr (⟨([], []), [304, 7, 99], 0⟩ : prog (List Int × List Int)) 0 1
        = .error (.error (.unrecognisedFlag 3))
      ∧ step listPort 0 ⟨([], []), [304, 7, 99], 0⟩ = .next 2 ⟨([], [304]), [304, 7, 99], 0⟩
      ∧ exec listPort 2 ⟨([], []), [304, 7, 99], 0⟩
        = some (none, ⟨([], [304]), [304, 7, 99], 0⟩) := by
  have h := (unknown_mode_value_operand.1
    (⟨([], []), [304, 7, 99], 0⟩ : prog (List Int × List Int)) 0 1 3 rfl (by decide)
    (by decide))
  exact ⟨h.2.2.1, h.2.2.2,
    unknown_mode_value_operand.2.2 listPort ⟨([], []), [304, 7, 99], 0⟩ 0 304 3 ([], [304])
      rfl rfl rfl (by decide) (by decide) rfl, rfl⟩

/-! ## The three addresses of day2part1 -/

namespace Day2

theorem day2_index_inside {intcode : List Int} {i : Int} (h0 : 0 ≤ i) (h1 : i < intcode.length) :
    index intcode i = .ok (intcode.getD i.toNat 0) := by
  simp [index, h0, h1]

/-- C32 (as stated, refuted): on the tape `1,2,3`, `read3refs` with the index
-1 neither returns an error nor three values: `-1 + 3 > 3` is false and the
index expression `intcode[-1]` panics.  With the index `2^63 - 1` the sum
`opn + 3` overflows to a negative number, the test `opn + 3 > len` is false
although the index is far beyond the tape, and `intcode[opn]` panics as well
instead of an error being returned. -/
theorem read3refs_counterexample :
    read3refs [1, 2, 3] (-1) = .error (.indexOutOfRange (-1) 3)
      ∧ read3refs [1, 2, 3] (2 ^ 63 - 1) = .error (.indexOutOfRange (2 ^ 63 - 1) 3) := by
  constructor
  · rfl
  · norm_num [read3refs, wrap64, index]

/-- C32 (amended): for every tape and every index `opn ≥ 0` for which
`opn + 3` does not overflow, `read3refs` returns an error if
`opn + 3 > len`; otherwise, with `a`, `b`, `c` the values at `opn`, `opn + 1`,
`opn + 2`, it returns an error exactly when `max(a, b, c) ≥ len` and returns
`(a, b, c)` otherwise.  Hence, when `read3refs` has returned three values that
are not negative, the addresses that `exec` reads and writes in its Add or
Multiply case are inside the tape: the step stores the sum or the product at
`c` and goes on, without a panic. -/
theorem read3refs_checks :
    (∀ (intcode : List Int) (opn : Int), 0 ≤ opn → opn + 3 < 2 ^ 63 →
        (opn + 3 > intcode.length → ∃ e, read3refs intcode opn = .error (.error e))
          ∧ (opn + 3 ≤ intcode.length →
            (max (intcode.getD opn.toNat 0)
                (max (intcode.getD (opn + 1).toNat 0) (intcode.getD (opn + 2).toNat 0))
                  ≥ intcode.length →
                read3refs intcode opn
                  = .error (.error (.noRegister (max (intcode.getD opn.toNat 0)
                      (max (intcode.getD (opn + 1).toNat 0)
                        (intcode.getD (opn + 2).toNat 0))))))
              ∧ (max (intcode.getD opn.toNat 0)
                  (max (intcode.getD (opn + 1).toNat 0) (intcode.getD (opn + 2).toNat 0))
                    < intcode.length →
                read3refs intcode opn
                  = .ok (intcode.getD opn.toNat 0, intcode.getD (opn + 1).toNat 0,
                      intcode.getD (opn + 2).toNat 0))))
      ∧ (∀ (intcode : List Int) (opn a b c : Int),
        read3refs intcode (wrap64 (opn + 1)) = .ok (a, b, c) → 0 ≤ a → 0 ≤ b → 0 ≤ c →
        (a < intcode.length ∧ b < intcode.length ∧ c < intcode.length)
          ∧ (index intcode opn = .ok 1 →
            step opn intcode = .next (wrap64 (opn + 4))
              (intcode.set c.toNat (wrap64 (intcode.getD a.toNat 0 + intcode.getD b.toNat 0))))
          ∧ (index intcode opn = .ok 2 →
            step opn intcode = .next (wrap64 (opn + 4))
              (intcode.set c.toNat
                (wrap64 (intcode.getD a.toNat 0 * intcode.getD b.toNat 0))))) := by
  constructor
  · intro intcode opn h0 h3
    have w3 : wrap64 (opn + 3) = opn + 3 := wrap64_eq (by omega) h3
    have w1 : wrap64 (opn + 1) = opn + 1 := wrap64_eq (by omega) (by omega)
    have w2 : wrap64 (opn + 2) = opn + 2 := wrap64_eq (by omega) (by omega)
    constructor
    · intro h
      refine ⟨.expected3 (wrap64 (wrap64 (intcode.length - opn) - 1)), ?_⟩
      simp only [read3refs, w3, if_pos h]
    · intro h
      have hn : ¬ opn + 3 > intcode.length := by omega
      have i0 := @day2_index_inside intcode opn h0 (by omega)
      have i1 := @day2_index_inside intcode (opn + 1) (by omega) (by omega)
      have i2 := @day2_index_inside intcode (opn + 2) (by omega) (by omega)
      generalize intcode.getD opn.toNat 0 = a at *
      generalize intcode.getD (opn + 1).toNat 0 = b at *
      generalize intcode.getD (opn + 2).toNat 0 = c at *
      have hm : (if a ≥ b ∧ a ≥ c then a else if b ≥ a ∧ b ≥ c then b else c)
          = max a (max b c) := by
        split_ifs <;> omega
      constructor
      · intro hge
        simp only [read3refs, w3, if_neg hn, i0, w1, i1, w2, i2, hm, if_pos hge]
      · intro hlt
        have hnge : ¬ max a (max b c) ≥ intcode.length := by omega
        simp only [read3refs, w3, if_neg hn, i0, w1, i1, w2, i2, hm, if_neg hnge]
  · intro intcode opn a b c hr ha hb hc
    have hlt : a < intcode.length ∧ b < intcode.length ∧ c < intcode.length := by
      unfold read3refs at hr
      split_ifs at hr
      cases h0 : index intcode (wrap64 (opn + 1)) with
      | error f => simp [h0] at hr
      | ok a1 =>
        simp only [h0] at hr
        cases h1 : index intcode (wrap64 (wrap64 (opn + 1) + 1)) with
        | error f => simp [h1] at hr
        | ok b1 =>
          simp only [h1] at hr
          cases h2 : index intcode (wrap64 (wrap64 (opn + 1) + 2)) with
          | error f => simp [h2] at hr
          | ok c1 =>
            simp only [h2] at hr
            split_ifs at hr with hm <;> simp only [Except.ok.injEq, Prod.mk.injEq] at hr <;>
              obtain ⟨rfl, rfl, rfl⟩ := hr <;> omega
    obtain ⟨la, lb, lc⟩ := hlt
    have ia := @day2_index_inside intcode a ha la
    have ib := @day2_index_inside intcode b hb lb
    refine ⟨⟨la, lb, lc⟩, ?_, ?_⟩
    · intro hop
      simp [step, hop, hr, apply3, ia, ib, hc, lc]
    · intro hop
      simp [step, hop, hr, apply3, ia, ib, hc, lc]

theorem read3refs_checks_witness :
    read3refs [1, 0, 0, 3, 99] 1 = .ok (0, 0, 3)
      ∧ step 0 [1, 0, 0, 3, 99] = .next 4 [1, 0, 0, 2, 99]
      ∧ (∃ e, read3refs [1, 0, 0] 1 = .error (.error e)) := by
  refine ⟨((read3refs_checks.1 [1, 0, 0, 3, 99] 1 (by decide) (by decide)).2
      (by decide)).2 (by decide),
    (read3refs_checks.2 [1, 0, 0, 3, 99] 0 0 0 3 rfl (by decide) (by decide)
      (by decide)).2.1 rfl,
    (read3refs_checks.1 [1, 0, 0] 1 (by decide) (by decide)).1 (by decide)⟩

end Day2

/-! ## The phase orders: `permute5` -/

namespace Permute

theorem span_nil {lo hi : Int} (h : hi < lo) : span lo hi = [] := by
  have : (hi + 1 - lo).toNat = 0 := by omega
  simp [span, this]

theorem span_cons {lo hi : Int} (h : lo ≤ hi) : span lo hi = lo :: span (lo + 1) hi := by
  have e : (hi + 1 - lo).toNat = (hi + 1 - (lo + 1)).toNat + 1 := by omega
  unfold span
  rw [e, List.range_succ_eq_map]
  simp only [List.map_cons, List.map_map, Nat.cast_zero, add_zero, List.cons.injEq, true_and]
  apply List.map_congr_left
  intro i _
  simp only [Function.comp, Nat.succ_eq_add_one, Nat.cast_add, Nat.cast_one]
  ring

theorem mem_span {lo hi x : Int} : x ∈ span lo hi ↔ lo ≤ x ∧ x ≤ hi := by
  simp only [span, List.mem_map, List.mem_range]
  constructor
  · rintro ⟨i, hi, rfl⟩
    omega
  · intro h
    exact ⟨(x - lo).toNat, by omega, by omega⟩

theorem span_sorted (lo hi : Int) : (span lo hi).Pairwise (fun x y => x < y) := by
  unfold span
  rw [List.pairwise_map]
  refine List.Pairwise.imp ?_ (List.pairwise_lt_range _)
  intro i j hij
  omega

/-- A loop whose bodies end, with enough tests to go from `lo` beyond `max`,
ends, and its calls are those of the bodies for `lo`, ..., `max`, in order;
`max` is not the largest `int`. -/
theorem loop_span (max : Int) (body : Int → List args × Bool) (hmax : max < 2 ^ 63 - 1) :
    ∀ (n : Nat) (lo : Int), -2 ^ 63 ≤ lo → lo ≤ max + 1 → (max + 1 - lo).toNat + 1 ≤ n →
      (∀ x, lo ≤ x → x ≤ max → (body x).2 = true) →
      loop max body n lo = ((span lo max).flatMap (fun x => (body x).1), true) := by
  intro n
  induction n with
  | zero =>
    intro lo _ _ hn _
    omega
  | succ n ih =>
    intro lo hlo hle hn hb
    unfold loop
    by_cases h : lo ≤ max
    · have w : wrap64 (lo + 1) = lo + 1 := wrap64_eq (by omega) (by omega)
      have := ih (lo + 1) (by omega) (by omega) (by omega)
        (fun x h1 h2 => hb x (by omega) h2)
      rw [if_pos h, if_pos (hb lo (le_refl _) h), w, this, span_cons h]
      simp
    · rw [if_neg h, span_nil (by omega)]
      simp

theorem bodyE_ends (a b c d e : Int) : (bodyE a b c d e).2 = true := by
  unfold bodyE
  split_ifs <;> rfl

theorem loopE_eq {n : Nat} {min max : Int} (h0 : -2 ^ 63 ≤ min) (h1 : min ≤ max)
    (h2 : max < 2 ^ 63 - 1) (hn : (max + 1 - min).toNat + 1 ≤ n) (a b c d : Int) :
    loop max (bodyE a b c d) n min = (callsE min max a b c d, true) :=
  loop_span max _ h2 n min h0 (by omega) hn (fun x _ _ => bodyE_ends a b c d x)

theorem bodyD_eq {n : Nat} {min max : Int} (h0 : -2 ^ 63 ≤ min) (h1 : min ≤ max)
    (h2 : max < 2 ^ 63 - 1) (hn : (max + 1 - min).toNat + 1 ≤ n) (a b c d : Int) :
    bodyD n min max a b c d
      = (if d = a ∨ d = b ∨ d = c then [] else callsE min max a b c d, true) := by
  unfold bodyD
  split_ifs
  · rfl
  · exact loopE_eq h0 h1 h2 hn a b c d

theorem loopD_eq {n : Nat} {min max : Int} (h0 : -2 ^ 63 ≤ min) (h1 : min ≤ max)
    (h2 : max < 2 ^ 63 - 1) (hn : (max + 1 - min).toNat + 1 ≤ n) (a b c : Int) :
    loop max (bodyD n min max a b c) n min = (callsD min max a b c, true) := by
  rw [loop_span max _ h2 n min h0 (by omega) hn
    (fun x _ _ => by rw [bodyD_eq h0 h1 h2 hn])]
  unfold callsD
  congr 2
  funext d
  rw [bodyD_eq h0 h1 h2 hn]

theorem bodyC_eq {n : Nat} {min max : Int} (h0 : -2 ^ 63 ≤ min) (h1 : min ≤ max)
    (h2 : max < 2 ^ 63 - 1) (hn : (max + 1 - min).toNat + 1 ≤ n) (a b c : Int) :
    bodyC n min max a b c = (if c = a ∨ c = b then [] else callsD min max a b c, true) := by
  unfold bodyC
  split_ifs
  · rfl
  · exact loopD_eq h0 h1 h2 hn a b c

theorem loopC_eq {n : Nat} {min max : Int} (h0 : -2 ^ 63 ≤ min) (h1 : min ≤ max)
    (h2 : max < 2 ^ 63 - 1) (hn : (max + 1 - min).toNat + 1 ≤ n) (a b : Int) :
    loop max (bodyC n min max a b) n min = (callsC min max a b, true) := by
  rw [loop_span max _ h2 n min h0 (by omega) hn
    (fun x _ _ => by rw [bodyC_eq h0 h1 h2 hn])]
  unfold callsC
  congr 2
  funext c
  rw [bodyC_eq h0 h1 h2 hn]

theorem bodyB_eq {n : Nat} {min max : Int} (h0 : -2 ^ 63 ≤ min) (h1 : min ≤ max)
    (h2 : max < 2 ^ 63 - 1) (hn : (max + 1 - min).toNat + 1 ≤ n) (a b : Int) :
    bodyB n min max a b = (if b = a then [] else callsC min max a b, true) := by
  unfold bodyB
  split_ifs
  · rfl
  · exact loopC_eq h0 h1 h2 hn a b

theorem loopB_eq {n : Nat} {min max : Int} (h0 : -2 ^ 63 ≤ min) (h1 : min ≤ max)
    (h2 : max < 2 ^ 63 - 1) (hn : (max + 1 - min).toNat + 1 ≤ n) (a : Int) :
    loop max (bodyB n min max a) n min = (callsB min max a, true) := by
  rw [loop_span max _ h2 n min h0 (by omega) hn
    (fun x _ _ => by rw [bodyB_eq h0 h1 h2 hn])]
  unfold callsB
  congr 2
  funext b
  rw [bodyB_eq h0 h1 h2 hn]

/-- With enough tests for every loop, `permute5` returns and its calls are
`calls min max`. -/
theorem permute5_eq {n : Nat} {min max : Int} (h0 : -2 ^ 63 ≤ min) (h1 : min ≤ max)
    (h2 : max < 2 ^ 63 - 1) (hn : (max + 1 - min).toNat + 1 ≤ n) :
    permute5 n min max = (calls min max, true) := by
  unfold permute5
  rw [loop_span max _ h2 n min h0 (by omega) hn
    (fun x _ _ => by unfold bodyA; rw [loopB_eq h0 h1 h2 hn])]
  unfold calls
  congr 2
  funext a
  unfold bodyA
  rw [loopB_eq h0 h1 h2 hn]

theorem mem_ite_nil {p : Prop} [Decidable p] {L : List args} {t : args} :
    t ∈ (if p then [] else L) ↔ ¬ p ∧ t ∈ L := by
  split_ifs with h <;> simp [h]

theorem mem_callsE {min max a b c d : Int} {t : args} :
    t ∈ callsE min max a b c d
      ↔ t.1 = a ∧ t.2.1 = b ∧ t.2.2.1 = c ∧ t.2.2.2.1 = d
        ∧ (min ≤ t.2.2.2.2 ∧ t.2.2.2.2 ≤ max)
        ∧ t.2.2.2.2 ≠ a ∧ t.2.2.2.2 ≠ b ∧ t.2.2.2.2 ≠ c ∧ t.2.2.2.2 ≠ d := by
  obtain ⟨t1, t2, t3, t4, t5⟩ := t
  simp only [callsE, List.mem_flatMap, mem_span, bodyE]
  constructor
  · rintro ⟨e, he, hm⟩
    split_ifs at hm with hs
    · simp at hm
    · simp only [List.mem_singleton, Prod.mk.injEq] at hm
      obtain ⟨rfl, rfl, rfl, rfl, rfl⟩ := hm
      simp only [not_or] at hs
      exact ⟨rfl, rfl, rfl, rfl, he, hs.1, hs.2.1, hs.2.2.1, hs.2.2.2⟩
  · rintro ⟨rfl, rfl, rfl, rfl, he, n1, n2, n3, n4⟩
    refine ⟨t5, he, ?_⟩
    simp [n1, n2, n3, n4]

theorem mem_callsD {min max a b c : Int} {t : args} :
    t ∈ callsD min max a b c
      ↔ t.1 = a ∧ t.2.1 = b ∧ t.2.2.1 = c
        ∧ (min ≤ t.2.2.2.1 ∧ t.2.2.2.1 ≤ max)
        ∧ (t.2.2.2.1 ≠ a ∧ t.2.2.2.1 ≠ b ∧ t.2.2.2.1 ≠ c)
        ∧ (min ≤ t.2.2.2.2 ∧ t.2.2.2.2 ≤ max)
        ∧ t.2.2.2.2 ≠ a ∧ t.2.2.2.2 ≠ b ∧ t.2.2.2.2 ≠ c ∧ t.2.2.2.2 ≠ t.2.2.2.1 := by
  simp only [callsD, List.mem_flatMap, mem_span, mem_ite_nil, mem_callsE, not_or]
  constructor
  · rintro ⟨d, hd, hs, h1, h2, h3, rfl, he, n1, n2, n3, n4⟩
    exact ⟨h1, h2, h3, hd, hs, he, n1, n2, n3, n4⟩
  · rintro ⟨h1, h2, h3, hd, hs, he, n1, n2, n3, n4⟩
    exact ⟨_, hd, hs, h1, h2, h3, rfl, he, n1, n2, n3, n4⟩

theorem mem_callsC {min max a b : Int} {t : args} :
    t ∈ callsC min max a b
      ↔ t.1 = a ∧ t.2.1 = b
        ∧ (min ≤ t.2.2.1 ∧ t.2.2.1 ≤ max) ∧ (t.2.2.1 ≠ a ∧ t.2.2.1 ≠ b)
        ∧ (min ≤ t.2.2.2.1 ∧ t.2.2.2.1 ≤ max)
        ∧ (t.2.2.2.1 ≠ a ∧ t.2.2.2.1 ≠ b ∧ t.2.2.2.1 ≠ t.2.2.1)
        ∧ (min ≤ t.2.2.2.2 ∧ t.2.2.2.2 ≤ max)
        ∧ t.2.2.2.2 ≠ a ∧ t.2.2.2.2 ≠ b ∧ t.2.2.2.2 ≠ t.2.2.1 ∧ t.2.2.2.2 ≠ t.2.2.2.1 := by
  simp only [callsC, List.mem_flatMap, mem_span, mem_ite_nil, mem_callsD, not_or]
  constructor
  · rintro ⟨c, hc, hs, h1, h2, rfl, rest⟩
    exact ⟨h1, h2, hc, hs, rest⟩
  · rintro ⟨h1, h2, hc, hs, rest⟩
    exact ⟨_, hc, hs, h1, h2, rfl, rest⟩

theorem mem_callsB {min max a : Int} {t : args} :
    t ∈ callsB min max a
      ↔ t.1 = a
        ∧ (min ≤ t.2.1 ∧ t.2.1 ≤ max) ∧ t.2.1 ≠ a
        ∧ (min ≤ t.2.2.1 ∧ t.2.2.1 ≤ max) ∧ (t.2.2.1 ≠ a ∧ t.2.2.1 ≠ t.2.1)
        ∧ (min ≤ t.2.2.2.1 ∧ t.2.2.2.1 ≤ max)
        ∧ (t.2.2.2.1 ≠ a ∧ t.2.2.2.1 ≠ t.2.1 ∧ t.2.2.2.1 ≠ t.2.2.1)
        ∧ (min ≤ t.2.2.2.2 ∧ t.2.2.2.2 ≤ max)
        ∧ t.2.2.2.2 ≠ a ∧ t.2.2.2.2 ≠ t.2.1 ∧ t.2.2.2.2 ≠ t.2.2.1
        ∧ t.2.2.2.2 ≠ t.2.2.2.1 := by
  simp only [callsB, List.mem_flatMap, mem_span, mem_ite_nil, mem_callsC]
  constructor
  · rintro ⟨b, hb, hs, h1, rfl, rest⟩
    exact ⟨h1, hb, hs, rest⟩
  · rintro ⟨h1, hb, hs, rest⟩
    exact ⟨_, hb, hs, h1, rfl, rest⟩

/-- The calls are those with five pairwise distinct numbers of `[min, max]`. -/
theorem mem_calls {min max : Int} {t : args} : t ∈ calls min max ↔ distinctIn min max t := by
  simp only [calls, List.mem_flatMap, mem_span, mem_callsB, distinctIn]
  constructor
  · rintro ⟨a, ha, rfl, hb, nb, hc, ⟨c1, c2⟩, hd, ⟨d1, d2, d3⟩, he, e1, e2, e3, e4⟩
    exact ⟨ha, hb, hc, hd, he, nb, c1, c2, d1, d2, d3, e1, e2, e3, e4⟩
  · rintro ⟨ha, hb, hc, hd, he, nb, c1, c2, d1, d2, d3, e1, e2, e3, e4⟩
    exact ⟨_, ha, rfl, hb, nb, hc, ⟨c1, c2⟩, hd, ⟨d1, d2, d3⟩, he, e1, e2, e3, e4⟩

theorem pairwise_levels {R : args → args → Prop} (f : Int → List args) (lo hi : Int)
    (h1 : ∀ x, List.Pairwise R (f x))
    (h2 : ∀ x y, x < y → ∀ s ∈ f x, ∀ t ∈ f y, R s t) :
    List.Pairwise R ((span lo hi).flatMap f) :=
  List.pairwise_flatMap.mpr
    ⟨fun a _ => h1 a, (span_sorted lo hi).imp (fun hxy => h2 _ _ hxy)⟩

theorem pairwise_ite_nil {R : args → args → Prop} {p : Prop} [Decidable p] {L : List args}
    (h : List.Pairwise R L) : List.Pairwise R (if p then [] else L) := by
  split_ifs
  · exact List.Pairwise.nil
  · exact h

theorem sorted_callsE (min max a b c d : Int) :
    List.Pairwise lexLt (callsE min max a b c d) := by
  apply pairwise_levels
  · intro x
    unfold bodyE
    split_ifs <;> simp
  · intro x y hxy s hs t ht
    unfold bodyE at hs ht
    split_ifs at hs ht <;> simp at hs ht
    subst hs ht
    simp [lexLt, hxy]

theorem sorted_callsD (min max a b c : Int) : List.Pairwise lexLt (callsD min max a b c) := by
  apply pairwise_levels
  · intro x
    exact pairwise_ite_nil (sorted_callsE min max a b c x)
  · intro x y hxy s hs t ht
    obtain ⟨_, s1, s2, s3, s4, _⟩ := (mem_ite_nil.trans (and_congr_right' mem_callsE)).mp hs
    obtain ⟨_, t1, t2, t3, t4, _⟩ := (mem_ite_nil.trans (and_congr_right' mem_callsE)).mp ht
    simp [lexLt, s1, s2, s3, s4, t1, t2, t3, t4, hxy]

theorem sorted_callsC (min max a b : Int) : List.Pairwise lexLt (callsC min max a b) := by
  apply pairwise_levels
  · intro x
    exact pairwise_ite_nil (sorted_callsD min max a b x)
  · intro x y hxy s hs t ht
    obtain ⟨_, s1, s2, s3, _⟩ := (mem_ite_nil.trans (and_congr_right' mem_callsD)).mp hs
    obtain ⟨_, t1, t2, t3, _⟩ := (mem_ite_nil.trans (and_congr_right' mem_callsD)).mp ht
    simp [lexLt, s1, s2, s3, t1, t2, t3, hxy]

theorem sorted_callsB (min max a : Int) : List.Pairwise lexLt (callsB min max a) := by
  apply pairwise_levels
  · intro x
    exact pairwise_ite_nil (sorted_callsC min max a x)
  · intro x y hxy s hs t ht
    obtain ⟨_, s1, s2, _⟩ := (mem_ite_nil.trans (and_congr_right' mem_callsC)).mp hs
    obtain ⟨_, t1, t2, _⟩ := (mem_ite_nil.trans (and_congr_right' mem_callsC)).mp ht
    simp [lexLt, s1, s2, t1, t2, hxy]

/-- The calls are in strictly ascending lexicographic order. -/
theorem sorted_calls (min max : Int) : List.Pairwise lexLt (calls min max) := by
  apply pairwise_levels
  · intro x
    exact sorted_callsB min max x
  · intro x y hxy s hs t ht
    obtain ⟨s1, _⟩ := mem_callsB.mp hs
    obtain ⟨t1, _⟩ := mem_callsB.mp ht
    simp [lexLt, s1, t1, hxy]

theorem lexLt_irrefl (t : args) : ¬ lexLt t t := by
  simp [lexLt]

theorem nodup_calls (min max : Int) : (calls min max).Nodup := by
  refine (sorted_calls min max).imp ?_
  intro s t h e
  subst e
  exact lexLt_irrefl s h

theorem loop_never_ends (body : Int → List args × Bool) :
    ∀ (n : Nat) (x : Int), -2 ^ 63 ≤ x → x < 2 ^ 63 →
      (loop (2 ^ 63 - 1) body n x).2 = false := by
  intro n
  induction n with
  | zero =>
    intro x _ _
    rfl
  | succ n ih =>
    intro x h0 h1
    unfold loop
    have hr := wrap64_range (x + 1)
    rw [if_pos (by omega)]
    split_ifs
    · exact ih _ hr.1 hr.2
    · rfl

theorem calls_5_9_length : (calls 5 9).length = 120 := by
  decide

theorem calls_5_9_perm : ∀ t ∈ calls 5 9,
    List.Perm [t.1, t.2.1, t.2.2.1, t.2.2.2.1, t.2.2.2.2] [5, 6, 7, 8, 9] := by
  decide

theorem perm_distinct {t : args}
    (h : List.Perm [t.1, t.2.1, t.2.2.1, t.2.2.2.1, t.2.2.2.2] [5, 6, 7, 8, 9]) :
    distinctIn 5 9 t := by
  have hn : [t.1, t.2.1, t.2.2.1, t.2.2.2.1, t.2.2.2.2].Nodup := h.nodup_iff.mpr (by decide)
  have hm : ∀ x ∈ [t.1, t.2.1, t.2.2.1, t.2.2.2.1, t.2.2.2.2], 5 ≤ x ∧ x ≤ 9 := by
    intro x hx
    have := h.mem_iff.mp hx
    simp only [List.mem_cons, List.mem_singleton, List.not_mem_nil, or_false] at this
    omega
  simp only [List.nodup_cons, List.mem_cons, List.mem_singleton, List.not_mem_nil, or_false,
    not_or, List.nodup_nil, and_true, not_false_eq_true] at hn
  simp only [List.mem_cons, List.mem_singleton, List.not_mem_nil, or_false, forall_eq_or_imp,
    forall_eq] at hm
  obtain ⟨⟨n1, n2, n3, n4⟩, ⟨n5, n6, n7⟩, ⟨n8, n9⟩, n10⟩ := hn
  obtain ⟨m1, m2, m3, m4, m5⟩ := hm
  exact ⟨m1, m2, m3, m4, m5, Ne.symm n1, Ne.symm n2, Ne.symm n5, Ne.symm n3, Ne.symm n6,
    Ne.symm n8, Ne.symm n4, Ne.symm n7, Ne.symm n9, Ne.symm n10⟩

theorem count_once {L : List args} {t : args} (hn : L.Nodup) (hm : t ∈ L) :
    L.countP (fun s => decide (s = t)) = 1 := by
  induction L with
  | nil => simp at hm
  | cons x rest ih =>
    rw [List.nodup_cons] at hn
    rcases List.mem_cons.mp hm with rfl | h
    · have : rest.countP (fun s => decide (s = t)) = 0 := by
        rw [List.countP_eq_zero]
        intro s hs
        simp only [decide_eq_true_eq]
        rintro rfl
        exact hn.1 hs
      simp [List.countP_cons, this]
    · have hx : ¬ x = t := by
        rintro rfl
        exact hn.1 h
      simp [List.countP_cons, hx, ih hn.2 h]

/-- C33 (as stated, refuted): for `min = max = 2^63 - 1`, the largest `int`,
there is no 5-tuple of pairwise distinct integers in `[min, max]`, yet
`permute5` calls `f`: the test `b <= max` never fails, `b++` wraps to `-2^63`,
and the first call is `f(2^63 - 1, -2^63, -2^63 + 1, -2^63 + 2, -2^63 + 3)`,
whose last four arguments are outside `[min, max]`.  And `permute5` never
returns, whatever the number of tests allowed to its loops. -/
theorem permute5_counterexample :
    (permute5 5 (2 ^ 63 - 1) (2 ^ 63 - 1)).1
        = [(2 ^ 63 - 1, -2 ^ 63, -2 ^ 63 + 1, -2 ^ 63 + 2, -2 ^ 63 + 3)]
      ∧ ¬ distinctIn (2 ^ 63 - 1) (2 ^ 63 - 1)
          (2 ^ 63 - 1, -2 ^ 63, -2 ^ 63 + 1, -2 ^ 63 + 2, -2 ^ 63 + 3)
      ∧ ∀ n : Nat, (permute5 n (2 ^ 63 - 1) (2 ^ 63 - 1)).2 = false := by
  refine ⟨by decide, ?_, ?_⟩
  · simp [distinctIn]
  · intro n
    exact loop_never_ends _ n _ (by norm_num) (by norm_num)

/-- C33 (amended): for all integers `min ≤ max` with `max` below the largest
`int`, `permute5(min, max, f)` returns (every loop ends within
`max - min + 2` tests), it calls `f` exactly once for each ordered 5-tuple of
pairwise distinct integers in `[min, max]`, on no other arguments, and in
strictly ascending lexicographic order of the tuples; for `min = 5` and
`max = 9` the calls are 120 in number and are exactly the permutations of
5, 6, 7, 8, 9. -/
theorem permute5_calls :
    (∀ (min max : Int) (n : Nat), -2 ^ 63 ≤ min → min ≤ max → max < 2 ^ 63 - 1 →
        max - min + 2 ≤ n →
        (permute5 n min max).2 = true
          ∧ (∀ t, distinctIn min max t →
            (permute5 n min max).1.countP (fun s => decide (s = t)) = 1)
          ∧ (∀ t, ¬ distinctIn min max t → t ∉ (permute5 n min max).1)
          ∧ (permute5 n min max).1.Pairwise lexLt)
      ∧ (∀ n : Nat, 6 ≤ n →
        (permute5 n 5 9).1.length = 120
          ∧ ∀ t : args, t ∈ (permute5 n 5 9).1
            ↔ List.Perm [t.1, t.2.1, t.2.2.1, t.2.2.2.1, t.2.2.2.2] [5, 6, 7, 8, 9]) := by
  constructor
  · intro min max n h0 h1 h2 hn
    rw [permute5_eq h0 h1 h2 (by omega)]
    refine ⟨rfl, ?_, ?_, sorted_calls min max⟩
    · intro t ht
      exact count_once (nodup_calls min max) (mem_calls.mpr ht)
    · intro t ht hm
      exact ht (mem_calls.mp hm)
  · intro n hn
    rw [permute5_eq (by norm_num) (by norm_num) (by norm_num) (by omega)]
    refine ⟨calls_5_9_length, ?_⟩
    intro t
    exact ⟨calls_5_9_perm t, fun h => mem_calls.mpr (perm_distinct h)⟩

theorem permute5_calls_witness :
    (permute5 6 5 9).2 = true
      ∧ (permute5 6 5 9).1.countP (fun s => decide (s = (9, 8, 7, 6, 5))) = 1
      ∧ (5, 5, 6, 7, 8) ∉ (permute5 6 5 9).1 ∧ (permute5 6 5 9).1.length = 120 := by
  obtain ⟨h1, h2, h3, _⟩ := permute5_calls.1 5 9 6 (by norm_num) (by norm_num) (by norm_num)
    (by norm_num)
  exact ⟨h1, h2 (9, 8, 7, 6, 5) (by simp [distinctIn]), h3 (5, 5, 6, 7, 8) (by simp [distinctIn]),
    (permute5_calls.2 6 (le_refl _)).1⟩

end Permute

namespace Network

/-! ## The feedback example for any phase order -/

theorem feedbackProgram_eq : feedbackProgram = feedbackTape 0 0 5 := rfl

theorem am0 (x y k s : Int) (r : List Int) (c : Nat) (cl : Bool) (o : chan) (f : Option forwarder) :
    ampMove (.running 0 (feedbackTape x y k)) ⟨s :: r, c, cl⟩ o f
      = some (.running 2 (feedbackTape s y k), ⟨r, c, cl⟩, o, f) := rfl

theorem am2 (x y k : Int) (i o : chan) (f : Option forwarder) :
    ampMove (.running 2 (feedbackTape x y k)) i o f
      = some (.running 6 (feedbackTape (wrap64 (x + -4)) y k), i, o, f) := rfl

theorem am6 (x y k v : Int) (r : List Int) (c : Nat) (cl : Bool) (o : chan) (f : Option forwarder) :
    ampMove (.running 6 (feedbackTape x y k)) ⟨v :: r, c, cl⟩ o f
      = some (.running 8 (feedbackTape x v k), ⟨r, c, cl⟩, o, f) := rfl

theorem am6_eos (x y k : Int) (c : Nat) (o : chan) (f : Option forwarder) :
    ampMove (.running 6 (feedbackTape x y k)) ⟨[], c, true⟩ o f
      = some (.returned (.failed (.error (.readingInput "input closed"))) (feedbackTape x y k),
          ⟨[], c, true⟩, o, f) := rfl

theorem am8 (x y k : Int) (i o : chan) (f : Option forwarder) :
    ampMove (.running 8 (feedbackTape x y k)) i o f
      = some (.running 12 (feedbackTape x (wrap64 (y * 2)) k), i, o, f) := rfl

theorem am12 (x y k : Int) (i o : chan) (f : Option forwarder) :
    ampMove (.running 12 (feedbackTape x y k)) i o f
      = some (.running 16 (feedbackTape x (wrap64 (y + x)) k), i, o, f) := rfl

theorem am16 (x y k : Int) (i : chan) (f : Option forwarder) :
    ampMove (.running 16 (feedbackTape x y k)) i ⟨[], 1, false⟩ f
      = some (.running 18 (feedbackTape x y k), i, ⟨[y], 1, false⟩, f) := rfl

theorem am16_last (x y k n : Int) (i : chan) :
    ampMove (.running 16 (feedbackTape x y k)) i ⟨[], 0, false⟩ (some (.ranging n))
      = some (.running 18 (feedbackTape x y k), i, ⟨[], 0, false⟩, some (.sending y)) := rfl

theorem am18_5 (x y : Int) (i o : chan) (f : Option forwarder) :
    ampMove (.running 18 (feedbackTape x y 5)) i o f
      = some (.running 22 (feedbackTape x y 4), i, o, f) := rfl

theorem am18_4 (x y : Int) (i o : chan) (f : Option forwarder) :
    ampMove (.running 18 (feedbackTape x y 4)) i o f
      = some (.running 22 (feedbackTape x y 3), i, o, f) := rfl

theorem am18_3 (x y : Int) (i o : chan) (f : Option forwarder) :
    ampMove (.running 18 (feedbackTape x y 3)) i o f
      = some (.running 22 (feedbackTape x y 2), i, o, f) := rfl

theorem am18_2 (x y : Int) (i o : chan) (f : Option forwarder) :
    ampMove (.running 18 (feedbackTape x y 2)) i o f
      = some (.running 22 (feedbackTape x y 1), i, o, f) := rfl

theorem am18_1 (x y : Int) (i o : chan) (f : Option forwarder) :
    ampMove (.running 18 (feedbackTape x y 1)) i o f
      = some (.running 22 (feedbackTape x y 0), i, o, f) := rfl

theorem am22_4 (x y : Int) (i o : chan) (f : Option forwarder) :
    ampMove (.running 22 (feedbackTape x y 4)) i o f
      = some (.running 6 (feedbackTape x y 4), i, o, f) := rfl

theorem am22_3 (x y : Int) (i o : chan) (f : Option forwarder) :
    ampMove (.running 22 (feedbackTape x y 3)) i o f
      = some (.running 6 (feedbackTape x y 3), i, o, f) := rfl

theorem am22_2 (x y : Int) (i o : chan) (f : Option forwarder) :
    ampMove (.running 22 (feedbackTape x y 2)) i o f
      = some (.running 6 (feedbackTape x y 2), i, o, f) := rfl

theorem am22_1 (x y : Int) (i o : chan) (f : Option forwarder) :
    ampMove (.running 22 (feedbackTape x y 1)) i o f
      = some (.running 6 (feedbackTape x y 1), i, o, f) := rfl

theorem am22_0 (x y : Int) (i o : chan) (f : Option forwarder) :
    ampMove (.running 22 (feedbackTape x y 0)) i o f
      = some (.running 25 (feedbackTape x y 0), i, o, f) := rfl

theorem am25 (x y k : Int) (i o : chan) (f : Option forwarder) :
    ampMove (.running 25 (feedbackTape x y k)) i o f
      = some (.returned .halted (feedbackTape x y k), i, o, f) := rfl

theorem am_close (r : Outcome) (m : List Int) (i : chan) (b : List Int) (c : Nat)
    (f : Option forwarder) :
    ampMove (.returned r m) i ⟨b, c, false⟩ f = some (.finished r m, i, ⟨b, c, true⟩, f) := rfl

theorem ampRun_phase (x y k s : Int) (r : List Int) (c : Nat) (cl : Bool) (o : chan) :
    ampRun 2 (.running 0 (feedbackTape x y k)) ⟨s :: r, c, cl⟩ o
      = some (.running 6 (feedbackTape (wrap64 (s + -4)) y k), ⟨r, c, cl⟩, o) := by
  simp only [ampRun, am0, am2]

theorem ampRun_round5 (x y v : Int) (r : List Int) (c : Nat) (cl : Bool) :
    ampRun 6 (.running 6 (feedbackTape x y 5)) ⟨v :: r, c, cl⟩ ⟨[], 1, false⟩
      = some (.running 6 (feedbackTape x (amplified x v) 4), ⟨r, c, cl⟩,
          ⟨[amplified x v], 1, false⟩) := by
  simp only [ampRun, am6, am8, am12, am16, am18_5, am22_4, amplified]

theorem ampRun_last (x y v : Int) (r : List Int) (c : Nat) (cl : Bool) :
    ampRun 8 (.running 6 (feedbackTape x y 1)) ⟨v :: r, c, cl⟩ ⟨[], 1, false⟩
      = some (.finished .halted (feedbackTape x (amplified x v) 0), ⟨r, c, cl⟩,
          ⟨[amplified x v], 1, true⟩) := by
  simp only [ampRun, am6, am8, am12, am16, am18_1, am22_0, am25, am_close, amplified]

theorem lastRun_round5 (x y v n : Int) (r : List Int) (c : Nat) (cl : Bool) :
    lastRun 6 (.running 6 (feedbackTape x y 5)) ⟨v :: r, c, cl⟩ ⟨[], 0, false⟩ (.ranging n)
      = some (.running 6 (feedbackTape x (amplified x v) 4), ⟨r, c, cl⟩,
          ⟨[], 0, false⟩, .sending (amplified x v)) := by
  simp only [lastRun, am6, am8, am12, am16_last, am18_5, am22_4, amplified]

theorem ampRun_round4 (x y v : Int) (r : List Int) (c : Nat) (cl : Bool) :
    ampRun 6 (.running 6 (feedbackTape x y 4)) ⟨v :: r, c, cl⟩ ⟨[], 1, false⟩
      = some (.running 6 (feedbackTape x (amplified x v) 3), ⟨r, c, cl⟩,
          ⟨[amplified x v], 1, false⟩) := by
  simp only [ampRun, am6, am8, am12, am16, am18_4, am22_3, amplified]

theorem lastRun_round4 (x y v n : Int) (r : List Int) (c : Nat) (cl : Bool) :
    lastRun 6 (.running 6 (feedbackTape x y 4)) ⟨v :: r, c, cl⟩ ⟨[], 0, false⟩ (.ranging n)
      = some (.running 6 (feedbackTape x (amplified x v) 3), ⟨r, c, cl⟩,
          ⟨[], 0, false⟩, .sending (amplified x v)) := by
  simp only [lastRun, am6, am8, am12, am16_last, am18_4, am22_3, amplified]

theorem ampRun_round3 (x y v : Int) (r : List Int) (c : Nat) (cl : Bool) :
    ampRun 6 (.running 6 (feedbackTape x y 3)) ⟨v :: r, c, cl⟩ ⟨[], 1, false⟩
      = some (.running 6 (feedbackTape x (amplified x v) 2), ⟨r, c, cl⟩,
          ⟨[amplified x v], 1, false⟩) := by
  simp only [ampRun, am6, am8, am12, am16, am18_3, am22_2, amplified]

theorem lastRun_round3 (x y v n : Int) (r : List Int) (c : Nat) (cl : Bool) :
    lastRun 6 (.running 6 (feedbackTape x y 3)) ⟨v :: r, c, cl⟩ ⟨[], 0, false⟩ (.ranging n)
      = some (.running 6 (feedbackTape x (amplified x v) 2), ⟨r, c, cl⟩,
          ⟨[], 0, false⟩, .sending (amplified x v)) := by
  simp only [lastRun, am6, am8, am12, am16_last, am18_3, am22_2, amplified]

theorem ampRun_round2 (x y v : Int) (r : List Int) (c : Nat) (cl : Bool) :
    ampRun 6 (.running 6 (feedbackTape x y 2)) ⟨v :: r, c, cl⟩ ⟨[], 1, false⟩
      = some (.running 6 (feedbackTape x (amplified x v) 1), ⟨r, c, cl⟩,
          ⟨[amplified x v], 1, false⟩) := by
  simp only [ampRun, am6, am8, am12, am16, am18_2, am22_1, amplified]

theorem lastRun_round2 (x y v n : Int) (r : List Int) (c : Nat) (cl : Bool) :
    lastRun 6 (.running 6 (feedbackTape x y 2)) ⟨v :: r, c, cl⟩ ⟨[], 0, false⟩ (.ranging n)
      = some (.running 6 (feedbackTape x (amplified x v) 1), ⟨r, c, cl⟩,
          ⟨[], 0, false⟩, .sending (amplified x v)) := by
  simp only [lastRun, am6, am8, am12, am16_last, am18_2, am22_1, amplified]

theorem ampRun_open (x y s v : Int) (r : List Int) (c : Nat) (cl : Bool) :
    ampRun 8 (.running 0 (feedbackTape x y 5)) ⟨s :: v :: r, c, cl⟩ ⟨[], 1, false⟩
      = some (.running 6 (feedbackTape (wrap64 (s + -4)) (amplified (wrap64 (s + -4)) v) 4),
          ⟨r, c, cl⟩, ⟨[amplified (wrap64 (s + -4)) v], 1, false⟩) := by
  simp only [ampRun, am0, am2, am6, am8, am12, am16, am18_5, am22_4, amplified]

theorem lastRun_phase (x y k s : Int) (r : List Int) (c : Nat) (cl : Bool) (o : chan)
    (f : forwarder) :
    lastRun 2 (.running 0 (feedbackTape x y k)) ⟨s :: r, c, cl⟩ o f
      = some (.running 6 (feedbackTape (wrap64 (s + -4)) y k), ⟨r, c, cl⟩, o, f) := by
  simp only [lastRun, am0, am2]

theorem lastRun_last (x y v n : Int) (r : List Int) (c : Nat) (cl : Bool) :
    lastRun 8 (.running 6 (feedbackTape x y 1)) ⟨v :: r, c, cl⟩ ⟨[], 0, false⟩ (.ranging n)
      = some (.finished .halted (feedbackTape x (amplified x v) 0), ⟨r, c, cl⟩,
          ⟨[], 0, true⟩, .sending (amplified x v)) := by
  simp only [lastRun, am6, am8, am12, am16_last, am18_1, am22_0, am25, am_close, amplified]

theorem fwdRun_send (o r : chan) (n : Int) (res : Option Int) :
    fwdRun o 1 (.sending n) ⟨[], 2, false⟩ r res = some (.ranging n, ⟨[n], 2, false⟩, r, res) :=
  rfl

theorem fwdRun_end (n : Int) :
    fwdRun ⟨[], 0, true⟩ 5 (.sending n) ⟨[], 2, false⟩ ⟨[], 0, false⟩ none
      = some (.done n, ⟨[n], 2, true⟩, ⟨[], 0, true⟩, some n) :=
  rfl

theorem run_turns_A : ∀ (n : Nat) (s : net),
    run s (turns .A n) = (ampRun n s.ampA s.inA s.inB).map
      (fun r => { s with ampA := r.1, inA := r.2.1, inB := r.2.2 }) := by
  intro n
  induction n with
  | zero =>
    intro s
    rfl
  | succ n ih =>
    intro s
    simp only [turns, List.replicate_succ, run, next, ampRun]
    cases h : ampMove s.ampA s.inA s.inB none with
    | none => rfl
    | some r =>
      obtain ⟨a, i, o, f⟩ := r
      simp only []
      exact ih _

theorem run_turns_B : ∀ (n : Nat) (s : net),
    run s (turns .B n) = (ampRun n s.ampB s.inB s.inC).map
      (fun r => { s with ampB := r.1, inB := r.2.1, inC := r.2.2 }) := by
  intro n
  induction n with
  | zero =>
    intro s
    rfl
  | succ n ih =>
    intro s
    simp only [turns, List.replicate_succ, run, next, ampRun]
    cases h : ampMove s.ampB s.inB s.inC none with
    | none => rfl
    | some r =>
      obtain ⟨a, i, o, f⟩ := r
      simp only []
      exact ih _

theorem run_turns_C : ∀ (n : Nat) (s : net),
    run s (turns .C n) = (ampRun n s.ampC s.inC s.inD).map
      (fun r => { s with ampC := r.1, inC := r.2.1, inD := r.2.2 }) := by
  intro n
  induction n with
  | zero =>
    intro s
    rfl
  | succ n ih =>
    intro s
    simp only [turns, List.replicate_succ, run, next, ampRun]
    cases h : ampMove s.ampC s.inC s.inD none with
    | none => rfl
    | some r =>
      obtain ⟨a, i, o, f⟩ := r
      simp only []
      exact ih _

theorem run_turns_D : ∀ (n : Nat) (s : net),
    run s (turns .D n) = (ampRun n s.ampD s.inD s.inE).map
      (fun r => { s with ampD := r.1, inD := r.2.1, inE := r.2.2 }) := by
  intro n
  induction n with
  | zero =>
    intro s
    rfl
  | succ n ih =>
    intro s
    simp only [turns, List.replicate_succ, run, next, ampRun]
    cases h : ampMove s.ampD s.inD s.inE none with
    | none => rfl
    | some r =>
      obtain ⟨a, i, o, f⟩ := r
      simp only []
      exact ih _

theorem run_turns_E : ∀ (n : Nat) (s : net),
    run s (turns .E n) = (lastRun n s.ampE s.inE s.outE s.fwd).map
      (fun r => { s with ampE := r.1, inE := r.2.1, outE := r.2.2.1, fwd := r.2.2.2 }) := by
  intro n
  induction n with
  | zero =>
    intro s
    rfl
  | succ n ih =>
    intro s
    simp only [turns, List.replicate_succ, run, next, lastRun]
    cases h : ampMove s.ampE s.inE s.outE (some s.fwd) with
    | none => rfl
    | some r =>
      obtain ⟨a, i, o, f⟩ := r
      cases f with
      | none => rfl
      | some f =>
        simp only []
        exact ih _

theorem run_turns_F : ∀ (n : Nat) (s : net),
    run s (turns .F n) = (fwdRun s.outE n s.fwd s.inA s.rE s.result).map
      (fun r => { s with fwd := r.1, inA := r.2.1, rE := r.2.2.1, result := r.2.2.2 }) := by
  intro n
  induction n with
  | zero =>
    intro s
    rfl
  | succ n ih =>
    intro s
    simp only [turns, List.replicate_succ, run, next, fwdRun]
    cases h : fwdMove s.fwd s.outE s.inA s.rE s.result with
    | none => rfl
    | some r =>
      obtain ⟨a, i, o, f⟩ := r
      simp only []
      exact ih _

theorem quiet_eval (sa sb sc sd se : Int) :
    (run (start feedbackProgram sa sb sc sd se) feedbackSchedule).map
        (fun t => (t.result.isSome, (Solve.tape t.ampA).length, (Solve.tape t.ampB).length,
          (Solve.tape t.ampC).length, (Solve.tape t.ampD).length, (Solve.tape t.ampE).length))
      = some (true, 29, 29, 29, 29, 29) := by
  simp only [feedbackSchedule, opening, round, run_append, run_turns_A, run_turns_B, run_turns_C,
    run_turns_D, run_turns_E, run_turns_F, start, feedbackProgram_eq, chan.make,
    ampRun_phase, ampRun_open, lastRun_phase, ampRun_round5, lastRun_round5, fwdRun_send,
    ampRun_round4, ampRun_round3, ampRun_round2, lastRun_round4, lastRun_round3,
    lastRun_round2, ampRun_last, lastRun_last, fwdRun_end,
    Option.map_some', Option.some_bind, Option.bind_some]
  rfl

/-- For every phase order the goroutines of the network of the feedback
example, moving by the schedule `feedbackSchedule` while nothing else writes
the slices, come to their end and deliver a value to `solve`. -/
theorem quiet_run (sa sb sc sd se : Int) :
    ∃ t n, run (start feedbackProgram sa sb sc sd se) feedbackSchedule = some t
      ∧ t.result = some n ∧ Solve.sized 29 (Solve.stored t) := by
  have h := quiet_eval sa sb sc sd se
  cases hr : run (start feedbackProgram sa sb sc sd se) feedbackSchedule with
  | none =>
    rw [hr] at h
    cases h
  | some t =>
    rw [hr] at h
    simp only [Option.map_some', Option.some.injEq, Prod.mk.injEq] at h
    obtain ⟨h0, h1, h2, h3, h4, h5⟩ := h
    obtain ⟨n, hn⟩ := Option.isSome_iff_exists.mp h0
    exact ⟨t, n, rfl, hn, h1, h2, h3, h4, h5⟩

theorem ampRun_stall (x y k v : Int) (r : List Int) (c : Nat) (cl : Bool) :
    ampRun 4 (.running 6 (feedbackTape x y k)) ⟨v :: r, c, cl⟩ ⟨[], 1, false⟩
      = some (.running 18 (feedbackTape x (amplified x v) k), ⟨r, c, cl⟩,
          ⟨[amplified x v], 1, false⟩) := by
  simp only [ampRun, am6, am8, am12, am16, amplified]

theorem ampRun_open4 (x y s v : Int) (r : List Int) (c : Nat) (cl : Bool) :
    ampRun 8 (.running 0 (feedbackTape x y 4)) ⟨s :: v :: r, c, cl⟩ ⟨[], 1, false⟩
      = some (.running 6 (feedbackTape (wrap64 (s + -4)) (amplified (wrap64 (s + -4)) v) 3),
          ⟨r, c, cl⟩, ⟨[amplified (wrap64 (s + -4)) v], 1, false⟩) := by
  simp only [ampRun, am0, am2, am6, am8, am12, am16, am18_4, am22_3, amplified]

theorem ampRun_eos (x y k : Int) (c : Nat) (b : List Int) (d : Nat) :
    ampRun 2 (.running 6 (feedbackTape x y k)) ⟨[], c, true⟩ ⟨b, d, false⟩
      = some (.finished (.failed (.error (.readingInput "input closed"))) (feedbackTape x y k),
          ⟨[], c, true⟩, ⟨b, d, true⟩) := by
  simp only [ampRun, am6_eos, am_close]

theorem lastRun_eos (x y k : Int) (c : Nat) (b : List Int) (d : Nat) (f : forwarder) :
    lastRun 2 (.running 6 (feedbackTape x y k)) ⟨[], c, true⟩ ⟨b, d, false⟩ f
      = some (.finished (.failed (.error (.readingInput "input closed"))) (feedbackTape x y k),
          ⟨[], c, true⟩, ⟨b, d, true⟩, f) := by
  simp only [lastRun, am6_eos, am_close]

theorem fwdRun_eos (n : Int) :
    fwdRun ⟨[], 0, true⟩ 4 (.ranging n) ⟨[n], 2, false⟩ ⟨[], 0, false⟩ none
      = some (.done n, ⟨[n], 2, true⟩, ⟨[], 0, true⟩, some n) :=
  rfl

theorem stalled_run :
    run (start feedbackProgram 9 8 7 5 6) stalledSchedule = some feedbackStalled := by
  simp only [stalledSchedule, opening, round, run_append, run_turns_A, run_turns_B, run_turns_C,
    run_turns_D, run_turns_E, run_turns_F, start, feedbackProgram_eq, chan.make,
    ampRun_phase, ampRun_open, lastRun_phase, ampRun_round5, lastRun_round5, fwdRun_send,
    ampRun_round4, ampRun_round3, ampRun_round2, lastRun_round4, lastRun_round3,
    lastRun_round2, ampRun_last, lastRun_last, fwdRun_end, ampRun_stall,
    Option.map_some', Option.some_bind, Option.bind_some]
  decide!

theorem stale_step :
    next (Solve.load ⟨feedbackProgram, feedbackProgram, feedbackProgram, feedbackProgram,
        feedbackProgram⟩ feedbackStalled) .A = some feedbackStale := by
  rfl

theorem raced_run :
    run (Solve.load (Solve.stored feedbackStale) (start feedbackProgram 9 8 7 6 5)) racedSchedule
      = some feedbackRaced := by
  simp only [racedSchedule, opening, round, run_append, run_turns_A, run_turns_B, run_turns_C,
    run_turns_D, run_turns_E, run_turns_F, start, feedbackProgram_eq, chan.make, Solve.load,
    Solve.stored, feedbackStale, Solve.tape, Solve.withTape,
    ampRun_phase, ampRun_open, lastRun_phase, ampRun_round5, lastRun_round5, fwdRun_send,
    ampRun_round4, ampRun_round3, ampRun_round2, lastRun_round4, lastRun_round3,
    lastRun_round2, ampRun_last, lastRun_last, fwdRun_end, ampRun_open4, ampRun_eos,
    lastRun_eos, fwdRun_eos,
    Option.map_some', Option.some_bind, Option.bind_some]
  decide!

end Network

namespace Solve

/-! ## Calls of the function literal of `solve` -/

open Network

theorem solve_run_append (a b : List task) : ∀ w : state,
    run w (a ++ b) = (run w a).bind (fun t => run t b) := by
  induction a with
  | nil =>
    intro w
    rfl
  | cons p rest ih =>
    intro w
    simp only [List.cons_append, run]
    cases next w p with
    | none => rfl
    | some t => exact ih t

theorem copy_same {dst src : List Int} (h : dst.length = src.length) : copy dst src = src := by
  simp [copy, h]

theorem withTape_tape (a : amp) : withTape (tape a) a = a := by
  cases a <;> rfl

theorem load_stored (g : net) : load (stored g) g = g := by
  simp only [load, stored, withTape_tape]

/-- Where `solve` stands after the statements of the function literal up to
`<-rE`: the network of the new call is in place and every slice holds the
program again. -/
theorem enter (w : state) (sa sb sc sd se : Int) (rest : List Permute.args)
    (hp : w.pt = .calling) (ht : w.todo = (sa, sb, sc, sd, se) :: rest)
    (hs : sized w.intcode.length w.slices) :
    run w (List.replicate 7 .main)
      = some { w with
          calls := ((sa, sb, sc, sd, se), Network.start w.intcode sa sb sc sd se) :: w.calls,
          slices := ⟨w.intcode, w.intcode, w.intcode, w.intcode, w.intcode⟩,
          pt := .receiving } := by
  obtain ⟨h1, h2, h3, h4, h5⟩ := hs
  simp only [List.replicate, run, next, main, hp, ht, copy_same h1, copy_same h2, copy_same h3,
    copy_same h4, copy_same h5]

theorem tape_withTape (m : List Int) (a : amp) : tape (withTape m a) = m := by
  cases a <;> rfl

theorem started_of_pt {w w1 : state} (h : w1.pt = w.pt) (i : Nat) (p : proc) :
    started w1 i p = started w i p := by
  simp only [started, h]

/-- One transition of a goroutine of the network of a call, seen from the
program. -/
theorem next_go {w : state} {i : Nat} {p : proc} {o : Permute.args} {g g1 : net}
    (hr : w.pt ≠ .returned) (hst : started w i p = true) (hc : w.calls.get? i = some (o, g))
    (h : Network.next (load w.slices g) p = some g1) :
    next w (.go i p) = some { w with calls := w.calls.set i (o, g1), slices := stored g1 } := by
  simp only [next, if_neg hr, hc, hst, h, if_true]

/-- A schedule of the goroutines of the network of one call, seen from the
program: the network moves on the slices as it finds them and leaves them as
its amplifiers wrote them. -/
theorem run_go (i : Nat) : ∀ (sched : List proc) (p : proc) (w : state) (o : Permute.args)
    (g g1 : net), w.pt ≠ .returned → (∀ q, started w i q = true) →
    w.calls.get? i = some (o, g) →
    Network.run (load w.slices g) (p :: sched) = some g1 →
    run w ((p :: sched).map (.go i))
      = some { w with calls := w.calls.set i (o, g1), slices := stored g1 } := by
  intro sched
  induction sched with
  | nil =>
    intro p w o g g1 hr hst hc h
    simp only [Network.run] at h
    cases hn : Network.next (load w.slices g) p with
    | none =>
      rw [hn] at h
      cases h
    | some g2 =>
      rw [hn] at h
      simp only [Option.some.injEq] at h
      subst h
      simp only [List.map, run, next_go hr (hst p) hc hn]
  | cons q rest ih =>
    intro p w o g g1 hr hst hc h
    rw [Network.run] at h
    cases hn : Network.next (load w.slices g) p with
    | none =>
      rw [hn] at h
      cases h
    | some g2 =>
      rw [hn] at h
      simp only [] at h
      have hlt : i < w.calls.length := by
        by_contra hge
        rw [List.get?_eq_none.mpr (by omega)] at hc
        cases hc
      have := ih q { w with calls := w.calls.set i (o, g2), slices := stored g2 } o g2 g1 hr
        (fun q => (started_of_pt rfl i q).trans (hst q))
        (by simp [List.getElem?_set, hlt])
        (by simpa only [load_stored] using h)
      rw [List.map_cons, run, next_go hr (hst p) hc hn]
      simp only []
      rw [this]
      simp only [List.set_set]

/-- The receive `n := <-rE` once the forwarding goroutine has sent, the test
`n >= max`, and the return of the function literal. -/
theorem collect {w : state} {o : Permute.args} {g : net} {rest : List (Permute.args × net)}
    {n : Int} (hp : w.pt = .receiving) (hc : w.calls = (o, g) :: rest)
    (hr : g.result = some n) :
    next w .main
      = some { w with
          max := if n ≥ w.max then n else w.max,
          printed := if n ≥ w.max then w.printed ++ [(o, n)] else w.printed,
          todo := w.todo.tail,
          pt := .calling } := by
  simp only [next, main, hp, hc, hr]

theorem feedbackSchedule_cons : feedbackSchedule = .B :: feedbackSchedule.tail := rfl

theorem load_start (sa sb sc sd se : Int) (m : List Int) :
    load ⟨m, m, m, m, m⟩ (Network.start m sa sb sc sd se) = Network.start m sa sb sc sd se := rfl

/-- One call of the function literal on the program of the feedback example,
from any state of `solve`, with a schedule that lets the goroutines of the new
network come to their end before `solve` goes on: the call returns. -/
theorem quiet_call (w : state) (o : Permute.args) (rest : List Permute.args)
    (hp : w.pt = .calling) (ht : w.todo = o :: rest) (hi : w.intcode = feedbackProgram)
    (hs : sized 29 w.slices) :
    ∃ sched w1, run w sched = some w1 ∧ w1.pt = .calling ∧ w1.todo = rest
      ∧ w1.intcode = feedbackProgram ∧ sized 29 w1.slices := by
  obtain ⟨sa, sb, sc, sd, se⟩ := o
  obtain ⟨t, n, hrun, hres, hsz⟩ := quiet_run sa sb sc sd se
  obtain ⟨ic, sl, cs, td, pt, mx, pr, tot⟩ := w
  simp only at hp ht hi hs
  subst hp ht hi
  have h1 := enter ⟨feedbackProgram, sl, cs, (sa, sb, sc, sd, se) :: rest, .calling, mx, pr, tot⟩
    sa sb sc sd se rest rfl rfl hs
  rw [feedbackSchedule_cons] at hrun
  have h2 := run_go 0 feedbackSchedule.tail .B
    ⟨feedbackProgram, ⟨feedbackProgram, feedbackProgram, feedbackProgram, feedbackProgram,
      feedbackProgram⟩, ((sa, sb, sc, sd, se), Network.start feedbackProgram sa sb sc sd se) :: cs,
      (sa, sb, sc, sd, se) :: rest, .receiving, mx, pr, tot⟩
    (sa, sb, sc, sd, se) (Network.start feedbackProgram sa sb sc sd se) t
    (by simp) (fun q => rfl) rfl (by rw [load_start]; exact hrun)
  have h3 := @collect
    ⟨feedbackProgram, stored t, ((sa, sb, sc, sd, se), t) :: cs,
      (sa, sb, sc, sd, se) :: rest, .receiving, mx, pr, tot⟩
    (sa, sb, sc, sd, se) t cs n rfl rfl hres
  dsimp only at h1 h2 h3
  rw [List.set_cons_zero] at h2
  refine ⟨List.replicate 7 .main ++ ((Network.proc.B :: feedbackSchedule.tail).map (.go 0)
    ++ [.main]),
    ⟨feedbackProgram, stored t, ((sa, sb, sc, sd, se), t) :: cs, rest, .calling,
      if n ≥ mx then n else mx, if n ≥ mx then pr ++ [((sa, sb, sc, sd, se), n)] else pr, tot⟩,
    ?_, rfl, rfl, rfl, hsz⟩
  rw [solve_run_append, h1, Option.some_bind, solve_run_append, h2, Option.some_bind, run, h3]
  rfl

/-- The calls for the phase orders `pre`, one after the other, each with a
schedule that lets its goroutines come to their end. -/
theorem quiet_calls : ∀ (pre : List Permute.args) (w : state) (rest : List Permute.args),
    w.pt = .calling → w.todo = pre ++ rest → w.intcode = feedbackProgram → sized 29 w.slices →
    ∃ sched w1, run w sched = some w1 ∧ w1.pt = .calling ∧ w1.todo = rest
      ∧ w1.intcode = feedbackProgram ∧ sized 29 w1.slices := by
  intro pre
  induction pre with
  | nil =>
    intro w rest hp ht hi hs
    exact ⟨[], w, rfl, hp, ht, hi, hs⟩
  | cons o pre ih =>
    intro w rest hp ht hi hs
    obtain ⟨s1, w1, r1, p1, t1, i1, z1⟩ := quiet_call w o (pre ++ rest) hp ht hi hs
    obtain ⟨s2, w2, r2, p2, t2, i2, z2⟩ := ih w1 rest p1 t1 i1 z1
    exact ⟨s1 ++ s2, w2, by rw [solve_run_append, r1, Option.some_bind, r2], p2, t2, i2, z2⟩

end Solve

namespace Solve

open Network

theorem stalledSchedule_cons : stalledSchedule = .B :: stalledSchedule.tail := rfl

theorem racedSchedule_cons : racedSchedule = .B :: racedSchedule.tail := rfl

theorem sized_stalled : sized 29 (stored feedbackStalled) :=
  ⟨rfl, rfl, rfl, rfl, rfl⟩

/-- Two calls of the function literal from any state of `solve` with the
program of the feedback example, for the phases 9, 8, 7, 5, 6 and then
9, 8, 7, 6, 5, with a schedule in which the first amplifier of the first call
is held up before its last `1001,28,-1,28` until `solve` has reset the slices
for the second call. -/
theorem stale_calls (w : state) (hp : w.pt = .calling)
    (ht : w.todo = [(9, 8, 7, 5, 6), (9, 8, 7, 6, 5)]) (hi : w.intcode = feedbackProgram)
    (hs : sized 29 w.slices) :
    ∃ sched w1, run w sched = some w1 ∧ w1.pt = .returned
      ∧ w1.calls = ((9, 8, 7, 6, 5), feedbackRaced) :: ((9, 8, 7, 5, 6), feedbackStale)
          :: w.calls := by
  obtain ⟨ic, sl, cs, td, pt, mx, pr, tot⟩ := w
  simp only at hp ht hi hs
  subst hp ht hi
  have h1 := enter ⟨feedbackProgram, sl, cs, [(9, 8, 7, 5, 6), (9, 8, 7, 6, 5)], .calling, mx, pr,
    tot⟩ 9 8 7 5 6 [(9, 8, 7, 6, 5)] rfl rfl hs
  have hrun := stalled_run
  rw [stalledSchedule_cons] at hrun
  have h2 := run_go 0 stalledSchedule.tail .B
    ⟨feedbackProgram, ⟨feedbackProgram, feedbackProgram, feedbackProgram, feedbackProgram,
      feedbackProgram⟩, ((9, 8, 7, 5, 6), Network.start feedbackProgram 9 8 7 5 6) :: cs,
      [(9, 8, 7, 5, 6), (9, 8, 7, 6, 5)], .receiving, mx, pr, tot⟩
    (9, 8, 7, 5, 6) (Network.start feedbackProgram 9 8 7 5 6) feedbackStalled
    (by simp) (fun q => rfl) rfl (by rw [load_start]; exact hrun)
  have h3 := @collect
    ⟨feedbackProgram, stored feedbackStalled, ((9, 8, 7, 5, 6), feedbackStalled) :: cs,
      [(9, 8, 7, 5, 6), (9, 8, 7, 6, 5)], .receiving, mx, pr, tot⟩
    (9, 8, 7, 5, 6) feedbackStalled cs 138547328 rfl rfl rfl
  have h4 := enter
    ⟨feedbackProgram, stored feedbackStalled, ((9, 8, 7, 5, 6), feedbackStalled) :: cs,
      [(9, 8, 7, 6, 5)], .calling, if 138547328 ≥ mx then 138547328 else mx,
      if 138547328 ≥ mx then pr ++ [((9, 8, 7, 5, 6), 138547328)] else pr, tot⟩
    9 8 7 6 5 [] rfl rfl sized_stalled
  have h5 := @next_go
    ⟨feedbackProgram, ⟨feedbackProgram, feedbackProgram, feedbackProgram, feedbackProgram,
      feedbackProgram⟩,
      ((9, 8, 7, 6, 5), Network.start feedbackProgram 9 8 7 6 5)
        :: ((9, 8, 7, 5, 6), feedbackStalled) :: cs,
      [(9, 8, 7, 6, 5)], .receiving, if 138547328 ≥ mx then 138547328 else mx,
      if 138547328 ≥ mx then pr ++ [((9, 8, 7, 5, 6), 138547328)] else pr, tot⟩
    1 .A (9, 8, 7, 5, 6) feedbackStalled feedbackStale (by simp) rfl rfl stale_step
  have hrun2 := raced_run
  rw [racedSchedule_cons] at hrun2
  have h6 := run_go 0 racedSchedule.tail .B
    ⟨feedbackProgram, stored feedbackStale,
      ((9, 8, 7, 6, 5), Network.start feedbackProgram 9 8 7 6 5)
        :: ((9, 8, 7, 5, 6), feedbackStale) :: cs,
      [(9, 8, 7, 6, 5)], .receiving, if 138547328 ≥ mx then 138547328 else mx,
      if 138547328 ≥ mx then pr ++ [((9, 8, 7, 5, 6), 138547328)] else pr, tot⟩
    (9, 8, 7, 6, 5) (Network.start feedbackProgram 9 8 7 6 5) feedbackRaced
    (by simp) (fun q => rfl) rfl hrun2
  have h7 := @collect
    ⟨feedbackProgram, stored feedbackRaced,
      ((9, 8, 7, 6, 5), feedbackRaced) :: ((9, 8, 7, 5, 6), feedbackStale) :: cs,
      [(9, 8, 7, 6, 5)], .receiving, if 138547328 ≥ mx then 138547328 else mx,
      if 138547328 ≥ mx then pr ++ [((9, 8, 7, 5, 6), 138547328)] else pr, tot⟩
    (9, 8, 7, 6, 5) feedbackRaced (((9, 8, 7, 5, 6), feedbackStale) :: cs) 4363425 rfl rfl rfl
  dsimp only at h1 h2 h3 h4 h5 h6 h7
  simp only [List.tail_cons] at h3 h7
  rw [List.set_cons_zero] at h2 h6
  simp only [List.set_cons_succ, List.set_cons_zero] at h5
  refine ⟨List.replicate 7 .main ++ ((Network.proc.B :: stalledSchedule.tail).map (.go 0)
    ++ (.main :: (List.replicate 7 .main ++ (.go 1 .A
      :: ((Network.proc.B :: racedSchedule.tail).map (.go 0) ++ [.main, .main]))))), ?w, ?h, ?p⟩
  case h =>
    rw [solve_run_append, h1, Option.some_bind, solve_run_append, h2, Option.some_bind, run, h3]
    dsimp only
    rw [solve_run_append, h4, Option.some_bind, run, h5]
    dsimp only
    rw [solve_run_append, h6, Option.some_bind, run, h7]
    exact rfl
  case p => exact ⟨rfl, rfl⟩

end Solve

namespace Solve

open Network

theorem orders_eq : (Permute.permute5 6 5 9).1 = Permute.calls 5 9 := by
  rw [Permute.permute5_eq (by norm_num) (by norm_num) (by norm_num) (by decide)]

theorem orders_last_two :
    Permute.calls 5 9 = (Permute.calls 5 9).take 118 ++ [(9, 8, 7, 5, 6), (9, 8, 7, 6, 5)] := by
  decide

theorem orders_last :
    Permute.calls 5 9 = (Permute.calls 5 9).take 119 ++ [(9, 8, 7, 6, 5)] := by
  decide

theorem sized_start : sized 29 (start feedbackProgram).slices :=
  ⟨rfl, rfl, rfl, rfl, rfl⟩

/-- The call of the function literal for the phases 9, 8, 7, 6, 5 from any
state of `solve` with the program of the feedback example, with a schedule in
which only the goroutines of the new network move. -/
theorem undisturbed_call (w : state) (hp : w.pt = .calling) (ht : w.todo = [(9, 8, 7, 6, 5)])
    (hi : w.intcode = feedbackProgram) (hs : sized 29 w.slices) :
    ∃ sched w1, run w sched = some w1 ∧ w1.pt = .returned
      ∧ w1.calls = ((9, 8, 7, 6, 5), feedbackEnd) :: w.calls := by
  obtain ⟨ic, sl, cs, td, pt, mx, pr, tot⟩ := w
  simp only at hp ht hi hs
  subst hp ht hi
  have h1 := enter ⟨feedbackProgram, sl, cs, [(9, 8, 7, 6, 5)], .calling, mx, pr, tot⟩
    9 8 7 6 5 [] rfl rfl hs
  have hrun := feedback_run
  rw [feedbackSchedule_cons] at hrun
  have h2 := run_go 0 feedbackSchedule.tail .B
    ⟨feedbackProgram, ⟨feedbackProgram, feedbackProgram, feedbackProgram, feedbackProgram,
      feedbackProgram⟩, ((9, 8, 7, 6, 5), Network.start feedbackProgram 9 8 7 6 5) :: cs,
      [(9, 8, 7, 6, 5)], .receiving, mx, pr, tot⟩
    (9, 8, 7, 6, 5) (Network.start feedbackProgram 9 8 7 6 5) feedbackEnd
    (by simp) (fun q => rfl) rfl (by rw [load_start]; exact hrun)
  have h3 := @collect
    ⟨feedbackProgram, stored feedbackEnd, ((9, 8, 7, 6, 5), feedbackEnd) :: cs,
      [(9, 8, 7, 6, 5)], .receiving, mx, pr, tot⟩
    (9, 8, 7, 6, 5) feedbackEnd cs 139629729 rfl rfl rfl
  dsimp only at h1 h2 h3
  simp only [List.tail_cons] at h3
  rw [List.set_cons_zero] at h2
  refine ⟨List.replicate 7 .main ++ ((Network.proc.B :: feedbackSchedule.tail).map (.go 0)
    ++ [.main, .main]), ?w, ?h, ?p⟩
  case h =>
    rw [solve_run_append, h1, Option.some_bind, solve_run_append, h2, Option.some_bind, run, h3]
    exact rfl
  case p => exact ⟨rfl, rfl⟩

/-- C21 (code bug): `solve` on the program
`3,26,1001,26,-4,26,3,27,1002,27,2,27,1,27,26,27,4,27,1001,28,-1,28,1005,28,6,99,0,0,5`.
What the call for the phases 9, 8, 7, 6, 5 (the last of the 120 calls of
`permute5`) receives from `rE` depends on the schedule of the goroutines of
the program.  There is a run of `solve` to its return in which the network of
that call ends as `feedbackEnd`: all five amplifiers have halted and `solve`
has received 139629729.  There is another run of `solve` to its return in
which the first amplifier of the call before (phases 9, 8, 7, 5, 6), which
`solve` does not wait for, runs its last `1001,28,-1,28` after `solve` has
copied the program into `ampA` again: the new first amplifier then makes four
rounds instead of five and the network ends as `feedbackRaced`, where no
goroutine can move, the amplifiers B to E have returned `input closed` instead
of halting, and `solve` has received 4363425. -/
theorem solve_feedback_race :
    (∃ sched w rest, run (start feedbackProgram) sched = some w ∧ w.pt = .returned
        ∧ w.calls = ((9, 8, 7, 6, 5), feedbackEnd) :: rest)
      ∧ (∃ sched w rest, run (start feedbackProgram) sched = some w ∧ w.pt = .returned
        ∧ w.calls = ((9, 8, 7, 6, 5), feedbackRaced) :: ((9, 8, 7, 5, 6), feedbackStale) :: rest)
      ∧ (feedbackEnd.result = some 139629729 ∧ feedbackEnd.ampA.halted = true
        ∧ feedbackEnd.ampB.halted = true ∧ feedbackEnd.ampC.halted = true
        ∧ feedbackEnd.ampD.halted = true ∧ feedbackEnd.ampE.halted = true)
      ∧ (feedbackRaced.result = some 4363425 ∧ Network.stuck feedbackRaced = true
        ∧ feedbackRaced.ampA.halted = true ∧ feedbackRaced.ampB.halted = false
        ∧ feedbackRaced.ampC.halted = false ∧ feedbackRaced.ampD.halted = false
        ∧ feedbackRaced.ampE.halted = false) := by
  refine ⟨?_, ?_, ⟨rfl, rfl, rfl, rfl, rfl, rfl⟩, ⟨rfl, rfl, rfl, rfl, rfl, rfl, rfl⟩⟩
  · obtain ⟨s1, w1, r1, p1, t1, i1, z1⟩ := quiet_calls ((Permute.calls 5 9).take 119)
      (start feedbackProgram) [(9, 8, 7, 6, 5)] rfl
      (by show (Permute.permute5 6 5 9).1 = _; rw [orders_eq]; exact orders_last) rfl sized_start
    obtain ⟨s2, w2, r2, p2, c2⟩ := undisturbed_call w1 p1 t1 i1 z1
    exact ⟨s1 ++ s2, w2, w1.calls, by rw [solve_run_append, r1, Option.some_bind, r2], p2, c2⟩
  · obtain ⟨s1, w1, r1, p1, t1, i1, z1⟩ := quiet_calls ((Permute.calls 5 9).take 118)
      (start feedbackProgram) [(9, 8, 7, 5, 6), (9, 8, 7, 6, 5)] rfl
      (by show (Permute.permute5 6 5 9).1 = _; rw [orders_eq]; exact orders_last_two) rfl
      sized_start
    obtain ⟨s2, w2, r2, p2, c2⟩ := stale_calls w1 p1 t1 i1 z1
    exact ⟨s1 ++ s2, w2, w1.calls, by rw [solve_run_append, r1, Option.some_bind, r2], p2, c2⟩

end Solve

namespace Network

/-! ## The network at rest -/

/-- An amplifier goroutine that cannot move has ended, or is parked in a
receive from its empty, open input channel, or is parked in a send to its
open output channel, which has no room. -/
theorem ampMove_none {a : amp} {cin cout : chan} (h : ampMove a cin cout none = none) :
    a.isFinished = true ∨ cin.recv = none
      ∨ (cout.closed = false ∧ cout.cap ≤ cout.buf.length) := by
  cases a with
  | finished r0 m => exact Or.inl rfl
  | returned r0 m =>
    cases hc : cout.close with
    | none => simp [ampMove, hc] at h
    | some c => simp [ampMove, hc] at h
  | running opn m =>
    by_cases hlt : opn < m.length
    · rcases step_shape opn m with ⟨opn1, m1, hs⟩ | ⟨m1, hs⟩ | ⟨f, m1, hs⟩ | ⟨dst, hs⟩ | ⟨v, hs⟩
      · simp [ampMove, hlt, hs] at h
      · simp [ampMove, hlt, hs] at h
      · simp [ampMove, hlt, hs] at h
      · cases hr : cin.recv with
        | none => exact Or.inr (Or.inl rfl)
        | some r =>
          obtain ⟨v, c⟩ := r
          cases v with
          | none => simp [ampMove, hlt, hs, chanioPort, hr, afterInput] at h
          | some v =>
            rcases assign_shape m opn 2 dst v with ⟨opn1, m1, ha⟩ | ⟨f, m1, ha⟩
            · simp [ampMove, hlt, hs, chanioPort, hr, afterInput, ha] at h
            · simp [ampMove, hlt, hs, chanioPort, hr, afterInput, ha] at h
      · by_cases hcl : cout.closed = true
        · simp [ampMove, hlt, hs, chanioPort, chan.send, hcl, afterOutput] at h
        · by_cases hroom : cout.buf.length < cout.cap
          · simp [ampMove, hlt, hs, chanioPort, chan.send, hcl, hroom, afterOutput] at h
          · exact Or.inr (Or.inr ⟨by simpa using hcl, by omega⟩)
    · simp [ampMove, hlt] at h

theorem recv_of_closed {c : chan} (h : c.closed = true) : c.recv ≠ none := by
  cases hb : c.buf with
  | nil => simp [chan.recv, hb, h]
  | cons v rest => simp [chan.recv, hb]

theorem recv_of_full {c : chan} (h0 : 0 < c.cap) (h : c.cap ≤ c.buf.length) : c.recv ≠ none := by
  cases hb : c.buf with
  | nil =>
    rw [hb] at h
    simp at h
    omega
  | cons v rest => simp [chan.recv, hb]

/-- An amplifier goroutine that cannot move although a receive from its input
channel would not block is not parked in `Input`; its successor then finds its
own input channel closed or holding a value. -/
theorem parked_amp {a : amp} {cin cout : chan} (h : ampMove a cin cout none = none)
    (hin : cin.recv ≠ none) (hcl : cout.closed = a.isFinished) (hcap : cout.cap = 1) :
    notAwaitingInput a cin cout ∧ cout.recv ≠ none := by
  rcases ampMove_none h with hf | hr | ⟨ho, hfull⟩
  · exact ⟨Or.inl hf, recv_of_closed (hcl.trans hf)⟩
  · exact absurd hr hin
  · exact ⟨Or.inr ⟨hin, ho, hfull⟩, recv_of_full (by omega) hfull⟩

theorem next_A_none {s : net} (h : next s .A = none) : ampMove s.ampA s.inA s.inB none = none := by
  simp only [next] at h
  cases hm : ampMove s.ampA s.inA s.inB none with
  | none => rfl
  | some r =>
    obtain ⟨a, i, o, f⟩ := r
    simp [hm] at h

theorem next_B_none {s : net} (h : next s .B = none) : ampMove s.ampB s.inB s.inC none = none := by
  simp only [next] at h
  cases hm : ampMove s.ampB s.inB s.inC none with
  | none => rfl
  | some r =>
    obtain ⟨a, i, o, f⟩ := r
    simp [hm] at h

theorem next_C_none {s : net} (h : next s .C = none) : ampMove s.ampC s.inC s.inD none = none := by
  simp only [next] at h
  cases hm : ampMove s.ampC s.inC s.inD none with
  | none => rfl
  | some r =>
    obtain ⟨a, i, o, f⟩ := r
    simp [hm] at h

theorem next_D_none {s : net} (h : next s .D = none) : ampMove s.ampD s.inD s.inE none = none := by
  simp only [next] at h
  cases hm : ampMove s.ampD s.inD s.inE none with
  | none => rfl
  | some r =>
    obtain ⟨a, i, o, f⟩ := r
    simp [hm] at h

theorem next_F_none {s : net} (h : next s .F = none) :
    fwdMove s.fwd s.outE s.inA s.rE s.result = none := by
  simp only [next] at h
  cases hm : fwdMove s.fwd s.outE s.inA s.rE s.result with
  | none => rfl
  | some r =>
    obtain ⟨a, i, o, f⟩ := r
    simp [hm] at h

/-- A forwarding goroutine that cannot move after the last amplifier has
closed `outE` has ended, having closed `inA` and `rE`, or is parked in
`inA <- n`. -/
theorem parked_forwarder {s : net} (hd : closingDiscipline s) (hE : s.ampE.isFinished = true)
    (h : fwdMove s.fwd s.outE s.inA s.rE s.result = none) : forwarderSettled s := by
  obtain ⟨_, _, _, _, h5, h6, h7, _, h9, h10, _⟩ := hd
  have hout : s.outE.closed = true := h5.trans hE
  cases hf : s.fwd with
  | ranging n => simp [hf, fwdMove, hout] at h
  | sending n =>
    rw [hf] at h h6 h9
    have hA : s.inA.closed = false := by simpa [forwarder.closedA] using h6
    have hres : s.result = none := by
      cases hr : s.result with
      | none => rfl
      | some v => simp [hr, forwarder.delivered] at h9
    by_cases hroom : s.inA.buf.length < s.inA.cap
    · simp [fwdMove, chan.send, hA, hroom] at h
    · exact Or.inr ⟨⟨n, hf⟩, hA, by omega, hres⟩
  | tee n =>
    rw [hf] at h h7 h9
    have hR : s.rE.closed = false := by simpa [forwarder.closedR] using h7
    have hres : s.result = none := by
      cases hr : s.result with
      | none => rfl
      | some v => simp [hr, forwarder.delivered] at h9
    simp [fwdMove, hR, hres] at h
  | closeA n =>
    rw [hf] at h h6
    have hA : s.inA.closed = false := by simpa [forwarder.closedA] using h6
    simp [fwdMove, chan.close, hA] at h
  | closeR n =>
    rw [hf] at h h7
    have hR : s.rE.closed = false := by simpa [forwarder.closedR] using h7
    simp [fwdMove, chan.close, hR] at h
  | done n =>
    rw [hf] at h6 h7 h9
    exact Or.inl ⟨⟨n, hf⟩, by simpa [forwarder.closedA] using h6,
      by simpa [forwarder.closedR] using h7, by simpa [forwarder.delivered] using h9⟩
  | crashed => exact absurd hf h10

/-- The network at rest after the last amplifier has ended: the forwarding
goroutine has closed `inA` or is parked in `inA <- n`, and no amplifier is
parked in `Input`. -/
theorem rest_settled {s : net} (hd : closingDiscipline s) (hc : capacities s)
    (hE : s.ampE.isFinished = true) (hs : stuck s = true) :
    forwarderSettled s ∧ notAwaitingInput s.ampA s.inA s.inB
      ∧ notAwaitingInput s.ampB s.inB s.inC ∧ notAwaitingInput s.ampC s.inC s.inD
      ∧ notAwaitingInput s.ampD s.inD s.inE := by
  have hall := (stuck_iff s).mp hs
  have hF := parked_forwarder hd hE (next_F_none (hall .F))
  obtain ⟨h1, h2, h3, h4, _⟩ := hd
  obtain ⟨cA, cB, cC, cD, cE, _, _⟩ := hc
  have rA : s.inA.recv ≠ none := by
    rcases hF with ⟨_, hcl, _⟩ | ⟨_, _, hfull, _⟩
    · exact recv_of_closed hcl
    · exact recv_of_full (by omega) hfull
  obtain ⟨nA, rB⟩ := parked_amp (next_A_none (hall .A)) rA h1 cB
  obtain ⟨nB, rC⟩ := parked_amp (next_B_none (hall .B)) rB h2 cC
  obtain ⟨nC, rD⟩ := parked_amp (next_C_none (hall .C)) rC h3 cD
  obtain ⟨nD, _⟩ := parked_amp (next_D_none (hall .D)) rD h4 cE
  exact ⟨hF, nA, nB, nC, nD⟩

theorem ampMove_caps {a : amp} {cin cout : chan} {fwd : Option forwarder}
    {r : amp × chan × chan × Option forwarder} (h : ampMove a cin cout fwd = some r) :
    r.2.1.cap = cin.cap ∧ r.2.2.1.cap = cout.cap := by
  obtain ⟨a1, R, S, hR, hS, hall⟩ := ampMove_views h
  have := hall cin cout fwd hR hS
  rw [h] at this
  simp only [Option.some.injEq] at this
  subst this
  constructor
  · cases R <;> rfl
  · cases S <;> rfl

theorem fwdMove_caps {f : forwarder} {outE inA rE : chan} {res : Option Int}
    {r : forwarder × chan × chan × Option Int} (h : fwdMove f outE inA rE res = some r) :
    r.2.1.cap = inA.cap ∧ r.2.2.1.cap = rE.cap := by
  cases f with
  | ranging n =>
    by_cases hc : outE.closed = true
    · simp only [fwdMove, hc, if_true, Option.some.injEq] at h
      subst h
      exact ⟨rfl, rfl⟩
    · simp [fwdMove, hc] at h
  | sending n =>
    by_cases hc : inA.closed = true
    · simp [fwdMove, chan.send, hc] at h
      subst h
      exact ⟨rfl, rfl⟩
    · by_cases hroom : inA.buf.length < inA.cap
      · simp [fwdMove, chan.send, hc, hroom] at h
        subst h
        exact ⟨rfl, rfl⟩
      · simp [fwdMove, chan.send, hc, hroom] at h
  | tee n =>
    by_cases hc : rE.closed = true
    · simp [fwdMove, hc] at h
      subst h
      exact ⟨rfl, rfl⟩
    · cases res with
      | none =>
        simp [fwdMove, hc] at h
        subst h
        exact ⟨rfl, rfl⟩
      | some v => simp [fwdMove, hc] at h
  | closeA n =>
    by_cases hc : inA.closed = true
    · simp [fwdMove, chan.close, hc] at h
      subst h
      exact ⟨rfl, rfl⟩
    · simp [fwdMove, chan.close, hc] at h
      subst h
      exact ⟨rfl, rfl⟩
  | closeR n =>
    by_cases hc : rE.closed = true
    · simp [fwdMove, chan.close, hc] at h
      subst h
      exact ⟨rfl, rfl⟩
    · simp [fwdMove, chan.close, hc] at h
      subst h
      exact ⟨rfl, rfl⟩
  | done n => simp [fwdMove] at h
  | crashed => simp [fwdMove] at h

/-- Every transition keeps the capacities of the channels. -/
theorem capacities_step {s t : net} {p : proc} (hs : capacities s) (h : next s p = some t) :
    capacities t := by
  obtain ⟨cA, cB, cC, cD, cE, cO, cR⟩ := hs
  cases p with
  | A =>
    obtain ⟨r, hr, rfl⟩ := next_A.mp h
    obtain ⟨f1, f2⟩ := ampMove_caps hr
    exact ⟨f1.trans cA, f2.trans cB, cC, cD, cE, cO, cR⟩
  | B =>
    obtain ⟨r, hr, rfl⟩ := next_B.mp h
    obtain ⟨f1, f2⟩ := ampMove_caps hr
    exact ⟨cA, f1.trans cB, f2.trans cC, cD, cE, cO, cR⟩
  | C =>
    obtain ⟨r, hr, rfl⟩ := next_C.mp h
    obtain ⟨f1, f2⟩ := ampMove_caps hr
    exact ⟨cA, cB, f1.trans cC, f2.trans cD, cE, cO, cR⟩
  | D =>
    obtain ⟨r, hr, rfl⟩ := next_D.mp h
    obtain ⟨f1, f2⟩ := ampMove_caps hr
    exact ⟨cA, cB, cC, f1.trans cD, f2.trans cE, cO, cR⟩
  | E =>
    obtain ⟨r, f, hr, hf, rfl⟩ := next_E.mp h
    obtain ⟨f1, f2⟩ := ampMove_caps hr
    exact ⟨cA, cB, cC, cD, f1.trans cE, f2.trans cO, cR⟩
  | F =>
    obtain ⟨r, hr, rfl⟩ := next_F.mp h
    obtain ⟨f1, f2⟩ := fwdMove_caps hr
    exact ⟨f1.trans cA, cB, cC, cD, cE, cO, f2.trans cR⟩

theorem capacities_start (intcode : List Int) (sa sb sc sd se : Int) :
    capacities (start intcode sa sb sc sd se) :=
  ⟨rfl, rfl, rfl, rfl, rfl, rfl, rfl⟩

/-- An amplifier whose pass of the loop calls `Input` on a closed channel that
holds no value: `exec` returns the error `input closed`, and nothing else
changes. -/
theorem input_closed {opn op dst : Int} {m : List Int} {cin cout : chan}
    {fwd : Option forwarder} (hlt : opn < m.length) (hi : index m opn = .ok op)
    (h3 : Int.tmod op 100 = 3) (hd : Day7.readAddr m opn 1 = .ok dst) (hb : cin.buf = [])
    (hc : cin.closed = true) :
    ampMove (.running opn m) cin cout fwd
      = some (.returned (.failed (.error (.readingInput "input closed"))) m, cin, cout, fwd) := by
  have h99 : ¬ Int.tmod op 100 = 99 := by omega
  have h1 : ¬ Int.tmod op 100 = 1 := by omega
  have h2 : ¬ Int.tmod op 100 = 2 := by omega
  simp [ampMove, hlt, Day7.step, hi, h99, h1, h2, h3, hd, chanioPort, chan.recv, hb, hc]

end Network

namespace Solve

/-! ## The closing discipline in every call of `solve` -/

open Network

theorem isFinished_withTape (m : List Int) (a : amp) :
    (withTape m a).isFinished = a.isFinished := by
  cases a <;> rfl

theorem panicked_withTape (m : List Int) (a : amp) :
    (withTape m a).panicked = a.panicked := by
  cases a with
  | running opn t => rfl
  | returned r t => cases r <;> rfl
  | finished r t => cases r <;> rfl

theorem discipline_load (t : slices) (g : net) :
    closingDiscipline (load t g) ↔ closingDiscipline g := by
  simp only [closingDiscipline, load, isFinished_withTape, panicked_withTape]

theorem notAwaitingInput_withTape (m : List Int) (a : amp) (cin cout : chan) :
    notAwaitingInput (withTape m a) cin cout ↔ notAwaitingInput a cin cout := by
  simp only [notAwaitingInput, isFinished_withTape]

/-- The network of every call keeps the closing discipline and the capacities
of its channels, whatever goroutine of the program moves. -/
theorem calls_step {w w1 : state} {t : task} (h : next w t = some w1)
    (hi : ∀ c ∈ w.calls, closingDiscipline c.2 ∧ capacities c.2) :
    ∀ c ∈ w1.calls, closingDiscipline c.2 ∧ capacities c.2 := by
  cases t with
  | main =>
    simp only [next, main] at h
    split at h
    · split at h
      · simp only [Option.some.injEq] at h
        subst h
        exact hi
      · simp only [Option.some.injEq] at h
        subst h
        intro c hc
        simp only [List.mem_cons] at hc
        rcases hc with rfl | hc
        · exact ⟨discipline_start _ _ _ _ _ _, capacities_start _ _ _ _ _ _⟩
        · exact hi c hc
    all_goals first
      | (simp only [Option.some.injEq] at h
         subst h
         exact hi)
      | (split at h
         · cases h
         · split at h
           · cases h
           · simp only [Option.some.injEq] at h
             subst h
             exact hi)
      | cases h
  | go i p =>
    simp only [next] at h
    split at h
    · cases h
    · split at h
      · cases h
      · rename_i o g hg
        split at h
        · split at h
          · cases h
          · rename_i g1 hn
            simp only [Option.some.injEq] at h
            subst h
            intro c hc
            rcases List.mem_or_eq_of_mem_set hc with hc | rfl
            · exact hi c hc
            · have hmem : (o, g) ∈ w.calls := List.get?_mem hg
              obtain ⟨hd, hcap⟩ := hi _ hmem
              exact ⟨discipline_step ((discipline_load w.slices g).mpr hd) hn,
                @capacities_step (load w.slices g) g1 p hcap hn⟩
        · cases h

theorem calls_run : ∀ (sched : List task) (w w1 : state),
    (∀ c ∈ w.calls, closingDiscipline c.2 ∧ capacities c.2) → run w sched = some w1 →
    ∀ c ∈ w1.calls, closingDiscipline c.2 ∧ capacities c.2 := by
  intro sched
  induction sched with
  | nil =>
    intro w w1 hi hr
    simp only [run, Option.some.injEq] at hr
    subst hr
    exact hi
  | cons t rest ih =>
    intro w w1 hi hr
    simp only [run] at hr
    cases ht : next w t with
    | none =>
      rw [ht] at hr
      cases hr
    | some w2 =>
      rw [ht] at hr
      exact ih w2 w1 (calls_step ht hi) hr

theorem run_fixed {w : state} {t : task} (h : next w t = some w) :
    ∀ n : Nat, run w (List.replicate n t) = some w := by
  intro n
  induction n with
  | zero => rfl
  | succ n ih => simp only [List.replicate_succ, run, h, ih]

theorem deadlock_run :
    run (start twoOutputs) (List.replicate 7 .main ++ deadlockSchedule.map (.go 0))
      = some { start twoOutputs with
          slices := ⟨twoOutputsTape (-4), twoOutputsTape (-3), twoOutputsTape (-2),
            twoOutputsTape (-1), twoOutputsTape 0⟩,
          calls := [((5, 6, 7, 8, 9), outputDeadlock)],
          pt := .receiving } := by
  rfl

theorem spin_run :
    run (start spinFirst) (List.replicate 7 .main ++ spinSchedule.map (.go 0))
      = some { start spinFirst with
          slices := ⟨spinFirstTape 0, spinFirstTape 1, spinFirstTape 2, spinFirstTape 3,
            spinFirstTape 0⟩,
          calls := [((5, 6, 7, 8, 9), spinning)],
          pt := .receiving } := by
  rfl

end Solve

namespace Solve

open Network

/-- C29 (as stated, refuted), with the last amplifier halted in both runs.
On the program `twoOutputs` the first call of `solve` (phases 5, 6, 7, 8, 9)
reaches a state in which no goroutine of the program can move: the five
amplifiers have halted, the last one after two outputs, but the forwarding
goroutine is parked in `inA <- 2`, the buffer of `inA` being full, so it never
sees the end of the stream on `outE`, `inA` is never closed, and `solve` stays
in `<-rE`.  On the program `spinFirst` the first call reaches a state in which
the last amplifier has halted and the forwarding goroutine has closed `inA` and
ended, while the amplifier B stands at the Input instruction at address 19, a
receive from its empty, open input channel blocks, and the only goroutine of
the network that can move is the first amplifier, whose transition leaves the
state as it is: B stays parked in `Input` however long the network runs. -/
theorem closing_counterexample :
    (∃ sched w, run (start twoOutputs) sched = some w
        ∧ w.calls = [((5, 6, 7, 8, 9), outputDeadlock)] ∧ ∀ t, next w t = none)
      ∧ (outputDeadlock.ampE.halted = true ∧ outputDeadlock.fwd = .sending 2
        ∧ outputDeadlock.inA.closed = false ∧ outputDeadlock.result = none)
      ∧ (∃ sched w, run (start spinFirst) sched = some w
        ∧ w.calls = [((5, 6, 7, 8, 9), spinning)]
        ∧ next w (.go 0 .A) = some w ∧ (∀ p, p ≠ .A → next w (.go 0 p) = none)
        ∧ ∀ n, run w (List.replicate n (.go 0 .A)) = some w)
      ∧ (spinning.ampE.halted = true ∧ spinning.fwd = .done 0 ∧ spinning.inA.closed = true
        ∧ spinning.ampB = .running 19 (spinFirstTape 1)
        ∧ index (spinFirstTape 1) 19 = .ok 3 ∧ spinning.inB.recv = none) := by
  refine ⟨⟨_, _, deadlock_run, rfl, ?_⟩, ⟨rfl, rfl, rfl, rfl⟩,
    ⟨_, _, spin_run, rfl, rfl, ?_, run_fixed rfl⟩, ⟨rfl, rfl, rfl, rfl, rfl, rfl⟩⟩
  · intro t
    cases t with
    | main => rfl
    | go i p =>
      cases i with
      | zero => cases p <;> rfl
      | succ i => rfl
  · intro p hp
    cases p with
    | A => exact absurd rfl hp
    | B => rfl
    | C => rfl
    | D => rfl
    | E => rfl
    | F => rfl

/-- C29 (amended): in a run of `solve` on any program, under any schedule of
the goroutines of the program, the network of every call keeps the closing
discipline: the queue feeding the successor of an amplifier is closed exactly
when the deferred `close` of that amplifier has run, `inA` is closed exactly
when the forwarding goroutine has passed `close(inA)`, which is after it saw
the end of the stream on `outE`, and no goroutine has panicked, so no queue was
closed twice and nothing was sent on a closed queue.  Once the last amplifier
has ended, whenever no goroutine of the network can move, the forwarding
goroutine has closed `inA` and ended or is parked in `inA <- n`, and no
amplifier is parked in `Input`.  A `close` of the output queue is run by a
goroutine whose call of `exec` has ended.  An amplifier that calls `Input` on a
closed queue holding no value gets `input closed` from `exec`, runs its deferred
`close` and makes no further transition. -/
theorem closing_discipline_holds :
    (∀ (intcode : List Int) (sched : List task) (w : state) (c : Permute.args × net),
        run (start intcode) sched = some w → c ∈ w.calls →
        closingDiscipline c.2
          ∧ (c.2.ampE.isFinished = true → Network.stuck (load w.slices c.2) = true →
            forwarderSettled c.2 ∧ notAwaitingInput c.2.ampA c.2.inA c.2.inB
              ∧ notAwaitingInput c.2.ampB c.2.inB c.2.inC
              ∧ notAwaitingInput c.2.ampC c.2.inC c.2.inD
              ∧ notAwaitingInput c.2.ampD c.2.inD c.2.inE))
      ∧ (∀ (a : amp) (cin cout : chan) (fwd : Option forwarder)
          (r : amp × chan × chan × Option forwarder), ampMove a cin cout fwd = some r →
          cout.closed = false → r.2.2.1.closed = true → ∃ ro m, a = .returned ro m)
      ∧ (∀ (opn op dst : Int) (m : List Int) (cin cout : chan) (fwd : Option forwarder),
          opn < m.length → index m opn = .ok op → Int.tmod op 100 = 3 →
          Day7.readAddr m opn 1 = .ok dst → cin.buf = [] → cin.closed = true →
          cout.closed = false →
          ampMove (.running opn m) cin cout fwd
              = some (.returned (.failed (.error (.readingInput "input closed"))) m,
                  cin, cout, fwd)
            ∧ ampMove (.returned (.failed (.error (.readingInput "input closed"))) m)
                cin cout fwd
              = some (.finished (.failed (.error (.readingInput "input closed"))) m,
                  cin, { cout with closed := true }, fwd)
            ∧ ampMove (.finished (.failed (.error (.readingInput "input closed"))) m)
                cin { cout with closed := true } fwd = none) := by
  refine ⟨?_, ?_, ?_⟩
  · intro intcode sched w c hrun hc
    obtain ⟨hd, hcap⟩ := calls_run sched (start intcode) w (fun c hc => by cases hc) hrun c hc
    refine ⟨hd, ?_⟩
    intro hE hs
    have h := @rest_settled (load w.slices c.2) ((discipline_load w.slices c.2).mpr hd) hcap
      (by simpa only [load, isFinished_withTape] using hE) hs
    simpa only [load, notAwaitingInput_withTape] using h
  · intro a cin cout fwd r h hc hr
    exact close_after_return h hc hr
  · intro opn op dst m cin cout fwd hlt hi h3 hd hb hc ho
    refine ⟨input_closed hlt hi h3 hd hb hc, ?_, rfl⟩
    simp [ampMove, chan.close, ho]

theorem closing_discipline_holds_witness :
    closingDiscipline outputDeadlock
      ∧ forwarderSettled outputDeadlock
      ∧ notAwaitingInput outputDeadlock.ampA outputDeadlock.inA outputDeadlock.inB
      ∧ (∃ ro m, amp.returned .halted [99] = .returned ro m)
      ∧ ampMove (.running 6 (feedbackTape 1 4363425 1)) ⟨[], 1, true⟩ ⟨[], 0, false⟩ none
          = some (.returned (.failed (.error (.readingInput "input closed")))
              (feedbackTape 1 4363425 1), ⟨[], 1, true⟩, ⟨[], 0, false⟩, none) := by
  obtain ⟨h1, h2⟩ := closing_discipline_holds.1 twoOutputs _ _ ((5, 6, 7, 8, 9), outputDeadlock)
    deadlock_run (by simp)
  obtain ⟨h3, h4, _⟩ := h2 rfl rfl
  exact ⟨h1, h3, h4,
    closing_discipline_holds.2.1 (.returned .halted [99]) ⟨[], 1, false⟩ ⟨[], 1, false⟩ none
      (.finished .halted [99], ⟨[], 1, false⟩, ⟨[], 1, true⟩, none) rfl rfl rfl,
    (closing_discipline_holds.2.2 6 3 27 (feedbackTape 1 4363425 1) ⟨[], 1, true⟩ ⟨[], 0, false⟩
      none (by decide) rfl (by decide) rfl rfl rfl rfl).1⟩

end Solve

end Intcode

/-! ## Wire crossings: rectangles -/

namespace Wires

open Intcode (wrap64 wrap64_eq)

/-- C24: `intersects` is symmetric for all rectangles; for well-formed
rectangles it holds exactly when some integer point lies in both; and the eight
cases of `tests()` come out as the table expects (touching rectangles intersect,
distinct points do not). -/
theorem intersects_symm_points :
    (∀ r s : rect, r.intersects s = s.intersects r)
      ∧ (∀ r s : rect, r.wellFormed → s.wellFormed →
        (r.intersects s = true ↔ ∃ x y : Int, r.contains x y ∧ s.contains x y))
      ∧ (rect.intersects ⟨0, 0, 0, 0⟩ ⟨0, 0, 0, 0⟩ = true
        ∧ rect.intersects ⟨0, 0, 0, 0⟩ ⟨1, 1, 1, 1⟩ = false
        ∧ rect.intersects ⟨0, 0, 1, 1⟩ ⟨0, 0, 0, 2⟩ = true
        ∧ rect.intersects ⟨0, 0, 0, 2⟩ ⟨0, 0, -1, 1⟩ = true
        ∧ rect.intersects ⟨0, 0, 0, 2⟩ ⟨0, 0, 2, 3⟩ = true
        ∧ rect.intersects ⟨1, 1, 0, 0⟩ ⟨0, 2, 0, 0⟩ = true
        ∧ rect.intersects ⟨0, 2, 0, 0⟩ ⟨-1, 1, 0, 0⟩ = true
        ∧ rect.intersects ⟨0, 2, 0, 0⟩ ⟨2, 3, 0, 0⟩ = true) := by
  refine ⟨?_, ?_, by decide⟩
  · intro r s
    simp only [rect.intersects]
    rw [Bool.eq_iff_iff]
    simp only [Bool.and_eq_true, decide_eq_true_eq]
    tauto
  · intro r s hr hs
    simp only [rect.intersects, Bool.and_eq_true, decide_eq_true_eq]
    unfold rect.wellFormed at hr hs
    unfold rect.contains
    constructor
    · rintro ⟨⟨⟨h1, h2⟩, h3⟩, h4⟩
      refine ⟨max r.x1 s.x1, max r.y1 s.y1, ?_, ?_⟩ <;>
        refine ⟨?_, ?_, ?_, ?_⟩ <;> unfold max <;> split_ifs <;> omega
    · rintro ⟨x, y, ⟨a1, a2, a3, a4⟩, ⟨b1, b2, b3, b4⟩⟩
      refine ⟨⟨⟨?_, ?_⟩, ?_⟩, ?_⟩ <;> omega

theorem intersects_symm_points_witness :
    rect.intersects ⟨0, 0, 0, 2⟩ ⟨0, 0, 2, 3⟩ = true
      ↔ ∃ x y : Int, rect.contains ⟨0, 0, 0, 2⟩ x y ∧ rect.contains ⟨0, 0, 2, 3⟩ x y :=
  intersects_symm_points.2.1 ⟨0, 0, 0, 2⟩ ⟨0, 0, 2, 3⟩ ⟨by decide, by decide⟩
    ⟨by decide, by decide⟩

/-- C25: for well-formed rectangles `r` and `s` that intersect,
`r.intersection(s)` is well formed and a point lies in it exactly when it lies
in both `r` and `s`; and `r.intersection(s) = s.intersection(r)` (for all
rectangles). -/
theorem intersection_common_area :
    (∀ r s : rect, r.wellFormed → s.wellFormed → r.intersects s = true →
        (r.intersection s).wellFormed
          ∧ ∀ x y : Int, (r.intersection s).contains x y ↔ r.contains x y ∧ s.contains x y)
      ∧ ∀ r s : rect, r.intersection s = s.intersection r := by
  constructor
  · intro r s hr hs hi
    simp only [rect.intersects, Bool.and_eq_true, decide_eq_true_eq] at hi
    obtain ⟨⟨⟨h1, h2⟩, h3⟩, h4⟩ := hi
    unfold rect.wellFormed at hr hs ⊢
    unfold rect.contains rect.intersection max min
    constructor
    · constructor <;> dsimp only <;> split_ifs <;> omega
    · intro x y
      dsimp only
      constructor
      · rintro ⟨a1, a2, a3, a4⟩
        split_ifs at a1 a2 a3 a4 <;> refine ⟨⟨?_, ?_, ?_, ?_⟩, ⟨?_, ?_, ?_, ?_⟩⟩ <;> omega
      · rintro ⟨⟨a1, a2, a3, a4⟩, ⟨b1, b2, b3, b4⟩⟩
        refine ⟨?_, ?_, ?_, ?_⟩ <;> split_ifs <;> omega
  · intro r s
    unfold rect.intersection max min
    have e : ∀ a b : Int, (if a > b then a else b) = (if b > a then b else a) := by
      intro a b
      split_ifs <;> omega
    have e2 : ∀ a b : Int, (if a > b then b else a) = (if b > a then a else b) := by
      intro a b
      split_ifs <;> omega
    rw [e r.x1 s.x1, e r.y1 s.y1, e2 r.x2 s.x2, e2 r.y2 s.y2]

theorem intersection_common_area_witness :
    (rect.intersection ⟨0, 8, 0, 0⟩ ⟨6, 6, -3, 2⟩).wellFormed
      ∧ ∀ x y : Int, (rect.intersection ⟨0, 8, 0, 0⟩ ⟨6, 6, -3, 2⟩).contains x y
        ↔ rect.contains ⟨0, 8, 0, 0⟩ x y ∧ rect.contains ⟨6, 6, -3, 2⟩ x y :=
  intersection_common_area.1 ⟨0, 8, 0, 0⟩ ⟨6, 6, -3, 2⟩ ⟨by decide, by decide⟩
    ⟨by decide, by decide⟩ (by decide)

theorem gap_attained (a1 a2 b1 b2 : Int) (ha : a1 ≤ a2) (hb : b1 ≤ b2) :
    ∃ p q : Int, a1 ≤ p ∧ p ≤ a2 ∧ b1 ≤ q ∧ q ≤ b2
      ∧ |p - q| = (if a1 > b2 then a1 - b2 else if b1 > a2 then b1 - a2 else 0) := by
  by_cases h1 : a1 > b2
  · refine ⟨a1, b2, le_refl _, ha, hb, le_refl _, ?_⟩
    rw [if_pos h1, abs_of_nonneg (by omega)]
  · by_cases h2 : b1 > a2
    · refine ⟨a2, b1, ha, le_refl _, le_refl _, hb, ?_⟩
      rw [if_neg h1, if_pos h2, abs_sub_comm, abs_of_nonneg (by omega)]
    · by_cases h3 : a1 ≤ b1
      · refine ⟨b1, b1, h3, by omega, le_refl _, hb, ?_⟩
        rw [if_neg h1, if_neg h2]
        simp
      · refine ⟨a1, a1, le_refl _, ha, by omega, by omega, ?_⟩
        rw [if_neg h1, if_neg h2]
        simp

theorem gap_le (a1 a2 b1 b2 p q : Int) (hp1 : a1 ≤ p) (hp2 : p ≤ a2) (hq1 : b1 ≤ q)
    (hq2 : q ≤ b2) :
    (if a1 > b2 then a1 - b2 else if b1 > a2 then b1 - a2 else 0) ≤ |p - q| := by
  have h1 := le_abs_self (p - q)
  have h2 := neg_le_abs (p - q)
  have h3 := abs_nonneg (p - q)
  split_ifs <;> omega

theorem dist_exact (r s : rect)
    (hfit : (if r.x1 > s.x2 then r.x1 - s.x2 else if s.x1 > r.x2 then s.x1 - r.x2 else 0)
        + (if r.y1 > s.y2 then r.y1 - s.y2 else if s.y1 > r.y2 then s.y1 - r.y2 else 0)
      < 2 ^ 63) :
    r.dist s
      = (if r.x1 > s.x2 then r.x1 - s.x2 else if s.x1 > r.x2 then s.x1 - r.x2 else 0)
        + (if r.y1 > s.y2 then r.y1 - s.y2 else if s.y1 > r.y2 then s.y1 - r.y2 else 0) := by
  unfold rect.dist
  have e1 : r.x1 > s.x2 → wrap64 (r.x1 - s.x2) = r.x1 - s.x2 := by
    intro h
    apply wrap64_eq (by omega)
    rw [if_pos h] at hfit
    split_ifs at hfit <;> omega
  have e2 : ¬ r.x1 > s.x2 → s.x1 > r.x2 → wrap64 (s.x1 - r.x2) = s.x1 - r.x2 := by
    intro h h2
    apply wrap64_eq (by omega)
    rw [if_neg h, if_pos h2] at hfit
    split_ifs at hfit <;> omega
  have e3 : r.y1 > s.y2 → wrap64 (r.y1 - s.y2) = r.y1 - s.y2 := by
    intro h
    apply wrap64_eq (by omega)
    rw [if_pos h] at hfit
    split_ifs at hfit <;> omega
  have e4 : ¬ r.y1 > s.y2 → s.y1 > r.y2 → wrap64 (s.y1 - r.y2) = s.y1 - r.y2 := by
    intro h h2
    apply wrap64_eq (by omega)
    rw [if_neg h, if_pos h2] at hfit
    split_ifs at hfit <;> omega
  have ex : (if r.x1 > s.x2 then wrap64 (r.x1 - s.x2)
        else if s.x1 > r.x2 then wrap64 (s.x1 - r.x2) else 0)
      = (if r.x1 > s.x2 then r.x1 - s.x2 else if s.x1 > r.x2 then s.x1 - r.x2 else 0) := by
    by_cases h : r.x1 > s.x2
    · rw [if_pos h, if_pos h, e1 h]
    · rw [if_neg h, if_neg h]
      by_cases h2 : s.x1 > r.x2
      · rw [if_pos h2, if_pos h2, e2 h h2]
      · rw [if_neg h2, if_neg h2]
  have ey : (if r.y1 > s.y2 then wrap64 (r.y1 - s.y2)
        else if s.y1 > r.y2 then wrap64 (s.y1 - r.y2) else 0)
      = (if r.y1 > s.y2 then r.y1 - s.y2 else if s.y1 > r.y2 then s.y1 - r.y2 else 0) := by
    by_cases h : r.y1 > s.y2
    · rw [if_pos h, if_pos h, e3 h]
    · rw [if_neg h, if_neg h]
      by_cases h2 : s.y1 > r.y2
      · rw [if_pos h2, if_pos h2, e4 h h2]
      · rw [if_neg h2, if_neg h2]
  rw [ex, ey]
  apply wrap64_eq _ hfit
  split_ifs <;> omega

/-- C26 (as stated, refuted): the points `(2^63 - 1, 0)` and `(-2^63, 0)` are
well-formed rectangles with `int64` coordinates, yet `dist` between them is
`-1`: the difference of the x coordinates overflows. -/
theorem dist_counterexample :
    (point (2 ^ 63 - 1) 0).wellFormed ∧ (point (-2 ^ 63) 0).wellFormed
      ∧ (point (2 ^ 63 - 1) 0).dist (point (-2 ^ 63) 0) = -1 := by
  refine ⟨⟨by decide, by decide⟩, ⟨by decide, by decide⟩, by decide⟩

/-- C26 (amended): for well-formed rectangles `r` and `s` that have points
`p` in `r` and `q` in `s` at a Manhattan distance
`|px - qx| + |py - qy|` below `2^63`, `r.dist(s)` is the minimum of that
distance over the points `p` of `r` and `q` of `s`: it is attained and it is a
lower bound.  Hence `r.dist(s) = s.dist(r)`, `r.dist(s) ≥ 0`, and
`r.dist(s) = 0` exactly when `r.intersects(s)`. -/
theorem dist_is_manhattan (r s : rect) (hr : r.wellFormed) (hs : s.wellFormed)
    (hfit : ∃ px py qx qy : Int, r.contains px py ∧ s.contains qx qy
      ∧ |px - qx| + |py - qy| < 2 ^ 63) :
    (∃ px py qx qy : Int, r.contains px py ∧ s.contains qx qy
        ∧ |px - qx| + |py - qy| = r.dist s)
      ∧ (∀ px py qx qy : Int, r.contains px py → s.contains qx qy →
        r.dist s ≤ |px - qx| + |py - qy|)
      ∧ r.dist s = s.dist r ∧ 0 ≤ r.dist s
      ∧ (r.dist s = 0 ↔ r.intersects s = true) := by
  obtain ⟨fx, fy, gx, gy, ⟨a1, a2, b1, b2⟩, ⟨a3, a4, b3, b4⟩, hlt⟩ := hfit
  have hf1 := lt_of_le_of_lt
    (add_le_add (gap_le r.x1 r.x2 s.x1 s.x2 fx gx a1 a2 a3 a4)
      (gap_le r.y1 r.y2 s.y1 s.y2 fy gy b1 b2 b3 b4)) hlt
  have hlt2 : |gx - fx| + |gy - fy| < 2 ^ 63 := by
    rw [abs_sub_comm gx fx, abs_sub_comm gy fy]
    exact hlt
  have hf2 := lt_of_le_of_lt
    (add_le_add (gap_le s.x1 s.x2 r.x1 r.x2 gx fx a3 a4 a1 a2)
      (gap_le s.y1 s.y2 r.y1 r.y2 gy fy b3 b4 b1 b2)) hlt2
  rw [dist_exact r s hf1, dist_exact s r hf2]
  unfold rect.wellFormed at hr hs
  refine ⟨?_, ?_, ?_, ?_, ?_⟩
  · obtain ⟨px, qx, a1, a2, a3, a4, ex⟩ := gap_attained r.x1 r.x2 s.x1 s.x2 hr.1 hs.1
    obtain ⟨py, qy, b1, b2, b3, b4, ey⟩ := gap_attained r.y1 r.y2 s.y1 s.y2 hr.2 hs.2
    exact ⟨px, py, qx, qy, ⟨a1, a2, b1, b2⟩, ⟨a3, a4, b3, b4⟩, by rw [ex, ey]⟩
  · rintro px py qx qy ⟨a1, a2, b1, b2⟩ ⟨a3, a4, b3, b4⟩
    exact add_le_add (gap_le _ _ _ _ px qx a1 a2 a3 a4) (gap_le _ _ _ _ py qy b1 b2 b3 b4)
  · split_ifs <;> omega
  · split_ifs <;> omega
  · simp only [rect.intersects, Bool.and_eq_true, decide_eq_true_eq]
    constructor
    · intro h
      split_ifs at h <;> refine ⟨⟨⟨?_, ?_⟩, ?_⟩, ?_⟩ <;> omega
    · rintro ⟨⟨⟨h1, h2⟩, h3⟩, h4⟩
      split_ifs <;> omega

theorem dist_is_manhattan_witness :
    (∃ px py qx qy : Int, rect.contains ⟨0, 8, 0, 0⟩ px py ∧ rect.contains ⟨10, 10, -3, 2⟩ qx qy
        ∧ |px - qx| + |py - qy| = rect.dist ⟨0, 8, 0, 0⟩ ⟨10, 10, -3, 2⟩)
      ∧ rect.dist ⟨0, 8, 0, 0⟩ ⟨10, 10, -3, 2⟩ = 2 :=
  ⟨(dist_is_manhattan ⟨0, 8, 0, 0⟩ ⟨10, 10, -3, 2⟩ ⟨by decide, by decide⟩
      ⟨by decide, by decide⟩
      ⟨8, 0, 10, 0, by unfold rect.contains; decide, by unfold rect.contains; decide,
        by decide⟩).1,
    by decide⟩

/-! ## Wire crossings: the fewest steps -/

theorem leastPositive_congr {S T : Int → Prop} {v : Int} (h : ∀ d, S d ↔ T d)
    (hv : leastPositive S v) : leastPositive T v := by
  rcases hv with ⟨h1, h2⟩ | ⟨h1, h2, h3⟩
  · exact Or.inl ⟨h1, fun d hd => h2 d ((h d).mpr hd)⟩
  · exact Or.inr ⟨h1, (h v).mp h2, fun d hd => h3 d ((h d).mpr hd)⟩

theorem leastPositive_insert {S : Int → Prop} {v : Int} (c : Int) (hv : leastPositive S v) :
    leastPositive (fun d => S d ∨ d = c) (if c > 0 ∧ (v < 0 ∨ c < v) then c else v) := by
  rcases hv with ⟨h1, h2⟩ | ⟨h1, h2, h3⟩
  · subst h1
    by_cases hc : c > 0
    · rw [if_pos ⟨hc, Or.inl (by decide)⟩]
      refine Or.inr ⟨hc, Or.inr rfl, ?_⟩
      intro d hd hpos
      rcases hd with hd | hd
      · have := h2 d hd
        omega
      · omega
    · rw [if_neg (fun h => hc h.1)]
      refine Or.inl ⟨rfl, ?_⟩
      intro d hd
      rcases hd with hd | hd
      · exact h2 d hd
      · omega
  · by_cases hc : c > 0 ∧ (v < 0 ∨ c < v)
    · rw [if_pos hc]
      refine Or.inr ⟨hc.1, Or.inr rfl, ?_⟩
      intro d hd hpos
      rcases hd with hd | hd
      · have := h3 d hd hpos
        omega
      · omega
    · rw [if_neg hc]
      refine Or.inr ⟨h1, Or.inl h2, ?_⟩
      intro d hd hpos
      rcases hd with hd | hd
      · exact h3 d hd hpos
      · subst hd
        by_contra hlt
        exact hc ⟨hpos, Or.inr (by omega)⟩

theorem closestInner_least (ar aPrev : rect) (an : Int) :
    ∀ (bs : List rect) (bPrev : rect) (bn dist : Int) (S : Int → Prop),
      leastPositive S dist →
      leastPositive
        (fun d => S d ∨ ∃ tb ∈ trail bs bPrev bn,
          ar.intersects tb.1 = true ∧ d = crossing (ar, aPrev, an) tb)
        (closestInner ar aPrev an bs bPrev bn dist) := by
  intro bs
  induction bs with
  | nil =>
    intro bPrev bn dist S h
    refine leastPositive_congr ?_ h
    intro d
    simp [trail]
  | cons br rest ih =>
    intro bPrev bn dist S h
    unfold closestInner
    by_cases hi : ar.intersects br = true
    · rw [if_pos hi]
      have h1 := leastPositive_insert (crossing (ar, aPrev, an) (br, bPrev, bn)) h
      have h2 := ih br (wrap64 (bn + br.steps)) _ _ h1
      refine leastPositive_congr ?_ h2
      intro d
      simp only [trail, List.mem_cons, exists_eq_or_imp]
      constructor
      · rintro ((hs | hd) | hr)
        · exact Or.inl hs
        · exact Or.inr (Or.inl ⟨hi, hd⟩)
        · exact Or.inr (Or.inr hr)
      · rintro (hs | ⟨_, hd⟩ | hr)
        · exact Or.inl (Or.inl hs)
        · exact Or.inl (Or.inr hd)
        · exact Or.inr hr
    · rw [if_neg hi]
      have h2 := ih br (wrap64 (bn + br.steps)) _ _ h
      refine leastPositive_congr ?_ h2
      intro d
      simp only [trail, List.mem_cons, exists_eq_or_imp]
      constructor
      · rintro (hs | hr)
        · exact Or.inl hs
        · exact Or.inr (Or.inr hr)
      · rintro (hs | ⟨h0, _⟩ | hr)
        · exact Or.inl hs
        · exact absurd h0 hi
        · exact Or.inr hr

theorem closestOuter_least (orig : rect) (b : List rect) :
    ∀ (as : List rect) (aPrev : rect) (an dist : Int) (S : Int → Prop),
      leastPositive S dist →
      leastPositive
        (fun d => S d ∨ ∃ ta ∈ trail as aPrev an, ∃ tb ∈ trail b orig 0,
          ta.1.intersects tb.1 = true ∧ d = crossing ta tb)
        (closestOuter orig b as aPrev an dist) := by
  intro as
  induction as with
  | nil =>
    intro aPrev an dist S h
    refine leastPositive_congr ?_ h
    intro d
    simp [trail]
  | cons ar rest ih =>
    intro aPrev an dist S h
    unfold closestOuter
    have h1 := closestInner_least ar aPrev an b orig 0 dist S h
    have h2 := ih ar (wrap64 (an + ar.steps)) _ _ h1
    refine leastPositive_congr ?_ h2
    intro d
    simp only [trail, List.mem_cons, exists_eq_or_imp]
    constructor
    · rintro ((hs | hd) | hr)
      · exact Or.inl hs
      · exact Or.inr (Or.inl hd)
      · exact Or.inr (Or.inr hr)
    · rintro (hs | hd | hr)
      · exact Or.inl (Or.inl hs)
      · exact Or.inl (Or.inr hd)
      · exact Or.inr hr

theorem closestSteps_least (orig : rect) (a b : List rect) :
    leastPositive
      (fun d => ∃ ta ∈ trail a orig 0, ∃ tb ∈ trail b orig 0,
        ta.1.intersects tb.1 = true ∧ d = crossing ta tb)
      (closestSteps orig a b) := by
  have h0 : leastPositive (fun _ => False) (-1) := Or.inl ⟨rfl, fun _ h => h.elim⟩
  have h := closestOuter_least orig b a orig 0 (-1) _ h0
  refine leastPositive_congr ?_ h
  intro d
  simp

theorem move_cases (dir : String) (l : Int) (h : (horizontal dir || vertical dir) = true) :
    (unitStep dir = (1, 0) ∧ vectorBounds dir l = ⟨0, l, 0, 0⟩
        ∧ horizontal dir = true ∧ vertical dir = false)
      ∨ (unitStep dir = (-1, 0) ∧ vectorBounds dir l = ⟨wrap64 (-l), 0, 0, 0⟩
        ∧ horizontal dir = true ∧ vertical dir = false)
      ∨ (unitStep dir = (0, 1) ∧ vectorBounds dir l = ⟨0, 0, 0, l⟩
        ∧ horizontal dir = false ∧ vertical dir = true)
      ∨ (unitStep dir = (0, -1) ∧ vectorBounds dir l = ⟨0, 0, wrap64 (-l), 0⟩
        ∧ horizontal dir = false ∧ vertical dir = true) := by
  simp only [horizontal, vertical, Bool.or_eq_true, decide_eq_true_eq] at h
  rcases h with (((h | h) | h) | h) | (((h | h) | h) | h) <;> subst h <;>
    simp [unitStep, vectorBounds, horizontal, vertical]

theorem dist_to_prev {t : rect × rect × Int} {ux uy l sx sy k0 px py k : Int}
    (ht : isMove t ux uy l sx sy k0) (hk : onMove sx sy ux uy l px py k)
    (hl : l < 2 ^ 63) :
    rect.dist ⟨px, px, py, py⟩ t.2.1 = k := by
  obtain ⟨h0, h1, h2, hx1, hx2, hy1, hy2, hc⟩ := ht
  obtain ⟨k0', k1, hpx, hpy⟩ := hk
  have w0 : wrap64 0 = 0 := by decide
  rcases hc with ⟨rfl, rfl, _, he⟩ | ⟨rfl, rfl, _, he⟩ | ⟨rfl, rfl, _, he⟩ | ⟨rfl, rfl, _, he⟩
  · have ex : px = sx + k := by omega
    have ey : py = sy := by omega
    subst ex ey
    unfold rect.dist
    simp only []
    by_cases hkz : k = 0
    · subst hkz
      rw [if_neg (by omega), if_neg (by omega), if_neg (by omega), if_neg (by omega)]
      exact w0
    · rw [if_pos (by omega), if_neg (by omega), if_neg (by omega)]
      have e : sx + k - t.2.1.x2 = k := by omega
      have hw : wrap64 k = k := wrap64_eq (by omega) (by omega)
      rw [e, hw, add_zero]
      exact hw
  · have ex : px = sx - k := by omega
    have ey : py = sy := by omega
    subst ex ey
    unfold rect.dist
    simp only []
    by_cases hkz : k = 0
    · subst hkz
      rw [if_neg (by omega), if_neg (by omega), if_neg (by omega), if_neg (by omega)]
      exact w0
    · rw [if_neg (by omega), if_pos (by omega), if_neg (by omega), if_neg (by omega)]
      have e : t.2.1.x1 - (sx - k) = k := by omega
      have hw : wrap64 k = k := wrap64_eq (by omega) (by omega)
      rw [e, hw, add_zero]
      exact hw
  · have ex : px = sx := by omega
    have ey : py = sy + k := by omega
    subst ex ey
    unfold rect.dist
    simp only []
    by_cases hkz : k = 0
    · subst hkz
      rw [if_neg (by omega), if_neg (by omega), if_neg (by omega), if_neg (by omega)]
      exact w0
    · rw [if_neg (by omega), if_neg (by omega), if_pos (by omega)]
      have e : sy + k - t.2.1.y2 = k := by omega
      have hw : wrap64 k = k := wrap64_eq (by omega) (by omega)
      rw [e, hw, zero_add]
      exact hw
  · have ex : px = sx := by omega
    have ey : py = sy - k := by omega
    subst ex ey
    unfold rect.dist
    simp only []
    by_cases hkz : k = 0
    · subst hkz
      rw [if_neg (by omega), if_neg (by omega), if_neg (by omega), if_neg (by omega)]
      exact w0
    · rw [if_neg (by omega), if_neg (by omega), if_neg (by omega), if_pos (by omega)]
      have e : t.2.1.y1 - (sy - k) = k := by omega
      have hw : wrap64 k = k := wrap64_eq (by omega) (by omega)
      rw [e, hw, zero_add]
      exact hw

theorem contains_of_onMove {t : rect × rect × Int} {ux uy l sx sy k0 px py k : Int}
    (ht : isMove t ux uy l sx sy k0) (hk : onMove sx sy ux uy l px py k) :
    t.1.x1 ≤ px ∧ px ≤ t.1.x2 ∧ t.1.y1 ≤ py ∧ py ≤ t.1.y2 := by
  obtain ⟨h0, h1, h2, hx1, hx2, hy1, hy2, hc⟩ := ht
  obtain ⟨k0', k1, hpx, hpy⟩ := hk
  rcases hc with ⟨rfl, rfl, hr, _⟩ | ⟨rfl, rfl, hr, _⟩ | ⟨rfl, rfl, hr, _⟩ | ⟨rfl, rfl, hr, _⟩ <;>
    rw [hr] <;> simp only [] <;> omega

theorem onMove_of_contains {t : rect × rect × Int} {ux uy l sx sy k0 px py : Int}
    (ht : isMove t ux uy l sx sy k0)
    (hp : t.1.x1 ≤ px ∧ px ≤ t.1.x2 ∧ t.1.y1 ≤ py ∧ py ≤ t.1.y2) :
    ∃ k, onMove sx sy ux uy l px py k := by
  obtain ⟨h0, h1, h2, hx1, hx2, hy1, hy2, hc⟩ := ht
  rcases hc with ⟨rfl, rfl, hr, _⟩ | ⟨rfl, rfl, hr, _⟩ | ⟨rfl, rfl, hr, _⟩ | ⟨rfl, rfl, hr, _⟩
  · rw [hr] at hp
    simp only [] at hp
    exact ⟨px - sx, by omega, by omega, by omega, by omega⟩
  · rw [hr] at hp
    simp only [] at hp
    exact ⟨sx - px, by omega, by omega, by omega, by omega⟩
  · rw [hr] at hp
    simp only [] at hp
    exact ⟨py - sy, by omega, by omega, by omega, by omega⟩
  · rw [hr] at hp
    simp only [] at hp
    exact ⟨sy - py, by omega, by omega, by omega, by omega⟩

theorem wellFormed_of_isMove {t : rect × rect × Int} {ux uy l sx sy k0 : Int}
    (ht : isMove t ux uy l sx sy k0) : t.1.x1 ≤ t.1.x2 ∧ t.1.y1 ≤ t.1.y2 := by
  obtain ⟨h0, h1, h2, hx1, hx2, hy1, hy2, hc⟩ := ht
  rcases hc with ⟨rfl, rfl, hr, _⟩ | ⟨rfl, rfl, hr, _⟩ | ⟨rfl, rfl, hr, _⟩ | ⟨rfl, rfl, hr, _⟩ <;>
    rw [hr] <;> simp only [] <;> omega

theorem intersects_iff (r s : rect) :
    r.intersects s = true ↔ r.x1 ≤ s.x2 ∧ s.x1 ≤ r.x2 ∧ r.y1 ≤ s.y2 ∧ s.y1 ≤ r.y2 := by
  simp [rect.intersects, and_assoc]

theorem intersection_point {r s : rect} {px py : Int}
    (hr : r.x1 ≤ px ∧ px ≤ r.x2 ∧ r.y1 ≤ py ∧ py ≤ r.y2)
    (hs : s.x1 ≤ px ∧ px ≤ s.x2 ∧ s.y1 ≤ py ∧ py ≤ s.y2)
    (h1 : (r.intersection s).x1 = (r.intersection s).x2)
    (h2 : (r.intersection s).y1 = (r.intersection s).y2) :
    r.intersection s = ⟨px, px, py, py⟩ := by
  unfold rect.intersection at *
  simp only [max, min] at *
  simp only [rect.mk.injEq]
  split_ifs at * <;> omega

theorem intersection_contained {r s : rect} (hr : r.x1 ≤ r.x2 ∧ r.y1 ≤ r.y2)
    (hs : s.x1 ≤ s.x2 ∧ s.y1 ≤ s.y2) (hi : r.intersects s = true) :
    (r.x1 ≤ (r.intersection s).x1 ∧ (r.intersection s).x1 ≤ r.x2
        ∧ r.y1 ≤ (r.intersection s).y1 ∧ (r.intersection s).y1 ≤ r.y2)
      ∧ (s.x1 ≤ (r.intersection s).x1 ∧ (r.intersection s).x1 ≤ s.x2
        ∧ s.y1 ≤ (r.intersection s).y1 ∧ (r.intersection s).y1 ≤ s.y2) := by
  rw [intersects_iff] at hi
  unfold rect.intersection
  simp only [max, min]
  split_ifs <;> omega

/-- The value computed for a pair of segments that meet in one point `P`:
the steps along the one wire to `P` plus the steps along the other. -/
theorem crossing_eq {ta tb : rect × rect × Int} {ux uy l sx sy k0 vx vy m tx ty j0 : Int}
    {px py k j : Int}
    (ha : isMove ta ux uy l sx sy k0) (hb : isMove tb vx vy m tx ty j0)
    (hka : onMove sx sy ux uy l px py k) (hkb : onMove tx ty vx vy m px py j)
    (hfit : k0 + l + (j0 + m) < 2 ^ 63)
    (h1 : (ta.1.intersection tb.1).x1 = (ta.1.intersection tb.1).x2)
    (h2 : (ta.1.intersection tb.1).y1 = (ta.1.intersection tb.1).y2) :
    crossing ta tb = k0 + k + (j0 + j) := by
  have hI := intersection_point (contains_of_onMove ha hka) (contains_of_onMove hb hkb) h1 h2
  have a0 := ha.1
  have a1 := ha.2.1
  have a2 := ha.2.2.1
  have b0 := hb.1
  have b1 := hb.2.1
  have b2 := hb.2.2.1
  have ka := hka.1
  have ka1 := hka.2.1
  have kb := hkb.1
  have kb1 := hkb.2.1
  unfold crossing
  have w1 : wrap64 (k0 + k) = k0 + k := wrap64_eq (by omega) (by omega)
  have w2 : wrap64 (k0 + k + j0) = k0 + k + j0 := wrap64_eq (by omega) (by omega)
  have w3 : wrap64 (k0 + k + j0 + j) = k0 + k + j0 + j := wrap64_eq (by omega) (by omega)
  rw [hI, dist_to_prev ha hka (by omega), dist_to_prev hb hkb (by omega), a2, b2, w1, w2, w3]
  omega

theorem horizontal_not_vertical {d : String} (h : horizontal d = true) : vertical d = false := by
  rcases move_cases d 0 (by simp [h]) with hc | hc | hc | hc
  · exact hc.2.2.2
  · exact hc.2.2.2
  · rw [hc.2.2.1] at h
    cases h
  · rw [hc.2.2.1] at h
    cases h

theorem perp_cons {d : String} {l : Int} {rest : List (String × Int)}
    (h : perpendicularMoves ((d, l) :: rest) = true) :
    (horizontal d || vertical d) = true ∧ 0 ≤ l ∧ perpendicularMoves rest = true
      ∧ ∀ e m r, rest = (e, m) :: r →
        (horizontal e = true → vertical d = true) ∧ (vertical e = true → horizontal d = true) := by
  cases rest with
  | nil =>
    simp only [perpendicularMoves, Bool.and_eq_true, decide_eq_true_eq] at h
    refine ⟨h.1, h.2, rfl, ?_⟩
    intro e m r hr
    cases hr
  | cons em r =>
    obtain ⟨e, m⟩ := em
    simp only [perpendicularMoves, Bool.and_eq_true, Bool.or_eq_true, decide_eq_true_eq] at h
    obtain ⟨⟨hp, hl⟩, hrest⟩ := h
    refine ⟨?_, hl, hrest, ?_⟩
    · rcases hp with hp | hp
      · simp [hp.1]
      · simp [hp.1]
    · intro e1 m1 r1 hr
      cases hr
      rcases hp with hp | hp
      · constructor
        · intro h1
          have := horizontal_not_vertical h1
          rw [hp.2] at this
          cases this
        · intro _
          exact hp.1
      · constructor
        · intro _
          exact hp.1
        · intro h1
          have := horizontal_not_vertical hp.2
          rw [h1] at this
          cases this

theorem totalLen_nonneg : ∀ moves : List (String × Int),
    perpendicularMoves moves = true → 0 ≤ totalLen moves := by
  intro moves
  induction moves with
  | nil =>
    intro _
    exact le_refl _
  | cons dl rest ih =>
    obtain ⟨d, l⟩ := dl
    intro h
    obtain ⟨_, hl, hr, _⟩ := perp_cons h
    have := ih hr
    simp only [totalLen]
    omega

theorem dirs2rectsFrom_cons (x y : Int) (dir : String) (l : Int) (rest : List (String × Int))
    (h : (horizontal dir || vertical dir) = true) (hl : 0 ≤ l)
    (hx1 : -2 ^ 63 < x - l) (hx2 : x + l < 2 ^ 63) (hy1 : -2 ^ 63 < y - l)
    (hy2 : y + l < 2 ^ 63) :
    dirs2rectsFrom x y ((dir, l) :: rest)
      = (if unitStep dir = (1, 0) then ⟨x, x + l, y, y⟩
          else if unitStep dir = (-1, 0) then ⟨x - l, x, y, y⟩
          else if unitStep dir = (0, 1) then ⟨x, x, y, y + l⟩
          else ⟨x, x, y - l, y⟩)
        :: dirs2rectsFrom (x + l * (unitStep dir).1) (y + l * (unitStep dir).2) rest := by
  have w0 : wrap64 0 = 0 := by decide
  have wl : wrap64 l = l := wrap64_eq (by omega) (by omega)
  have wn : wrap64 (-l) = -l := wrap64_eq (by omega) (by omega)
  have wx : wrap64 x = x := wrap64_eq (by omega) (by omega)
  have wy : wrap64 y = y := wrap64_eq (by omega) (by omega)
  have wxl : wrap64 (x + l) = x + l := wrap64_eq (by omega) (by omega)
  have wyl : wrap64 (y + l) = y + l := wrap64_eq (by omega) (by omega)
  have wxn : wrap64 (x + -l) = x - l := by
    rw [wrap64_eq (by omega) (by omega)]
    omega
  have wyn : wrap64 (y + -l) = y - l := by
    rw [wrap64_eq (by omega) (by omega)]
    omega
  have wlx : wrap64 (l + x) = x + l := by
    rw [wrap64_eq (by omega) (by omega)]
    omega
  have wly : wrap64 (l + y) = y + l := by
    rw [wrap64_eq (by omega) (by omega)]
    omega
  have wnx : wrap64 (-l + x) = x - l := by
    rw [wrap64_eq (by omega) (by omega)]
    omega
  have wny : wrap64 (-l + y) = y - l := by
    rw [wrap64_eq (by omega) (by omega)]
    omega
  rcases move_cases dir l h with ⟨hu, hv, _, _⟩ | ⟨hu, hv, _, _⟩ | ⟨hu, hv, _, _⟩ | ⟨hu, hv, _, _⟩
  · simp [dirs2rectsFrom, hu, hv, rect.add, w0, wl, wx, wy, wxl, wlx]
  · simp only [dirs2rectsFrom, hu, hv, rect.add]
    simp [w0, wn, wx, wy, wxn, wnx]
    rfl
  · simp [dirs2rectsFrom, hu, hv, rect.add, w0, wl, wx, wy, wyl, wly]
  · simp only [dirs2rectsFrom, hu, hv, rect.add]
    simp [w0, wn, wx, wy, wyn, wny]
    rfl

theorem steps_eq (r : rect) (h1 : -2 ^ 63 ≤ r.x2 - r.x1 ∧ r.x2 - r.x1 < 2 ^ 63)
    (h2 : -2 ^ 63 ≤ r.x2 - r.x1 + r.y2 ∧ r.x2 - r.x1 + r.y2 < 2 ^ 63)
    (h3 : -2 ^ 63 ≤ r.x2 - r.x1 + r.y2 - r.y1 ∧ r.x2 - r.x1 + r.y2 - r.y1 < 2 ^ 63) :
    r.steps = r.x2 - r.x1 + r.y2 - r.y1 := by
  unfold rect.steps
  have w1 : wrap64 (r.x2 - r.x1) = r.x2 - r.x1 := wrap64_eq h1.1 h1.2
  rw [w1]
  have w2 : wrap64 (r.x2 - r.x1 + r.y2) = r.x2 - r.x1 + r.y2 := wrap64_eq h2.1 h2.2
  rw [w2]
  exact wrap64_eq h3.1 h3.2

theorem first_move (x y n : Int) (dir : String) (l : Int) (rest : List (String × Int))
    (prev : rect) (h : (horizontal dir || vertical dir) = true) (hl : 0 ≤ l) (hn : 0 ≤ n)
    (hx1 : -2 ^ 63 < x - l) (hx2 : x + l < 2 ^ 63) (hy1 : -2 ^ 63 < y - l)
    (hy2 : y + l < 2 ^ 63)
    (hc : prev.x1 ≤ x ∧ x ≤ prev.x2 ∧ prev.y1 ≤ y ∧ y ≤ prev.y2)
    (hprev : (horizontal dir = true → prev.x1 = prev.x2)
      ∧ (vertical dir = true → prev.y1 = prev.y2)) :
    ∃ r ux uy, unitStep dir = (ux, uy)
      ∧ dirs2rectsFrom x y ((dir, l) :: rest)
          = r :: dirs2rectsFrom (x + l * ux) (y + l * uy) rest
      ∧ isMove (r, prev, n) ux uy l x y n ∧ r.steps = l
      ∧ (r.x1 ≤ x + l * ux ∧ x + l * ux ≤ r.x2 ∧ r.y1 ≤ y + l * uy ∧ y + l * uy ≤ r.y2)
      ∧ (vertical dir = true → r.x1 = r.x2) ∧ (horizontal dir = true → r.y1 = r.y2)
      ∧ (x - l ≤ x + l * ux ∧ x + l * ux ≤ x + l ∧ y - l ≤ y + l * uy ∧ y + l * uy ≤ y + l) := by
  have hd := dirs2rectsFrom_cons x y dir l rest h hl hx1 hx2 hy1 hy2
  obtain ⟨c1, c2, c3, c4⟩ := hc
  rcases move_cases dir l h with ⟨hu, _, hh, hv⟩ | ⟨hu, _, hh, hv⟩ | ⟨hu, _, hh, hv⟩
    | ⟨hu, _, hh, hv⟩
  · refine ⟨⟨x, x + l, y, y⟩, 1, 0, hu, ?_, ?_, ?_, ?_, ?_, ?_, ?_⟩
    · rw [hd, hu]
      simp
    · exact ⟨hl, hn, rfl, c1, c2, c3, c4, Or.inl ⟨rfl, rfl, rfl, hprev.1 hh⟩⟩
    · rw [steps_eq] <;> simp only [] <;> omega
    · simp only []
      omega
    · intro hvv
      rw [hv] at hvv
      cases hvv
    · intro _
      rfl
    · omega
  · refine ⟨⟨x - l, x, y, y⟩, -1, 0, hu, ?_, ?_, ?_, ?_, ?_, ?_, ?_⟩
    · rw [hd, hu]
      simp
    · exact ⟨hl, hn, rfl, c1, c2, c3, c4, Or.inr (Or.inl ⟨rfl, rfl, rfl, hprev.1 hh⟩)⟩
    · rw [steps_eq] <;> simp only [] <;> omega
    · simp only []
      omega
    · intro hvv
      rw [hv] at hvv
      cases hvv
    · intro _
      rfl
    · omega
  · refine ⟨⟨x, x, y, y + l⟩, 0, 1, hu, ?_, ?_, ?_, ?_, ?_, ?_, ?_⟩
    · rw [hd, hu]
      simp
    · exact ⟨hl, hn, rfl, c1, c2, c3, c4, Or.inr (Or.inr (Or.inl ⟨rfl, rfl, rfl, hprev.2 hv⟩))⟩
    · rw [steps_eq] <;> simp only [] <;> omega
    · simp only []
      omega
    · intro _
      rfl
    · intro hvv
      rw [hh] at hvv
      cases hvv
    · omega
  · refine ⟨⟨x, x, y - l, y⟩, 0, -1, hu, ?_, ?_, ?_, ?_, ?_, ?_, ?_⟩
    · rw [hd, hu]
      simp
    · exact ⟨hl, hn, rfl, c1, c2, c3, c4, Or.inr (Or.inr (Or.inr ⟨rfl, rfl, rfl, hprev.2 hv⟩))⟩
    · rw [steps_eq] <;> simp only [] <;> omega
    · simp only []
      omega
    · intro _
      rfl
    · intro hvv
      rw [hh] at hvv
      cases hvv
    · omega

theorem reaches_cons (x y : Int) (dir : String) (l : Int) (rest : List (String × Int))
    (px py m ux uy : Int) (hu : unitStep dir = (ux, uy)) :
    reaches x y ((dir, l) :: rest) px py m = true
      ↔ onMove x y ux uy l px py m ∨ reaches (x + l * ux) (y + l * uy) rest px py (m - l) = true := by
  simp [reaches, onMove, hu, and_assoc]

theorem trail_moves : ∀ (moves : List (String × Int)) (x y n : Int) (prev : rect),
    perpendicularMoves moves = true → 0 ≤ n → n + totalLen moves < 2 ^ 63 →
    -2 ^ 63 < x - totalLen moves → x + totalLen moves < 2 ^ 63 →
    -2 ^ 63 < y - totalLen moves → y + totalLen moves < 2 ^ 63 →
    (prev.x1 ≤ x ∧ x ≤ prev.x2 ∧ prev.y1 ≤ y ∧ y ≤ prev.y2) →
    (∀ d l rest, moves = (d, l) :: rest →
      (horizontal d = true → prev.x1 = prev.x2) ∧ (vertical d = true → prev.y1 = prev.y2)) →
    (∀ t ∈ trail (dirs2rectsFrom x y moves) prev n, ∃ ux uy l sx sy k0,
        isMove t ux uy l sx sy k0 ∧ n ≤ k0 ∧ k0 + l ≤ n + totalLen moves
          ∧ ∀ px py k, onMove sx sy ux uy l px py k →
            reaches x y moves px py (k0 - n + k) = true)
      ∧ (∀ px py m, reaches x y moves px py m = true →
        ∃ t ∈ trail (dirs2rectsFrom x y moves) prev n, ∃ ux uy l sx sy k0,
          isMove t ux uy l sx sy k0 ∧ n ≤ k0 ∧ k0 + l ≤ n + totalLen moves
            ∧ onMove sx sy ux uy l px py (m - (k0 - n))) := by
  intro moves
  induction moves with
  | nil =>
    intro x y n prev _ _ _ _ _ _ _ _ _
    constructor
    · intro t ht
      simp [dirs2rectsFrom, trail] at ht
    · intro px py m hm
      simp [reaches] at hm
  | cons dl rest ih =>
    obtain ⟨d, l⟩ := dl
    intro x y n prev hvalid hn hfit hx1 hx2 hy1 hy2 hc hp
    obtain ⟨hv, hl, hr, hperp⟩ := perp_cons hvalid
    have hT := totalLen_nonneg rest hr
    simp only [totalLen] at hfit hx1 hx2 hy1 hy2 ⊢
    obtain ⟨r, ux, uy, hu, hd, hmove, hsteps, hrc, hrv, hrh, hb⟩ :=
      first_move x y n d l rest prev hv hl hn (by omega) (by omega) (by omega) (by omega) hc
        (hp d l rest rfl)
    have hw : wrap64 (n + l) = n + l := wrap64_eq (by omega) (by omega)
    have htr : trail (dirs2rectsFrom x y ((d, l) :: rest)) prev n
        = (r, prev, n) :: trail (dirs2rectsFrom (x + l * ux) (y + l * uy) rest) r (n + l) := by
      rw [hd]
      simp only [trail, hsteps, hw]
    obtain ⟨ih1, ih2⟩ := ih (x + l * ux) (y + l * uy) (n + l) r hr (by omega) (by omega)
      (by omega) (by omega) (by omega) (by omega) hrc
      (fun e m r1 he => ⟨fun h1 => hrv ((hperp e m r1 he).1 h1),
        fun h1 => hrh ((hperp e m r1 he).2 h1)⟩)
    rw [htr]
    constructor
    · intro t ht
      rcases List.mem_cons.mp ht with rfl | ht
      · refine ⟨ux, uy, l, x, y, n, hmove, le_refl _, by omega, ?_⟩
        intro px py k hk
        rw [reaches_cons x y d l rest px py _ ux uy hu]
        left
        have e : n - n + k = k := by omega
        rw [e]
        exact hk
      · obtain ⟨vx, vy, m, sx, sy, k0, h1, h2, h3, h4⟩ := ih1 t ht
        refine ⟨vx, vy, m, sx, sy, k0, h1, by omega, by omega, ?_⟩
        intro px py k hk
        rw [reaches_cons x y d l rest px py _ ux uy hu]
        right
        have e : k0 - n + k - l = k0 - (n + l) + k := by omega
        rw [e]
        exact h4 px py k hk
    · intro px py m hm
      rw [reaches_cons x y d l rest px py _ ux uy hu] at hm
      rcases hm with hm | hm
      · refine ⟨(r, prev, n), List.mem_cons_self _ _, ux, uy, l, x, y, n, hmove, le_refl _,
          by omega, ?_⟩
        have e : m - (n - n) = m := by omega
        rw [e]
        exact hm
      · obtain ⟨t, ht, vx, vy, m1, sx, sy, k0, h1, h2, h3, h4⟩ := ih2 px py (m - l) hm
        refine ⟨t, List.mem_cons_of_mem _ ht, vx, vy, m1, sx, sy, k0, h1, by omega, by omega, ?_⟩
        have e : m - l - (k0 - (n + l)) = m - (k0 - n) := by omega
        rw [← e]
        exact h4

theorem trail_fst_mem : ∀ (rs : List rect) (prev : rect) (n : Int) (t : rect × rect × Int),
    t ∈ trail rs prev n → t.1 ∈ rs := by
  intro rs
  induction rs with
  | nil =>
    intro prev n t ht
    simp [trail] at ht
  | cons r rest ih =>
    intro prev n t ht
    simp only [trail, List.mem_cons] at ht
    rcases ht with rfl | ht
    · exact List.mem_cons_self _ _
    · exact List.mem_cons_of_mem _ (ih _ _ _ ht)

theorem crossings_are_meetings (ox oy : Int) (A B : List (String × Int))
    (hA : perpendicularMoves A = true) (hB : perpendicularMoves B = true)
    (hfit : |ox| + |oy| + totalLen A + totalLen B < 2 ^ 63)
    (hpt : ∀ ar ∈ dirs2rects ox oy A, ∀ br ∈ dirs2rects ox oy B, ar.intersects br = true →
      (ar.intersection br).x1 = (ar.intersection br).x2
        ∧ (ar.intersection br).y1 = (ar.intersection br).y2) (d : Int) :
    (∃ ta ∈ trail (dirs2rects ox oy A) (point ox oy) 0,
        ∃ tb ∈ trail (dirs2rects ox oy B) (point ox oy) 0,
          ta.1.intersects tb.1 = true ∧ d = crossing ta tb)
      ↔ ∃ px py n m, reaches ox oy A px py n = true ∧ reaches ox oy B px py m = true
          ∧ 0 ≤ n ∧ 0 ≤ m ∧ d = n + m := by
  have hbx := abs_nonneg ox
  have hby := abs_nonneg oy
  have hx1 := le_abs_self ox
  have hx2 := neg_abs_le ox
  have hy1 := le_abs_self oy
  have hy2 := neg_abs_le oy
  have hTA := totalLen_nonneg A hA
  have hTB := totalLen_nonneg B hB
  obtain ⟨a1, a2⟩ := trail_moves A ox oy 0 (point ox oy) hA (le_refl _) (by omega) (by omega)
    (by omega) (by omega) (by omega) ⟨le_refl _, le_refl _, le_refl _, le_refl _⟩
    (fun _ _ _ _ => ⟨fun _ => rfl, fun _ => rfl⟩)
  obtain ⟨b1, b2⟩ := trail_moves B ox oy 0 (point ox oy) hB (le_refl _) (by omega) (by omega)
    (by omega) (by omega) (by omega) ⟨le_refl _, le_refl _, le_refl _, le_refl _⟩
    (fun _ _ _ _ => ⟨fun _ => rfl, fun _ => rfl⟩)
  constructor
  · rintro ⟨ta, hta, tb, htb, hi, rfl⟩
    obtain ⟨ux, uy, l, sx, sy, k0, ma, _, ha3, ha4⟩ := a1 ta hta
    obtain ⟨vx, vy, m, tx, ty, j0, mb, _, hb3, hb4⟩ := b1 tb htb
    obtain ⟨s1, s2⟩ := hpt ta.1 (trail_fst_mem _ _ _ _ hta) tb.1 (trail_fst_mem _ _ _ _ htb) hi
    obtain ⟨ca, cb⟩ := intersection_contained (wellFormed_of_isMove ma)
      (wellFormed_of_isMove mb) hi
    obtain ⟨k, hk⟩ := onMove_of_contains ma ca
    obtain ⟨j, hj⟩ := onMove_of_contains mb cb
    have hc := crossing_eq ma mb hk hj (by omega) s1 s2
    have r1 := ha4 _ _ _ hk
    have r2 := hb4 _ _ _ hj
    have k0n := ma.2.1
    have j0n := mb.2.1
    have kn := hk.1
    have jn := hj.1
    exact ⟨_, _, _, _, r1, r2, by omega, by omega, by omega⟩
  · rintro ⟨px, py, n, m, hn, hm, _, _, rfl⟩
    obtain ⟨ta, hta, ux, uy, l, sx, sy, k0, ma, _, ha3, hk⟩ := a2 px py n hn
    obtain ⟨tb, htb, vx, vy, l1, tx, ty, j0, mb, _, hb3, hj⟩ := b2 px py m hm
    have ca := contains_of_onMove ma hk
    have cb := contains_of_onMove mb hj
    have hi : ta.1.intersects tb.1 = true := by
      rw [intersects_iff]
      omega
    obtain ⟨s1, s2⟩ := hpt ta.1 (trail_fst_mem _ _ _ _ hta) tb.1 (trail_fst_mem _ _ _ _ htb) hi
    have hc := crossing_eq ma mb hk hj (by omega) s1 s2
    exact ⟨ta, hta, tb, htb, hi, by omega⟩

theorem reaches_nonneg (ox oy : Int) (A : List (String × Int))
    (hA : perpendicularMoves A = true) (hfit : |ox| + |oy| + totalLen A < 2 ^ 63)
    (px py n : Int) (h : reaches ox oy A px py n = true) : 0 ≤ n := by
  have hbx := abs_nonneg ox
  have hby := abs_nonneg oy
  have hx1 := le_abs_self ox
  have hx2 := neg_abs_le ox
  have hy1 := le_abs_self oy
  have hy2 := neg_abs_le oy
  have hTA := totalLen_nonneg A hA
  obtain ⟨_, a2⟩ := trail_moves A ox oy 0 (point ox oy) hA (le_refl _) (by omega) (by omega)
    (by omega) (by omega) (by omega) ⟨le_refl _, le_refl _, le_refl _, le_refl _⟩
    (fun _ _ _ _ => ⟨fun _ => rfl, fun _ => rfl⟩)
  obtain ⟨ta, hta, ux, uy, l, sx, sy, k0, ma, h0, ha3, hk⟩ := a2 px py n h
  have := hk.1
  omega

set_option maxRecDepth 1000000

/-- C27 (amended): for every origin and every two wires that `dirs2rects` makes
from direction strings whose moves are `U`, `D`, `L` or `R` with lengths that are
not negative and whose consecutive moves are perpendicular, when the absolute
coordinates of the origin plus the total lengths of the two wires stay below
`2^63` and every segment of the one wire meets every segment of the other in at
most one point, `closestSteps` returns the least value of (steps walked along `a`
to the point) + (steps walked along `b` to the point) over the points reached by
both wires, the zero-step meeting at the origin left out, and `-1` when there is
no such point.  For the wires `R8,U5,L5,D3` and `U7,R6,D4,L4` from `(0, 0)` it
returns 30. -/
theorem closestSteps_fewest :
    (∀ (ox oy : Int) (A B : List (String × Int)),
        perpendicularMoves A = true → perpendicularMoves B = true →
        |ox| + |oy| + totalLen A + totalLen B < 2 ^ 63 →
        (∀ ar ∈ dirs2rects ox oy A, ∀ br ∈ dirs2rects ox oy B, ar.intersects br = true →
          (ar.intersection br).x1 = (ar.intersection br).x2
            ∧ (ar.intersection br).y1 = (ar.intersection br).y2) →
        (closestSteps (point ox oy) (dirs2rects ox oy A) (dirs2rects ox oy B) = -1
            ∧ ∀ px py n m, reaches ox oy A px py n = true → reaches ox oy B px py m = true →
              n = 0 ∧ m = 0)
          ∨ ((∃ px py n m, reaches ox oy A px py n = true ∧ reaches ox oy B px py m = true
                ∧ ¬ (n = 0 ∧ m = 0)
                ∧ closestSteps (point ox oy) (dirs2rects ox oy A) (dirs2rects ox oy B) = n + m)
              ∧ ∀ px py n m, reaches ox oy A px py n = true →
                reaches ox oy B px py m = true → ¬ (n = 0 ∧ m = 0) →
                closestSteps (point ox oy) (dirs2rects ox oy A) (dirs2rects ox oy B) ≤ n + m))
      ∧ closestSteps (point 0 0) (dirs2rects 0 0 [("R", 8), ("U", 5), ("L", 5), ("D", 3)])
          (dirs2rects 0 0 [("U", 7), ("R", 6), ("D", 4), ("L", 4)]) = 30 := by
  refine ⟨?_, by decide⟩
  intro ox oy A B hA hB hfit hpt
  have hTA := totalLen_nonneg A hA
  have hTB := totalLen_nonneg B hB
  have hna := reaches_nonneg ox oy A hA (by omega)
  have hnb := reaches_nonneg ox oy B hB (by omega)
  have hL := leastPositive_congr (crossings_are_meetings ox oy A B hA hB hfit hpt)
    (closestSteps_least (point ox oy) (dirs2rects ox oy A) (dirs2rects ox oy B))
  rcases hL with ⟨h1, h2⟩ | ⟨h1, h2, h3⟩
  · left
    refine ⟨h1, ?_⟩
    intro px py n m hn hm
    have n0 := hna px py n hn
    have m0 := hnb px py m hm
    have := h2 (n + m) ⟨px, py, n, m, hn, hm, n0, m0, rfl⟩
    constructor <;> omega
  · right
    constructor
    · obtain ⟨px, py, n, m, hn, hm, _, _, hv⟩ := h2
      refine ⟨px, py, n, m, hn, hm, ?_, hv⟩
      rintro ⟨rfl, rfl⟩
      omega
    · intro px py n m hn hm hne
      have n0 := hna px py n hn
      have m0 := hnb px py m hm
      refine h3 (n + m) ⟨px, py, n, m, hn, hm, n0, m0, rfl⟩ ?_
      by_contra hc
      exact hne ⟨by omega, by omega⟩

/-- C27 (as stated, refuted): two runs of `closestSteps` that do not return the
fewest steps.  For the wires `R5` and `R3` from `(0, 0)` the point `(1, 0)` lies
on both, one step along each, yet the function returns `-1`: the two segments
overlap along a line and the value computed for them is 0.  For the wires
`R4611686018427387904` and `U1,R4611686018427387904,D1`, whose segments meet in
single points only, the point `(2^62, 0)` lies on both, `2^62` steps along the
one and `2^62 + 2` along the other, yet the function returns `-1`: the sum of
the steps overflows. -/
theorem closestSteps_counterexample :
    (perpendicularMoves [("R", 5)] = true ∧ perpendicularMoves [("R", 3)] = true
        ∧ closestSteps (point 0 0) (dirs2rects 0 0 [("R", 5)]) (dirs2rects 0 0 [("R", 3)]) = -1
        ∧ reaches 0 0 [("R", 5)] 1 0 1 = true ∧ reaches 0 0 [("R", 3)] 1 0 1 = true)
      ∧ (perpendicularMoves [("R", 2 ^ 62)] = true
        ∧ perpendicularMoves [("U", 1), ("R", 2 ^ 62), ("D", 1)] = true
        ∧ closestSteps (point 0 0) (dirs2rects 0 0 [("R", 2 ^ 62)])
            (dirs2rects 0 0 [("U", 1), ("R", 2 ^ 62), ("D", 1)]) = -1
        ∧ reaches 0 0 [("R", 2 ^ 62)] (2 ^ 62) 0 (2 ^ 62) = true
        ∧ reaches 0 0 [("U", 1), ("R", 2 ^ 62), ("D", 1)] (2 ^ 62) 0 (2 ^ 62 + 2) = true) := by
  refine ⟨by decide, by decide, by decide, ?_, ?_, ?_⟩
  · decide
  · decide
  · decide

theorem closestSteps_fewest_witness :
    ∀ px py n m, reaches 0 0 [("R", 8), ("U", 5), ("L", 5), ("D", 3)] px py n = true →
      reaches 0 0 [("U", 7), ("R", 6), ("D", 4), ("L", 4)] px py m = true →
      ¬ (n = 0 ∧ m = 0) → 30 ≤ n + m := by
  intro px py n m hn hm hne
  have h30 := closestSteps_fewest.2
  rcases closestSteps_fewest.1 0 0 [("R", 8), ("U", 5), ("L", 5), ("D", 3)]
    [("U", 7), ("R", 6), ("D", 4), ("L", 4)] (by decide) (by decide)
    (by norm_num [totalLen]) (by decide) with ⟨h1, _⟩ | ⟨_, h2⟩
  · rw [h30] at h1
    cases h1
  · have := h2 px py n m hn hm hne
    rw [h30] at this
    exact this

end Wires

/-! ## The fuel counter -/

namespace Fuel

open Intcode (wrap64 wrap64_eq)

set_option maxRecDepth 1000000

theorem tdiv3_cases (m : Int) :
    (0 ≤ m ∧ Int.tdiv m 3 = m / 3) ∨ (m < 0 ∧ Int.tdiv m 3 = -((-m) / 3)) := by
  by_cases h : 0 ≤ m
  · exact Or.inl ⟨h, Int.tdiv_eq_ediv h (by norm_num)⟩
  · right
    refine ⟨by omega, ?_⟩
    have h1 : Int.tdiv (- -m) 3 = -Int.tdiv (-m) 3 := Int.neg_tdiv (-m) 3
    rw [neg_neg] at h1
    rw [h1, Int.tdiv_eq_ediv (by omega) (by norm_num)]

theorem fuelForMass_eq (m : Int) (h0 : -2 ^ 63 ≤ m) (h1 : m < 2 ^ 63) :
    fuelForMass m = specFuelForMass m := by
  unfold fuelForMass specFuelForMass
  rcases tdiv3_cases m with ⟨h, e⟩ | ⟨h, e⟩ <;> rw [e] <;>
    exact wrap64_eq (by omega) (by omega)

theorem fuelLoop_succ : ∀ (n : Nat) (f a r : Int),
    fuelLoop n f a = some r → fuelLoop (n + 1) f a = some r := by
  intro n
  induction n with
  | zero =>
    intro f a r h
    simp [fuelLoop] at h
  | succ n ih =>
    intro f a r h
    unfold fuelLoop at h ⊢
    split_ifs at h ⊢ with hf
    · exact ih _ _ _ h
    · exact h

theorem fuelLoop_mono {n m : Nat} {f a r : Int} (hnm : n ≤ m) (h : fuelLoop n f a = some r) :
    fuelLoop m f a = some r := by
  induction hnm with
  | refl => exact h
  | step _ ih => exact fuelLoop_succ _ _ _ _ ih

/-- The loop ends within `n + 2` tests when `f < 3 ^ n`. -/
theorem fuelLoop_ends : ∀ (n : Nat) (f a : Int), f < 3 ^ n → f < 2 ^ 63 →
    ∃ r, fuelLoop (n + 2) f a = some r := by
  intro n
  induction n with
  | zero =>
    intro f a h _
    by_cases hf : f ≥ 0
    · have : f = 0 := by
        simp only [pow_zero] at h
        omega
      subst this
      have e0 : fuelForMass 0 = -2 := by decide
      exact ⟨wrap64 (a + 0), by simp [fuelLoop, e0]⟩
    · exact ⟨a, by simp [fuelLoop, hf]⟩
  | succ n ih =>
    intro f a h h63
    by_cases hf : f ≥ 0
    · have e : fuelForMass f = f / 3 - 2 := by
        rw [fuelForMass_eq f (by omega) h63]
        unfold specFuelForMass
        rw [Int.tdiv_eq_ediv hf (by norm_num)]
      have hp : (3 : Int) ^ (n + 1) = 3 * 3 ^ n := by ring
      obtain ⟨r, hr⟩ := ih (fuelForMass f) (wrap64 (a + f)) (by rw [e]; omega) (by rw [e]; omega)
      refine ⟨r, ?_⟩
      conv_lhs => unfold fuelLoop
      rw [if_pos hf]
      exact hr
    · exact ⟨a, by simp [fuelLoop, hf]⟩

/-- What the loop returns: the variable `fuel` plus the values of `f` up to
the first negative one. -/
theorem fuelLoop_sum : ∀ (n : Nat) (f a r : Int), fuelLoop n f a = some r →
    0 ≤ a → -2 ^ 63 ≤ f → f < 2 ^ 63 → (0 ≤ f → 2 * a + 3 * f < 2 ^ 63) → a < 2 ^ 62 →
    ∃ k : Nat, (∀ i, i < k → 0 ≤ Nat.iterate specFuelForMass i f)
      ∧ Nat.iterate specFuelForMass k f < 0
      ∧ r = a + ((List.range k).map (fun i => Nat.iterate specFuelForMass i f)).sum
      ∧ a ≤ r := by
  intro n
  induction n with
  | zero =>
    intro f a r h
    simp [fuelLoop] at h
  | succ n ih =>
    intro f a r h ha hf0 hf1 hI ha1
    unfold fuelLoop at h
    split_ifs at h with hf
    · have e : fuelForMass f = specFuelForMass f := fuelForMass_eq f hf0 hf1
      have e2 : specFuelForMass f = f / 3 - 2 := by
        unfold specFuelForMass
        rw [Int.tdiv_eq_ediv hf (by norm_num)]
      have hI0 := hI hf
      have w : wrap64 (a + f) = a + f := wrap64_eq (by omega) (by omega)
      rw [e, w] at h
      obtain ⟨k, h1, h2, h3, h4⟩ := ih (specFuelForMass f) (a + f) r h (by omega)
        (by rw [e2]; omega) (by rw [e2]; omega) (by rw [e2]; intro; omega) (by omega)
      refine ⟨k + 1, ?_, ?_, ?_, by omega⟩
      · intro i hi
        cases i with
        | zero => exact hf
        | succ j =>
          rw [Function.iterate_succ_apply]
          exact h1 j (by omega)
      · rw [Function.iterate_succ_apply]
        exact h2
      · rw [h3, List.range_succ_eq_map]
        simp only [List.map_cons, List.map_map, List.sum_cons, Function.iterate_zero, id_eq]
        have : ((fun i => Nat.iterate specFuelForMass i f) ∘ Nat.succ)
            = fun i => Nat.iterate specFuelForMass i (specFuelForMass f) := by
          funext i
          exact Function.iterate_succ_apply _ _ _
        rw [this]
        ring
    · simp only [Option.some.injEq] at h
      subst h
      exact ⟨0, by intro i hi; omega, by simpa using hf, by simp, le_refl _⟩

/-- C34: for every signed 64-bit mass, `fuelForModule` terminates (its loop
ends within 42 tests) and returns a total that is not negative and is the sum
of the successive values `fuelForMass(mass)`, `fuelForMass(fuelForMass(mass))`,
... (with `fuelForMass(m) = m/3 - 2`, the division truncating) up to but
excluding the first negative one; the total is 0 whenever `mass < 6`; and it
is 2 for the mass 14, 966 for 1969 and 50346 for 100756. -/
theorem fuelForModule_total :
    (∀ mass : Int, -2 ^ 63 ≤ mass → mass < 2 ^ 63 →
        ∃ (total : Int) (k : Nat), (∀ n, 42 ≤ n → fuelForModule n mass = some total)
          ∧ 0 ≤ total
          ∧ (∀ i, i < k → 0 ≤ Nat.iterate specFuelForMass (i + 1) mass)
          ∧ Nat.iterate specFuelForMass (k + 1) mass < 0
          ∧ total = ((List.range k).map (fun i => Nat.iterate specFuelForMass (i + 1) mass)).sum
          ∧ (mass < 6 → total = 0))
      ∧ (∀ n, 42 ≤ n → fuelForModule n 14 = some 2 ∧ fuelForModule n 1969 = some 966
          ∧ fuelForModule n 100756 = some 50346) := by
  constructor
  · intro mass h0 h1
    have e : fuelForMass mass = specFuelForMass mass := fuelForMass_eq mass h0 h1
    have hb : -2 ^ 63 ≤ specFuelForMass mass ∧ 3 * specFuelForMass mass < 2 ^ 63 - 6
        ∧ (mass < 6 → specFuelForMass mass < 0) := by
      unfold specFuelForMass
      rcases tdiv3_cases mass with ⟨h, e⟩ | ⟨h, e⟩ <;> rw [e] <;>
        refine ⟨by omega, by omega, fun _ => by omega⟩
    have h340 : (2 : Int) ^ 63 < 3 ^ 40 := by norm_num
    obtain ⟨r, hr⟩ := fuelLoop_ends 40 (fuelForMass mass) 0 (by rw [e]; omega) (by rw [e]; omega)
    obtain ⟨k, h1', h2, h3, h4⟩ := fuelLoop_sum 42 (fuelForMass mass) 0 r hr (le_refl _)
      (by rw [e]; omega) (by rw [e]; omega) (by rw [e]; intro; omega) (by norm_num)
    refine ⟨r, k, ?_, h4, ?_, ?_, ?_, ?_⟩
    · intro n hn
      exact fuelLoop_mono hn hr
    · intro i hi
      rw [Function.iterate_succ_apply, ← e]
      exact h1' i hi
    · rw [Function.iterate_succ_apply, ← e]
      exact h2
    · rw [h3, zero_add]
      congr 1
      apply List.map_congr_left
      intro i _
      rw [Function.iterate_succ_apply, ← e]
    · intro h6
      have hneg := hb.2.2 h6
      have : fuelLoop 42 (fuelForMass mass) 0 = some 0 := by
        rw [e]
        unfold fuelLoop
        rw [if_neg (by omega)]
      rw [this] at hr
      exact (Option.some.inj hr).symm
  · intro n hn
    exact ⟨fuelLoop_mono hn (by decide : fuelLoop 42 (fuelForMass 14) 0 = some 2),
      fuelLoop_mono hn (by decide : fuelLoop 42 (fuelForMass 1969) 0 = some 966),
      fuelLoop_mono hn (by decide : fuelLoop 42 (fuelForMass 100756) 0 = some 50346)⟩

theorem fuelForModule_total_witness :
    ∃ (total : Int) (k : Nat), (∀ n, 42 ≤ n → fuelForModule n 1969 = some total)
      ∧ 0 ≤ total
      ∧ (∀ i, i < k → 0 ≤ Nat.iterate specFuelForMass (i + 1) 1969)
      ∧ Nat.iterate specFuelForMass (k + 1) 1969 < 0
      ∧ total = ((List.range k).map (fun i => Nat.iterate specFuelForMass (i + 1) 1969)).sum
      ∧ ((1969 : Int) < 6 → total = 0) :=
  fuelForModule_total.1 1969 (by norm_num) (by norm_num)

end Fuel
